import Mathlib

/-!
# bhyve PCI emulation core: BAR allocator

A shallow embedding of the BAR allocator of `usr.sbin/bhyve/pci_emul.c`
(`pci_emul_alloc_bar`, `pci_emul_alloc_resource`, `pci_emul_assign_bar`,
`update_bar_address` and the allocation pass of `init_pci`), followed by the
properties established about it.

Machine integers are natural numbers; every C operation that can wrap is
reduced modulo the width of its C type.
-/

namespace Bhyve

/-! ## Machine arithmetic -/

/-- Number of values of a `uint64_t`. -/
def U64 : Nat := 2 ^ 64

/-- Number of values of a `uint32_t`. -/
def U32 : Nat := 2 ^ 32

/-- Wrapping `uint64_t` subtraction `a - b`. -/
def sub64 (a b : Nat) : Nat := (a % U64 + (U64 - b % U64)) % U64

/-- Wrapping `uint64_t` addition `a + b`. -/
def add64 (a b : Nat) : Nat := (a + b) % U64

/-- Bitwise complement `~a` of a `uint64_t`. -/
def not64 (a : Nat) : Nat := U64 - 1 - a % U64

/-- Bitwise complement `~a` of a 32-bit `unsigned int`. -/
def not32 (a : Nat) : Nat := U32 - 1 - a % U32

/-- Left shift `a << n` of an `unsigned long`, truncated to 64 bits.  (C leaves a
shift by 64 or more undefined; truncation yields 0 there.) -/
def shl64 (a n : Nat) : Nat := (a <<< n) % U64

/-- Conversion of a value to `uint32_t`. -/
def to32 (a : Nat) : Nat := a % U32

/-- Conversion of a value to `uint16_t`. -/
def to16 (a : Nat) : Nat := a % 2 ^ 16

/-- Bit scan used by `flsl`, bounded by the width of a `long`. -/
def flslAux : Nat → Nat → Nat
  | 0, _ => 0
  | fuel + 1, n => if n = 0 then 0 else flslAux fuel (n / 2) + 1

/-- Modelled from the spec: `flsl` is the C library routine (not under src/) that
`pci_emul_alloc_bar` uses to round a size up to a power of two.  It returns the
1-based index of the most significant set bit of a 64-bit `long`, and 0 for 0. -/
def flsl (n : Nat) : Nat := flslAux 64 (n % U64)

/-- Modelled from the spec: `rounddown2(x, y)` is the `sys/param.h` macro (not under
src/) `((x) & ~((y) - 1))`, which for a power-of-two `y` is the spec's
`floor(x / y) * y`; evaluated on `uint64_t`. -/
def rounddown2 (x y : Nat) : Nat := (x % U64) &&& not64 (sub64 y 1)

/-! ## Constants of `sys/dev/pci/pcireg.h` and `pci_emul.h` -/

/-- Modelled from the spec: `PCI_BARMAX` (`pci_emul.h`, not under src/), the index of
the last of the 6 ordinary BAR descriptors. -/
def PCI_BARMAX : Nat := 5

/-- Modelled from the spec: `PCI_ROM_IDX` (`pci_emul.h`, not under src/), the reserved
descriptor index of the ROM BAR, one past `PCI_BARMAX`. -/
def PCI_ROM_IDX : Nat := PCI_BARMAX + 1

/-- Modelled from the spec: `PCIM_BIOS_ADDR_MASK` (`pcireg.h`, not under src/), the
address bits of the expansion-ROM register, an `unsigned int` constant. -/
def PCIM_BIOS_ADDR_MASK : Nat := 0xfffff800

/-- Modelled from the spec: `PCIM_BIOS_ENABLE` (`pcireg.h`, not under src/), the
enable bit of the expansion-ROM register. -/
def PCIM_BIOS_ENABLE : Nat := 0x01

/-- Modelled from the spec: `PCIM_BAR_IO_BASE` (`pcireg.h`, not under src/), the address
bits of an I/O BAR register. -/
def PCIM_BAR_IO_BASE : Nat := 0xfffffffc

/-- Modelled from the spec: `PCIM_BAR_MEM_BASE` (`pcireg.h`, not under src/), the address
bits of a memory BAR, an `unsigned long long` constant. -/
def PCIM_BAR_MEM_BASE : Nat := 0xfffffffffffffff0

/-- Modelled from the spec: `PCIM_BAR_IO_SPACE` (`pcireg.h`, not under src/), the low
bit marking an I/O BAR. -/
def PCIM_BAR_IO_SPACE : Nat := 0x01

/-- Modelled from the spec: `PCIM_BAR_MEM_SPACE` (`pcireg.h`, not under src/). -/
def PCIM_BAR_MEM_SPACE : Nat := 0

/-- Modelled from the spec: `PCIM_BAR_MEM_32` (`pcireg.h`, not under src/). -/
def PCIM_BAR_MEM_32 : Nat := 0

/-- Modelled from the spec: `PCIM_BAR_MEM_64` (`pcireg.h`, not under src/), the
64-bit decode flag of a memory BAR. -/
def PCIM_BAR_MEM_64 : Nat := 4

/-- Modelled from the spec: `PCIM_BAR_MEM_PREFETCH` (`pcireg.h`, not under src/). -/
def PCIM_BAR_MEM_PREFETCH : Nat := 8

/-- Modelled from the spec: `PCIR_COMMAND` (`pcireg.h`, not under src/), the offset of
the command register. -/
def PCIR_COMMAND : Nat := 0x04

/-- Modelled from the spec: `PCIM_CMD_PORTEN` (`pcireg.h`, not under src/), the I/O
decode enable bit of the command register. -/
def PCIM_CMD_PORTEN : Nat := 0x0001

/-- Modelled from the spec: `PCIM_CMD_MEMEN` (`pcireg.h`, not under src/), the memory
decode enable bit of the command register. -/
def PCIM_CMD_MEMEN : Nat := 0x0002

/-- Modelled from the spec: `PCIR_BAR(x)` (`pcireg.h`, not under src/), the offset of
BAR register `x`: the registers occupy 0x10..0x27. -/
def PCIR_BAR (x : Nat) : Nat := 0x10 + x * 4

/-- Modelled from the spec: `PCIR_BIOS` (`pcireg.h`, not under src/), the offset of the
expansion-ROM register, 0x30..0x33. -/
def PCIR_BIOS : Nat := 0x30

/-- `PCI_EMUL_IOBASE`. -/
def PCI_EMUL_IOBASE : Nat := 0x2000

/-- `PCI_EMUL_IOLIMIT`. -/
def PCI_EMUL_IOLIMIT : Nat := 0x10000

/-- `PCI_EMUL_ECFG_BASE`. -/
def PCI_EMUL_ECFG_BASE : Nat := 0xE0000000

/-- `PCI_EMUL_MEMBASE32`. -/
def PCI_EMUL_MEMBASE32 : Nat := 0xC0000000

/-- `PCI_EMUL_MEMLIMIT32`. -/
def PCI_EMUL_MEMLIMIT32 : Nat := PCI_EMUL_ECFG_BASE

/-- `GB`. -/
def GB : Nat := 1024 * 1024 * 1024

/-- `PCI_EMUL_MEMSIZE64`. -/
def PCI_EMUL_MEMSIZE64 : Nat := 32 * GB

/-! ## Data model -/

/-- Modelled from the spec: `enum pcibar_type` (`pci_emul.h`, not under src/):
unused, I/O, 32-bit memory, 64-bit memory, memory-high-half, ROM. -/
inductive pcibar_type where
  | PCIBAR_NONE
  | PCIBAR_IO
  | PCIBAR_MEM32
  | PCIBAR_MEM64
  | PCIBAR_MEMHI64
  | PCIBAR_ROM
  deriving DecidableEq, Repr

open pcibar_type

/-- A record of the pending list (`struct pcibarlist`, without the link): the
device instance is named by a number. -/
structure pcibarlist where
  pdi : Nat
  idx : Int
  type : pcibar_type
  size : Nat
  deriving DecidableEq, Repr

/-! ## `pci_emul_alloc_bar` -/

/-- The size granted by `pci_emul_alloc_bar` (pci_emul.c:788-798): round up to a
power of two, then enforce the minimum of the BAR type. -/
def alloc_bar_size (type : pcibar_type) (size : Nat) : Nat :=
  let size := if size &&& sub64 size 1 ≠ 0 then shl64 1 (flsl size) else size
  match type with
  | PCIBAR_IO => max size 4
  | PCIBAR_ROM => max size (not32 PCIM_BIOS_ADDR_MASK)
  | _ => max size 16

/-- Insertion of `newBar` into the pending list (pci_emul.c:806-823): walk past
every record whose size is not below the new size and link the new record
there. -/
def insert_bar (newBar : pcibarlist) : List pcibarlist → List pcibarlist
  | [] => [newBar]
  | bar :: rest =>
    if bar.size < newBar.size then newBar :: bar :: rest
    else bar :: insert_bar newBar rest

/-- The function `pci_emul_alloc_bar` on the pending list `pci_bars`; `none` is
the exit through `errx` on an illegal index. -/
def pci_emul_alloc_bar (pci_bars : List pcibarlist) (pdi : Nat) (idx : Int)
    (type : pcibar_type) (size : Nat) : Option (List pcibarlist) :=
  if type ≠ PCIBAR_ROM ∧ (idx < 0 ∨ idx > (PCI_BARMAX : Int)) then none
  else if type = PCIBAR_ROM ∧ idx ≠ (PCI_ROM_IDX : Int) then none
  else
    let size := alloc_bar_size type size
    some (insert_bar { pdi := pdi, idx := idx, type := type, size := size } pci_bars)

/-! ## Device instance and resource windows -/

/-- Modelled from the spec: `struct pcibar` (`pci_emul.h`, not under src/), a BAR
descriptor: type, size, assigned base address and fixed low-order bits. -/
structure pcibar where
  type : pcibar_type
  size : Nat
  addr : Nat
  lobits : Nat
  deriving DecidableEq, Repr

/-- One call of `modify_bar_registration`: the direction, the BAR index, the
descriptor it was made for, and whether the backend hook `pe_baraddr` took it
over (otherwise it went to `register_inout`/`register_mem` or their
counterparts). -/
structure bar_event where
  registration : Bool
  idx : Nat
  bar : pcibar
  by_backend : Bool
  deriving DecidableEq, Repr

/-- Modelled from the spec: `enum lintr_stat` (`pci_emul.h`, not under src/), the three
states of a function's legacy interrupt: `IDLE`, `ASSERTED`, `PENDING`. -/
inductive lintr_stat where
  | IDLE
  | ASSERTED
  | PENDING
  deriving DecidableEq, Repr

/-- Modelled from the spec: the member `pi_lintr` of `struct pci_devinst` (`pci_emul.h`,
not under src/): assigned pin (0 for none), current state, PIRQ line and
I/O-APIC line.  The lock is left out. -/
structure lintr_info where
  pin : Nat := 0
  state : lintr_stat := lintr_stat.IDLE
  pirq_pin : Nat := 0
  ioapic_irq : Nat := 0
  deriving DecidableEq, Repr

/-- Modelled from the spec: the member `pi_msi` of `struct pci_devinst` (`pci_emul.h`,
not under src/): enabled flag, address, data, message count. -/
structure msi_info where
  enabled : Nat := 0
  addr : Nat := 0
  msg_data : Nat := 0
  maxmsgnum : Nat := 0
  deriving DecidableEq, Repr

/-- Modelled from the spec: `struct msix_table_entry` (`pci_emul.h`, not under src/), one
16-byte entry of the MSI-X table. -/
structure msix_table_entry where
  addr : Nat := 0
  msg_data : Nat := 0
  vector_control : Nat := 0
  deriving DecidableEq, Repr

/-- Modelled from the spec: the member `pi_msix` of `struct pci_devinst` (`pci_emul.h`,
not under src/): enabled flag, function-mask flag, table and PBA BAR index and
byte offsets, entry count, PBA size and the table itself. -/
structure msix_info where
  enabled : Nat := 0
  table_bar : Nat := 0
  pba_bar : Nat := 0
  table_offset : Nat := 0
  table_count : Nat := 0
  pba_offset : Nat := 0
  pba_size : Nat := 0
  function_mask : Nat := 0
  table : List msix_table_entry := []
  deriving DecidableEq, Repr

/-- Modelled from the spec: the part of `struct pci_devinst` (`pci_emul.h`, not under
src/) that the BAR allocator touches: the raw configuration-space bytes, the
BAR descriptors (6 ordinary ones and the ROM descriptor), the backend hook
`pe_baraddr` of the device model (`none` for a NULL pointer; its arguments are
the index, the direction and the address, its result the C return code), and
the record of registration calls made so far; then the capability-list
bookkeeping, the legacy-interrupt, MSI and MSI-X state, and the record of the
host calls `pci_irq_assert` (`true`) and `pci_irq_deassert` (`false`). -/
structure pci_devinst where
  pi_cfgdata : Nat → Nat
  pi_bar : Nat → pcibar
  pe_baraddr : Option (Nat → Bool → Nat → Int)
  pi_events : List bar_event
  pi_prevcap : Nat := 0
  pi_capend : Nat := 0
  pi_lintr : lintr_info := {}
  pi_msi : msi_info := {}
  pi_msix : msix_info := {}
  pi_irq_calls : List Bool := []

/-- Modelled from the spec: `pci_get_cfgdata8` (`pci_emul.h`, not under src/), one byte
of the raw configuration space. -/
def pci_get_cfgdata8 (pi : pci_devinst) (offset : Nat) : Nat :=
  pi.pi_cfgdata offset % 256

/-- Modelled from the spec: `pci_get_cfgdata16` (`pci_emul.h`, not under src/), a
little-endian 16-bit load from the raw configuration space. -/
def pci_get_cfgdata16 (pi : pci_devinst) (offset : Nat) : Nat :=
  pci_get_cfgdata8 pi offset + 256 * pci_get_cfgdata8 pi (offset + 1)

/-- Modelled from the spec: `pci_get_cfgdata32` (`pci_emul.h`, not under src/), a
little-endian 32-bit load from the raw configuration space. -/
def pci_get_cfgdata32 (pi : pci_devinst) (offset : Nat) : Nat :=
  pci_get_cfgdata16 pi offset + 65536 * pci_get_cfgdata16 pi (offset + 2)

/-- Modelled from the spec: `pci_set_cfgdata16` (`pci_emul.h`, not under src/), a
little-endian 16-bit store into the raw configuration space. -/
def pci_set_cfgdata16 (pi : pci_devinst) (offset : Nat) (val : Nat) : pci_devinst :=
  { pi with pi_cfgdata := fun o =>
      if o = offset then val % 256
      else if o = offset + 1 then val / 256 % 256
      else pi.pi_cfgdata o }

/-- Modelled from the spec: `pci_set_cfgdata32` (`pci_emul.h`, not under src/), a
little-endian 32-bit store into the raw configuration space. -/
def pci_set_cfgdata32 (pi : pci_devinst) (offset : Nat) (val : Nat) : pci_devinst :=
  { pi with pi_cfgdata := fun o =>
      if o = offset then val % 256
      else if o = offset + 1 then val / 256 % 256
      else if o = offset + 2 then val / 65536 % 256
      else if o = offset + 3 then val / 16777216 % 256
      else pi.pi_cfgdata o }

/-- Replace descriptor `idx` of a device instance. -/
def set_bar (pi : pci_devinst) (idx : Nat) (b : pcibar) : pci_devinst :=
  { pi with pi_bar := fun i => if i = idx then b else pi.pi_bar i }

/-- The allocator cursors, file-scope variables of pci_emul.c. -/
structure pci_windows where
  pci_emul_iobase : Nat
  pci_emul_iolim : Nat
  pci_emul_membase32 : Nat
  pci_emul_memlim32 : Nat
  pci_emul_membase64 : Nat
  pci_emul_memlim64 : Nat
  deriving DecidableEq, Repr

/-- The state the allocation pass works on: the cursors and every device
instance, named by the number a pending record carries in `pdi`. -/
structure pci_state where
  win : pci_windows
  devs : Nat → pci_devinst

/-! ## `pci_emul_alloc_resource` -/

/-- Result of `pci_emul_alloc_resource`: the return code and the contents of
the two out-parameters after the call. -/
structure alloc_result where
  error : Int
  limit : Nat
  addr : Nat
  deriving DecidableEq, Repr

/-- The function `pci_emul_alloc_resource`; `limit` and `addr` are the contents of the
two pointers on entry, `none` is a failed `assert`. -/
def pci_emul_alloc_resource (baseptr limit size addr : Nat) : Option alloc_result :=
  let _ := baseptr
  if size &&& sub64 size 1 ≠ 0 then none
  else
    let base := rounddown2 (sub64 limit size) size
    if add64 base size ≤ limit then
      some { error := 0, limit := base, addr := base }
    else
      some { error := -1, limit := limit, addr := addr }

/-! ## BAR registration and `update_bar_address` -/

/-- The function `modify_bar_registration`.  The host calls are taken to succeed;
`none` is the failed `assert(error == 0)` for a ROM BAR with a nonzero address
or a descriptor of no registrable type. -/
def modify_bar_registration (pi : pci_devinst) (idx : Nat) (registration : Bool) :
    Option pci_devinst :=
  let ev (b : Bool) : bar_event :=
    { registration := registration, idx := idx, bar := pi.pi_bar idx, by_backend := b }
  let handled : Bool :=
    match pi.pe_baraddr with
    | none => false
    | some f => f idx registration (pi.pi_bar idx).addr == 0
  if handled then some { pi with pi_events := pi.pi_events ++ [ev true] }
  else
    match (pi.pi_bar idx).type with
    | PCIBAR_IO => some { pi with pi_events := pi.pi_events ++ [ev false] }
    | PCIBAR_MEM32 => some { pi with pi_events := pi.pi_events ++ [ev false] }
    | PCIBAR_MEM64 => some { pi with pi_events := pi.pi_events ++ [ev false] }
    | PCIBAR_ROM => if (pi.pi_bar idx).addr ≠ 0 then none else some pi
    | _ => none

/-- The function `unregister_bar`. -/
def unregister_bar (pi : pci_devinst) (idx : Nat) : Option pci_devinst :=
  modify_bar_registration pi idx false

/-- The function `register_bar`. -/
def register_bar (pi : pci_devinst) (idx : Nat) : Option pci_devinst :=
  modify_bar_registration pi idx true

/-- The function `porten`: is I/O decoding enabled? -/
def porten (pi : pci_devinst) : Bool :=
  pci_get_cfgdata16 pi PCIR_COMMAND &&& PCIM_CMD_PORTEN != 0

/-- The function `memen`: is memory decoding enabled? -/
def memen (pi : pci_devinst) : Bool :=
  pci_get_cfgdata16 pi PCIR_COMMAND &&& PCIM_CMD_MEMEN != 0

/-- Store `addr` in descriptor `idx`, as `bar->addr = ...` does. -/
def set_addr (pi : pci_devinst) (idx : Nat) (addr : Nat) : pci_devinst :=
  set_bar pi idx { pi.pi_bar idx with addr := addr }

/-- The value `update_bar_address` writes to register `idx` when the guest sets an
address (pci_emul.c:651-657): `val` masked with the complement of `size - 1` of
the descriptor `update_idx` (shifted down by 32 for the high half), then the
fixed low bits of descriptor `idx`. -/
def bar_write_value (pi : pci_devinst) (idx update_idx val : Nat) : Nat :=
  let mask := not64 (sub64 (pi.pi_bar update_idx).size 1)
  let mask := if (pi.pi_bar idx).type = PCIBAR_MEMHI64 then mask >>> 32 else mask
  let bar_val := to32 (val &&& mask)
  to32 (bar_val ||| (pi.pi_bar idx).lobits)

/-- The register value `lo` read back by `update_bar_address` (pci_emul.c:662). -/
def bar_reg_lo (pi : pci_devinst) (update_idx : Nat) : Nat :=
  pci_get_cfgdata32 pi (PCIR_BAR update_idx)

/-- The register value `hi` read back by `update_bar_address` (pci_emul.c:663-665):
the next register for a 64-bit memory BAR, otherwise 0. -/
def bar_reg_hi (pi : pci_devinst) (update_idx : Nat) : Nat :=
  if (pi.pi_bar update_idx).type = PCIBAR_MEM64 then
    pci_get_cfgdata32 pi (PCIR_BAR (update_idx + 1))
  else 0

/-- The address `update_bar_address` derives from the registers
(pci_emul.c:671-675): `lo` without its flag bits, joined with `hi`. -/
def bar_reg_addr (pi : pci_devinst) (update_idx : Nat) : Nat :=
  let lo := bar_reg_lo pi update_idx
  let hi := bar_reg_hi pi update_idx
  let lo :=
    if (pi.pi_bar update_idx).type = PCIBAR_IO then lo &&& PCIM_BAR_IO_BASE
    else to32 (lo &&& PCIM_BAR_MEM_BASE)
  lo ||| (hi <<< 32)

/-- The I/O and memory case of `update_bar_address` (pci_emul.c:637-680);
`update_idx` is `idx`, or `idx - 1` for the high half of a 64-bit BAR. -/
def update_bar_address_bar (pi : pci_devinst) (idx update_idx val : Nat) (decode : Bool) :
    Option pci_devinst :=
  (if decode = true ∧ (pi.pi_bar update_idx).addr ≠ 0 then unregister_bar pi update_idx
   else some pi).bind
  fun pi =>
    if val = U32 - 1 then
      some (set_addr (pci_set_cfgdata32 pi (PCIR_BAR idx) (U32 - 1)) update_idx 0)
    else
      let pi := pci_set_cfgdata32 pi (PCIR_BAR idx) (bar_write_value pi idx update_idx val)
      if bar_reg_lo pi update_idx = U32 - 1 ∨ bar_reg_hi pi update_idx = U32 - 1 then
        some (set_addr pi update_idx 0)
      else
        let pi := set_addr pi update_idx (bar_reg_addr pi update_idx)
        if decode = true then register_bar pi update_idx else some pi

/-- The ROM location `update_bar_address` derives from a written value
(pci_emul.c:692-698): 0 when every address bit is set (a size probe), else the
address bits. -/
def rom_reg_addr (val : Nat) : Nat :=
  if val &&& PCIM_BIOS_ADDR_MASK = PCIM_BIOS_ADDR_MASK then 0
  else val &&& PCIM_BIOS_ADDR_MASK

/-- The ROM case of `update_bar_address` (pci_emul.c:681-704). -/
def update_bar_address_rom (pi : pci_devinst) (idx val : Nat) (decode : Bool) :
    Option pci_devinst :=
  (if decode = true ∧ (pi.pi_bar idx).lobits ≠ 0 ∧ (pi.pi_bar idx).addr ≠ 0 then
    unregister_bar pi idx
   else some pi).bind
  fun pi =>
    let pi := pci_set_cfgdata32 pi PCIR_BIOS val
    let lobits := val &&& PCIM_BIOS_ENABLE
    let addr := rom_reg_addr val
    let pi := set_bar pi idx { pi.pi_bar idx with lobits := lobits, addr := addr }
    if decode = true ∧ lobits ≠ 0 ∧ addr ≠ 0 then register_bar pi idx else some pi

/-- The function `update_bar_address`; `val` is the `uint32_t` argument.  `none` is a
failed `assert` inside a registration call.  (For the high half the descriptor
updated is the one before, `--update_idx`.) -/
def update_bar_address (pi : pci_devinst) (idx : Nat) (val : Nat) : Option pci_devinst :=
  let val := to32 val
  let decode : Bool := if (pi.pi_bar idx).type = PCIBAR_IO then porten pi else memen pi
  match (pi.pi_bar idx).type with
  | PCIBAR_MEMHI64 => update_bar_address_bar pi idx (idx - 1) val decode
  | PCIBAR_IO => update_bar_address_bar pi idx idx val decode
  | PCIBAR_MEM32 => update_bar_address_bar pi idx idx val decode
  | PCIBAR_MEM64 => update_bar_address_bar pi idx idx val decode
  | PCIBAR_ROM => update_bar_address_rom pi idx val decode
  | PCIBAR_NONE => some pi

/-! ## `pci_emul_assign_bar` and the allocation pass -/

/-- Which cursor the `limit` pointer of `pci_emul_assign_bar` designates. -/
inductive limit_ptr where
  | iolim
  | memlim32
  | memlim64
  deriving DecidableEq, Repr

/-- Read the cursor a `limit` pointer designates. -/
def limit_ptr.get (w : pci_windows) : limit_ptr → Nat
  | .iolim => w.pci_emul_iolim
  | .memlim32 => w.pci_emul_memlim32
  | .memlim64 => w.pci_emul_memlim64

/-- Store through a `limit` pointer. -/
def limit_ptr.set (w : pci_windows) (v : Nat) : limit_ptr → pci_windows
  | .iolim => { w with pci_emul_iolim := v }
  | .memlim32 => { w with pci_emul_memlim32 := v }
  | .memlim64 => { w with pci_emul_memlim64 := v }

/-- What the `switch (type)` of `pci_emul_assign_bar` leaves in the locals. -/
structure assign_locals where
  type : pcibar_type
  baseptr : Nat
  limit : Option limit_ptr
  addr : Nat
  lobits : Nat
  enbit : Nat
  pdi : pci_devinst

/-- The `switch (type)` of `pci_emul_assign_bar` (pci_emul.c:840-897).  `addr0` is
the indeterminate value the automatic variable `addr` holds on entry: only the
`PCIBAR_NONE` case assigns it.  The `default` case is a failed `assert`. -/
def assign_bar_switch (w : pci_windows) (pdi : pci_devinst) (idx : Nat)
    (type : pcibar_type) (size : Nat) (addr0 : Nat) : Option assign_locals :=
  let mem32 (pdi : pci_devinst) : assign_locals :=
    { type := PCIBAR_MEM32, baseptr := w.pci_emul_membase32, limit := some .memlim32,
      addr := addr0, lobits := PCIM_BAR_MEM_SPACE ||| PCIM_BAR_MEM_32,
      enbit := PCIM_CMD_MEMEN, pdi := pdi }
  match type with
  | PCIBAR_NONE =>
    some { type := type, baseptr := 0, limit := none, addr := 0, lobits := 0, enbit := 0,
           pdi := pdi }
  | PCIBAR_IO =>
    some { type := type, baseptr := w.pci_emul_iobase, limit := some .iolim, addr := addr0,
           lobits := PCIM_BAR_IO_SPACE, enbit := PCIM_CMD_PORTEN, pdi := pdi }
  | PCIBAR_MEM64 =>
    if size > 256 * 1024 * 1024 then
      some { type := type, baseptr := w.pci_emul_membase64, limit := some .memlim64,
             addr := addr0,
             lobits := PCIM_BAR_MEM_SPACE ||| PCIM_BAR_MEM_64 ||| PCIM_BAR_MEM_PREFETCH,
             enbit := PCIM_CMD_MEMEN, pdi := pdi }
    else
      let pdi := set_bar pdi (idx + 1) { pdi.pi_bar (idx + 1) with type := PCIBAR_NONE }
      let pdi := set_bar pdi idx
        { pdi.pi_bar idx with lobits := (pdi.pi_bar idx).lobits &&& not64 PCIM_BAR_MEM_64 }
      some (mem32 pdi)
  | PCIBAR_MEM32 => some (mem32 pdi)
  | PCIBAR_ROM =>
    some { type := type, baseptr := 0, limit := none, addr := addr0, lobits := 0,
           enbit := PCIM_CMD_MEMEN, pdi := pdi }
  | PCIBAR_MEMHI64 => none

/-- The descriptor and command-register initialisation of
`pci_emul_assign_bar` (pci_emul.c:905-919). -/
def assign_bar_init (pdi : pci_devinst) (idx : Nat) (type : pcibar_type) (size : Nat)
    (lobits enbit : Nat) : pci_devinst :=
  let pdi := set_bar pdi idx { pdi.pi_bar idx with type := type, addr := 0, size := size }
  let pdi :=
    if (pdi.pi_bar idx).lobits ≠ 0 then pdi
    else set_bar pdi idx { pdi.pi_bar idx with lobits := lobits }
  let cmd := pci_get_cfgdata16 pdi PCIR_COMMAND
  if cmd &&& enbit ≠ enbit then pci_set_cfgdata16 pdi PCIR_COMMAND (cmd ||| enbit)
  else pdi

/-- The register initialisation of `pci_emul_assign_bar` (pci_emul.c:921-928):
for a 64-bit BAR the next descriptor is tagged as the high half and
`update_bar_address` is called on it, then `update_bar_address` is called on
the BAR itself, both times with `addr`. -/
def assign_bar_arm (pdi : pci_devinst) (idx : Nat) (type : pcibar_type) (addr : Nat) :
    Option pci_devinst :=
  (if type = PCIBAR_MEM64 then
    if idx + 1 ≤ PCI_BARMAX then
      update_bar_address
        (set_bar pdi (idx + 1) { pdi.pi_bar (idx + 1) with type := PCIBAR_MEMHI64 })
        (idx + 1) addr
    else none
   else some pdi).bind
  fun pdi => update_bar_address pdi idx addr

/-- Replace the cursors and device instance `p` of a state. -/
def put_dev (s : pci_state) (w : pci_windows) (p : Nat) (d : pci_devinst) : pci_state :=
  { win := w, devs := fun i => if i = p then d else s.devs i }

/-- The carve of `pci_emul_assign_bar` (pci_emul.c:899-903): nothing happens for a
NULL `limit`, otherwise `pci_emul_alloc_resource` works on the designated
cursor. -/
def assign_bar_carve (w : pci_windows) (l : assign_locals) (size : Nat) :
    Option (alloc_result × pci_windows) :=
  match l.limit with
  | none => some ({ error := 0, limit := 0, addr := l.addr }, w)
  | some lp =>
    (pci_emul_alloc_resource l.baseptr (lp.get w) size l.addr).map
      fun r => (r, lp.set w r.limit)

/-- The function `pci_emul_assign_bar` for one pending record.  The result is the
return code and the state left behind; `none` is a failed `assert`.  `addr0` is
the indeterminate initial value of the local `addr`. -/
def pci_emul_assign_bar (s : pci_state) (pci_bar : pcibarlist) (addr0 : Nat) :
    Option (Int × pci_state) :=
  let idx := pci_bar.idx.toNat
  let size := pci_bar.size
  (assign_bar_switch s.win (s.devs pci_bar.pdi) idx pci_bar.type size addr0).bind fun l =>
  (assign_bar_carve s.win l size).bind fun rw =>
  if rw.1.error ≠ 0 then some (rw.1.error, put_dev s rw.2 pci_bar.pdi l.pdi)
  else
    let pdi := assign_bar_init l.pdi idx l.type size l.lobits l.enbit
    (assign_bar_arm pdi idx l.type rw.1.addr).bind fun pdi =>
    some (0, put_dev s rw.2 pci_bar.pdi pdi)

/-- The second run of `init_pci` (pci_emul.c:1492-1499): every record of the
pending list is handed to `pci_emul_assign_bar` in list order; the return code
is not looked at. -/
def assign_bars (s : pci_state) (addr0 : Nat) : List pcibarlist → Option pci_state
  | [] => some s
  | bar :: rest =>
    (pci_emul_assign_bar s bar addr0).bind fun r => assign_bars r.2 addr0 rest

/-- Queue a sequence of requests with `pci_emul_alloc_bar`, starting from the
pending list `pci_bars`.  A request is written as a `pcibarlist` record whose
`size` is the size asked for. -/
def alloc_bars (pci_bars : List pcibarlist) : List pcibarlist → Option (List pcibarlist)
  | [] => some pci_bars
  | r :: rest =>
    (pci_emul_alloc_bar pci_bars r.pdi r.idx r.type r.size).bind fun q => alloc_bars q rest

/-- The record `pci_emul_alloc_bar` queues for a request: the request with its
size replaced by the granted size. -/
def granted (r : pcibarlist) : pcibarlist :=
  { r with size := alloc_bar_size r.type r.size }

/-- The index check at the head of `pci_emul_alloc_bar` (pci_emul.c:782-786): a
ROM request uses `PCI_ROM_IDX`, every other request an index in
`0..PCI_BARMAX`. -/
def legal_idx (r : pcibarlist) : Prop :=
  (r.type ≠ PCIBAR_ROM → 0 ≤ r.idx ∧ r.idx ≤ (PCI_BARMAX : Int)) ∧
  (r.type = PCIBAR_ROM → r.idx = (PCI_ROM_IDX : Int))

instance (r : pcibarlist) : Decidable (legal_idx r) := by
  unfold legal_idx; infer_instance

/-- The cursors as `init_pci` sets them before the first bus (pci_emul.c:1425-1434);
`highmem` is the result of `vm_get_highmem_size`. -/
def init_windows (highmem : Nat) : pci_windows :=
  let membase64 := add64 (4 * GB) highmem
  let membase64 := add64 membase64
    (sub64 PCI_EMUL_MEMSIZE64 membase64 &&& sub64 PCI_EMUL_MEMSIZE64 1)
  { pci_emul_iobase := PCI_EMUL_IOBASE,
    pci_emul_iolim := PCI_EMUL_IOLIMIT,
    pci_emul_membase32 := PCI_EMUL_MEMBASE32,
    pci_emul_memlim32 := PCI_EMUL_MEMLIMIT32,
    pci_emul_membase64 := membase64,
    pci_emul_memlim64 := add64 membase64 PCI_EMUL_MEMSIZE64 }

/-- A device instance as `pci_emul_init` leaves it when the backend sets nothing
up (`calloc`, then the interrupt line, interrupt pin and command bytes), with
the given backend hook. -/
def fresh_devinst (hook : Option (Nat → Bool → Nat → Int)) : pci_devinst :=
  { pi_cfgdata := fun o => if o = 0x3c then 255 else if o = PCIR_COMMAND then 4 else 0,
    pi_bar := fun _ => { type := PCIBAR_NONE, size := 0, addr := 0, lobits := 0 },
    pe_baraddr := hook,
    pi_events := [] }

/-- The allocator state at the start of the pass for a machine whose devices are
all fresh. -/
def fresh_state (highmem : Nat) : pci_state :=
  { win := init_windows highmem, devs := fun _ => fresh_devinst none }


/-- The minimum size of a BAR type in the words of the specification: 4 for
I/O, the complement of the ROM address mask for ROM, 16 for memory. -/
def type_minimum : pcibar_type → Nat
  | PCIBAR_IO => 4
  | PCIBAR_ROM => not32 PCIM_BIOS_ADDR_MASK
  | _ => 16

/-! ## More constants of `pcireg.h` and `pci_emul.h` -/

/-- Modelled from the spec: `PCI_REGMAX` (`pcireg.h`, not under src/), the last offset
of the 256-byte legacy configuration region. -/
def PCI_REGMAX : Nat := 255

/-- Modelled from the spec: `PCIR_STATUS` (`pcireg.h`, not under src/), the offset of
the status register. -/
def PCIR_STATUS : Nat := 0x06

/-- Modelled from the spec: `PCIR_REVID` (`pcireg.h`, not under src/), the offset after
the command/status range 0x04..0x07. -/
def PCIR_REVID : Nat := 0x08

/-- Modelled from the spec: `PCIR_HDRTYPE` (`pcireg.h`, not under src/), the offset of
the header-type byte. -/
def PCIR_HDRTYPE : Nat := 0x0e

/-- Modelled from the spec: `PCIM_MFDEV` (`pcireg.h`, not under src/), the
multi-function bit of the header-type byte. -/
def PCIM_MFDEV : Nat := 0x80

/-- Modelled from the spec: `PCIR_CAP_PTR` (`pcireg.h`, not under src/), the offset of
the capabilities pointer. -/
def PCIR_CAP_PTR : Nat := 0x34

/-- Modelled from the spec: `PCIM_STATUS_CAPPRESENT` (`pcireg.h`, not under src/), the
capabilities-present bit of the status register. -/
def PCIM_STATUS_CAPPRESENT : Nat := 0x0010

/-- Modelled from the spec: `PCIM_CMD_INTxDIS` (`pcireg.h`, not under src/), the
INTx-disable bit of the command register. -/
def PCIM_CMD_INTxDIS : Nat := 0x400

/-- Modelled from the spec: `PCIY_MSI` (`pcireg.h`, not under src/), the capability ID
of MSI. -/
def PCIY_MSI : Nat := 0x05

/-- Modelled from the spec: `PCIY_EXPRESS` (`pcireg.h`, not under src/), the capability
ID of PCI-Express. -/
def PCIY_EXPRESS : Nat := 0x10

/-- Modelled from the spec: `PCIY_MSIX` (`pcireg.h`, not under src/), the capability ID
of MSI-X. -/
def PCIY_MSIX : Nat := 0x11

/-- Modelled from the spec: `PCIM_MSICTRL_64BIT` (`pcireg.h`, not under src/), the
64-bit-capable flag of the MSI control field. -/
def PCIM_MSICTRL_64BIT : Nat := 0x0080

/-- Modelled from the spec: `PCIM_MSICTRL_MME_MASK` (`pcireg.h`, not under src/), the
multiple-message-enable field of the MSI control field. -/
def PCIM_MSICTRL_MME_MASK : Nat := 0x0070

/-- Modelled from the spec: `PCIM_MSICTRL_MSI_ENABLE` (`pcireg.h`, not under src/), the
enable bit of the MSI control field. -/
def PCIM_MSICTRL_MSI_ENABLE : Nat := 0x0001

/-- Modelled from the spec: `PCIM_MSIXCTRL_MSIX_ENABLE` (`pcireg.h`, not under src/),
the enable bit of the MSI-X control field. -/
def PCIM_MSIXCTRL_MSIX_ENABLE : Nat := 0x8000

/-- Modelled from the spec: `PCIM_MSIXCTRL_FUNCTION_MASK` (`pcireg.h`, not under src/),
the function-mask bit of the MSI-X control field. -/
def PCIM_MSIXCTRL_FUNCTION_MASK : Nat := 0x4000

/-- Modelled from the spec: `PCIM_MSIX_BIR_MASK` (`pcireg.h`, not under src/), the BAR
index bits of the MSI-X table and PBA words. -/
def PCIM_MSIX_BIR_MASK : Nat := 0x7

/-- Modelled from the spec: `PCIM_MSIX_VCTRL_MASK` (`pcireg.h`, not under src/), the
mask bit of an MSI-X vector control word. -/
def PCIM_MSIX_VCTRL_MASK : Nat := 0x1

/-- Modelled from the spec: `PCIR_MAX_BAR_0` (`pcireg.h`, not under src/), the index of
the last BAR register. -/
def PCIR_MAX_BAR_0 : Nat := 5

/-- Modelled from the spec: `PCI_BARMAX_WITH_ROM` (`pci_emul.h`, not under src/), the
index of the last descriptor, the ROM one. -/
def PCI_BARMAX_WITH_ROM : Nat := PCI_BARMAX + 1

/-- Modelled from the spec: `MSIX_TABLE_ENTRY_SIZE` (`pci_emul.h`, not under src/), the
16 bytes of an MSI-X table entry. -/
def MSIX_TABLE_ENTRY_SIZE : Nat := 16

/-- Modelled from the spec: `MAX_MSIX_TABLE_ENTRIES` (`pci_emul.h`, not under src/), the
largest MSI-X message count. -/
def MAX_MSIX_TABLE_ENTRIES : Nat := 2048

/-- `CAP_START_OFFSET`. -/
def CAP_START_OFFSET : Nat := 0x40

/-- `MAXFUNCS`, that is `PCI_FUNCMAX + 1` (8 functions per slot). -/
def MAXFUNCS : Nat := 8

/-- Modelled from the spec: `roundup2(x, y)` is the `sys/param.h` macro (not under
src/) `(((x) + ((y) - 1)) & ~((y) - 1))`, evaluated on 32-bit operands (`int`
and `uint32_t`), as `pci_emul_add_capability` and `pci_emul_add_msixcap` use
it. -/
def roundup2 (x y : Nat) : Nat := ((x + (y - 1)) % U32) &&& not32 (y - 1)

/-- Modelled from the spec: `PBA_SIZE(msgnum)` (`pci_emul.h`, not under src/), the bytes
of the pending-bit array: one bit per message, in whole 64-bit words. -/
def PBA_SIZE (msgnum : Nat) : Nat := roundup2 msgnum 64 / 8

/-- Bit scan used by `ffs`, bounded by the width of an `int`. -/
def ffsAux : Nat → Nat → Nat
  | 0, _ => 0
  | fuel + 1, n => if n % 2 = 1 then 1 else ffsAux fuel (n / 2) + 1

/-- Modelled from the spec: `ffs` is the C library routine (not under src/) that
`pci_populate_msicap` uses to take the logarithm of the message count.  It
returns the 1-based index of the least significant set bit of an `int`, and 0
for 0. -/
def ffs (n : Nat) : Nat := if n % U32 = 0 then 0 else ffsAux 32 (n % U32)

/-! ## Configuration-space accessors -/

/-- Modelled from the spec: `pci_set_cfgdata8` (`pci_emul.h`, not under src/), a one-byte
store into the raw configuration space. -/
def pci_set_cfgdata8 (pi : pci_devinst) (offset : Nat) (val : Nat) : pci_devinst :=
  { pi with pi_cfgdata := fun o => if o = offset then val % 256 else pi.pi_cfgdata o }

/-- The function `CFGWRITE`. -/
def CFGWRITE (pi : pci_devinst) (coff val bytes : Nat) : pci_devinst :=
  if bytes = 1 then pci_set_cfgdata8 pi coff val
  else if bytes = 2 then pci_set_cfgdata16 pi coff val
  else pci_set_cfgdata32 pi coff val

/-- The function `CFGREAD`. -/
def CFGREAD (pi : pci_devinst) (coff bytes : Nat) : Nat :=
  if bytes = 1 then pci_get_cfgdata8 pi coff
  else if bytes = 2 then pci_get_cfgdata16 pi coff
  else pci_get_cfgdata32 pi coff

/-! ## Capability builder -/

/-- The copy loop of `pci_emul_add_capability` (pci_emul.c:989-990): byte `i` of
the payload goes to offset `capoff + i`. -/
def copy_cap (capoff : Nat) : pci_devinst → Nat → List Nat → pci_devinst
  | pi, _, [] => pi
  | pi, i, b :: rest => copy_cap capoff (pci_set_cfgdata8 pi (capoff + i) b) (i + 1) rest

/-- The function `pci_emul_add_capability`; the payload `capdata` is a list of bytes
and `caplen` its length.  The result is the return code and the device
instance; `none` is the failed `assert(caplen > 0)`. -/
def pci_emul_add_capability (pi : pci_devinst) (capdata : List Nat) :
    Option (Int × pci_devinst) :=
  let caplen := capdata.length
  if ¬ caplen > 0 then none
  else
    let reallen := roundup2 caplen 4
    let sts := pci_get_cfgdata16 pi PCIR_STATUS
    let capoff :=
      if sts &&& PCIM_STATUS_CAPPRESENT = 0 then CAP_START_OFFSET else pi.pi_capend + 1
    if capoff + reallen > PCI_REGMAX + 1 then some (-1, pi)
    else
      let pi :=
        if sts &&& PCIM_STATUS_CAPPRESENT = 0 then
          pci_set_cfgdata16 (pci_set_cfgdata8 pi PCIR_CAP_PTR capoff) PCIR_STATUS
            (sts ||| PCIM_STATUS_CAPPRESENT)
        else pci_set_cfgdata8 pi (pi.pi_prevcap + 1) capoff
      let pi := copy_cap capoff pi 0 capdata
      let pi := pci_set_cfgdata8 pi (capoff + 1) 0
      some (0, { pi with pi_prevcap := capoff, pi_capend := capoff + reallen - 1 })

/-- Modelled from the spec: `struct msicap` (`pci_emul.h`, not under src/), the packed
14-byte MSI capability: ID, next pointer, control field, low and high address,
data. -/
structure msicap where
  capid : Nat
  nextptr : Nat
  msgctrl : Nat
  addrlo : Nat
  addrhi : Nat
  msgdata : Nat
  deriving DecidableEq, Repr

/-- The bytes of a 16-bit little-endian field. -/
def le16 (v : Nat) : List Nat := [v % 256, v / 256 % 256]

/-- The bytes of a 32-bit little-endian field. -/
def le32 (v : Nat) : List Nat :=
  [v % 256, v / 256 % 256, v / 65536 % 256, v / 16777216 % 256]

/-- The memory image of a `struct msicap`, as the cast to `u_char *` reads it. -/
def msicap.bytes (m : msicap) : List Nat :=
  [m.capid % 256, m.nextptr % 256] ++ le16 m.msgctrl ++ le32 m.addrlo ++ le32 m.addrhi ++
    le16 m.msgdata

/-- The function `pci_populate_msicap`; `none` is the failed `assert` on the message
count (a count that is not positive fails it). -/
def pci_populate_msicap (msgnum nextptr : Nat) : Option msicap :=
  if ¬ (msgnum &&& (msgnum - 1) = 0 ∧ msgnum ≥ 1 ∧ msgnum ≤ 32) then none
  else
    let mmc := ffs msgnum - 1
    some { capid := PCIY_MSI, nextptr := nextptr % 256,
           msgctrl := to16 (PCIM_MSICTRL_64BIT ||| (mmc <<< 1)),
           addrlo := 0, addrhi := 0, msgdata := 0 }

/-- The function `pci_emul_add_msicap`. -/
def pci_emul_add_msicap (pi : pci_devinst) (msgnum : Nat) : Option (Int × pci_devinst) :=
  (pci_populate_msicap msgnum 0).bind fun m => pci_emul_add_capability pi m.bytes

/-- Modelled from the spec: `struct msixcap` (`pci_emul.h`, not under src/), the packed
12-byte MSI-X capability: ID, next pointer, control field, table word, PBA
word. -/
structure msixcap where
  capid : Nat
  nextptr : Nat
  msgctrl : Nat
  table_info : Nat
  pba_info : Nat
  deriving DecidableEq, Repr

/-- The memory image of a `struct msixcap`, as the cast to `u_char *` reads it. -/
def msixcap.bytes (m : msixcap) : List Nat :=
  [m.capid % 256, m.nextptr % 256] ++ le16 m.msgctrl ++ le32 m.table_info ++ le32 m.pba_info

/-- The function `pci_populate_msixcap`; `none` is the failed `assert` on the table
size. -/
def pci_populate_msixcap (msgnum barnum msix_tab_size : Nat) : Option msixcap :=
  if ¬ msix_tab_size % 4096 = 0 then none
  else
    some { capid := PCIY_MSIX, nextptr := 0,
           msgctrl := to16 (msgnum - 1),
           table_info := to32 (barnum &&& PCIM_MSIX_BIR_MASK),
           pba_info := to32 (msix_tab_size ||| (barnum &&& PCIM_MSIX_BIR_MASK)) }

/-- The function `pci_msix_table_init`: a zeroed table whose entries all have the mask
bit set; `none` is a failed `assert` on the entry count. -/
def pci_msix_table_init (pi : pci_devinst) (table_entries : Nat) : Option pci_devinst :=
  if ¬ (table_entries > 0 ∧ table_entries ≤ MAX_MSIX_TABLE_ENTRIES) then none
  else
    some { pi with pi_msix := { pi.pi_msix with
      table := List.replicate table_entries
        { addr := 0, msg_data := 0, vector_control := PCIM_MSIX_VCTRL_MASK } } }

/-- The function `pci_emul_add_msixcap` for device number `pdi`, on the device
instance and the pending list `pci_bars`.  The result is the return code of
`pci_emul_add_capability`, the device instance and the pending list; `none` is
a failed `assert` (or the exit of `pci_emul_alloc_bar`). -/
def pci_emul_add_msixcap (pci_bars : List pcibarlist) (pdi : Nat) (pi : pci_devinst)
    (msgnum barnum : Nat) : Option (Int × pci_devinst × List pcibarlist) :=
  if ¬ (msgnum ≥ 1 ∧ msgnum ≤ MAX_MSIX_TABLE_ENTRIES) then none
  else if ¬ barnum ≤ PCIR_MAX_BAR_0 then none
  else
    let tab_size := to32 (msgnum * MSIX_TABLE_ENTRY_SIZE)
    let tab_size := roundup2 tab_size 4096
    let pi := { pi with pi_msix := { pi.pi_msix with
      table_bar := barnum, pba_bar := barnum, table_offset := 0, table_count := msgnum,
      pba_offset := tab_size, pba_size := PBA_SIZE msgnum } }
    (pci_msix_table_init pi msgnum).bind fun pi =>
    (pci_populate_msixcap msgnum barnum tab_size).bind fun m =>
    (pci_emul_alloc_bar pci_bars pdi barnum PCIBAR_MEM32
      (to32 (tab_size + pi.pi_msix.pba_size))).bind
    fun bars =>
    (pci_emul_add_capability pi m.bytes).map fun r => (r.1, r.2, bars)

/-- The function `pci_emul_iscap`: is `offset` inside the capability region? -/
def pci_emul_iscap (pi : pci_devinst) (offset : Nat) : Bool :=
  let sts := pci_get_cfgdata16 pi PCIR_STATUS
  if sts &&& PCIM_STATUS_CAPPRESENT ≠ 0 then
    decide (offset ≥ CAP_START_OFFSET ∧ offset ≤ pi.pi_capend)
  else false

/-! ## Legacy interrupt state -/

/-- The function `pci_lintr_permitted`: neither MSI nor MSI-X is enabled and INTx is
not disabled in the command register. -/
def pci_lintr_permitted (pi : pci_devinst) : Bool :=
  let cmd := pci_get_cfgdata16 pi PCIR_COMMAND
  !(pi.pi_msi.enabled != 0 || pi.pi_msix.enabled != 0 || (cmd &&& PCIM_CMD_INTxDIS) != 0)

/-- The function `pci_lintr_update`; the host calls `pci_irq_assert` and
`pci_irq_deassert` (pci_irq.c, not under src/) are recorded in `pi_irq_calls`. -/
def pci_lintr_update (pi : pci_devinst) : pci_devinst :=
  if pi.pi_lintr.state = lintr_stat.ASSERTED ∧ ¬ pci_lintr_permitted pi = true then
    { pi with pi_irq_calls := pi.pi_irq_calls ++ [false],
              pi_lintr := { pi.pi_lintr with state := lintr_stat.PENDING } }
  else if pi.pi_lintr.state = lintr_stat.PENDING ∧ pci_lintr_permitted pi = true then
    { pi with pi_lintr := { pi.pi_lintr with state := lintr_stat.ASSERTED },
              pi_irq_calls := pi.pi_irq_calls ++ [true] }
  else pi

/-! ## Capability writes -/

/-- The control word `msixcap_cfgwrite` stores for a 2-byte write at offset 2 of the
capability (pci_emul.c:1159-1164): only the enable and function-mask bits are
taken from the value written. -/
def msixcap_write_value (pi : pci_devinst) (offset val : Nat) : Nat :=
  let rwmask := PCIM_MSIXCTRL_MSIX_ENABLE ||| PCIM_MSIXCTRL_FUNCTION_MASK
  let msgctrl := pci_get_cfgdata16 pi offset
  let msgctrl := msgctrl &&& to16 (not32 rwmask)
  to16 (msgctrl ||| (val &&& rwmask))

/-- The function `msixcap_cfgwrite`. -/
def msixcap_cfgwrite (pi : pci_devinst) (capoff offset bytes val : Nat) : pci_devinst :=
  if offset - capoff = 2 ∧ capoff ≤ offset ∧ bytes = 2 then
    let val := msixcap_write_value pi offset val
    let pi := { pi with pi_msix := { pi.pi_msix with
      enabled := val &&& PCIM_MSIXCTRL_MSIX_ENABLE,
      function_mask := val &&& PCIM_MSIXCTRL_FUNCTION_MASK } }
    let pi := pci_lintr_update pi
    CFGWRITE pi offset val bytes
  else CFGWRITE pi offset val bytes

/-- The value `msicap_cfgwrite` stores (pci_emul.c:1186-1191): for a 2-byte write at
offset 2 of the capability only the enable bit and the multiple-message-enable
field are taken from the value written. -/
def msicap_write_value (pi : pci_devinst) (capoff offset bytes val : Nat) : Nat :=
  if offset - capoff = 2 ∧ capoff ≤ offset ∧ bytes = 2 then
    let rwmask := PCIM_MSICTRL_MME_MASK ||| PCIM_MSICTRL_MSI_ENABLE
    let msgctrl := pci_get_cfgdata16 pi offset
    let msgctrl := msgctrl &&& to16 (not32 rwmask)
    to16 (msgctrl ||| (val &&& rwmask))
  else val

/-- The second half of `msicap_cfgwrite` (pci_emul.c:1194-1208): the MSI state of the
instance is read back from the capability at `capoff`, and the legacy
interrupt is updated. -/
def msicap_update (pi : pci_devinst) (capoff : Nat) : pci_devinst :=
  let msgctrl := pci_get_cfgdata16 pi (capoff + 2)
  let addrlo := pci_get_cfgdata32 pi (capoff + 4)
  let msgdata :=
    if msgctrl &&& PCIM_MSICTRL_64BIT ≠ 0 then pci_get_cfgdata16 pi (capoff + 12)
    else pci_get_cfgdata16 pi (capoff + 8)
  let mme := msgctrl &&& PCIM_MSICTRL_MME_MASK
  let enabled := if msgctrl &&& PCIM_MSICTRL_MSI_ENABLE ≠ 0 then 1 else 0
  let pi :=
    if enabled ≠ 0 then
      { pi with pi_msi := { enabled := enabled, addr := addrlo, msg_data := msgdata,
                            maxmsgnum := 1 <<< (mme >>> 4) } }
    else
      { pi with pi_msi := { pi.pi_msi with enabled := enabled, maxmsgnum := 0 } }
  pci_lintr_update pi

/-- The function `msicap_cfgwrite`. -/
def msicap_cfgwrite (pi : pci_devinst) (capoff offset bytes val : Nat) : pci_devinst :=
  msicap_update (CFGWRITE pi offset (msicap_write_value pi capoff offset bytes val) bytes) capoff

/-- The function `pciecap_cfgwrite`. -/
def pciecap_cfgwrite (pi : pci_devinst) (_capoff offset bytes val : Nat) : pci_devinst :=
  CFGWRITE pi offset val bytes

/-- The search loop of `pci_emul_capwrite` (pci_emul.c:1269-1278), started at
`capoff`: follow the next pointers until the capability that holds `offset`,
or the last one.  `none` when the bound on the iterations is used up (the
chain does not end). -/
def cap_search (pi : pci_devinst) (offset : Nat) : Nat → Nat → Option Nat
  | 0, _ => none
  | fuel + 1, capoff =>
    let nextoff := pci_get_cfgdata8 pi (capoff + 1)
    if nextoff = 0 then some capoff
    else if offset ≥ capoff ∧ offset < nextoff then some capoff
    else cap_search pi offset fuel nextoff

/-- The dispatch at the end of `pci_emul_capwrite` (pci_emul.c:1298-1310). -/
def cap_dispatch (pi : pci_devinst) (capid capoff offset bytes val : Nat) : pci_devinst :=
  if capid = PCIY_MSI then msicap_cfgwrite pi capoff offset bytes val
  else if capid = PCIY_MSIX then msixcap_cfgwrite pi capoff offset bytes val
  else if capid = PCIY_EXPRESS then pciecap_cfgwrite pi capoff offset bytes val
  else pi

/-- The function `pci_emul_capwrite`; `val` is the `uint32_t` argument, `capoff` the
`uint8_t` one.  `none` is the failed `assert(offset >= capoff)` or a search
that does not end. -/
def pci_emul_capwrite (pi : pci_devinst) (offset bytes val capoff capid : Nat) :
    Option pci_devinst :=
  if offset &&& (bytes - 1) ≠ 0 then some pi
  else
    let found : Option (Nat × Nat) :=
      if capoff = 0 then
        (cap_search pi offset 256 CAP_START_OFFSET).bind fun capoff =>
          if ¬ offset ≥ capoff then none
          else some (capoff, pci_get_cfgdata8 pi capoff)
      else some (capoff, capid)
    found.bind fun cc =>
      let capoff := cc.1
      let capid := cc.2
      if offset = capoff ∨ offset = capoff + 1 then
        if offset = capoff ∧ bytes = 4 then
          some (cap_dispatch pi capid capoff (offset + 2) 2 (val >>> 16))
        else some pi
      else some (cap_dispatch pi capid capoff offset bytes val)

/-! ## BAR reads and command-register writes -/

/-- The function `read_bar_value`; `none` is a failed `assert` on the width or the
alignment. -/
def read_bar_value (pi : pci_devinst) (coff bytes : Nat) : Option Nat :=
  let idx? : Option Nat :=
    if coff ≥ PCIR_BAR 0 ∧ coff < PCIR_BAR (PCI_BARMAX + 1) then some ((coff - PCIR_BAR 0) / 4)
    else if coff ≥ PCIR_BIOS ∧ coff < PCIR_BIOS + 4 then some (PCI_BARMAX + 1)
    else none
  match idx? with
  | none => some 0
  | some idx =>
    let update_idx := if (pi.pi_bar idx).type = PCIBAR_MEMHI64 then idx - 1 else idx
    let val? : Option Nat :=
      match (pi.pi_bar idx).type with
      | PCIBAR_NONE => none
      | PCIBAR_ROM =>
        let val := pci_get_cfgdata32 pi PCIR_BIOS
        some (if val &&& PCIM_BIOS_ADDR_MASK = PCIM_BIOS_ADDR_MASK then U32 - 1 else val)
      | _ => some (pci_get_cfgdata32 pi (PCIR_BAR idx))
    match val? with
    | none => some 0
    | some val =>
      let val :=
        if val = U32 - 1 then
          let val := not64 (sub64 (pi.pi_bar update_idx).size 1)
          let val := val ||| (pi.pi_bar update_idx).lobits % U64
          if (pi.pi_bar idx).type = PCIBAR_MEMHI64 then val >>> 32 else val
        else val
      if bytes = 1 then some ((val >>> (8 * (coff &&& 0x03))) &&& 0xFF)
      else if bytes = 2 then
        if coff &&& 0x01 ≠ 0 then none
        else some ((val >>> (8 * (coff &&& 0x02))) &&& 0xFFFF)
      else if bytes = 4 then
        if coff &&& 0x03 ≠ 0 then none else some (to32 val)
      else none

/-- One step of the loop of `pci_emul_cmd_changed` (pci_emul.c:2076-2106) for
descriptor `i`; `changed` and `new` are the locals of that function. -/
def cmd_changed_bar (pi : pci_devinst) (changed new i : Nat) : Option pci_devinst :=
  let mem (pi : pci_devinst) : Option pci_devinst :=
    if changed &&& PCIM_CMD_MEMEN ≠ 0 then
      if new &&& PCIM_CMD_MEMEN ≠ 0 then register_bar pi i else unregister_bar pi i
    else some pi
  match (pi.pi_bar i).type with
  | PCIBAR_NONE => some pi
  | PCIBAR_MEMHI64 => some pi
  | PCIBAR_IO =>
    if changed &&& PCIM_CMD_PORTEN ≠ 0 then
      if new &&& PCIM_CMD_PORTEN ≠ 0 then register_bar pi i else unregister_bar pi i
    else some pi
  | PCIBAR_ROM => if (pi.pi_bar i).lobits = 0 then some pi else mem pi
  | PCIBAR_MEM32 => mem pi
  | PCIBAR_MEM64 => mem pi

/-- The loop of `pci_emul_cmd_changed` over the descriptors `i, i + 1, ...`
(`n` of them). -/
def cmd_changed_bars (changed new : Nat) : Nat → Nat → pci_devinst → Option pci_devinst
  | 0, _, pi => some pi
  | n + 1, i, pi =>
    (cmd_changed_bar pi changed new i).bind fun pi => cmd_changed_bars changed new n (i + 1) pi

/-- The function `pci_emul_cmd_changed`; `old` is the `uint16_t` argument.  `none` is a
failed `assert` inside a registration call. -/
def pci_emul_cmd_changed (pi : pci_devinst) (old : Nat) : Option pci_devinst :=
  let new := pci_get_cfgdata16 pi PCIR_COMMAND
  let changed := to16 old ^^^ new
  (cmd_changed_bars changed new (PCI_BARMAX_WITH_ROM + 1) 0 pi).map pci_lintr_update

/-- The function `pci_emul_cmdsts_write`; `new` is the `uint32_t` argument. -/
def pci_emul_cmdsts_write (pi : pci_devinst) (coff new bytes : Nat) : Option pci_devinst :=
  let cmd := pci_get_cfgdata16 pi PCIR_COMMAND
  let rshift := (coff &&& 0x3) * 8
  let readonly := 0xFFFFF880 >>> rshift
  let old := CFGREAD pi coff bytes
  let new := new &&& not32 readonly
  let new := new ||| (old &&& readonly)
  let pi := CFGWRITE pi coff new bytes
  pci_emul_cmd_changed pi cmd

/-! ## Topology and `pci_cfgrw` -/

/-- Modelled from the spec: `struct pci_devemu` (`pci_emul.h`, not under src/) as far as
`pci_cfgrw` consults it: the optional overrides `pe_cfgread` (arguments: the
instance, offset, width and the value `*eax` holds; result: the return code
and the new `*eax`) and `pe_cfgwrite` (arguments: the instance, offset, width
and value; result: the return code and the instance as the backend leaves
it). -/
structure pci_devemu where
  pe_cfgread : Option (pci_devinst → Nat → Nat → Nat → Int × Nat) := none
  pe_cfgwrite : Option (pci_devinst → Nat → Nat → Nat → Int × pci_devinst) := none

/-- The structure `funcinfo`: the device model (what `pi->pi_d` points to) and the
instance of a function, `none` for a NULL `fi_devi`. -/
structure funcinfo where
  fi_pde : pci_devemu := {}
  fi_devi : Option pci_devinst := none

/-- The structure `intxinfo`. -/
structure intxinfo where
  ii_count : Nat := 0
  ii_pirq_pin : Nat := 0
  ii_ioapic_irq : Nat := 0
  deriving DecidableEq, Repr

/-- The structure `slotinfo`. -/
structure slotinfo where
  si_intpins : Nat → intxinfo := fun _ => {}
  si_funcs : Nat → funcinfo := fun _ => {}

/-- The structure `businfo`. -/
structure businfo where
  iobase : Nat := 0
  iolimit : Nat := 0
  membase32 : Nat := 0
  memlimit32 : Nat := 0
  membase64 : Nat := 0
  memlimit64 : Nat := 0
  slotinfo : Nat → slotinfo := fun _ => {}

/-- The lookup at the head of `pci_cfgrw` (pci_emul.c:2152-2156): the function
record at `bus`/`slot`/`func` of the table `pci_businfo`, `none` for a NULL bus. -/
def find_func (pci_businfo : Nat → Option businfo) (bus slot func : Nat) : Option funcinfo :=
  (pci_businfo bus).map fun bi => (bi.slotinfo slot).si_funcs func

/-- Store the device instance of `bus`/`slot`/`func` back into the table: the
effect of the writes `pci_cfgrw` makes through the pointer `pi`. -/
def store_devi (pci_businfo : Nat → Option businfo) (bus slot func : Nat)
    (pi : pci_devinst) : Nat → Option businfo :=
  fun b =>
    if b = bus then
      (pci_businfo bus).map fun bi =>
        { bi with slotinfo := fun s =>
            if s = slot then
              { bi.slotinfo slot with si_funcs := fun f =>
                  if f = func then { (bi.slotinfo slot).si_funcs func with fi_devi := some pi }
                  else (bi.slotinfo slot).si_funcs f }
            else bi.slotinfo s }
    else pci_businfo b

/-- The function `pci_emul_is_mfdev`: are at least two functions of the slot
populated? -/
def pci_emul_is_mfdev (pci_businfo : Nat → Option businfo) (bus slot : Nat) : Bool :=
  let numfuncs :=
    match pci_businfo bus with
    | none => 0
    | some bi =>
      ((List.range MAXFUNCS).filter
        fun f => ((bi.slotinfo slot).si_funcs f).fi_devi.isSome).length
  decide (numfuncs > 1)

/-- The function `pci_emul_hdrtype_fixup`; `rv` is the value `*rv` holds, the result the
value it holds afterwards. -/
def pci_emul_hdrtype_fixup (pci_businfo : Nat → Option businfo) (bus slot off bytes rv : Nat) :
    Nat :=
  if off ≤ PCIR_HDRTYPE ∧ off + bytes > PCIR_HDRTYPE then
    let mfdev := pci_emul_is_mfdev pci_businfo bus slot
    if bytes = 1 ∨ bytes = 2 then
      let rv := rv &&& not32 PCIM_MFDEV
      if mfdev then rv ||| PCIM_MFDEV else rv
    else if bytes = 4 then
      let rv := rv &&& not32 (PCIM_MFDEV <<< 16)
      if mfdev then rv ||| (PCIM_MFDEV <<< 16) else rv
    else rv
  else rv

/-- Is `coff` one of the offsets `pci_cfgrw` routes to the BAR and ROM logic
(pci_emul.c:2203-2205 and 2222-2223)? -/
def is_bar_offset (coff : Nat) : Bool :=
  decide ((coff ≥ PCIR_BAR 0 ∧ coff ≤ PCIR_BAR PCI_BARMAX) ∨
    (coff ≥ PCIR_BIOS ∧ coff < PCIR_BIOS + 4))

/-- The value a configuration read of an existing function yields before
`pci_emul_hdrtype_fixup` is applied (pci_emul.c:2194-2210); `eax` is what `*eax`
holds on entry.  `none` is a failed `assert` in `read_bar_value`. -/
def cfg_read_raw (fi : funcinfo) (pi : pci_devinst) (coff bytes eax : Nat) : Option Nat :=
  let r : Int × Nat :=
    match fi.fi_pde.pe_cfgread with
    | some f => f pi coff bytes eax
    | none => (1, eax)
  if r.1 ≠ 0 then
    if is_bar_offset coff then read_bar_value pi coff bytes
    else some (CFGREAD pi coff bytes)
  else some (to32 r.2)

/-- The default write handling of `pci_cfgrw` (pci_emul.c:2219-2245), after the
backend declined the write; `eax` is the `uint32_t` value written.  `none` is
a failed `assert`. -/
def cfg_write_default (pi : pci_devinst) (coff bytes eax : Nat) : Option pci_devinst :=
  if is_bar_offset coff then
    if bytes ≠ 4 ∨ coff &&& 0x3 ≠ 0 then some pi
    else
      let idx := if coff = PCIR_BIOS then PCI_ROM_IDX else (coff - PCIR_BAR 0) / 4
      update_bar_address pi idx eax
  else if pci_emul_iscap pi coff then pci_emul_capwrite pi coff bytes eax 0 0
  else if coff ≥ PCIR_COMMAND ∧ coff < PCIR_REVID then pci_emul_cmdsts_write pi coff eax bytes
  else some (CFGWRITE pi coff eax bytes)

/-- The function `pci_cfgrw` on the table `pci_businfo`; `inp` is the direction (`true`
for a read) and `eax` what `*eax` holds on entry.  The result is the table and
`*eax` afterwards; `none` is a failed `assert`. -/
def pci_cfgrw (pci_businfo : Nat → Option businfo) (inp : Bool)
    (bus slot func coff bytes eax : Nat) : Option ((Nat → Option businfo) × Nat) :=
  let fi? := find_func pci_businfo bus slot func
  let pi? := fi?.bind fun fi => fi.fi_devi
  match fi?, pi? with
  | some fi, some pi =>
    if (bytes ≠ 1 ∧ bytes ≠ 2 ∧ bytes ≠ 4) ∨ coff &&& (bytes - 1) ≠ 0 then
      some (pci_businfo, if inp then 0xffffffff else eax)
    else if coff ≥ PCI_REGMAX + 1 then
      some (pci_businfo, if inp then (if coff ≤ PCI_REGMAX + 4 then 0 else 0xffffffff) else eax)
    else if inp then
      (cfg_read_raw fi pi coff bytes eax).map fun v =>
        (pci_businfo, pci_emul_hdrtype_fixup pci_businfo bus slot coff bytes v)
    else
      match fi.fi_pde.pe_cfgwrite with
      | some f =>
        let r := f pi coff bytes (to32 eax)
        if r.1 = 0 then some (store_devi pci_businfo bus slot func r.2, eax)
        else
          (cfg_write_default r.2 coff bytes (to32 eax)).map fun pi =>
            (store_devi pci_businfo bus slot func pi, eax)
      | none =>
        (cfg_write_default pi coff bytes (to32 eax)).map fun pi =>
          (store_devi pci_businfo bus slot func pi, eax)
  | _, _ => some (pci_businfo, if inp then 0xffffffff else eax)

/-- A table with a single bus 0 whose only populated function is function 0 of
slot 0, holding `pi` and a device model without overrides. -/
def single_func (pi : pci_devinst) : Nat → Option businfo :=
  fun b =>
    if b = 0 then
      some { slotinfo := fun s =>
        if s = 0 then { si_funcs := fun f => if f = 0 then { fi_devi := some pi } else {} }
        else {} }
    else none

/-! ## Capability list -/

/-- The offset that `pci_emul_add_capability` computes for a new capability
(pci_emul.c:971-975): `CAP_START_OFFSET` while the capabilities-present bit of
the status register is clear, one past the end of the list otherwise. -/
def next_capoff (pi : pci_devinst) : Nat :=
  if pci_get_cfgdata16 pi PCIR_STATUS &&& PCIM_STATUS_CAPPRESENT = 0 then CAP_START_OFFSET
  else pi.pi_capend + 1

/-- The configuration space `pci_emul_add_capability` leaves behind when it places
the payload `capdata` (pci_emul.c:981-993), byte by byte: the zeroed next
pointer, the payload, the link from the status register and capabilities
pointer or from the previous capability, and the untouched rest. -/
def add_cap_cfgdata (pi : pci_devinst) (capdata : List Nat) : Nat → Nat :=
  fun o =>
    let c := next_capoff pi
    let sts := pci_get_cfgdata16 pi PCIR_STATUS
    if o = c + 1 then 0
    else if c ≤ o ∧ o < c + capdata.length then capdata.getD (o - c) 0 % 256
    else if sts &&& PCIM_STATUS_CAPPRESENT = 0 then
      if o = PCIR_STATUS then (sts ||| PCIM_STATUS_CAPPRESENT) % 256
      else if o = PCIR_STATUS + 1 then (sts ||| PCIM_STATUS_CAPPRESENT) / 256 % 256
      else if o = PCIR_CAP_PTR then c % 256
      else pi.pi_cfgdata o
    else if o = pi.pi_prevcap + 1 then c % 256
    else pi.pi_cfgdata o

/-- Successive calls of `pci_emul_add_capability`, one per payload, all of which
return 0; `none` as soon as a call fails. -/
def add_caps : pci_devinst → List (List Nat) → Option pci_devinst
  | pi, [] => some pi
  | pi, d :: ds =>
    (pci_emul_add_capability pi d).bind fun r => if r.1 = 0 then add_caps r.2 ds else none

/-- Specification-side definition: the walk of the capability list as a guest does
it, from offset `off` along the next-pointer bytes, collecting the offsets
visited; `none` when no zero pointer is met within `fuel` steps. -/
def cap_walk (pi : pci_devinst) : Nat → Nat → Option (List Nat)
  | 0, _ => none
  | fuel + 1, off =>
    if off = 0 then some []
    else (cap_walk pi fuel (pci_get_cfgdata8 pi (off + 1))).map fun l => off :: l

/-- Specification-side definition: the offsets at which payloads land when the first
one goes to `c` and each length is rounded up to a multiple of 4. -/
def cap_offsets : Nat → List (List Nat) → List Nat
  | _, [] => []
  | c, d :: ds => c :: cap_offsets (c + (d.length + 3) / 4 * 4) ds

/-- The next pointers link `c` to the offsets of `rest`, in order, each at least 4
bytes further and 4-byte aligned, and the last next pointer is zero. -/
def chain_links (pi : pci_devinst) : Nat → List Nat → Prop
  | c, [] => pci_get_cfgdata8 pi (c + 1) = 0
  | c, d :: rest =>
    pci_get_cfgdata8 pi (c + 1) = d ∧ c + 4 ≤ d ∧ d % 4 = 0 ∧ chain_links pi d rest

/-- The last offset of the chain `c :: rest`. -/
def chain_last : Nat → List Nat → Nat
  | c, [] => c
  | _, d :: rest => chain_last d rest

/-- The capability list of `pi` is `caps`: the status bit says whether there is one,
the capabilities pointer holds the first offset (`CAP_START_OFFSET`), the chain
is linked, and the bookkeeping fields `pi_prevcap` and `pi_capend` describe the
last capability. -/
def cap_chain (pi : pci_devinst) : List Nat → Prop
  | [] => pci_get_cfgdata16 pi PCIR_STATUS &&& PCIM_STATUS_CAPPRESENT = 0
  | c :: rest =>
    pci_get_cfgdata16 pi PCIR_STATUS &&& PCIM_STATUS_CAPPRESENT ≠ 0 ∧
    pci_get_cfgdata8 pi PCIR_CAP_PTR = c ∧ c = CAP_START_OFFSET ∧
    chain_links pi c rest ∧ pi.pi_prevcap = chain_last c rest ∧
    pi.pi_prevcap + 3 ≤ pi.pi_capend ∧ (pi.pi_capend + 1) % 4 = 0 ∧
    pi.pi_capend ≤ PCI_REGMAX

/-- The payload `d` is stored at offset `o` of `pi`, except for its next-pointer byte:
it is the last capability or lies below it, and it ends inside the list. -/
def cap_stored (pi : pci_devinst) (o : Nat) (d : List Nat) : Prop :=
  (o = pi.pi_prevcap ∨ o + d.length ≤ pi.pi_prevcap) ∧ o + d.length ≤ pi.pi_capend + 1 ∧
  ∀ j, j < d.length → j ≠ 1 → pci_get_cfgdata8 pi (o + j) = d.getD j 0 % 256

/-- The bookkeeping of the capability list is consistent: when the status register
says that there is a list, the last capability starts at `pi_prevcap`, at or
after `CAP_START_OFFSET`, has at least 4 bytes, and ends at `pi_capend`, the
last byte of a 4-byte group inside the 256 bytes.  An instance without
capabilities satisfies it, and `pci_emul_add_capability` keeps it. -/
def cap_wf (pi : pci_devinst) : Prop :=
  pci_get_cfgdata16 pi PCIR_STATUS &&& PCIM_STATUS_CAPPRESENT ≠ 0 →
    CAP_START_OFFSET ≤ pi.pi_prevcap ∧ pi.pi_prevcap + 3 ≤ pi.pi_capend ∧
    (pi.pi_capend + 1) % 4 = 0 ∧ pi.pi_capend ≤ PCI_REGMAX

/-- The payload `pci_emul_add_msicap` hands to `pci_emul_add_capability` for one
message. -/
def msi1_bytes : List Nat := ((pci_populate_msicap 1 0).map msicap.bytes).getD []

/-- The payload `pci_emul_add_msixcap` hands to `pci_emul_add_capability` for eight
messages in BAR 0. -/
def msix8_bytes : List Nat :=
  ((pci_populate_msixcap 8 0 (roundup2 (to32 (8 * MSIX_TABLE_ENTRY_SIZE)) 4096)).map
    msixcap.bytes).getD []

/-- A fresh instance after `pci_emul_add_msicap` with one message and then
`pci_emul_add_msixcap` with eight messages in BAR 0. -/
def msi_then_msix : Option pci_devinst :=
  (pci_emul_add_msicap (fresh_devinst none) 1).bind fun r =>
    (pci_emul_add_msixcap [] 0 r.2 8 0).map fun r2 => r2.2.1

/-- Specification-side definition: the number of populated functions of a slot (those
whose `fi_devi` is set), 0 for a bus that does not exist. -/
def populated (pci_businfo : Nat → Option businfo) (bus slot : Nat) : Nat :=
  match pci_businfo bus with
  | none => 0
  | some bi =>
    ((List.range MAXFUNCS).filter
      fun f => ((bi.slotinfo slot).si_funcs f).fi_devi.isSome).length

/-- A table with a single bus 0 whose slot 0 holds `pi` as function 0 and `pi2` as
function 1, both with a device model without overrides. -/
def two_funcs (pi pi2 : pci_devinst) : Nat → Option businfo :=
  fun b =>
    if b = 0 then
      some { slotinfo := fun s =>
        if s = 0 then
          { si_funcs := fun f =>
              if f = 0 then { fi_devi := some pi }
              else if f = 1 then { fi_devi := some pi2 }
              else {} }
        else {} }
    else none

/-- The local `update_idx` of `update_bar_address` and `read_bar_value`: the descriptor
a register belongs to, the one before for the high half of a 64-bit BAR. -/
def update_idx_of (pi : pci_devinst) (idx : Nat) : Nat :=
  if (pi.pi_bar idx).type = PCIBAR_MEMHI64 then idx - 1 else idx

/-! ## Legacy interrupt calls -/

/-- Modelled from the spec: `PCIR_INTPIN` (`pcireg.h`, not under src/), the offset of the
interrupt-pin byte. -/
def PCIR_INTPIN : Nat := 0x3d

/-- The function `pci_lintr_assert`; `none` is the failed
`assert(pi->pi_lintr.pin > 0)`. -/
def pci_lintr_assert (pi : pci_devinst) : Option pci_devinst :=
  if ¬ pi.pi_lintr.pin > 0 then none
  else if pi.pi_lintr.state = lintr_stat.IDLE then
    if pci_lintr_permitted pi = true then
      some { pi with pi_lintr := { pi.pi_lintr with state := lintr_stat.ASSERTED },
                     pi_irq_calls := pi.pi_irq_calls ++ [true] }
    else some { pi with pi_lintr := { pi.pi_lintr with state := lintr_stat.PENDING } }
  else some pi

/-- The function `pci_lintr_deassert`; `none` is the failed
`assert(pi->pi_lintr.pin > 0)`. -/
def pci_lintr_deassert (pi : pci_devinst) : Option pci_devinst :=
  if ¬ pi.pi_lintr.pin > 0 then none
  else if pi.pi_lintr.state = lintr_stat.ASSERTED then
    some { pi with pi_lintr := { pi.pi_lintr with state := lintr_stat.IDLE },
                   pi_irq_calls := pi.pi_irq_calls ++ [false] }
  else if pi.pi_lintr.state = lintr_stat.PENDING then
    some { pi with pi_lintr := { pi.pi_lintr with state := lintr_stat.IDLE } }
  else some pi

/-- One step of the search loop of `pci_lintr_request` (pci_emul.c:1872-1877): `best` is
the pair `(bestpin, bestcount)`. -/
def bestpin_step (si : slotinfo) (best : Nat × Nat) (pin : Nat) : Nat × Nat :=
  if (si.si_intpins pin).ii_count < best.2 then (pin, (si.si_intpins pin).ii_count)
  else best

/-- The pin `pci_lintr_request` settles on (pci_emul.c:1870-1877): the loop runs over
the pins 1, 2, 3, starting from pin 0. -/
def bestpin (si : slotinfo) : Nat :=
  ([1, 2, 3].foldl (bestpin_step si) (0, (si.si_intpins 0).ii_count)).1

/-- The function `pci_lintr_request` for an instance `pi` that sits at `pi_bus`/`pi_slot`,
on the table `pci_businfo`.  The result is the table and the instance; `none`
is the failed `assert(bi != NULL)`. -/
def pci_lintr_request (pci_businfo : Nat → Option businfo) (pi_bus pi_slot : Nat)
    (pi : pci_devinst) : Option ((Nat → Option businfo) × pci_devinst) :=
  match pci_businfo pi_bus with
  | none => none
  | some bi =>
    let si := bi.slotinfo pi_slot
    let best := bestpin si
    let si' : slotinfo :=
      { si with si_intpins := fun p =>
          if p = best then { si.si_intpins p with ii_count := (si.si_intpins p).ii_count + 1 }
          else si.si_intpins p }
    let bi' : businfo :=
      { bi with slotinfo := fun s => if s = pi_slot then si' else bi.slotinfo s }
    let pi := { pi with pi_lintr := { pi.pi_lintr with pin := best + 1 } }
    some (fun b => if b = pi_bus then some bi' else pci_businfo b,
          pci_set_cfgdata8 pi PCIR_INTPIN (best + 1))

/-- Specification-side definition: one event in the life of a function's legacy
interrupt, a call of `pci_lintr_assert`, `pci_lintr_deassert` or
`pci_lintr_update`, or a change made elsewhere to what `pci_lintr_permitted`
reads (the MSI and MSI-X enable flags and the command register). -/
inductive lintr_event where
  | call_assert
  | call_deassert
  | call_update
  | set_inputs (msi msix cmd : Nat)
  deriving DecidableEq, Repr

/-- Specification-side definition: the effect of one event on the instance. -/
def lintr_step (pi : pci_devinst) : lintr_event → Option pci_devinst
  | .call_assert => pci_lintr_assert pi
  | .call_deassert => pci_lintr_deassert pi
  | .call_update => some (pci_lintr_update pi)
  | .set_inputs msi msix cmd =>
    some (pci_set_cfgdata16
      { pi with pi_msi := { pi.pi_msi with enabled := msi },
                pi_msix := { pi.pi_msix with enabled := msix } } PCIR_COMMAND cmd)

/-- Specification-side definition: a sequence of events, in order. -/
def lintr_run : pci_devinst → List lintr_event → Option pci_devinst
  | pi, [] => some pi
  | pi, e :: es => (lintr_step pi e).bind fun pi => lintr_run pi es

/-- Specification-side definition: the level of the host interrupt line after the
recorded host calls, starting deasserted: that of the last call. -/
def host_line (calls : List Bool) : Bool := calls.getLast?.getD false

/-- Specification-side definition: the recorded host calls alternate, the first being
an assert when `expect` is `true`. -/
def alternates : Bool → List Bool → Bool
  | _, [] => true
  | expect, b :: rest => (b == expect) && alternates (!expect) rest

/-- Specification-side definition: the load counter of pin `p` of slot `slot` on bus
`bus`, 0 for a bus that does not exist. -/
def intpin_count (pci_businfo : Nat → Option businfo) (bus slot p : Nat) : Nat :=
  match pci_businfo bus with
  | none => 0
  | some bi => ((bi.slotinfo slot).si_intpins p).ii_count

/-! ## Configuration front ends -/

/-- Modelled from the spec: `PCI_BUSMAX` (`pcireg.h`, not under src/), the highest bus
number. -/
def PCI_BUSMAX : Nat := 255

/-- Modelled from the spec: `PCI_SLOTMAX` (`pcireg.h`, not under src/), the highest slot
number. -/
def PCI_SLOTMAX : Nat := 31

/-- Modelled from the spec: `PCI_FUNCMAX` (`pcireg.h`, not under src/), the highest
function number. -/
def PCI_FUNCMAX : Nat := 7

/-- `MAXBUSES`, that is `PCI_BUSMAX + 1`. -/
def MAXBUSES : Nat := PCI_BUSMAX + 1

/-- `PCI_EMUL_ECFG_SIZE`: 1 MiB per bus. -/
def PCI_EMUL_ECFG_SIZE : Nat := MAXBUSES * 1024 * 1024

/-- `CONF1_DATA_PORT`. -/
def CONF1_DATA_PORT : Nat := 0x0cfc

/-- `CONF1_ENABLE`. -/
def CONF1_ENABLE : Nat := 0x80000000

/-- The decoding at the head of `pci_emul_ecfg_handler` (pci_emul.c:1347-1350) of a
64-bit guest-physical address: `(bus, slot, func, coff)`. -/
def ecfg_decode (addr : Nat) : Nat × Nat × Nat × Nat :=
  ((addr >>> 20) &&& 0xff, (addr >>> 15) &&& 0x1f, (addr >>> 12) &&& 0x7, addr &&& 0xfff)

/-- The function `pci_emul_ecfg_handler`; `read` is `dir == MEM_F_READ`, `val` what
`*val` holds on entry.  The result is the table and `*val` afterwards, of which
`pci_cfgrw` sees the low 32 bits through the cast to `uint32_t *`; `none` is a
failed `assert` inside `pci_cfgrw`. -/
def pci_emul_ecfg_handler (pci_businfo : Nat → Option businfo) (read : Bool)
    (addr bytes val : Nat) : Option ((Nat → Option businfo) × Nat) :=
  let d := ecfg_decode (addr % U64)
  let val := if read then U64 - 1 else val % U64
  (pci_cfgrw pci_businfo read d.1 d.2.1 d.2.2.1 d.2.2.2 bytes (to32 val)).map fun r =>
    (r.1, (val / U32) * U32 + to32 r.2)

/-- The file-scope variables `cfgenable`, `cfgbus`, `cfgslot`, `cfgfunc` and `cfgoff`
of pci_emul.c, the latch of the legacy address port. -/
structure cfg_latch where
  cfgenable : Nat := 0
  cfgbus : Nat := 0
  cfgslot : Nat := 0
  cfgfunc : Nat := 0
  cfgoff : Nat := 0
  deriving DecidableEq, Repr

/-- The function `pci_emul_cfgaddr`, the handler of the address port; `inp` is the
direction (`true` for a read) and `eax` what `*eax` holds on entry.  The result
is the latch and `*eax` afterwards. -/
def pci_emul_cfgaddr (l : cfg_latch) (inp : Bool) (bytes eax : Nat) : cfg_latch × Nat :=
  if bytes ≠ 4 then
    (l, if inp then (if bytes = 2 then 0xffff else 0xff) else eax)
  else if inp then
    let x := to32 ((l.cfgbus <<< 16) ||| (l.cfgslot <<< 11) ||| (l.cfgfunc <<< 8) ||| l.cfgoff)
    let x := if l.cfgenable ≠ 0 then to32 (x ||| CONF1_ENABLE) else x
    (l, x)
  else
    let x := to32 eax
    ({ cfgenable := if x &&& CONF1_ENABLE = CONF1_ENABLE then 1 else 0,
       cfgoff := x &&& PCI_REGMAX,
       cfgfunc := (x >>> 8) &&& PCI_FUNCMAX,
       cfgslot := (x >>> 11) &&& PCI_SLOTMAX,
       cfgbus := (x >>> 16) &&& PCI_BUSMAX }, eax)

/-- The function `pci_emul_cfgdata`, the handler of the four data ports, on the latch
and the table; `port` is the port accessed.  The result is the table and
`*eax` afterwards; `none` is a failed `assert`. -/
def pci_emul_cfgdata (l : cfg_latch) (pci_businfo : Nat → Option businfo) (inp : Bool)
    (port bytes eax : Nat) : Option ((Nat → Option businfo) × Nat) :=
  if ¬ (bytes = 1 ∨ bytes = 2 ∨ bytes = 4) then none
  else
    let coff := l.cfgoff + (port - CONF1_DATA_PORT)
    if l.cfgenable ≠ 0 then
      pci_cfgrw pci_businfo inp l.cfgbus l.cfgslot l.cfgfunc coff bytes eax
    else some (pci_businfo, if inp then 0xffffffff else eax)

/-- No ROM descriptor is both enabled and placed: the registration calls that
`pci_emul_cmd_changed` makes for a ROM BAR then pass their `assert` even
without a backend hook. -/
def rom_quiet (pi : pci_devinst) : Prop :=
  ∀ i, (pi.pi_bar i).type = PCIBAR_ROM → (pi.pi_bar i).lobits = 0 ∨ (pi.pi_bar i).addr = 0

/-- The value `pci_emul_cmdsts_write` stores (pci_emul.c:2133-2138): the value written
outside the read-only mask, the old contents inside it. -/
def cmdsts_value (pi : pci_devinst) (coff new bytes : Nat) : Nat :=
  (new &&& not32 (0xFFFFF880 >>> ((coff &&& 0x3) * 8))) |||
    (CFGREAD pi coff bytes &&& (0xFFFFF880 >>> ((coff &&& 0x3) * 8)))

/-! ## Concrete requests used in the evaluations -/

/-- A 64-bit memory BAR of 128 MiB at index 0 of device 0. -/
def mem64_128M : pcibarlist := ⟨0, 0, PCIBAR_MEM64, 128 * 1024 * 1024⟩

/-- A 64-bit memory BAR of 512 MiB at index 0 of device 0. -/
def mem64_512M : pcibarlist := ⟨0, 0, PCIBAR_MEM64, 512 * 1024 * 1024⟩

/-- A 64-bit memory BAR of 64 GiB at index 0 of device 0. -/
def mem64_64G : pcibarlist := ⟨0, 0, PCIBAR_MEM64, 64 * GB⟩

/-- A 32-bit memory BAR of 4 KiB at index 2 of device 0. -/
def mem32_4K : pcibarlist := ⟨0, 2, PCIBAR_MEM32, 4096⟩

/-- An I/O BAR of 64 KiB at index 0 of device 0. -/
def io_64K : pcibarlist := ⟨0, 0, PCIBAR_IO, 0x10000⟩

/-- An I/O BAR of 32 KiB at index 1 of device 0. -/
def io_32K : pcibarlist := ⟨0, 1, PCIBAR_IO, 0x8000⟩

/-- An I/O BAR request of size 1 at index 0 of device 0. -/
def io_1 : pcibarlist := ⟨0, 0, PCIBAR_IO, 1⟩

/-- A ROM BAR of 64 KiB of device 0. -/
def rom_64K : pcibarlist := ⟨0, 6, PCIBAR_ROM, 0x10000⟩

/-- What is observed of descriptor `idx` of device 0 after a pass: its type,
size and address, and the 32-bit register `PCIR_BAR(idx)`. -/
def observe_bar (idx : Nat) (s : pci_state) : pcibar_type × Nat × Nat × Nat :=
  (((s.devs 0).pi_bar idx).type, ((s.devs 0).pi_bar idx).size, ((s.devs 0).pi_bar idx).addr,
    pci_get_cfgdata32 (s.devs 0) (PCIR_BAR idx))

/-- The instance of device 0 after an I/O BAR of size 1 at index 0 was queued and
assigned on a fresh machine: descriptor 0 is an I/O BAR of size 4 at 0xFFFC. -/
def io4_assigned : pci_devinst :=
  (((alloc_bars [] [io_1]).bind (assign_bars (fresh_state 0) 0)).map fun s => s.devs 0).getD
    (fresh_devinst none)

/-- The instance of device 0 after a 64-bit memory BAR of 512 MiB at index 0 was queued
and assigned on a fresh machine: descriptor 0 is the 64-bit BAR, descriptor 1
its high half. -/
def mem64_assigned : pci_devinst :=
  (((alloc_bars [] [mem64_512M]).bind (assign_bars (fresh_state 0) 0)).map
    fun s => s.devs 0).getD (fresh_devinst none)

/-- The instance `msi_then_msix` arrives at: MSI at 0x40, MSI-X at 0x50. -/
def msi_msix_dev : pci_devinst := msi_then_msix.getD (fresh_devinst none)

/-- A fresh instance to which pin 1 (INTA) has been given, in the interrupt state
`st`, with MSI enable flag `msi` and the command register `cmd`. -/
def lintr_dev (st : lintr_stat) (msi cmd : Nat) : pci_devinst :=
  pci_set_cfgdata16
    { fresh_devinst none with
      pi_lintr := { pin := 1, state := st },
      pi_msi := { enabled := msi } } PCIR_COMMAND cmd

/-- A table with a single bus 0 whose slot 0 has the load counters 2, 1, 1, 3 on its
four pins and no function yet. -/
def loaded_slot : Nat → Option businfo :=
  fun b =>
    if b = 0 then
      some { slotinfo := fun s =>
        if s = 0 then
          { si_intpins := fun p =>
              { ii_count := if p = 0 then 2 else if p = 1 then 1 else if p = 2 then 1 else 3 } }
        else {} }
    else none

/-- An I/O BAR of size 4 at index 5, the last BAR, of device 0. -/
def io_4_bar5 : pcibarlist := ⟨0, 5, PCIBAR_IO, 4⟩

/-- The instance of device 0 after an I/O BAR of size 4 at index 5 was queued and
assigned on a fresh machine: descriptor 5 is an I/O BAR of size 4 at 0xFFFC and the
register at 0x24 holds 0xFFFD. -/
def io5_assigned : pci_devinst :=
  (((alloc_bars [] [io_4_bar5]).bind (assign_bars (fresh_state 0) 0)).map fun s => s.devs 0).getD
    (fresh_devinst none)

/-- What is observed of an instance around BAR 5 after a configuration access: the four
bytes of the register at 0x24..0x27 as one value, and the descriptor. -/
def observe_bar5 (r : Option ((Nat → Option businfo) × Nat)) : Option (Nat × pcibar) :=
  r.bind fun r => (find_func r.1 0 0 0).bind fun g =>
    g.fi_devi.map fun p => (pci_get_cfgdata32 p (PCIR_BAR 5), p.pi_bar 5)

/-- What is observed of function 0:0:0 after a configuration access, as far as MSI
goes: the MSI state of the instance and the stored control field of a
capability at 0x40. -/
def observe_msi (r : Option ((Nat → Option businfo) × Nat)) : Option (msi_info × Nat) :=
  r.bind fun r => (find_func r.1 0 0 0).bind fun g =>
    g.fi_devi.map fun p => (p.pi_msi, pci_get_cfgdata16 p 0x42)

/-- What is observed of function 0:0:0 after a configuration access, as far as MSI-X
goes: the enabled flag, the function-mask flag and the stored control field of
a capability at 0x50. -/
def observe_msix (r : Option ((Nat → Option businfo) × Nat)) : Option (Nat × Nat × Nat) :=
  r.bind fun r => (find_func r.1 0 0 0).bind fun g =>
    g.fi_devi.map fun p =>
      (p.pi_msix.enabled, p.pi_msix.function_mask, pci_get_cfgdata16 p 0x52)

/-- Specification-side definition: the capability list as a guest reads it, the pairs
(offset, capability ID) met on the walk from the capabilities pointer at 0x34
along the next pointers; `none` when the walk does not end. -/
def cap_list (pi : pci_devinst) : Option (List (Nat × Nat)) :=
  (cap_walk pi 256 (pci_get_cfgdata8 pi PCIR_CAP_PTR)).map fun l =>
    l.map fun o => (o, pci_get_cfgdata8 pi o)

/-- What is observed of function 0:0:0 after a configuration access, as far as the
capability list goes: the capabilities pointer and the list. -/
def observe_caps (r : Option ((Nat → Option businfo) × Nat)) :
    Option (Nat × Option (List (Nat × Nat))) :=
  r.bind fun r => (find_func r.1 0 0 0).bind fun g =>
    g.fi_devi.map fun p => (pci_get_cfgdata8 p PCIR_CAP_PTR, cap_list p)

/-- A 32-bit memory BAR of 4 KiB at index 5, the last BAR, of device 0. -/
def mem32_4K_bar5 : pcibarlist := ⟨0, 5, PCIBAR_MEM32, 4096⟩

/-- The instance of device 0 after a 32-bit memory BAR of 4 KiB at index 5 was queued
and assigned on a fresh machine: descriptor 5 is that BAR at 0xDFFFF000. -/
def mem5_assigned : pci_devinst :=
  (((alloc_bars [] [mem32_4K_bar5]).bind (assign_bars (fresh_state 0) 0)).map
    fun s => s.devs 0).getD (fresh_devinst none)

/-- A 32-bit memory BAR of 4 KiB at index 4 of device 0. -/
def mem32_4K_bar4 : pcibarlist := ⟨0, 4, PCIBAR_MEM32, 4096⟩

/-- The instance of device 0 after a 32-bit memory BAR of 4 KiB at index 4 was queued
and assigned on a fresh machine. -/
def mem4_assigned : pci_devinst :=
  (((alloc_bars [] [mem32_4K_bar4]).bind (assign_bars (fresh_state 0) 0)).map
    fun s => s.devs 0).getD (fresh_devinst none)

/-- The value a guest reads at `coff` with width `bytes` from function 0:0:0 after a
configuration access. -/
def read_back (r : Option ((Nat → Option businfo) × Nat)) (coff bytes : Nat) : Option Nat :=
  (r.bind fun r => pci_cfgrw r.1 true 0 0 0 coff bytes 0).map Prod.snd

/-- Specification-side definition: a host that accepts exactly the well-formed
registration calls, run over a record of calls from the registration status
`reg` of each BAR index: a call to register is accepted only while the BAR is
not registered, a call to unregister only while it is. -/
def host_accepts_from (reg : Nat → Bool) : List bar_event → Bool
  | [] => true
  | e :: es =>
    if e.registration = reg e.idx then false
    else host_accepts_from (fun i => if i = e.idx then e.registration else reg i) es

/-- Specification-side definition: the record of calls is accepted by such a host
when no BAR is registered at the start. -/
def host_accepts (evs : List bar_event) : Bool := host_accepts_from (fun _ => false) evs

/-- What is observed of function 0:0:0 after a configuration access, as far as the
registration of BAR 0 goes: the record of registration calls, the descriptor
and the command register. -/
def observe_events (r : Option ((Nat → Option businfo) × Nat)) :
    Option (List bar_event × pcibar × Nat) :=
  r.bind fun r => (find_func r.1 0 0 0).bind fun g =>
    g.fi_devi.map fun p => (p.pi_events, p.pi_bar 0, pci_get_cfgdata16 p PCIR_COMMAND)

/-- `BUSIO_ROUNDUP`. -/
def BUSIO_ROUNDUP : Nat := 32

/-- `BUSMEM_ROUNDUP`. -/
def BUSMEM_ROUNDUP : Nat := 1024 * 1024

/-- Modelled from the spec: `roundup2` (`sys/param.h`, not under src/) on a `uint64_t`
first argument and an `int` power of two: `(x + (y - 1)) & ~(y - 1)`, the mask
sign-extended to 64 bits. -/
def roundup2_64 (x y : Nat) : Nat := add64 x (y - 1) &&& not64 (y - 1)

/-- The body of the bus loop of `init_pci` for the first configured bus
(pci_emul.c:1444-1518), as far as the windows go: the base cursors are
recorded, the device models of the first run queue the requests `reqs` on the
empty pending list, the second run assigns them, then each base cursor is
advanced by the slop, rounded up and recorded as the limit of the bus.  The
result is the state and the record of the bus; `none` is a failed `assert`.
`addr0` is the indeterminate initial value of the local `addr` of
`pci_emul_assign_bar`. -/
def init_pci_bus (s : pci_state) (reqs : List pcibarlist) (addr0 : Nat) :
    Option (pci_state × businfo) :=
  let iobase := s.win.pci_emul_iobase
  let membase32 := s.win.pci_emul_membase32
  let membase64 := s.win.pci_emul_membase64
  (alloc_bars [] reqs).bind fun pci_bars =>
  (assign_bars s addr0 pci_bars).map fun s =>
    let io := roundup2_64 (add64 s.win.pci_emul_iobase BUSIO_ROUNDUP) BUSIO_ROUNDUP
    let m32 := roundup2_64 (add64 s.win.pci_emul_membase32 BUSMEM_ROUNDUP) BUSMEM_ROUNDUP
    let m64 := roundup2_64 (add64 s.win.pci_emul_membase64 BUSMEM_ROUNDUP) BUSMEM_ROUNDUP
    ({ s with win := { s.win with pci_emul_iobase := io, pci_emul_membase32 := m32,
                                  pci_emul_membase64 := m64 } },
     { iobase := iobase, iolimit := io, membase32 := membase32, memlimit32 := m32,
       membase64 := membase64, memlimit64 := m64 })

/-- A 64-bit memory BAR of 512 MiB at index 3 of device 0. -/
def mem64_512M_bar3 : pcibarlist := ⟨0, 3, PCIBAR_MEM64, 512 * 1024 * 1024⟩

/-- What is observed after the bus loop: the three recorded windows of the bus as
pairs (base, limit), and the type and address of the descriptors 0, 2 and 3
of device 0. -/
def observe_bus (r : Option (pci_state × businfo)) :
    Option ((Nat × Nat) × (Nat × Nat) × (Nat × Nat) × List (pcibar_type × Nat)) :=
  r.map fun r =>
    ((r.2.iobase, r.2.iolimit), (r.2.membase32, r.2.memlimit32),
     (r.2.membase64, r.2.memlimit64),
     [0, 2, 3].map fun i => (((r.1.devs 0).pi_bar i).type, ((r.1.devs 0).pi_bar i).addr))

/-- Specification-side definition: does address `a` lie inside the recorded window
`[w.1, w.2)`? -/
def in_window (w : Nat × Nat) (a : Nat) : Bool := decide (w.1 ≤ a ∧ a < w.2)

/-- Specification-side definition: for each of the descriptors 0..5 of device 0 that is
an I/O, 32-bit memory or 64-bit memory BAR, whether its address lies inside
the recorded window of its class. -/
def bars_in_windows (r : pci_state × businfo) : List Bool :=
  (List.range 6).filterMap fun i =>
    match ((r.1.devs 0).pi_bar i).type with
    | PCIBAR_IO => some (in_window (r.2.iobase, r.2.iolimit) ((r.1.devs 0).pi_bar i).addr)
    | PCIBAR_MEM32 =>
      some (in_window (r.2.membase32, r.2.memlimit32) ((r.1.devs 0).pi_bar i).addr)
    | PCIBAR_MEM64 =>
      some (in_window (r.2.membase64, r.2.memlimit64) ((r.1.devs 0).pi_bar i).addr)
    | _ => none

/-- Specification-side definition: the interrupt state agrees with the permission: a
function in state ASSERTED is permitted to raise legacy interrupts, a function
in state PENDING is not. -/
def lintr_consistent (pi : pci_devinst) : Prop :=
  (pi.pi_lintr.state = lintr_stat.ASSERTED → pci_lintr_permitted pi = true) ∧
  (pi.pi_lintr.state = lintr_stat.PENDING → pci_lintr_permitted pi = false)

instance (pi : pci_devinst) : Decidable (lintr_consistent pi) := by
  unfold lintr_consistent; infer_instance

/-- Specification-side definition: `b` differs from `a` in nothing the legacy interrupt
logic looks at: the interrupt state, the MSI and MSI-X state, the record of
host calls and the two bytes of the command register. -/
def lintr_frame (a b : pci_devinst) : Prop :=
  b.pi_lintr = a.pi_lintr ∧ b.pi_msi = a.pi_msi ∧ b.pi_msix = a.pi_msix ∧
  b.pi_irq_calls = a.pi_irq_calls ∧ b.pi_cfgdata 4 = a.pi_cfgdata 4 ∧
  b.pi_cfgdata 5 = a.pi_cfgdata 5

/-- An operation on a function after initialisation: a call of `pci_lintr_assert` or of
`pci_lintr_deassert` by the device model, or a guest configuration write of
`bytes` bytes of `eax` at offset `coff`. -/
inductive guest_op where
  | call_assert
  | call_deassert
  | cfg_write (coff bytes eax : Nat)
  deriving DecidableEq, Repr

/-- One operation on function `bus`/`slot`/`func` of the table; the configuration write
goes through `pci_cfgrw`.  `none` is a failed `assert` or a function that does
not exist. -/
def guest_step (t : Nat → Option businfo) (bus slot func : Nat) :
    guest_op → Option (Nat → Option businfo)
  | .call_assert =>
    (find_func t bus slot func).bind fun fi => fi.fi_devi.bind fun pi =>
      (pci_lintr_assert pi).map (store_devi t bus slot func)
  | .call_deassert =>
    (find_func t bus slot func).bind fun fi => fi.fi_devi.bind fun pi =>
      (pci_lintr_deassert pi).map (store_devi t bus slot func)
  | .cfg_write coff bytes eax => (pci_cfgrw t false bus slot func coff bytes eax).map Prod.fst

/-- A sequence of operations on one function, in order. -/
def guest_run (t : Nat → Option businfo) (bus slot func : Nat) :
    List guest_op → Option (Nat → Option businfo)
  | [] => some t
  | op :: ops => (guest_step t bus slot func op).bind fun t => guest_run t bus slot func ops

/-- The instance `msi_msix_dev` with interrupt pin 1. -/
def msi_msix_pin_dev : pci_devinst := { msi_msix_dev with pi_lintr := { pin := 1 } }

/-- What is observed of function 0:0:0 of a table, as far as the legacy interrupt
goes: the state, whether interrupts are permitted, and the record of host
calls. -/
def observe_lintr (t : Option (Nat → Option businfo)) : Option (lintr_stat × Bool × List Bool) :=
  t.bind fun t => (find_func t 0 0 0).bind fun g =>
    g.fi_devi.map fun p => (p.pi_lintr.state, pci_lintr_permitted p, p.pi_irq_calls)

/-- Specification-side definition: `b` differs from `a` in nothing the capability list
depends on: the bookkeeping fields, the status register, the capabilities
pointer and, when there is a list, the bytes of the capability region. -/
def cap_frame (a b : pci_devinst) : Prop :=
  b.pi_prevcap = a.pi_prevcap ∧ b.pi_capend = a.pi_capend ∧
  pci_get_cfgdata16 b PCIR_STATUS = pci_get_cfgdata16 a PCIR_STATUS ∧
  pci_get_cfgdata8 b PCIR_CAP_PTR = pci_get_cfgdata8 a PCIR_CAP_PTR ∧
  (pci_get_cfgdata16 a PCIR_STATUS &&& PCIM_STATUS_CAPPRESENT ≠ 0 →
    ∀ o, CAP_START_OFFSET ≤ o → o ≤ a.pi_capend → b.pi_cfgdata o = a.pi_cfgdata o)

/-- Specification-side definition: `b` differs from `a` at most in the BAR and ROM
registers (configuration bytes 0x10..0x33), the descriptors and the record of
registration calls. -/
def bar_frame (a b : pci_devinst) : Prop :=
  b.pi_prevcap = a.pi_prevcap ∧ b.pi_capend = a.pi_capend ∧
  ∀ o, o < 0x10 ∨ 0x34 ≤ o → b.pi_cfgdata o = a.pi_cfgdata o

/-- An instance whose capability list is nearly full: one 188-byte capability appended
to a fresh instance, which ends the list at offset 0xfb and leaves four free
bytes below offset 256. -/
def caps_full_dev : pci_devinst :=
  ((pci_emul_add_capability (fresh_devinst none) (List.replicate 188 5)).map Prod.snd).getD
    (fresh_devinst none)

/-! ## Arithmetic lemmas -/

/-- Masking with the complement of `2 ^ k - 1` on 64 bits rounds down to a
multiple of `2 ^ k`. -/
theorem and_not64_pow2 (x k : Nat) (hx : x < 2 ^ 64) (hk : k ≤ 64) :
    x &&& (2 ^ 64 - 1 - (2 ^ k - 1)) = x / 2 ^ k * 2 ^ k := by
  have hpos : 0 < 2 ^ k := Nat.two_pow_pos k
  have hle : 2 ^ k ≤ 2 ^ 64 := Nat.pow_le_pow_right (by decide) hk
  have e1 : 2 ^ 64 - 1 - (2 ^ k - 1) = 2 ^ 64 - ((2 ^ k - 1) + 1) := by omega
  have hlt : 2 ^ k - 1 < 2 ^ 64 := by omega
  rw [e1, Nat.mul_comm, ← Nat.shiftRight_eq_div_pow]
  apply Nat.eq_of_testBit_eq
  intro i
  rw [Nat.testBit_and, Nat.testBit_two_pow_sub_succ hlt, Nat.testBit_two_pow_sub_one,
    Nat.testBit_mul_pow_two, Nat.testBit_shiftRight]
  by_cases hik : i < k
  · have h1 : ¬ i ≥ k := by omega
    simp [hik, h1]
  · have h1 : i ≥ k := by omega
    have h2 : k + (i - k) = i := by omega
    by_cases hi : i < 64
    · simp [hik, h1, h2, hi]
    · have hxi : x.testBit i = false := by
        apply Nat.testBit_lt_two_pow
        exact Nat.lt_of_lt_of_le hx (Nat.pow_le_pow_right (by decide) (by omega))
      simp [hik, h1, h2, hi, hxi]

/-- The macro `rounddown2` agrees with `floor(x / y) * y` for a power-of-two `y`. -/
theorem rounddown2_pow2 (x k : Nat) (hx : x < 2 ^ 64) (hk : k < 64) :
    rounddown2 x (2 ^ k) = x / 2 ^ k * 2 ^ k := by
  have hpos : 0 < 2 ^ k := Nat.two_pow_pos k
  have hlt : 2 ^ k < 2 ^ 64 := Nat.pow_lt_pow_right (by decide) hk
  have e1 : sub64 (2 ^ k) 1 = 2 ^ k - 1 := by
    unfold sub64 U64
    rw [Nat.mod_eq_of_lt hlt, Nat.mod_eq_of_lt (by decide : 1 < 2 ^ 64)]
    have : 2 ^ k + (2 ^ 64 - 1) = (2 ^ k - 1) + 2 ^ 64 := by omega
    rw [this, Nat.add_mod_right, Nat.mod_eq_of_lt (by omega)]
  unfold rounddown2
  rw [e1]
  unfold not64 U64
  rw [Nat.mod_eq_of_lt hx, Nat.mod_eq_of_lt (by omega : 2 ^ k - 1 < 2 ^ 64)]
  exact and_not64_pow2 x k hx (by omega)

/-- A power of two has no bit in common with its predecessor, so the `assert`
of `pci_emul_alloc_resource` and the rounding test of `pci_emul_alloc_bar`
let it through. -/
theorem pow2_and_pred (k : Nat) (hk : k < 64) : 2 ^ k &&& sub64 (2 ^ k) 1 = 0 := by
  have hpos : 0 < 2 ^ k := Nat.two_pow_pos k
  have hlt : 2 ^ k < 2 ^ 64 := Nat.pow_lt_pow_right (by decide) hk
  have e1 : sub64 (2 ^ k) 1 = 2 ^ k - 1 := by
    unfold sub64 U64
    rw [Nat.mod_eq_of_lt hlt, Nat.mod_eq_of_lt (by decide : 1 < 2 ^ 64)]
    have : 2 ^ k + (2 ^ 64 - 1) = (2 ^ k - 1) + 2 ^ 64 := by omega
    rw [this, Nat.add_mod_right, Nat.mod_eq_of_lt (by omega)]
  rw [e1, Nat.and_pow_two_sub_one_eq_mod, Nat.mod_self]

/-! ## `pci_emul_alloc_resource` -/

/-- Wrapping subtraction without a borrow is ordinary subtraction. -/
theorem sub64_of_le (a b : Nat) (hb : b ≤ a) (ha : a < 2 ^ 64) : sub64 a b = a - b := by
  unfold sub64 U64
  rw [Nat.mod_eq_of_lt ha, Nat.mod_eq_of_lt (by omega : b < 2 ^ 64)]
  have : a + (2 ^ 64 - b) = (a - b) + 2 ^ 64 := by omega
  rw [this, Nat.add_mod_right, Nat.mod_eq_of_lt (by omega)]

/-- Wrapping subtraction with a borrow. -/
theorem sub64_of_lt (a b : Nat) (hab : a < b) (hb : b < 2 ^ 64) :
    sub64 a b = 2 ^ 64 - b + a := by
  unfold sub64 U64
  rw [Nat.mod_eq_of_lt (by omega : a < 2 ^ 64), Nat.mod_eq_of_lt hb]
  rw [Nat.mod_eq_of_lt (by omega)]
  omega

/-- A carve that fits below the limit: the result of `pci_emul_alloc_resource`
for a power-of-two size not above the limit. -/
theorem alloc_resource_fits (baseptr limit k addr : Nat) (hs : 2 ^ k ≤ limit)
    (hl : limit < 2 ^ 64) :
    pci_emul_alloc_resource baseptr limit (2 ^ k) addr =
      some { error := 0, limit := (limit - 2 ^ k) / 2 ^ k * 2 ^ k,
             addr := (limit - 2 ^ k) / 2 ^ k * 2 ^ k } ∧
    (limit - 2 ^ k) / 2 ^ k * 2 ^ k + 2 ^ k ≤ limit := by
  have hk : k < 64 := by
    by_contra h
    have : 2 ^ 64 ≤ 2 ^ k := Nat.pow_le_pow_right (by decide) (by omega)
    omega
  have hsub : limit - 2 ^ k < 2 ^ 64 := Nat.lt_of_le_of_lt (Nat.sub_le _ _) hl
  have hle : (limit - 2 ^ k) / 2 ^ k * 2 ^ k + 2 ^ k ≤ limit := by
    have hfl : (limit - 2 ^ k) / 2 ^ k * 2 ^ k ≤ limit - 2 ^ k := Nat.div_mul_le_self _ _
    calc (limit - 2 ^ k) / 2 ^ k * 2 ^ k + 2 ^ k ≤ (limit - 2 ^ k) + 2 ^ k :=
          Nat.add_le_add_right hfl _
      _ = limit := Nat.sub_add_cancel hs
  refine ⟨?_, hle⟩
  unfold pci_emul_alloc_resource
  simp only [pow2_and_pred k hk, ne_eq, not_true_eq_false, ↓reduceIte]
  rw [sub64_of_le limit (2 ^ k) hs hl, rounddown2_pow2 (limit - 2 ^ k) k hsub hk]
  have hadd : add64 ((limit - 2 ^ k) / 2 ^ k * 2 ^ k) (2 ^ k)
      = (limit - 2 ^ k) / 2 ^ k * 2 ^ k + 2 ^ k := by
    unfold add64 U64
    exact Nat.mod_eq_of_lt (Nat.lt_of_le_of_lt hle hl)
  rw [hadd]
  simp [hle]

/-- A carve larger than the limit wraps around: `*limit - size` borrows, the
rounded base is `2 ^ 64 - size`, and `base + size` wraps to 0, so that the
test `base + size <= *limit` passes. -/
theorem alloc_resource_wraps (baseptr limit k addr : Nat) (hk : k < 64)
    (hs : limit < 2 ^ k) :
    pci_emul_alloc_resource baseptr limit (2 ^ k) addr =
      some { error := 0, limit := 2 ^ 64 - 2 ^ k, addr := 2 ^ 64 - 2 ^ k } := by
  have hpos : 0 < 2 ^ k := Nat.two_pow_pos k
  have hlt : 2 ^ k < 2 ^ 64 := Nat.pow_lt_pow_right (by decide) hk
  have hlt2 : 2 ^ 64 - 2 ^ k + limit < 2 ^ 64 := by omega
  have hsum : 2 ^ 64 - 2 ^ k + 2 ^ k = 2 ^ 64 := by omega
  have hsplit : (2 : Nat) ^ 64 = 2 ^ k * 2 ^ (64 - k) := by
    rw [← Nat.pow_add]; congr 1; omega
  have hm : 1 ≤ 2 ^ (64 - k) := Nat.two_pow_pos _
  have hbase : (2 ^ 64 - 2 ^ k + limit) / 2 ^ k * 2 ^ k = 2 ^ 64 - 2 ^ k := by
    have e : 2 ^ 64 - 2 ^ k + limit = 2 ^ k * (2 ^ (64 - k) - 1) + limit := by
      rw [Nat.mul_sub, Nat.mul_one, ← hsplit]
    rw [e, Nat.mul_add_div hpos, Nat.div_eq_of_lt hs, Nat.add_zero, Nat.mul_comm,
      Nat.mul_sub, Nat.mul_one, ← hsplit]
  unfold pci_emul_alloc_resource
  simp only [pow2_and_pred k hk, ne_eq, not_true_eq_false, ↓reduceIte]
  rw [sub64_of_lt limit (2 ^ k) hs hlt,
    rounddown2_pow2 (2 ^ 64 - 2 ^ k + limit) k hlt2 hk, hbase]
  have hadd : add64 (2 ^ 64 - 2 ^ k) (2 ^ k) = 0 := by
    unfold add64 U64
    rw [hsum, Nat.mod_self]
  rw [hadd]
  simp

/-- Whatever the window, `pci_emul_alloc_resource` reports success for a
power-of-two size: `baseptr` is not consulted and the limit test cannot fail. -/
theorem alloc_resource_never_fails (baseptr limit k addr : Nat) (hk : k < 64)
    (hl : limit < 2 ^ 64) :
    ∃ r, pci_emul_alloc_resource baseptr limit (2 ^ k) addr = some r ∧ r.error = 0 ∧
      r.addr = r.limit ∧ r.addr % 2 ^ k = 0 ∧ r.addr < 2 ^ 64 := by
  by_cases hs : 2 ^ k ≤ limit
  · refine ⟨_, (alloc_resource_fits baseptr limit k addr hs hl).1, rfl, rfl, ?_, ?_⟩
    · exact Nat.mul_mod_left _ _
    · show (limit - 2 ^ k) / 2 ^ k * 2 ^ k < 2 ^ 64
      exact Nat.lt_of_le_of_lt (Nat.div_mul_le_self _ _)
        (Nat.lt_of_le_of_lt (Nat.sub_le _ _) hl)
  · refine ⟨_, alloc_resource_wraps baseptr limit k addr hk (by omega), rfl, rfl, ?_, ?_⟩
    · have hsplit : (2 : Nat) ^ 64 = 2 ^ k * 2 ^ (64 - k) := by
        rw [← Nat.pow_add]; congr 1; omega
      show (2 ^ 64 - 2 ^ k) % 2 ^ k = 0
      have e : 2 ^ 64 - 2 ^ k = 2 ^ k * (2 ^ (64 - k) - 1) := by
        rw [Nat.mul_sub, Nat.mul_one, ← hsplit]
      rw [e, Nat.mul_mod_right]
    · have hpos : 0 < 2 ^ k := Nat.two_pow_pos k
      show 2 ^ 64 - 2 ^ k < 2 ^ 64
      omega

/-! ## The granted size and the pending list -/

/-- 2047 is not a power of two. -/
theorem not_pow2_2047 : ¬ ∃ k : Nat, 2047 = 2 ^ k := by
  rintro ⟨k, hk⟩
  have hk11 : k < 11 := by
    by_contra h
    have : 2 ^ 11 ≤ 2 ^ k := Nat.pow_le_pow_right (by decide) (by omega)
    omega
  interval_cases k <;> simp at hk

/-- C1 (evaluated on the code): for a ROM request of 1024 bytes the minimum that
`pci_emul_alloc_bar` applies is `~PCIM_BIOS_ADDR_MASK` = 2047, so the size it
queues is 2047: not a power of two, and not the smallest power of two (2048)
above the request and the minimum. -/
theorem alloc_bar_size_rom_1024 :
    not32 PCIM_BIOS_ADDR_MASK = 2047 ∧
    alloc_bar_size PCIBAR_ROM 1024 = 2047 ∧
    pci_emul_alloc_bar [] 0 6 PCIBAR_ROM 1024 =
      some [{ pdi := 0, idx := 6, type := PCIBAR_ROM, size := 2047 }] ∧
    (¬ ∃ k : Nat, alloc_bar_size PCIBAR_ROM 1024 = 2 ^ k) ∧
    (max 1024 (not32 PCIM_BIOS_ADDR_MASK) ≤ 2 ^ 11 ∧
      ¬ max 1024 (not32 PCIM_BIOS_ADDR_MASK) ≤ 2 ^ 10) := by
  have h : alloc_bar_size PCIBAR_ROM 1024 = 2047 := by decide
  refine ⟨by decide, h, by decide, ?_, by decide, by decide⟩
  rw [h]
  exact not_pow2_2047

/-- The insertion keeps every record: the new list is a permutation of the old
one with the new record added. -/
theorem insert_bar_perm (b : pcibarlist) (l : List pcibarlist) :
    (insert_bar b l).Perm (b :: l) := by
  induction l with
  | nil => exact List.Perm.refl _
  | cons a l ih =>
    unfold insert_bar
    split
    · exact List.Perm.refl _
    · exact (List.Perm.cons a ih).trans (List.Perm.swap b a l)

/-- The insertion keeps a list sorted by non-increasing size. -/
theorem insert_bar_sorted (b : pcibarlist) (l : List pcibarlist)
    (hl : l.Pairwise (fun x y => y.size ≤ x.size)) :
    (insert_bar b l).Pairwise (fun x y => y.size ≤ x.size) := by
  induction l with
  | nil => simp [insert_bar]
  | cons a l ih =>
    rw [List.pairwise_cons] at hl
    unfold insert_bar
    split
    · rename_i hlt
      refine List.Pairwise.cons ?_ (List.Pairwise.cons hl.1 hl.2)
      intro y hy
      rcases List.mem_cons.1 hy with rfl | hy
      · omega
      · have := hl.1 y hy
        omega
    · rename_i hge
      refine List.Pairwise.cons ?_ (ih hl.2)
      intro y hy
      rcases List.mem_cons.1 ((insert_bar_perm b l).subset hy) with rfl | hy
      · omega
      · exact hl.1 y hy

/-- A request with a legal index is queued: `pci_emul_alloc_bar` returns the list
with the granted record inserted. -/
theorem alloc_bar_legal (q : List pcibarlist) (r : pcibarlist) (h : legal_idx r) :
    pci_emul_alloc_bar q r.pdi r.idx r.type r.size = some (insert_bar (granted r) q) := by
  unfold pci_emul_alloc_bar granted
  obtain ⟨h1, h2⟩ := h
  by_cases ht : r.type = PCIBAR_ROM
  · have := h2 ht
    simp [ht, this]
  · have := h1 ht
    have h3 : ¬ (r.idx < 0 ∨ r.idx > (PCI_BARMAX : Int)) := by omega
    simp [ht, h3]

/-- Queuing legal requests onto a sorted pending list yields a sorted list that
holds the old records and one granted record per request. -/
theorem alloc_bars_from (reqs : List pcibarlist) (h : ∀ r ∈ reqs, legal_idx r) :
    ∀ q0 : List pcibarlist, q0.Pairwise (fun x y => y.size ≤ x.size) →
    ∃ q, alloc_bars q0 reqs = some q ∧ q.Pairwise (fun x y => y.size ≤ x.size) ∧
      q.Perm (q0 ++ reqs.map granted) := by
  induction reqs with
  | nil =>
    intro q0 hq0
    exact ⟨q0, rfl, hq0, by simp⟩
  | cons r rest ih =>
    intro q0 hq0
    have hr : legal_idx r := h r (List.mem_cons_self _ _)
    have hrest : ∀ x ∈ rest, legal_idx x := fun x hx => h x (List.mem_cons_of_mem _ hx)
    obtain ⟨q, hq, hs, hp⟩ := ih hrest (insert_bar (granted r) q0)
      (insert_bar_sorted _ _ hq0)
    refine ⟨q, ?_, hs, ?_⟩
    · simp only [alloc_bars, alloc_bar_legal q0 r hr, Option.some_bind]
      exact hq
    · refine hp.trans ?_
      refine ((insert_bar_perm (granted r) q0).append_right _).trans ?_
      simp only [List.map_cons, List.cons_append]
      exact (List.perm_middle).symm

/-- C2: for every sequence of `pci_emul_alloc_bar` calls with legal indices,
starting from an empty pending list, every call succeeds and the resulting list
is sorted by non-increasing granted size and is a permutation of the granted
records, one per call. -/
theorem alloc_bars_sorted_perm (reqs : List pcibarlist) (h : ∀ r ∈ reqs, legal_idx r) :
    ∃ q, alloc_bars [] reqs = some q ∧ q.Pairwise (fun x y => y.size ≤ x.size) ∧
      q.Perm (reqs.map granted) ∧ q.length = reqs.length := by
  obtain ⟨q, hq, hs, hp⟩ := alloc_bars_from reqs h [] List.Pairwise.nil
  refine ⟨q, hq, hs, by simpa using hp, ?_⟩
  have := hp.length_eq
  simpa using this

/-- Witness for C2 on the requests of sizes 4096, 16 and 65536. -/
theorem alloc_bars_sorted_perm_witness :
    (∀ r ∈ [(⟨0, 0, PCIBAR_MEM32, 4096⟩ : pcibarlist), ⟨0, 1, PCIBAR_MEM32, 16⟩,
        ⟨0, 2, PCIBAR_MEM32, 65536⟩], legal_idx r) ∧
    ∃ q, alloc_bars [] [(⟨0, 0, PCIBAR_MEM32, 4096⟩ : pcibarlist), ⟨0, 1, PCIBAR_MEM32, 16⟩,
        ⟨0, 2, PCIBAR_MEM32, 65536⟩] = some q ∧
      q.Pairwise (fun x y => y.size ≤ x.size) ∧
      q.Perm ([(⟨0, 0, PCIBAR_MEM32, 4096⟩ : pcibarlist), ⟨0, 1, PCIBAR_MEM32, 16⟩,
        ⟨0, 2, PCIBAR_MEM32, 65536⟩].map granted) ∧
      q.length = [(⟨0, 0, PCIBAR_MEM32, 4096⟩ : pcibarlist), ⟨0, 1, PCIBAR_MEM32, 16⟩,
        ⟨0, 2, PCIBAR_MEM32, 65536⟩].length :=
  ⟨by decide, alloc_bars_sorted_perm _ (by decide)⟩

/-- C4: for every power-of-two size and every window limit with size ≤ limit,
`pci_emul_alloc_resource` succeeds, returns `addr = floor((limit - size) / size) * size`,
sets the limit to that address, and the range ends at or below the old limit. -/
theorem alloc_resource_top_down (baseptr limit size addr : Nat)
    (hp : ∃ k : Nat, size = 2 ^ k) (hs : size ≤ limit) (hl : limit < U64) :
    pci_emul_alloc_resource baseptr limit size addr =
      some { error := 0, limit := (limit - size) / size * size,
             addr := (limit - size) / size * size } ∧
    (limit - size) / size * size + size ≤ limit := by
  obtain ⟨k, rfl⟩ := hp
  exact alloc_resource_fits baseptr limit k addr hs hl

/-- Witness for C4: 4 bytes carved from the I/O window `[0x2000, 0x10000)`. -/
theorem alloc_resource_top_down_witness :
    ((∃ k : Nat, 4 = 2 ^ k) ∧ 4 ≤ 0x10000 ∧ 0x10000 < U64) ∧
    (pci_emul_alloc_resource 0x2000 0x10000 4 0 =
      some { error := 0, limit := (0x10000 - 4) / 4 * 4, addr := (0x10000 - 4) / 4 * 4 } ∧
     (0x10000 - 4) / 4 * 4 + 4 ≤ 0x10000) :=
  ⟨⟨⟨2, by norm_num⟩, by decide, by decide⟩,
   alloc_resource_top_down 0x2000 0x10000 4 0 ⟨2, by norm_num⟩ (by decide) (by decide)⟩

/-- C5 (evaluated on the code): against the window `[0x2000, 0x10000)`, a request
of 0x10000 bytes (more than the 0xE000 that remain) succeeds with address 0,
below `baseptr`, and a request of 0x20000 bytes (more than the limit itself)
succeeds with address `2 ^ 64 - 0x20000`; in both cases the limit is moved. -/
theorem alloc_resource_oversize :
    pci_emul_alloc_resource 0x2000 0x10000 0x10000 0 =
      some { error := 0, limit := 0, addr := 0 } ∧
    pci_emul_alloc_resource 0x2000 0x10000 0x20000 0 =
      some { error := 0, limit := 2 ^ 64 - 0x20000, addr := 2 ^ 64 - 0x20000 } := by
  constructor <;> decide

/-! ## Frame properties of registration and `update_bar_address` -/

/-- A registration call changes only the record of calls. -/
theorem modify_bar_registration_frame (pi pi' : pci_devinst) (idx : Nat) (r : Bool)
    (h : modify_bar_registration pi idx r = some pi') :
    pi'.pi_bar = pi.pi_bar ∧ pi'.pi_cfgdata = pi.pi_cfgdata ∧ pi'.pe_baraddr = pi.pe_baraddr := by
  unfold modify_bar_registration at h
  simp only [] at h
  split at h
  · cases h; exact ⟨rfl, rfl, rfl⟩
  · split at h <;> first
      | (cases h; exact ⟨rfl, rfl, rfl⟩)
      | (split at h <;> first | (cases h; exact ⟨rfl, rfl, rfl⟩) | cases h)
      | cases h

/-- A registration call for an I/O or memory descriptor goes through. -/
theorem modify_bar_registration_some (pi : pci_devinst) (idx : Nat) (r : Bool)
    (h : (pi.pi_bar idx).type = PCIBAR_IO ∨ (pi.pi_bar idx).type = PCIBAR_MEM32 ∨
      (pi.pi_bar idx).type = PCIBAR_MEM64) :
    ∃ pi', modify_bar_registration pi idx r = some pi' := by
  unfold modify_bar_registration
  simp only []
  split
  · exact ⟨_, rfl⟩
  · rcases h with h | h | h <;> rw [h] <;> exact ⟨_, rfl⟩

/-- Storing an address keeps every descriptor type. -/
theorem set_addr_type (pi : pci_devinst) (idx addr i : Nat) :
    ((set_addr pi idx addr).pi_bar i).type = (pi.pi_bar i).type := by
  unfold set_addr set_bar
  by_cases h : i = idx <;> simp [h]

/-- Storing an address keeps the configuration bytes. -/
theorem set_addr_cfgdata (pi : pci_devinst) (idx addr : Nat) :
    (set_addr pi idx addr).pi_cfgdata = pi.pi_cfgdata := rfl

/-- A configuration store keeps the descriptors. -/
theorem pci_set_cfgdata32_bar (pi : pci_devinst) (o v : Nat) :
    (pci_set_cfgdata32 pi o v).pi_bar = pi.pi_bar := rfl

/-- A 16-bit configuration store keeps the descriptors. -/
theorem pci_set_cfgdata16_bar (pi : pci_devinst) (o v : Nat) :
    (pci_set_cfgdata16 pi o v).pi_bar = pi.pi_bar := rfl

/-- The I/O and memory case of `update_bar_address` keeps every descriptor type. -/
theorem update_bar_address_bar_types (pi pi' : pci_devinst) (idx u val : Nat) (d : Bool)
    (h : update_bar_address_bar pi idx u val d = some pi') (i : Nat) :
    (pi'.pi_bar i).type = (pi.pi_bar i).type := by
  unfold update_bar_address_bar at h
  obtain ⟨a, ha, h⟩ := Option.bind_eq_some.1 h
  have fa : a.pi_bar = pi.pi_bar := by
    split at ha
    · exact (modify_bar_registration_frame _ _ _ _ ha).1
    · cases ha; rfl
  simp only [] at h
  split at h
  · cases h
    rw [set_addr_type, pci_set_cfgdata32_bar, fa]
  · split at h
    · cases h
      rw [set_addr_type, pci_set_cfgdata32_bar, fa]
    · split at h
      · rw [(modify_bar_registration_frame _ _ _ _ h).1, set_addr_type,
          pci_set_cfgdata32_bar, fa]
      · cases h
        rw [set_addr_type, pci_set_cfgdata32_bar, fa]

/-- The I/O and memory case of `update_bar_address` returns when the descriptor it
updates is an I/O or memory descriptor. -/
theorem update_bar_address_bar_some (pi : pci_devinst) (idx u val : Nat) (d : Bool)
    (ht : (pi.pi_bar u).type = PCIBAR_IO ∨ (pi.pi_bar u).type = PCIBAR_MEM32 ∨
      (pi.pi_bar u).type = PCIBAR_MEM64) :
    ∃ pi', update_bar_address_bar pi idx u val d = some pi' := by
  unfold update_bar_address_bar
  have h1 : ∃ a, (if d = true ∧ (pi.pi_bar u).addr ≠ 0 then unregister_bar pi u
      else some pi) = some a ∧ a.pi_bar = pi.pi_bar := by
    split
    · obtain ⟨a, ha⟩ := modify_bar_registration_some pi u false ht
      exact ⟨a, ha, (modify_bar_registration_frame _ _ _ _ ha).1⟩
    · exact ⟨pi, rfl, rfl⟩
  obtain ⟨a, ha, fa⟩ := h1
  rw [ha, Option.some_bind]
  simp only []
  split
  · exact ⟨_, rfl⟩
  · split
    · exact ⟨_, rfl⟩
    · split
      · apply modify_bar_registration_some
        simp only [set_addr_type, pci_set_cfgdata32_bar, fa]
        exact ht
      · exact ⟨_, rfl⟩

/-- The ROM case of `update_bar_address` keeps every descriptor type. -/
theorem update_bar_address_rom_types (pi pi' : pci_devinst) (idx val : Nat) (d : Bool)
    (h : update_bar_address_rom pi idx val d = some pi') (i : Nat) :
    (pi'.pi_bar i).type = (pi.pi_bar i).type := by
  unfold update_bar_address_rom at h
  obtain ⟨a, ha, h⟩ := Option.bind_eq_some.1 h
  have fa : a.pi_bar = pi.pi_bar := by
    split at ha
    · exact (modify_bar_registration_frame _ _ _ _ ha).1
    · cases ha; rfl
  simp only [] at h
  have key : ∀ (l ad : Nat), ((set_bar (pci_set_cfgdata32 a PCIR_BIOS val) idx
      { (pci_set_cfgdata32 a PCIR_BIOS val).pi_bar idx with lobits := l, addr := ad }).pi_bar
        i).type = (pi.pi_bar i).type := by
    intro l ad
    unfold set_bar
    by_cases hi : i = idx <;> simp [hi, pci_set_cfgdata32_bar, fa]
  split at h
  · rw [(modify_bar_registration_frame _ _ _ _ h).1]
    exact key _ _
  · cases h
    exact key _ _


/-- The function `update_bar_address` never changes the type of a descriptor. -/
theorem update_bar_address_types (pi pi' : pci_devinst) (idx val : Nat)
    (h : update_bar_address pi idx val = some pi') (i : Nat) :
    (pi'.pi_bar i).type = (pi.pi_bar i).type := by
  unfold update_bar_address at h
  simp only [] at h
  split at h
  · exact update_bar_address_bar_types _ _ _ _ _ _ h i
  · exact update_bar_address_bar_types _ _ _ _ _ _ h i
  · exact update_bar_address_bar_types _ _ _ _ _ _ h i
  · exact update_bar_address_bar_types _ _ _ _ _ _ h i
  · exact update_bar_address_rom_types _ _ _ _ _ h i
  · cases h; rfl

/-- The function `update_bar_address` returns on an I/O or memory descriptor, and on
the high half of a 64-bit memory descriptor. -/
theorem update_bar_address_some (pi : pci_devinst) (idx val : Nat)
    (ht : (pi.pi_bar idx).type = PCIBAR_IO ∨ (pi.pi_bar idx).type = PCIBAR_MEM32 ∨
      (pi.pi_bar idx).type = PCIBAR_MEM64 ∨
      ((pi.pi_bar idx).type = PCIBAR_MEMHI64 ∧ (pi.pi_bar (idx - 1)).type = PCIBAR_MEM64)) :
    ∃ pi', update_bar_address pi idx val = some pi' := by
  unfold update_bar_address
  simp only []
  rcases ht with h | h | h | ⟨h, h2⟩
  · rw [h]; exact update_bar_address_bar_some _ _ _ _ _ (Or.inl h)
  · rw [h]; exact update_bar_address_bar_some _ _ _ _ _ (Or.inr (Or.inl h))
  · rw [h]; exact update_bar_address_bar_some _ _ _ _ _ (Or.inr (Or.inr h))
  · rw [h]; exact update_bar_address_bar_some _ _ _ _ _ (Or.inr (Or.inr h2))

/-! ## `pci_emul_assign_bar` -/

/-- Descriptor types after the initialisation step of `pci_emul_assign_bar`. -/
theorem assign_bar_init_type (pdi : pci_devinst) (idx : Nat) (type : pcibar_type)
    (size lobits enbit i : Nat) :
    ((assign_bar_init pdi idx type size lobits enbit).pi_bar i).type =
      if i = idx then type else (pdi.pi_bar i).type := by
  unfold assign_bar_init
  simp only []
  split <;> split <;> (simp only [pci_set_cfgdata16_bar, set_bar]; split <;> simp_all)

/-- Arming the register of a BAR that is not a 64-bit one: a single call of
`update_bar_address`, which returns and keeps the descriptor types. -/
theorem assign_bar_arm_mem32 (pdi : pci_devinst) (idx addr : Nat)
    (h : (pdi.pi_bar idx).type = PCIBAR_MEM32) :
    ∃ pi', assign_bar_arm pdi idx PCIBAR_MEM32 addr = some pi' ∧
      ∀ i, (pi'.pi_bar i).type = (pdi.pi_bar i).type := by
  unfold assign_bar_arm
  simp only [reduceCtorEq, ↓reduceIte, Option.some_bind]
  obtain ⟨pi', h'⟩ := update_bar_address_some pdi idx addr (Or.inr (Or.inl h))
  exact ⟨pi', h', update_bar_address_types _ _ _ _ h'⟩

/-- Arming the registers of a 64-bit BAR: the next descriptor is tagged as the
high half and both calls of `update_bar_address` return. -/
theorem assign_bar_arm_mem64 (pdi : pci_devinst) (idx addr : Nat)
    (h : (pdi.pi_bar idx).type = PCIBAR_MEM64) (hi : idx + 1 ≤ PCI_BARMAX) :
    ∃ pi', assign_bar_arm pdi idx PCIBAR_MEM64 addr = some pi' ∧
      (pi'.pi_bar idx).type = PCIBAR_MEM64 ∧ (pi'.pi_bar (idx + 1)).type = PCIBAR_MEMHI64 := by
  unfold assign_bar_arm
  simp only [↓reduceIte, hi]
  have t1 : ((set_bar pdi (idx + 1)
      { pdi.pi_bar (idx + 1) with type := PCIBAR_MEMHI64 }).pi_bar (idx + 1)).type
        = PCIBAR_MEMHI64 := by simp [set_bar]
  have t0 : ((set_bar pdi (idx + 1)
      { pdi.pi_bar (idx + 1) with type := PCIBAR_MEMHI64 }).pi_bar idx).type
        = PCIBAR_MEM64 := by simp [set_bar, h]
  obtain ⟨p1, h1⟩ := update_bar_address_some _ (idx + 1) addr
    (Or.inr (Or.inr (Or.inr ⟨t1, by simpa using t0⟩)))
  have ty1 := update_bar_address_types _ _ _ _ h1
  rw [h1, Option.some_bind]
  obtain ⟨p2, h2⟩ := update_bar_address_some p1 idx addr
    (Or.inr (Or.inr (Or.inl (by rw [ty1 idx, t0]))))
  have ty2 := update_bar_address_types _ _ _ _ h2
  exact ⟨p2, h2, by rw [ty2 idx, ty1 idx, t0], by rw [ty2 (idx + 1), ty1 (idx + 1), t1]⟩

/-- How `pci_emul_assign_bar` is put together from its stages on the success
path. -/
theorem assign_bar_compose (s : pci_state) (b : pcibarlist) (addr0 : Nat)
    (l : assign_locals) (r : alloc_result) (w : pci_windows) (p : pci_devinst)
    (h1 : assign_bar_switch s.win (s.devs b.pdi) b.idx.toNat b.type b.size addr0 = some l)
    (h2 : assign_bar_carve s.win l b.size = some (r, w)) (h3 : r.error = 0)
    (h4 : assign_bar_arm (assign_bar_init l.pdi b.idx.toNat l.type b.size l.lobits l.enbit)
      b.idx.toNat l.type r.addr = some p) :
    pci_emul_assign_bar s b addr0 = some (0, put_dev s w b.pdi p) := by
  unfold pci_emul_assign_bar
  simp only [h1, h2, Option.some_bind, h3, ne_eq, not_true_eq_false, ↓reduceIte, h4]

/-- The carve of `pci_emul_assign_bar` through a `limit` pointer. -/
theorem assign_bar_carve_some (w : pci_windows) (l : assign_locals) (size : Nat)
    (lp : limit_ptr) (r : alloc_result) (hl : l.limit = some lp)
    (hr : pci_emul_alloc_resource l.baseptr (lp.get w) size l.addr = some r) :
    assign_bar_carve w l size = some (r, lp.set w r.limit) := by
  unfold assign_bar_carve
  rw [hl]
  simp only [hr, Option.map_some']

/-- C8: a 64-bit memory BAR record with a legal index and a power-of-two size.
If the size is at most 256 MiB, `pci_emul_assign_bar` succeeds, carves it from
the 32-bit window (only `pci_emul_memlim32` moves, to the carved address) and
the descriptor becomes a 32-bit memory BAR.  If the size is above 256 MiB and
the BAR has a second slot (`idx + 1 <= PCI_BARMAX`, which the function
asserts), it succeeds, carves it from the 64-bit window (only
`pci_emul_memlim64` moves) and descriptor `idx + 1` is tagged as the high
half. -/
theorem assign_bar_mem64_placement (s : pci_state) (b : pcibarlist) (addr0 k : Nat)
    (ht : b.type = PCIBAR_MEM64) (hl : legal_idx b) (hsz : b.size = 2 ^ k) (hk : k < 64)
    (h32 : s.win.pci_emul_memlim32 < U64) (h64 : s.win.pci_emul_memlim64 < U64) :
    (b.size ≤ 256 * 1024 * 1024 →
      ∃ r s', pci_emul_alloc_resource s.win.pci_emul_membase32 s.win.pci_emul_memlim32
          b.size addr0 = some r ∧ r.error = 0 ∧
        pci_emul_assign_bar s b addr0 = some (0, s') ∧
        s'.win = { s.win with pci_emul_memlim32 := r.addr } ∧
        ((s'.devs b.pdi).pi_bar b.idx.toNat).type = PCIBAR_MEM32) ∧
    (256 * 1024 * 1024 < b.size → b.idx + 1 ≤ (PCI_BARMAX : Int) →
      ∃ r s', pci_emul_alloc_resource s.win.pci_emul_membase64 s.win.pci_emul_memlim64
          b.size addr0 = some r ∧ r.error = 0 ∧
        pci_emul_assign_bar s b addr0 = some (0, s') ∧
        s'.win = { s.win with pci_emul_memlim64 := r.addr } ∧
        ((s'.devs b.pdi).pi_bar b.idx.toNat).type = PCIBAR_MEM64 ∧
        ((s'.devs b.pdi).pi_bar (b.idx.toNat + 1)).type = PCIBAR_MEMHI64) := by
  constructor
  · intro hsmall
    obtain ⟨r, hr, he, hal, -, -⟩ := alloc_resource_never_fails s.win.pci_emul_membase32
      s.win.pci_emul_memlim32 k addr0 hk h32
    rw [← hsz] at hr
    have hns : ¬ b.size > 256 * 1024 * 1024 := by omega
    obtain ⟨l, hsw, hlt, hll, hlb, hla⟩ : ∃ l,
        assign_bar_switch s.win (s.devs b.pdi) b.idx.toNat b.type b.size addr0 = some l ∧
        l.type = PCIBAR_MEM32 ∧ l.limit = some .memlim32 ∧
        l.baseptr = s.win.pci_emul_membase32 ∧ l.addr = addr0 := by
      simp only [assign_bar_switch, ht, hns, ↓reduceIte]
      exact ⟨_, rfl, rfl, rfl, rfl, rfl⟩
    have hc := assign_bar_carve_some s.win l b.size .memlim32 r hll
      (by rw [hlb, hla]; exact hr)
    obtain ⟨p, hp, hty⟩ := assign_bar_arm_mem32
      (assign_bar_init l.pdi b.idx.toNat l.type b.size l.lobits l.enbit) b.idx.toNat r.addr
      (by rw [assign_bar_init_type, hlt]; simp)
    rw [← hlt] at hp
    refine ⟨r, _, hr, he, assign_bar_compose s b addr0 l r _ p hsw hc he hp, ?_, ?_⟩
    · simp only [put_dev, limit_ptr.set, hal]
    · simp only [put_dev, ↓reduceIte]
      rw [hty, assign_bar_init_type, hlt]
      simp
  · intro hbig hidx
    obtain ⟨r, hr, he, hal, -, -⟩ := alloc_resource_never_fails s.win.pci_emul_membase64
      s.win.pci_emul_memlim64 k addr0 hk h64
    rw [← hsz] at hr
    have hb : b.size > 256 * 1024 * 1024 := hbig
    have hi : b.idx.toNat + 1 ≤ PCI_BARMAX := by
      have := hl.1 (by rw [ht]; decide)
      unfold PCI_BARMAX at *
      omega
    obtain ⟨l, hsw, hlt, hll, hlb, hla⟩ : ∃ l,
        assign_bar_switch s.win (s.devs b.pdi) b.idx.toNat b.type b.size addr0 = some l ∧
        l.type = PCIBAR_MEM64 ∧ l.limit = some .memlim64 ∧
        l.baseptr = s.win.pci_emul_membase64 ∧ l.addr = addr0 := by
      simp only [assign_bar_switch, ht, hb, ↓reduceIte]
      exact ⟨_, rfl, rfl, rfl, rfl, rfl⟩
    have hc := assign_bar_carve_some s.win l b.size .memlim64 r hll
      (by rw [hlb, hla]; exact hr)
    obtain ⟨p, hp, hty0, hty1⟩ := assign_bar_arm_mem64
      (assign_bar_init l.pdi b.idx.toNat l.type b.size l.lobits l.enbit) b.idx.toNat r.addr
      (by rw [assign_bar_init_type, hlt]; simp) hi
    rw [← hlt] at hp
    refine ⟨r, _, hr, he, assign_bar_compose s b addr0 l r _ p hsw hc he hp, ?_, ?_, ?_⟩
    · simp only [put_dev, limit_ptr.set, hal]
    · simp only [put_dev, ↓reduceIte]
      exact hty0
    · simp only [put_dev, ↓reduceIte]
      exact hty1

/-- A 32-bit load returns what a 32-bit store at the same offset put there. -/
theorem get_set_cfgdata32 (pi : pci_devinst) (o v : Nat) :
    pci_get_cfgdata32 (pci_set_cfgdata32 pi o v) o = v % U32 := by
  unfold pci_get_cfgdata32 pci_get_cfgdata16 pci_get_cfgdata8 pci_set_cfgdata32 U32
  simp only [↓reduceIte, Nat.mod_mod]
  have h1 : o + 1 ≠ o := by omega
  have h2 : o + 2 ≠ o := by omega
  have h3 : o + 2 ≠ o + 1 := by omega
  have h4 : o + 2 + 1 = o + 3 := by omega
  have h5 : o + 3 ≠ o := by omega
  have h6 : o + 3 ≠ o + 1 := by omega
  have h7 : o + 3 ≠ o + 2 := by omega
  simp only [h1, h2, h3, h4, h5, h6, h7, ↓reduceIte, Nat.mod_mod]
  omega

/-- The value written by `update_bar_address` fits in 32 bits. -/
theorem bar_write_value_lt (pi : pci_devinst) (idx u val : Nat) :
    bar_write_value pi idx u val < U32 := by
  unfold bar_write_value to32
  exact Nat.mod_lt _ (by decide)

/-- The effect of `update_bar_address` on an I/O or 32-bit memory descriptor whose
address is still 0, for a value other than all-ones: the register receives
the masked value with the low bits, and the descriptor the address read back
from it (0 when the register reads all-ones). -/
theorem update_bar_address_bar_unassigned (pi : pci_devinst) (idx val : Nat) (d : Bool)
    (ha : (pi.pi_bar idx).addr = 0) (hv : val ≠ U32 - 1)
    (ht : (pi.pi_bar idx).type = PCIBAR_IO ∨ (pi.pi_bar idx).type = PCIBAR_MEM32) :
    ∃ pi', update_bar_address_bar pi idx idx val d = some pi' ∧
      pi'.pi_cfgdata =
        (pci_set_cfgdata32 pi (PCIR_BAR idx) (bar_write_value pi idx idx val)).pi_cfgdata ∧
      (∀ i, i ≠ idx → pi'.pi_bar i = pi.pi_bar i) ∧
      pi'.pi_bar idx =
        { pi.pi_bar idx with
          addr :=
            if bar_write_value pi idx idx val = U32 - 1 then 0
            else if (pi.pi_bar idx).type = PCIBAR_IO then
              bar_write_value pi idx idx val &&& PCIM_BAR_IO_BASE
            else to32 (bar_write_value pi idx idx val &&& PCIM_BAR_MEM_BASE) } := by
  have hne : (pi.pi_bar idx).type ≠ PCIBAR_MEM64 := by
    rcases ht with h | h <;> rw [h] <;> decide
  have hlo : bar_reg_lo (pci_set_cfgdata32 pi (PCIR_BAR idx) (bar_write_value pi idx idx val))
      idx = bar_write_value pi idx idx val := by
    unfold bar_reg_lo
    rw [get_set_cfgdata32, Nat.mod_eq_of_lt (bar_write_value_lt _ _ _ _)]
  have hhi : bar_reg_hi (pci_set_cfgdata32 pi (PCIR_BAR idx) (bar_write_value pi idx idx val))
      idx = 0 := by
    unfold bar_reg_hi
    rw [pci_set_cfgdata32_bar]
    simp [hne]
  have hra : bar_reg_addr (pci_set_cfgdata32 pi (PCIR_BAR idx)
      (bar_write_value pi idx idx val)) idx =
      if (pi.pi_bar idx).type = PCIBAR_IO then
        bar_write_value pi idx idx val &&& PCIM_BAR_IO_BASE
      else to32 (bar_write_value pi idx idx val &&& PCIM_BAR_MEM_BASE) := by
    unfold bar_reg_addr
    simp only [hlo, hhi, pci_set_cfgdata32_bar, Nat.zero_shiftLeft, Nat.or_zero]
  unfold update_bar_address_bar
  simp only [ha, ne_eq, not_true_eq_false, and_false, ↓reduceIte, Option.some_bind, hv, hlo,
    hhi]
  have h0 : ¬ (0 = U32 - 1) := by decide
  simp only [h0, or_false]
  by_cases hw : bar_write_value pi idx idx val = U32 - 1
  · simp only [hw, ↓reduceIte]
    refine ⟨_, rfl, ?_, ?_, ?_⟩
    · simp only [set_addr, set_bar, hw]
    · intro i hi
      simp only [set_addr, set_bar, hi, ↓reduceIte, pci_set_cfgdata32_bar]
    · simp only [set_addr, set_bar, ↓reduceIte, pci_set_cfgdata32_bar]
  · simp only [hw, ↓reduceIte]
    have hfin : ∀ q : pci_devinst,
        q = set_addr (pci_set_cfgdata32 pi (PCIR_BAR idx) (bar_write_value pi idx idx val)) idx
          (bar_reg_addr (pci_set_cfgdata32 pi (PCIR_BAR idx)
            (bar_write_value pi idx idx val)) idx) →
        ∃ pi', (if d = true then register_bar q idx else some q) = some pi' ∧
          pi'.pi_cfgdata = q.pi_cfgdata ∧ pi'.pi_bar = q.pi_bar := by
      intro q hq
      split
      · obtain ⟨p, hp⟩ := modify_bar_registration_some q idx true (by
          rw [hq, set_addr_type, pci_set_cfgdata32_bar]
          rcases ht with h | h
          · exact Or.inl h
          · exact Or.inr (Or.inl h))
        have f := modify_bar_registration_frame _ _ _ _ hp
        exact ⟨p, hp, f.2.1, f.1⟩
      · exact ⟨q, rfl, rfl, rfl⟩
    obtain ⟨p, hp, hc, hb⟩ := hfin _ rfl
    refine ⟨p, hp, ?_, ?_, ?_⟩
    · rw [hc]; rfl
    · intro i hi
      rw [hb]
      simp only [set_addr, set_bar, hi, ↓reduceIte, pci_set_cfgdata32_bar]
    · rw [hb, hra]
      simp only [set_addr, set_bar, ↓reduceIte, pci_set_cfgdata32_bar]

/-- The descriptor left by the initialisation step of `pci_emul_assign_bar`: the
type and size of the record, address 0, and the low bits of the switch unless
the descriptor already carried some. -/
theorem assign_bar_init_bar (pdi : pci_devinst) (idx : Nat) (type : pcibar_type)
    (size lobits enbit : Nat) :
    (assign_bar_init pdi idx type size lobits enbit).pi_bar idx =
      { type := type, size := size, addr := 0,
        lobits := if (pdi.pi_bar idx).lobits ≠ 0 then (pdi.pi_bar idx).lobits else lobits } := by
  unfold assign_bar_init
  simp only []
  split <;> split <;> simp_all [pci_set_cfgdata16_bar, set_bar]

/-- C9 (as the code has it): an I/O BAR request of size 1 is granted size 4,
and assigned as the only request against the freshly initialised I/O window
`[0x2000, 0x10000)` it receives address 0xFFFC, the topmost 4-byte slot below
the limit, which becomes the new limit. -/
theorem io_bar_size1_at_top (s : pci_state) (pdi : Nat) (idx : Int) (addr0 : Nat)
    (hidx : 0 ≤ idx ∧ idx ≤ (PCI_BARMAX : Int))
    (_hwb : s.win.pci_emul_iobase = PCI_EMUL_IOBASE)
    (hwl : s.win.pci_emul_iolim = PCI_EMUL_IOLIMIT)
    (hlo : ((s.devs pdi).pi_bar idx.toNat).lobits < 4) :
    alloc_bars [] [⟨pdi, idx, PCIBAR_IO, 1⟩] = some [⟨pdi, idx, PCIBAR_IO, 4⟩] ∧
    ∃ s', assign_bars s addr0 [⟨pdi, idx, PCIBAR_IO, 4⟩] = some s' ∧
      s'.win = { s.win with pci_emul_iolim := 0xFFFC } ∧
      ((s'.devs pdi).pi_bar idx.toNat).type = PCIBAR_IO ∧
      ((s'.devs pdi).pi_bar idx.toNat).size = 4 ∧
      ((s'.devs pdi).pi_bar idx.toNat).addr = 0xFFFC ∧
      0xFFFC + 4 = PCI_EMUL_IOLIMIT := by
  constructor
  · have hq := alloc_bar_legal [] ⟨pdi, idx, PCIBAR_IO, 1⟩
      ⟨fun _ => hidx, fun h => by cases h⟩
    have hg : alloc_bar_size PCIBAR_IO 1 = 4 := by decide
    simp only [alloc_bars, hq, Option.some_bind, granted, hg, insert_bar]
  · have hr : pci_emul_alloc_resource s.win.pci_emul_iobase s.win.pci_emul_iolim 4 addr0 =
        some { error := 0, limit := 0xFFFC, addr := 0xFFFC } := by
      rw [hwl]
      exact (alloc_resource_fits s.win.pci_emul_iobase PCI_EMUL_IOLIMIT 2 addr0
        (by decide) (by decide)).1
    let b : pcibarlist := ⟨pdi, idx, PCIBAR_IO, 4⟩
    let l : assign_locals :=
      { type := PCIBAR_IO, baseptr := s.win.pci_emul_iobase, limit := some .iolim,
        addr := addr0, lobits := PCIM_BAR_IO_SPACE, enbit := PCIM_CMD_PORTEN,
        pdi := s.devs pdi }
    have hsw : assign_bar_switch s.win (s.devs b.pdi) b.idx.toNat b.type b.size addr0 =
      some l := rfl
    have hc : assign_bar_carve s.win l b.size =
        some (_, limit_ptr.set s.win 0xFFFC .iolim) :=
      assign_bar_carve_some s.win l 4 .iolim _ rfl hr
    let p1 := assign_bar_init (s.devs pdi) idx.toNat PCIBAR_IO 4 PCIM_BAR_IO_SPACE
      PCIM_CMD_PORTEN
    have hb1 := assign_bar_init_bar (s.devs pdi) idx.toNat PCIBAR_IO 4 PCIM_BAR_IO_SPACE
      PCIM_CMD_PORTEN
    have hl1 : (p1.pi_bar idx.toNat).lobits < 4 ∧ (p1.pi_bar idx.toNat).lobits ≠ 0 := by
      show ((assign_bar_init (s.devs pdi) idx.toNat PCIBAR_IO 4 PCIM_BAR_IO_SPACE
        PCIM_CMD_PORTEN).pi_bar idx.toNat).lobits < 4 ∧ _ ≠ 0
      rw [hb1]
      simp only [PCIM_BAR_IO_SPACE]
      split <;> omega
    have hw : bar_write_value p1 idx.toNat idx.toNat (to32 0xFFFC) =
        0xFFFC ||| (p1.pi_bar idx.toNat).lobits := by
      have hty : (p1.pi_bar idx.toNat).type = PCIBAR_IO := by
        show ((assign_bar_init (s.devs pdi) idx.toNat PCIBAR_IO 4 PCIM_BAR_IO_SPACE
          PCIM_CMD_PORTEN).pi_bar idx.toNat).type = _
        rw [hb1]
      have hsz : (p1.pi_bar idx.toNat).size = 4 := by
        show ((assign_bar_init (s.devs pdi) idx.toNat PCIBAR_IO 4 PCIM_BAR_IO_SPACE
          PCIM_CMD_PORTEN).pi_bar idx.toNat).size = _
        rw [hb1]
      unfold bar_write_value
      simp only [hty, hsz, reduceCtorEq, ↓reduceIte]
      obtain ⟨h4, h0⟩ := hl1
      generalize (p1.pi_bar idx.toNat).lobits = lob at h4 h0
      interval_cases lob <;> first | omega | decide
    obtain ⟨p, hp, -, -, hbar⟩ := update_bar_address_bar_unassigned p1 idx.toNat (to32 0xFFFC)
      (porten p1)
      (by show ((assign_bar_init (s.devs pdi) idx.toNat PCIBAR_IO 4 PCIM_BAR_IO_SPACE
            PCIM_CMD_PORTEN).pi_bar idx.toNat).addr = 0
          rw [hb1])
      (by decide)
      (Or.inl (by show ((assign_bar_init (s.devs pdi) idx.toNat PCIBAR_IO 4 PCIM_BAR_IO_SPACE
            PCIM_CMD_PORTEN).pi_bar idx.toNat).type = _
                  rw [hb1]))
    have harm : assign_bar_arm (assign_bar_init l.pdi b.idx.toNat l.type b.size l.lobits
        l.enbit) b.idx.toNat l.type 0xFFFC = some p := by
      show assign_bar_arm p1 idx.toNat PCIBAR_IO 0xFFFC = some p
      unfold assign_bar_arm update_bar_address
      have hty : (p1.pi_bar idx.toNat).type = PCIBAR_IO := by
        show ((assign_bar_init (s.devs pdi) idx.toNat PCIBAR_IO 4 PCIM_BAR_IO_SPACE
          PCIM_CMD_PORTEN).pi_bar idx.toNat).type = _
        rw [hb1]
      simp only [reduceCtorEq, ↓reduceIte, Option.some_bind, hty]
      exact hp
    have hfin := assign_bar_compose s b addr0 l _ _ p hsw hc rfl harm
    refine ⟨put_dev s (limit_ptr.set s.win 0xFFFC .iolim) pdi p, ?_, rfl, ?_, ?_, ?_,
      by decide⟩
    · show (pci_emul_assign_bar s b addr0).bind (fun r => assign_bars r.2 addr0 []) = _
      rw [hfin]
      rfl
    · simp only [put_dev, ↓reduceIte, hbar]
      show ((assign_bar_init (s.devs pdi) idx.toNat PCIBAR_IO 4 PCIM_BAR_IO_SPACE
          PCIM_CMD_PORTEN).pi_bar idx.toNat).type = _
      rw [hb1]
    · simp only [put_dev, ↓reduceIte, hbar]
      show ((assign_bar_init (s.devs pdi) idx.toNat PCIBAR_IO 4 PCIM_BAR_IO_SPACE
          PCIM_CMD_PORTEN).pi_bar idx.toNat).size = _
      rw [hb1]
    · simp only [put_dev, ↓reduceIte, hbar, hw]
      have hty : (p1.pi_bar idx.toNat).type = PCIBAR_IO := by
        show ((assign_bar_init (s.devs pdi) idx.toNat PCIBAR_IO 4 PCIM_BAR_IO_SPACE
          PCIM_CMD_PORTEN).pi_bar idx.toNat).type = _
        rw [hb1]
      simp only [hty, ↓reduceIte]
      obtain ⟨h4, h0⟩ := hl1
      generalize (p1.pi_bar idx.toNat).lobits = lob at h4 h0
      interval_cases lob <;> first | omega | decide

/-- Witness for C9: device 0, BAR 0 of a machine without high memory. -/
theorem io_bar_size1_at_top_witness :
    ((0 : Int) ≤ 0 ∧ (0 : Int) ≤ (PCI_BARMAX : Int)) ∧
    (fresh_state 0).win.pci_emul_iobase = PCI_EMUL_IOBASE ∧
    (fresh_state 0).win.pci_emul_iolim = PCI_EMUL_IOLIMIT ∧
    (((fresh_state 0).devs 0).pi_bar (0 : Int).toNat).lobits < 4 ∧
    (alloc_bars [] [⟨0, 0, PCIBAR_IO, 1⟩] = some [⟨0, 0, PCIBAR_IO, 4⟩] ∧
     ∃ s', assign_bars (fresh_state 0) 0 [⟨0, 0, PCIBAR_IO, 4⟩] = some s' ∧
      s'.win = { (fresh_state 0).win with pci_emul_iolim := 0xFFFC } ∧
      ((s'.devs 0).pi_bar (0 : Int).toNat).type = PCIBAR_IO ∧
      ((s'.devs 0).pi_bar (0 : Int).toNat).size = 4 ∧
      ((s'.devs 0).pi_bar (0 : Int).toNat).addr = 0xFFFC ∧
      0xFFFC + 4 = PCI_EMUL_IOLIMIT) :=
  ⟨by decide, by decide, by decide, by decide,
   io_bar_size1_at_top (fresh_state 0) 0 0 0 (by decide) (by decide) (by decide) (by decide)⟩

/-- C9 (the claim fails as stated): the single I/O request of size 1, queued and
assigned against the fresh I/O window `[0x2000, 0x10000)`, is not placed at the
base 0x2000 of the window; its address is 0xFFFC. -/
theorem io_bar_size1_not_at_base :
    alloc_bars [] [io_1] = some [⟨0, 0, PCIBAR_IO, 4⟩] ∧
    (fresh_state 0).win.pci_emul_iobase = 0x2000 ∧
    (fresh_state 0).win.pci_emul_iolim = 0x10000 ∧
    ((alloc_bars [] [io_1]).bind (assign_bars (fresh_state 0) 0)).map (observe_bar 0) =
      some ( PCIBAR_IO, 4, 0xFFFC, 0xFFFD) ∧
    ¬ ((alloc_bars [] [io_1]).bind (assign_bars (fresh_state 0) 0)).map
        (fun s => ((s.devs 0).pi_bar 0).addr) = some PCI_EMUL_IOBASE := by
  refine ⟨by decide, by decide, by decide, by decide, by decide⟩

/-- Witness for C8: a 64-bit BAR of 128 MiB and one of 512 MiB on a machine
without high memory. -/
theorem assign_bar_mem64_placement_witness :
    ((mem64_128M.type = PCIBAR_MEM64 ∧ legal_idx mem64_128M ∧ mem64_128M.size = 2 ^ 27 ∧
      27 < 64 ∧ (fresh_state 0).win.pci_emul_memlim32 < U64 ∧
      (fresh_state 0).win.pci_emul_memlim64 < U64 ∧
      mem64_128M.size ≤ 256 * 1024 * 1024) ∧
     ∃ r s', pci_emul_alloc_resource (fresh_state 0).win.pci_emul_membase32
          (fresh_state 0).win.pci_emul_memlim32 mem64_128M.size 0 = some r ∧ r.error = 0 ∧
        pci_emul_assign_bar (fresh_state 0) mem64_128M 0 = some (0, s') ∧
        s'.win = { (fresh_state 0).win with pci_emul_memlim32 := r.addr } ∧
        ((s'.devs mem64_128M.pdi).pi_bar mem64_128M.idx.toNat).type = PCIBAR_MEM32) ∧
    ((mem64_512M.type = PCIBAR_MEM64 ∧ legal_idx mem64_512M ∧ mem64_512M.size = 2 ^ 29 ∧
      29 < 64 ∧ 256 * 1024 * 1024 < mem64_512M.size ∧
      mem64_512M.idx + 1 ≤ (PCI_BARMAX : Int)) ∧
     ∃ r s', pci_emul_alloc_resource (fresh_state 0).win.pci_emul_membase64
          (fresh_state 0).win.pci_emul_memlim64 mem64_512M.size 0 = some r ∧ r.error = 0 ∧
        pci_emul_assign_bar (fresh_state 0) mem64_512M 0 = some (0, s') ∧
        s'.win = { (fresh_state 0).win with pci_emul_memlim64 := r.addr } ∧
        ((s'.devs mem64_512M.pdi).pi_bar mem64_512M.idx.toNat).type = PCIBAR_MEM64 ∧
        ((s'.devs mem64_512M.pdi).pi_bar (mem64_512M.idx.toNat + 1)).type = PCIBAR_MEMHI64) :=
  ⟨⟨⟨by decide, by decide, by decide, by decide, by decide, by decide, by decide⟩,
    (assign_bar_mem64_placement (fresh_state 0) mem64_128M 0 27 (by decide) (by decide)
      (by decide) (by decide) (by decide) (by decide)).1 (by decide)⟩,
   ⟨⟨by decide, by decide, by decide, by decide, by decide, by decide⟩,
    (assign_bar_mem64_placement (fresh_state 0) mem64_512M 0 29 (by decide) (by decide)
      (by decide) (by decide) (by decide) (by decide)).2 (by decide) (by decide)⟩⟩

/-! ## Order of arrival -/

/-- Two lists sorted by non-increasing size that hold the same records, with
no size occurring twice, are the same list. -/
theorem sorted_perm_unique (q q' : List pcibarlist)
    (hs : q.Pairwise (fun x y => y.size ≤ x.size))
    (hs' : q'.Pairwise (fun x y => y.size ≤ x.size)) (hp : q.Perm q')
    (hd : (q.map (fun x => x.size)).Nodup) : q = q' := by
  have hd' : (q'.map (fun x => x.size)).Nodup := (hp.map _).nodup_iff.1 hd
  have strict : ∀ l : List pcibarlist, l.Pairwise (fun x y => y.size ≤ x.size) →
      (l.map (fun x => x.size)).Nodup → l.Pairwise (fun x y => y.size < x.size) := by
    intro l h1 h2
    have h3 : l.Pairwise (fun x y => x.size ≠ y.size) := by
      rw [List.Nodup, List.pairwise_map] at h2
      exact h2
    exact (h1.and h3).imp (fun h => by omega)
  haveI : IsAntisymm pcibarlist (fun x y => y.size < x.size) :=
    ⟨fun a b h1 h2 => absurd h1 (Nat.lt_asymm h2)⟩
  exact List.eq_of_perm_of_sorted hp (strict q hs hd) (strict q' hs' hd')

/-- Order-independence of the pending list and of the pass: requests with legal
indices and pairwise distinct granted sizes yield the same pending list in
every arrival order, hence the same state after the allocation pass, and the
list is in strictly decreasing size, the largest request first. -/
theorem alloc_bars_order_independent (reqs reqs' : List pcibarlist) (hp : reqs'.Perm reqs)
    (hl : ∀ r ∈ reqs, legal_idx r)
    (hd : (reqs.map (fun r => (granted r).size)).Nodup) (s : pci_state) (addr0 : Nat) :
    ∃ q, alloc_bars [] reqs = some q ∧ alloc_bars [] reqs' = some q ∧
      q.Pairwise (fun x y => y.size < x.size) ∧
      (alloc_bars [] reqs').bind (assign_bars s addr0) = assign_bars s addr0 q ∧
      (alloc_bars [] reqs).bind (assign_bars s addr0) = assign_bars s addr0 q := by
  obtain ⟨q, hq, hs, hperm⟩ := alloc_bars_from reqs hl [] List.Pairwise.nil
  have hl' : ∀ r ∈ reqs', legal_idx r := fun r hr => hl r (hp.subset hr)
  obtain ⟨q', hq', hs', hperm'⟩ := alloc_bars_from reqs' hl' [] List.Pairwise.nil
  rw [List.nil_append] at hperm hperm'
  have hnd : (q.map (fun x => x.size)).Nodup := by
    have := (hperm.map (fun x => x.size)).nodup_iff.2
    apply this
    simpa [List.map_map, Function.comp] using hd
  have hqq : q = q' :=
    sorted_perm_unique q q' hs hs' (hperm.trans ((hp.map granted).symm.trans hperm'.symm)) hnd
  subst hqq
  refine ⟨q, hq, hq', ?_, by rw [hq']; rfl, by rw [hq]; rfl⟩
  have h3 : q.Pairwise (fun x y => x.size ≠ y.size) := by
    rw [List.Nodup, List.pairwise_map] at hnd
    exact hnd
  exact (hs.and h3).imp (fun h => by omega)

/-- C3 (evaluated on the code): two I/O requests of 64 KiB and 32 KiB against the
fresh I/O window.  Whatever the arrival order the pending list is 64 KiB then
32 KiB, and the pass gives the 64 KiB BAR address 0 and the 32 KiB BAR the
address 0xFFFF8000 (carved at `2 ^ 64 - 0x8000`): the largest request, assigned
first, does not receive the highest address. -/
theorem largest_first_not_highest :
    alloc_bars [] [io_64K, io_32K] = some [io_64K, io_32K] ∧
    alloc_bars [] [io_32K, io_64K] = some [io_64K, io_32K] ∧
    (assign_bars (fresh_state 0) 0 [io_64K, io_32K]).map
        (fun s => (observe_bar 0 s, observe_bar 1 s, s.win.pci_emul_iolim)) =
      some (( PCIBAR_IO, 0x10000, 0, 1), ( PCIBAR_IO, 0x8000, 0xFFFF8000, 0xFFFF8001),
        2 ^ 64 - 0x8000) := by
  refine ⟨by decide, by decide, by decide⟩

/-- C6 (evaluated on the code): on a machine without high memory a 64-bit BAR of
64 GiB and a 32-bit BAR of 4 KiB of one device are both assigned by the pass:
the first is carved at 0 and covers `[0, 64 GiB)`, the second at 0xDFFFF000,
inside the first.  Within the 64-bit window alone, three carves of `2 ^ 63`
bytes return `2 ^ 63`, 0 and `2 ^ 63` again. -/
theorem assigned_ranges_overlap :
    alloc_bars [] [mem64_64G, mem32_4K] = some [mem64_64G, mem32_4K] ∧
    (assign_bars (fresh_state 0) 0 [mem64_64G, mem32_4K]).map
        (fun s => (observe_bar 0 s, observe_bar 2 s, s.win.pci_emul_memlim64,
          s.win.pci_emul_memlim32)) =
      some ((PCIBAR_MEM64, 64 * GB, 0, 0xC), (PCIBAR_MEM32, 4096, 0xDFFFF000, 0xDFFFF000),
        0, 0xDFFFF000) ∧
    (0 ≤ 0xDFFFF000 ∧ 0xDFFFF000 < 0 + 64 * GB) ∧
    pci_emul_alloc_resource (fresh_state 0).win.pci_emul_membase64
        (fresh_state 0).win.pci_emul_memlim64 (2 ^ 63) 0 =
      some { error := 0, limit := 2 ^ 63, addr := 2 ^ 63 } ∧
    pci_emul_alloc_resource (fresh_state 0).win.pci_emul_membase64 (2 ^ 63) (2 ^ 63) 0 =
      some { error := 0, limit := 0, addr := 0 } ∧
    pci_emul_alloc_resource (fresh_state 0).win.pci_emul_membase64 0 (2 ^ 63) 0 =
      some { error := 0, limit := 2 ^ 63, addr := 2 ^ 63 } := by
  refine ⟨by decide, by decide, by decide, by decide, by decide, by decide⟩

/-- C7 (evaluated on the code): a 64-bit BAR of 512 MiB on a machine without high
memory is carved at 0xFE0000000 in the 64-bit window, but both calls of
`update_bar_address` receive the low 32 bits of that address: register `idx`
holds 0xE000000C, register `idx + 1` holds 0xE0000000 instead of 0xF, and the
descriptor address is 0xE0000000E0000000. -/
theorem mem64_high_dword_wrong :
    (pci_emul_assign_bar (fresh_state 0) mem64_512M 0).map (fun r => r.1) = some 0 ∧
    (pci_emul_assign_bar (fresh_state 0) mem64_512M 0).map
        (fun r => (observe_bar 0 r.2, observe_bar 1 r.2, r.2.win.pci_emul_memlim64)) =
      some ((PCIBAR_MEM64, 512 * 1024 * 1024, 0xE0000000E0000000, 0xE000000C),
        (PCIBAR_MEMHI64, 0, 0, 0xE0000000), 0xFE0000000) ∧
    (0xFE0000000 % U32 = 0xE0000000 ∧ 0xFE0000000 / U32 = 0xF) := by
  refine ⟨by decide, by decide, by decide⟩

/-- Assigning a ROM BAR moves no window cursor, whatever the state and the
indeterminate value of `addr`. -/
theorem assign_rom_windows (s s' : pci_state) (b : pcibarlist) (addr0 : Nat) (e : Int)
    (ht : b.type = PCIBAR_ROM) (h : pci_emul_assign_bar s b addr0 = some (e, s')) :
    s'.win = s.win := by
  unfold pci_emul_assign_bar at h
  simp only [assign_bar_switch, ht, Option.some_bind, assign_bar_carve, ne_eq,
    not_true_eq_false, ↓reduceIte] at h
  obtain ⟨p, -, hp⟩ := Option.bind_eq_some.1 h
  cases hp
  rfl

/-- C10 (evaluated on the code): the ROM case of `pci_emul_assign_bar` never
assigns the local `addr` and passes it to `update_bar_address`.  When the
variable holds 0xC0000000 on entry, the ROM register and the descriptor
address of the ROM BAR are 0xC0000000 afterwards (no window is touched); only
when it happens to hold 0 are they 0. -/
theorem assign_rom_uninitialised :
    (pci_emul_assign_bar (fresh_state 0) rom_64K 0xC0000000).map
        (fun r => ((r.2.devs 0).pi_bar PCI_ROM_IDX, pci_get_cfgdata32 (r.2.devs 0) PCIR_BIOS,
          r.2.win)) =
      some (⟨PCIBAR_ROM, 0x10000, 0xC0000000, 0⟩, 0xC0000000, (fresh_state 0).win) ∧
    (pci_emul_assign_bar (fresh_state 0) rom_64K 0).map
        (fun r => ((r.2.devs 0).pi_bar PCI_ROM_IDX, pci_get_cfgdata32 (r.2.devs 0) PCIR_BIOS,
          r.2.win)) =
      some (⟨PCIBAR_ROM, 0x10000, 0, 0⟩, 0, (fresh_state 0).win) := by
  refine ⟨by decide, by decide⟩

/-! ## The rounding of `pci_emul_alloc_bar` -/

/-- The bit scan of 0 is 0. -/
theorem flslAux_zero (fuel : Nat) : flslAux fuel 0 = 0 := by
  cases fuel <;> simp [flslAux]

/-- The bit scan brackets its argument between two consecutive powers of two. -/
theorem flslAux_spec (fuel : Nat) : ∀ n : Nat, 0 < n → n < 2 ^ fuel →
    0 < flslAux fuel n ∧ flslAux fuel n ≤ fuel ∧
    2 ^ (flslAux fuel n - 1) ≤ n ∧ n < 2 ^ flslAux fuel n := by
  induction fuel with
  | zero => intro n h0 h1; simp at h1; omega
  | succ fuel ih =>
    intro n h0 h1
    have hn : n ≠ 0 := by omega
    simp only [flslAux, hn, ↓reduceIte, Nat.add_sub_cancel]
    by_cases h2 : n / 2 = 0
    · have hn1 : n = 1 := by omega
      subst hn1
      simp [flslAux_zero]
    · have h3 : n / 2 < 2 ^ fuel := by
        rw [Nat.pow_succ] at h1
        omega
      obtain ⟨a, b, c, d⟩ := ih (n / 2) (by omega) h3
      refine ⟨by omega, by omega, ?_, ?_⟩
      · have e : 2 ^ flslAux fuel (n / 2) = 2 * 2 ^ (flslAux fuel (n / 2) - 1) := by
          rw [← Nat.pow_succ']; congr 1; omega
        rw [e]
        generalize 2 ^ (flslAux fuel (n / 2) - 1) = m at *
        omega
      · rw [Nat.pow_succ]
        generalize 2 ^ flslAux fuel (n / 2) = m at *
        omega

/-- The routine `flsl` brackets a nonzero 64-bit value between two consecutive powers
of two. -/
theorem flsl_spec (n : Nat) (h0 : 0 < n) (h1 : n < 2 ^ 64) :
    0 < flsl n ∧ flsl n ≤ 64 ∧ 2 ^ (flsl n - 1) ≤ n ∧ n < 2 ^ flsl n := by
  unfold flsl U64
  rw [Nat.mod_eq_of_lt h1]
  exact flslAux_spec 64 n h0 h1

/-- A value between `2 ^ i` and `2 ^ (i + 1)` has bit `i` set. -/
theorem testBit_of_bracket (x i : Nat) (h1 : 2 ^ i ≤ x) (h2 : x < 2 ^ (i + 1)) :
    x.testBit i = true := by
  rw [Nat.testBit_to_div_mod]
  have hpos : 0 < 2 ^ i := Nat.two_pow_pos i
  have hq : x / 2 ^ i = 1 := by
    apply Nat.div_eq_of_lt_le
    · simpa using h1
    · rw [Nat.pow_succ] at h2
      omega
  simp [hq]

/-- A nonzero 64-bit value that shares no bit with its predecessor is a power of
two, namely `2 ^ (flsl n - 1)`. -/
theorem pow2_of_and_pred (n : Nat) (h0 : 0 < n) (h1 : n < 2 ^ 64)
    (h : n &&& sub64 n 1 = 0) : n = 2 ^ (flsl n - 1) := by
  obtain ⟨a, b, c, d⟩ := flsl_spec n h0 h1
  rw [sub64_of_le n 1 h0 h1] at h
  by_contra hne
  have hgt : 2 ^ (flsl n - 1) < n := by omega
  have e : flsl n - 1 + 1 = flsl n := by omega
  have t1 : n.testBit (flsl n - 1) = true := testBit_of_bracket n _ c (by rw [e]; exact d)
  have t2 : (n - 1).testBit (flsl n - 1) = true :=
    testBit_of_bracket (n - 1) _ (by omega) (by rw [e]; omega)
  have t3 : (n &&& (n - 1)).testBit (flsl n - 1) = true := by
    rw [Nat.testBit_and, t1, t2]; rfl
  rw [h] at t3
  simp at t3

/-- The rounding step of `pci_emul_alloc_bar` (pci_emul.c:788-789) on a size of at
most `2 ^ 63`: 0 stays 0, any other size becomes the smallest power of two not
below it. -/
theorem round_size_spec (n : Nat) (hn : n ≤ 2 ^ 63) :
    (if n &&& sub64 n 1 ≠ 0 then shl64 1 (flsl n) else n) = 0 ∧ n = 0 ∨
    ∃ k, (if n &&& sub64 n 1 ≠ 0 then shl64 1 (flsl n) else n) = 2 ^ k ∧ k < 64 ∧
      n ≤ 2 ^ k ∧ ∀ j, n ≤ 2 ^ j → 2 ^ k ≤ 2 ^ j := by
  by_cases h0 : n = 0
  · subst h0
    left
    simp
  · right
    have hpos : 0 < n := Nat.pos_of_ne_zero h0
    have h64 : n < 2 ^ 64 := by omega
    obtain ⟨a, b, c, d⟩ := flsl_spec n hpos h64
    by_cases h : n &&& sub64 n 1 = 0
    · have hp := pow2_of_and_pred n hpos h64 h
      have hk : flsl n - 1 < 64 := by omega
      refine ⟨flsl n - 1, ?_, hk, by omega, ?_⟩
      · simp only [h, ne_eq, not_true_eq_false, ↓reduceIte]
        exact hp
      · intro j hj
        rw [← hp]
        exact hj
    · have hnp : n ≠ 2 ^ (flsl n - 1) := by
        intro hp
        apply h
        rw [hp]
        exact pow2_and_pred _ (by omega)
      have hgt : 2 ^ (flsl n - 1) < n := by omega
      have hk : flsl n < 64 := by
        by_contra hc
        have : (2 : Nat) ^ 63 ≤ 2 ^ (flsl n - 1) := Nat.pow_le_pow_right (by decide) (by omega)
        omega
      refine ⟨flsl n, ?_, hk, by omega, ?_⟩
      · simp only [h, ne_eq, not_false_eq_true, ↓reduceIte]
        unfold shl64 U64
        rw [Nat.shiftLeft_eq, Nat.one_mul]
        exact Nat.mod_eq_of_lt (Nat.pow_lt_pow_right (by decide) hk)
      · intro j hj
        apply Nat.pow_le_pow_right (by decide)
        by_contra hc
        have : (2 : Nat) ^ j ≤ 2 ^ (flsl n - 1) := Nat.pow_le_pow_right (by decide) (by omega)
        omega

/-- Where the granted size meets the specification: for a request of at most
`2 ^ 63` bytes, and for a ROM request only above 1024 bytes, the size that
`pci_emul_alloc_bar` queues is a power of two, is at least the request and the
type minimum, and is the least such power of two. -/
theorem alloc_bar_size_spec (type : pcibar_type) (size : Nat) (hs : size ≤ 2 ^ 63)
    (hrom : type = PCIBAR_ROM → 1024 < size) :
    (∃ k, alloc_bar_size type size = 2 ^ k) ∧
    max size (type_minimum type) ≤ alloc_bar_size type size ∧
    ∀ j, max size (type_minimum type) ≤ 2 ^ j → alloc_bar_size type size ≤ 2 ^ j := by
  have key : ∀ (m i : Nat), m = 2 ^ i → ∀ r : Nat,
      (r = 0 ∧ size = 0 ∨ ∃ k, r = 2 ^ k ∧ k < 64 ∧ size ≤ 2 ^ k ∧
        ∀ j, size ≤ 2 ^ j → 2 ^ k ≤ 2 ^ j) →
      (∃ k, max r m = 2 ^ k) ∧ max size m ≤ max r m ∧
        ∀ j, max size m ≤ 2 ^ j → max r m ≤ 2 ^ j := by
    intro m i hm r hr
    rcases hr with ⟨hr0, hs0⟩ | ⟨k, hrk, -, hle, hmin⟩
    · subst hr0 hs0
      simp only [Nat.zero_max]
      exact ⟨⟨i, hm⟩, Nat.le_refl _, fun j hj => hj⟩
    · refine ⟨?_, ?_, ?_⟩
      · rcases Nat.le_total r m with h | h
        · exact ⟨i, by rw [Nat.max_eq_right h]; exact hm⟩
        · exact ⟨k, by rw [Nat.max_eq_left h]; exact hrk⟩
      · rw [hrk]
        exact max_le_max hle (Nat.le_refl _)
      · intro j hj
        have h1 : size ≤ 2 ^ j := Nat.le_trans (Nat.le_max_left _ _) hj
        have h2 : m ≤ 2 ^ j := Nat.le_trans (Nat.le_max_right _ _) hj
        rw [hrk]
        exact Nat.max_le.2 ⟨hmin j h1, h2⟩
  have hr := round_size_spec size hs
  cases type
  case PCIBAR_IO => exact key 4 2 (by norm_num) _ hr
  case PCIBAR_NONE => exact key 16 4 (by norm_num) _ hr
  case PCIBAR_MEM32 => exact key 16 4 (by norm_num) _ hr
  case PCIBAR_MEM64 => exact key 16 4 (by norm_num) _ hr
  case PCIBAR_MEMHI64 => exact key 16 4 (by norm_num) _ hr
  case PCIBAR_ROM =>
    have hbig := hrom rfl
    rcases hr with ⟨-, hs0⟩ | ⟨k, hrk, hk, hle, hmin⟩
    · omega
    · have h11 : (2 : Nat) ^ 11 ≤ 2 ^ k := by
        by_contra hc
        have hk10 : k ≤ 10 := by
          by_contra hk'
          exact hc (Nat.pow_le_pow_right (by decide) (by omega))
        have h10 : (2 : Nat) ^ k ≤ 2 ^ 10 := Nat.pow_le_pow_right (by decide) hk10
        have h1024 : size ≤ 2 ^ 10 := Nat.le_trans hle h10
        omega
      have hm : type_minimum PCIBAR_ROM = 2047 := by decide
      have hval : alloc_bar_size PCIBAR_ROM size = 2 ^ k := by
        show max _ (not32 PCIM_BIOS_ADDR_MASK) = 2 ^ k
        rw [hrk]
        have : not32 PCIM_BIOS_ADDR_MASK = 2047 := by decide
        rw [this]
        exact Nat.max_eq_left (by omega)
      rw [hval, hm]
      refine ⟨⟨k, rfl⟩, Nat.max_le.2 ⟨hle, by omega⟩, ?_⟩
      intro j hj
      exact hmin j (Nat.le_trans (Nat.le_max_left _ _) hj)

/-- What `pci_emul_assign_bar` leaves in a ROM BAR, for every state: whenever it
returns, the ROM register holds the low 32 bits of the indeterminate value
`addr0` of the local `addr`, and the descriptor address is the ROM location
decoded from them. -/
theorem assign_rom_follows_addr0 (s s' : pci_state) (b : pcibarlist) (addr0 : Nat) (e : Int)
    (ht : b.type = PCIBAR_ROM) (h : pci_emul_assign_bar s b addr0 = some (e, s')) :
    pci_get_cfgdata32 (s'.devs b.pdi) PCIR_BIOS = to32 addr0 ∧
    ((s'.devs b.pdi).pi_bar b.idx.toNat).addr = rom_reg_addr (to32 addr0) := by
  unfold pci_emul_assign_bar at h
  simp only [assign_bar_switch, ht, Option.some_bind, assign_bar_carve, ne_eq,
    not_true_eq_false, ↓reduceIte] at h
  obtain ⟨p, hp, hfin⟩ := Option.bind_eq_some.1 h
  cases hfin
  simp only [put_dev, ↓reduceIte]
  unfold assign_bar_arm at hp
  simp only [reduceCtorEq, ↓reduceIte, Option.some_bind] at hp
  unfold update_bar_address at hp
  have hty : ((assign_bar_init (s.devs b.pdi) b.idx.toNat PCIBAR_ROM b.size 0
      PCIM_CMD_MEMEN).pi_bar b.idx.toNat).type = PCIBAR_ROM := by
    rw [assign_bar_init_bar]
  simp only [hty, reduceCtorEq, ↓reduceIte] at hp
  unfold update_bar_address_rom at hp
  obtain ⟨a, ha, hp⟩ := Option.bind_eq_some.1 hp
  have fa : a.pi_bar = (assign_bar_init (s.devs b.pdi) b.idx.toNat PCIBAR_ROM b.size 0
      PCIM_CMD_MEMEN).pi_bar ∧ a.pi_cfgdata = (assign_bar_init (s.devs b.pdi) b.idx.toNat
      PCIBAR_ROM b.size 0 PCIM_CMD_MEMEN).pi_cfgdata := by
    split at ha
    · have f := modify_bar_registration_frame _ _ _ _ ha
      exact ⟨f.1, f.2.1⟩
    · cases ha; exact ⟨rfl, rfl⟩
  simp only [] at hp
  have hpb : p.pi_bar = (set_bar (pci_set_cfgdata32 a PCIR_BIOS (to32 addr0)) b.idx.toNat
      { (pci_set_cfgdata32 a PCIR_BIOS (to32 addr0)).pi_bar b.idx.toNat with
        lobits := to32 addr0 &&& PCIM_BIOS_ENABLE, addr := rom_reg_addr (to32 addr0) }).pi_bar ∧
      p.pi_cfgdata = (pci_set_cfgdata32 a PCIR_BIOS (to32 addr0)).pi_cfgdata := by
    split at hp
    · have f := modify_bar_registration_frame _ _ _ _ hp
      exact ⟨f.1, f.2.1⟩
    · cases hp; exact ⟨rfl, rfl⟩
  constructor
  · have h1 : pci_get_cfgdata32 p PCIR_BIOS =
        pci_get_cfgdata32 (pci_set_cfgdata32 a PCIR_BIOS (to32 addr0)) PCIR_BIOS := by
      unfold pci_get_cfgdata32 pci_get_cfgdata16 pci_get_cfgdata8
      rw [hpb.2]
    rw [h1, get_set_cfgdata32]
    unfold to32
    exact Nat.mod_mod _ _
  · rw [hpb.1]
    simp [set_bar]

/-! ## MSI capability construction -/

/-- C17: for every message count `2 ^ k` in {1, 2, 4, 8, 16, 32} and every next
pointer, `pci_populate_msicap` returns a capability whose ID is MSI, whose
control field is the 64-bit-capable flag OR `k << 1`, whose next pointer is the
given one (as a byte) and whose other fields are zero; decoding bits 3:1 of the
control field as a power of two gives the message count back. -/
theorem pci_populate_msicap_spec (k nextptr : Nat) (hk : k ≤ 5) :
    pci_populate_msicap (2 ^ k) nextptr =
      some { capid := PCIY_MSI, nextptr := nextptr % 256,
             msgctrl := PCIM_MSICTRL_64BIT ||| (k <<< 1),
             addrlo := 0, addrhi := 0, msgdata := 0 } ∧
    2 ^ (((PCIM_MSICTRL_64BIT ||| (k <<< 1)) >>> 1) &&& 7) = 2 ^ k := by
  interval_cases k <;> exact ⟨rfl, by decide⟩

/-- Witness for C17: four messages, as the dummy device asks for. -/
theorem pci_populate_msicap_spec_witness :
    2 ≤ 5 ∧
    (pci_populate_msicap (2 ^ 2) 0 =
      some { capid := PCIY_MSI, nextptr := 0 % 256,
             msgctrl := PCIM_MSICTRL_64BIT ||| (2 <<< 1),
             addrlo := 0, addrhi := 0, msgdata := 0 } ∧
     2 ^ (((PCIM_MSICTRL_64BIT ||| (2 <<< 1)) >>> 1) &&& 7) = 2 ^ 2) :=
  ⟨by decide, pci_populate_msicap_spec 2 0 (by decide)⟩

/-! ## Inert configuration accesses -/

/-- For a width of 1, 2 or 4 the alignment test of `pci_cfgrw` is a remainder. -/
theorem and_width_pred (coff bytes : Nat) (hb : bytes = 1 ∨ bytes = 2 ∨ bytes = 4) :
    coff &&& (bytes - 1) = coff % bytes := by
  rcases hb with rfl | rfl | rfl
  · simp [Nat.mod_one]
  · exact Nat.and_pow_two_sub_one_eq_mod coff 1
  · exact Nat.and_pow_two_sub_one_eq_mod coff 2

/-- C19: accesses that `pci_cfgrw` treats as malformed or out of range are inert.
If no function exists at the address, or the width is not 1, 2 or 4, or the
offset is not a multiple of the width, a read returns 0xFFFFFFFF and a write
returns with the table unchanged.  For an existing function and a valid access
at an offset of 256 or more, a read returns 0 for the offsets 256..259 and
0xFFFFFFFF beyond, and a write returns with the table unchanged. -/
theorem pci_cfgrw_inert (t : Nat → Option businfo) (inp : Bool)
    (bus slot func coff bytes eax : Nat) :
    (((find_func t bus slot func).bind fun fi => fi.fi_devi) = none ∨
      (bytes ≠ 1 ∧ bytes ≠ 2 ∧ bytes ≠ 4) ∨ coff % bytes ≠ 0 →
      pci_cfgrw t inp bus slot func coff bytes eax =
        some (t, if inp then 0xffffffff else eax)) ∧
    (((find_func t bus slot func).bind fun fi => fi.fi_devi) ≠ none →
      (bytes = 1 ∨ bytes = 2 ∨ bytes = 4) → coff % bytes = 0 → 256 ≤ coff →
      pci_cfgrw t inp bus slot func coff bytes eax =
        some (t, if inp then (if coff ≤ 259 then 0 else 0xffffffff) else eax)) := by
  constructor
  · intro h
    unfold pci_cfgrw
    cases hfi : find_func t bus slot func with
    | none => simp
    | some fi =>
      cases hpi : fi.fi_devi with
      | none => simp [hpi]
      | some pi =>
        simp only [hfi, hpi, Option.some_bind, Option.bind_some] at h ⊢
        rcases h with h | h | h
        · cases h
        · simp [h]
        · by_cases hb : bytes = 1 ∨ bytes = 2 ∨ bytes = 4
          · have := and_width_pred coff bytes hb
            simp [this, h]
          · have hb' : bytes ≠ 1 ∧ bytes ≠ 2 ∧ bytes ≠ 4 := by omega
            simp [hb']
  · intro hex hb hal hc
    unfold pci_cfgrw
    cases hfi : find_func t bus slot func with
    | none => simp [hfi] at hex
    | some fi =>
      cases hpi : fi.fi_devi with
      | none => simp [hfi, hpi] at hex
      | some pi =>
        have hb' : ¬ (bytes ≠ 1 ∧ bytes ≠ 2 ∧ bytes ≠ 4) := by omega
        have ha := and_width_pred coff bytes hb
        have hc' : coff ≥ PCI_REGMAX + 1 := hc
        have h259 : (coff ≤ PCI_REGMAX + 4) = (coff ≤ 259) := rfl
        simp only [hpi, Option.some_bind, hb', ha, hal, ne_eq, not_true_eq_false, or_self,
          ↓reduceIte, hc', h259]

/-! ## Capability builder -/

/-- Masking with the complement of `2 ^ k - 1` on `w` bits rounds down to a
multiple of `2 ^ k`. -/
theorem and_not_pow2 (w x k : Nat) (hx : x < 2 ^ w) (hk : k ≤ w) :
    x &&& (2 ^ w - 1 - (2 ^ k - 1)) = x / 2 ^ k * 2 ^ k := by
  have hpos : 0 < 2 ^ k := Nat.two_pow_pos k
  have hle : 2 ^ k ≤ 2 ^ w := Nat.pow_le_pow_right (by decide) hk
  have hlt : 2 ^ k - 1 < 2 ^ w := Nat.lt_of_lt_of_le (Nat.sub_lt hpos (by decide)) hle
  have e1 : 2 ^ w - 1 - (2 ^ k - 1) = 2 ^ w - ((2 ^ k - 1) + 1) := by
    rw [Nat.sub_sub]
    congr 1
    exact Nat.add_comm _ _
  rw [e1, Nat.mul_comm, ← Nat.shiftRight_eq_div_pow]
  apply Nat.eq_of_testBit_eq
  intro i
  rw [Nat.testBit_and, Nat.testBit_two_pow_sub_succ hlt, Nat.testBit_two_pow_sub_one,
    Nat.testBit_mul_pow_two, Nat.testBit_shiftRight]
  by_cases hik : i < k
  · have h1 : ¬ i ≥ k := by omega
    simp [hik, h1]
  · have h1 : i ≥ k := by omega
    have h2 : k + (i - k) = i := by omega
    by_cases hi : i < w
    · simp [hik, h1, h2, hi]
    · have hxi : x.testBit i = false := by
        apply Nat.testBit_lt_two_pow
        exact Nat.lt_of_lt_of_le hx (Nat.pow_le_pow_right (by decide) (by omega))
      simp [hik, h1, h2, hi, hxi]

/-- The macro `roundup2(n, 4)` is `n` rounded up to a multiple of 4. -/
theorem roundup2_four (n : Nat) (hn : n + 3 < 2 ^ 32) : roundup2 n 4 = (n + 3) / 4 * 4 := by
  unfold roundup2 not32 U32
  rw [Nat.mod_eq_of_lt (by omega : n + (4 - 1) < 2 ^ 32)]
  exact and_not_pow2 32 (n + 3) 2 hn (by decide)

/-- The copy loop writes the payload bytes at `capoff + i ...` and nothing else. -/
theorem copy_cap_eq (capoff : Nat) : ∀ (l : List Nat) (pi : pci_devinst) (i : Nat),
    copy_cap capoff pi i l =
      { pi with pi_cfgdata := fun o =>
          if capoff + i ≤ o ∧ o < capoff + i + l.length then
            l.getD (o - (capoff + i)) 0 % 256
          else pi.pi_cfgdata o } := by
  intro l
  induction l with
  | nil =>
    intro pi i
    simp only [copy_cap, List.length_nil, Nat.add_zero]
    have : ∀ o, ¬ (capoff + i ≤ o ∧ o < capoff + i) := by intro o; omega
    simp only [this, ↓reduceIte]
  | cons b rest ih =>
    intro pi i
    simp only [copy_cap, ih, pci_set_cfgdata8, List.length_cons]
    congr 1
    funext o
    by_cases h1 : o = capoff + i
    · subst h1
      have : ¬ (capoff + i + 1 ≤ capoff + i ∧ capoff + i < capoff + (i + 1) + rest.length) := by
        omega
      simp [this]
    · by_cases h2 : capoff + i ≤ o ∧ o < capoff + i + (rest.length + 1)
      · have h3 : capoff + (i + 1) ≤ o ∧ o < capoff + (i + 1) + rest.length := by omega
        obtain ⟨k, hk⟩ : ∃ k, o - (capoff + i) = k + 1 := ⟨o - (capoff + i) - 1, by omega⟩
        have hk' : o - (capoff + (i + 1)) = k := by omega
        simp only [h3, h2, and_self, ↓reduceIte, hk, hk', List.getD_cons_succ]
      · have h3 : ¬ (capoff + (i + 1) ≤ o ∧ o < capoff + (i + 1) + rest.length) := by omega
        simp only [h3, h2, ↓reduceIte, h1]

/-- A 16-bit load has 16 bits. -/
theorem pci_get_cfgdata16_lt (pi : pci_devinst) (o : Nat) : pci_get_cfgdata16 pi o < 65536 := by
  unfold pci_get_cfgdata16 pci_get_cfgdata8
  omega

/-- Testing the capabilities-present bit only looks at bit 4. -/
theorem and_cappresent (x : Nat) : x &&& PCIM_STATUS_CAPPRESENT = 0 ↔ x / 16 % 2 = 0 := by
  have h : PCIM_STATUS_CAPPRESENT = 2 ^ 4 := rfl
  rw [h]
  constructor
  · intro h0
    have := congrArg (fun y => y.testBit 4) h0
    simp only [Nat.testBit_and, Nat.testBit_two_pow_self, Bool.and_true, Nat.zero_testBit] at this
    rw [Nat.testBit_to_div_mod] at this
    have h2 : x / 2 ^ 4 % 2 ≠ 1 := by simpa using this
    have h3 : (2 : Nat) ^ 4 = 16 := rfl
    rw [h3] at h2
    omega
  · intro h0
    apply Nat.eq_of_testBit_eq
    intro i
    rw [Nat.testBit_and, Nat.testBit_two_pow, Nat.zero_testBit]
    by_cases hi : 4 = i
    · subst hi
      rw [Nat.testBit_to_div_mod]
      have h3 : (2 : Nat) ^ 4 = 16 := rfl
      rw [h3]
      simp [h0]
    · simp [hi]

/-- The result of `pci_emul_add_capability`: -1 and an untouched instance when the
rounded payload does not fit below offset 256, else 0 and the instance with the
capability placed. -/
theorem add_capability_eq (pi : pci_devinst) (capdata : List Nat)
    (hn : 0 < capdata.length) (hlen : capdata.length + 3 < 2 ^ 31) :
    pci_emul_add_capability pi capdata =
      if next_capoff pi + (capdata.length + 3) / 4 * 4 > 256 then some (-1, pi)
      else some (0, { pi with
        pi_cfgdata := add_cap_cfgdata pi capdata,
        pi_prevcap := next_capoff pi,
        pi_capend := next_capoff pi + (capdata.length + 3) / 4 * 4 - 1 }) := by
  have hr := roundup2_four capdata.length (by omega)
  have hreg : PCI_REGMAX + 1 = 256 := rfl
  by_cases hb : pci_get_cfgdata16 pi PCIR_STATUS &&& PCIM_STATUS_CAPPRESENT = 0
  · have hc : next_capoff pi = CAP_START_OFFSET := by
      unfold next_capoff; simp only [hb, ↓reduceIte]
    unfold pci_emul_add_capability
    simp only [hr, gt_iff_lt, hn, not_true_eq_false, ↓reduceIte, hreg, hb, hc]
    split
    · rfl
    · simp only [copy_cap_eq, pci_set_cfgdata8, pci_set_cfgdata16]
      congr 3
      funext o
      unfold add_cap_cfgdata
      simp only [hb, hc, ↓reduceIte, Nat.add_zero, Nat.zero_mod]
  · have hc : next_capoff pi = pi.pi_capend + 1 := by
      unfold next_capoff; simp only [hb, ↓reduceIte]
    unfold pci_emul_add_capability
    simp only [hr, gt_iff_lt, hn, not_true_eq_false, ↓reduceIte, hreg, hb, hc]
    split
    · rfl
    · simp only [copy_cap_eq, pci_set_cfgdata8]
      congr 3
      funext o
      unfold add_cap_cfgdata
      simp only [hb, hc, ↓reduceIte, Nat.add_zero, Nat.zero_mod]

/-- The offset of a new capability is 4-byte aligned, at least `CAP_START_OFFSET`, and
above the previous capability. -/
theorem next_capoff_facts (pi : pci_devinst) (hwf : cap_wf pi) :
    next_capoff pi % 4 = 0 ∧ CAP_START_OFFSET ≤ next_capoff pi ∧
    (pci_get_cfgdata16 pi PCIR_STATUS &&& PCIM_STATUS_CAPPRESENT ≠ 0 →
      pi.pi_prevcap + 4 ≤ next_capoff pi ∧ CAP_START_OFFSET ≤ pi.pi_prevcap) := by
  unfold next_capoff
  have h40 : CAP_START_OFFSET = 64 := rfl
  by_cases hb : pci_get_cfgdata16 pi PCIR_STATUS &&& PCIM_STATUS_CAPPRESENT = 0
  · simp only [hb, ↓reduceIte, h40, ne_eq, not_true_eq_false, false_implies, and_true]
    decide
  · have := hwf hb
    rw [h40] at this
    simp only [hb, ↓reduceIte, h40, ne_eq, not_false_eq_true, true_implies]
    omega

/-- The byte `pci_emul_add_capability` leaves at offset `j` of the new capability is
byte `j` of the payload, except for the next pointer. -/
theorem add_cap_cfgdata_payload (pi : pci_devinst) (d : List Nat) (j : Nat)
    (hj : j < d.length) (h1 : j ≠ 1) :
    add_cap_cfgdata pi d (next_capoff pi + j) = d.getD j 0 % 256 := by
  unfold add_cap_cfgdata
  have e1 : ¬ next_capoff pi + j = next_capoff pi + 1 := by omega
  have e2 : next_capoff pi ≤ next_capoff pi + j ∧ next_capoff pi + j < next_capoff pi + d.length := by
    omega
  have e3 : next_capoff pi + j - next_capoff pi = j := by omega
  simp only [e1, e2, e3, and_self, ↓reduceIte]

/-- The next pointer of the new capability is zero. -/
theorem add_cap_cfgdata_next (pi : pci_devinst) (d : List Nat) :
    add_cap_cfgdata pi d (next_capoff pi + 1) = 0 := by
  unfold add_cap_cfgdata
  simp only [↓reduceIte]

/-- Frame of `pci_emul_add_capability` below the new capability: apart from the link
(status register and capabilities pointer, or the previous next pointer) no
byte changes. -/
theorem add_cap_cfgdata_below (pi : pci_devinst) (d : List Nat) (o : Nat)
    (ho : o < next_capoff pi)
    (h1 : pci_get_cfgdata16 pi PCIR_STATUS &&& PCIM_STATUS_CAPPRESENT = 0 →
      o ≠ PCIR_STATUS ∧ o ≠ PCIR_STATUS + 1 ∧ o ≠ PCIR_CAP_PTR)
    (h2 : pci_get_cfgdata16 pi PCIR_STATUS &&& PCIM_STATUS_CAPPRESENT ≠ 0 →
      o ≠ pi.pi_prevcap + 1) :
    add_cap_cfgdata pi d o = pi.pi_cfgdata o := by
  unfold add_cap_cfgdata
  have e1 : ¬ o = next_capoff pi + 1 := by omega
  have e2 : ¬ (next_capoff pi ≤ o ∧ o < next_capoff pi + d.length) := by omega
  by_cases hb : pci_get_cfgdata16 pi PCIR_STATUS &&& PCIM_STATUS_CAPPRESENT = 0
  · obtain ⟨a, b, c⟩ := h1 hb
    simp only [e1, e2, hb, a, b, c, ↓reduceIte]
  · have a := h2 hb
    simp only [e1, e2, hb, a, ↓reduceIte]

/-- The link to the new capability: the capabilities pointer for the first one, the
next pointer of the previous capability otherwise. -/
theorem add_cap_cfgdata_link (pi : pci_devinst) (d : List Nat) (hwf : cap_wf pi)
    (hfit : next_capoff pi ≤ 255) :
    add_cap_cfgdata pi d
      (if pci_get_cfgdata16 pi PCIR_STATUS &&& PCIM_STATUS_CAPPRESENT = 0 then PCIR_CAP_PTR
       else pi.pi_prevcap + 1) = next_capoff pi := by
  obtain ⟨_, hc40, hprev⟩ := next_capoff_facts pi hwf
  have h40 : CAP_START_OFFSET = 64 := rfl
  have h34 : PCIR_CAP_PTR = 52 := rfl
  have h6 : PCIR_STATUS = 6 := rfl
  rw [h40] at hc40
  unfold add_cap_cfgdata
  by_cases hb : pci_get_cfgdata16 pi PCIR_STATUS &&& PCIM_STATUS_CAPPRESENT = 0
  · have e1 : ¬ PCIR_CAP_PTR = next_capoff pi + 1 := by omega
    have e2 : ¬ (next_capoff pi ≤ PCIR_CAP_PTR ∧ PCIR_CAP_PTR < next_capoff pi + d.length) := by
      omega
    have e3 : ¬ PCIR_CAP_PTR = PCIR_STATUS := by decide
    have e4 : ¬ PCIR_CAP_PTR = PCIR_STATUS + 1 := by decide
    simp only [hb, e1, e2, e3, e4, ↓reduceIte]
    omega
  · obtain ⟨hp, _⟩ := hprev hb
    have e1 : ¬ pi.pi_prevcap + 1 = next_capoff pi + 1 := by omega
    have e2 : ¬ (next_capoff pi ≤ pi.pi_prevcap + 1 ∧
        pi.pi_prevcap + 1 < next_capoff pi + d.length) := by omega
    simp only [hb, e1, e2, ↓reduceIte]
    omega

/-- After `pci_emul_add_capability` placed a capability the capabilities-present bit is
set. -/
theorem add_cap_cfgdata_status (pi : pci_devinst) (d : List Nat) (hwf : cap_wf pi) :
    pci_get_cfgdata16 { pi with pi_cfgdata := add_cap_cfgdata pi d } PCIR_STATUS &&&
      PCIM_STATUS_CAPPRESENT ≠ 0 := by
  obtain ⟨_, hc40, hprev⟩ := next_capoff_facts pi hwf
  have h40 : CAP_START_OFFSET = 64 := rfl
  have h6 : PCIR_STATUS = 6 := rfl
  rw [h40] at hc40
  by_cases hb : pci_get_cfgdata16 pi PCIR_STATUS &&& PCIM_STATUS_CAPPRESENT = 0
  · have hy : (pci_get_cfgdata16 pi PCIR_STATUS ||| PCIM_STATUS_CAPPRESENT) &&&
        PCIM_STATUS_CAPPRESENT ≠ 0 := by
      intro h
      have := congrArg (fun y => y.testBit 4) h
      have hp : PCIM_STATUS_CAPPRESENT = 2 ^ 4 := rfl
      simp only [hp, Nat.testBit_and, Nat.testBit_or, Nat.testBit_two_pow_self,
        Nat.zero_testBit, Bool.or_true, Bool.and_true] at this
      cases this
    rw [ne_eq, and_cappresent] at hy ⊢
    have ea : add_cap_cfgdata pi d PCIR_STATUS =
        (pci_get_cfgdata16 pi PCIR_STATUS ||| PCIM_STATUS_CAPPRESENT) % 256 := by
      unfold add_cap_cfgdata
      have e1 : ¬ PCIR_STATUS = next_capoff pi + 1 := by omega
      have e2 : ¬ (next_capoff pi ≤ PCIR_STATUS ∧ PCIR_STATUS < next_capoff pi + d.length) := by
        omega
      simp only [hb, e1, e2, ↓reduceIte]
    have eb : add_cap_cfgdata pi d (PCIR_STATUS + 1) =
        (pci_get_cfgdata16 pi PCIR_STATUS ||| PCIM_STATUS_CAPPRESENT) / 256 % 256 := by
      unfold add_cap_cfgdata
      have e1 : ¬ PCIR_STATUS + 1 = next_capoff pi + 1 := by omega
      have e2 : ¬ (next_capoff pi ≤ PCIR_STATUS + 1 ∧
          PCIR_STATUS + 1 < next_capoff pi + d.length) := by omega
      have e3 : ¬ PCIR_STATUS + 1 = PCIR_STATUS := by omega
      simp only [hb, e1, e2, e3, ↓reduceIte]
    unfold pci_get_cfgdata16 pci_get_cfgdata8
    simp only [ea, eb]
    generalize pci_get_cfgdata16 pi PCIR_STATUS ||| PCIM_STATUS_CAPPRESENT = y at hy ⊢
    omega
  · obtain ⟨hp, hp40⟩ := hprev hb
    rw [h40] at hp40
    have ea : add_cap_cfgdata pi d PCIR_STATUS = pi.pi_cfgdata PCIR_STATUS :=
      add_cap_cfgdata_below pi d _ (by omega) (fun h => absurd h hb) (fun _ => by omega)
    have eb : add_cap_cfgdata pi d (PCIR_STATUS + 1) = pi.pi_cfgdata (PCIR_STATUS + 1) :=
      add_cap_cfgdata_below pi d _ (by omega) (fun h => absurd h hb) (fun _ => by omega)
    have : pci_get_cfgdata16 { pi with pi_cfgdata := add_cap_cfgdata pi d } PCIR_STATUS =
        pci_get_cfgdata16 pi PCIR_STATUS := by
      unfold pci_get_cfgdata16 pci_get_cfgdata8
      simp only [ea, eb]
    rw [this]
    exact hb

/-- With the capabilities-present bit set the next capability goes right after the end
of the list. -/
theorem next_capoff_of_set (pi : pci_devinst)
    (h : pci_get_cfgdata16 pi PCIR_STATUS &&& PCIM_STATUS_CAPPRESENT ≠ 0) :
    next_capoff pi = pi.pi_capend + 1 := by
  unfold next_capoff
  simp only [h, ↓reduceIte]

/-- With the capabilities-present bit clear the next capability goes to
`CAP_START_OFFSET`. -/
theorem next_capoff_of_clear (pi : pci_devinst)
    (h : pci_get_cfgdata16 pi PCIR_STATUS &&& PCIM_STATUS_CAPPRESENT = 0) :
    next_capoff pi = CAP_START_OFFSET := by
  unfold next_capoff
  simp only [h, ↓reduceIte]

/-- A successful `pci_emul_add_capability` had room, and its result is the instance
with the capability placed. -/
theorem add_capability_success (pi pi' : pci_devinst) (capdata : List Nat)
    (hn : 0 < capdata.length) (hlen : capdata.length + 3 < 2 ^ 31)
    (h : pci_emul_add_capability pi capdata = some (0, pi')) :
    next_capoff pi + (capdata.length + 3) / 4 * 4 ≤ 256 ∧
    pi' = { pi with
      pi_cfgdata := add_cap_cfgdata pi capdata,
      pi_prevcap := next_capoff pi,
      pi_capend := next_capoff pi + (capdata.length + 3) / 4 * 4 - 1 } := by
  rw [add_capability_eq pi capdata hn hlen] at h
  split at h
  · simp only [Option.some.injEq, Prod.mk.injEq] at h
    omega
  · rename_i hfit
    simp only [Option.some.injEq, Prod.mk.injEq, true_and] at h
    exact ⟨by omega, h.symm⟩

/-- What a successful `pci_emul_add_capability` leaves behind, for an instance with
consistent bookkeeping. -/
theorem add_capability_effect (pi pi' : pci_devinst) (capdata : List Nat)
    (hn : 0 < capdata.length) (hlen : capdata.length + 3 < 2 ^ 31) (hwf : cap_wf pi)
    (h : pci_emul_add_capability pi capdata = some (0, pi')) :
    next_capoff pi % 4 = 0 ∧
    pi'.pi_prevcap = next_capoff pi ∧
    pi'.pi_capend + 1 = next_capoff pi + (capdata.length + 3) / 4 * 4 ∧
    (pi'.pi_capend + 1) % 4 = 0 ∧
    next_capoff pi' = pi'.pi_capend + 1 ∧
    (∀ j, j < capdata.length → j ≠ 1 →
      pci_get_cfgdata8 pi' (next_capoff pi + j) = capdata.getD j 0 % 256) ∧
    pci_get_cfgdata8 pi' (next_capoff pi + 1) = 0 ∧
    pci_get_cfgdata8 pi'
      (if pci_get_cfgdata16 pi PCIR_STATUS &&& PCIM_STATUS_CAPPRESENT = 0 then PCIR_CAP_PTR
       else pi.pi_prevcap + 1) = next_capoff pi ∧
    pci_get_cfgdata16 pi' PCIR_STATUS &&& PCIM_STATUS_CAPPRESENT ≠ 0 ∧
    cap_wf pi' := by
  obtain ⟨hfit, rfl⟩ := add_capability_success pi pi' capdata hn hlen h
  obtain ⟨hal, hc40, hprev⟩ := next_capoff_facts pi hwf
  have h40 : CAP_START_OFFSET = 64 := rfl
  have hreg : PCI_REGMAX = 255 := rfl
  rw [h40] at hc40
  have hpos : 4 ≤ (capdata.length + 3) / 4 * 4 := by omega
  have hsts := add_cap_cfgdata_status pi capdata hwf
  have hsts' : pci_get_cfgdata16
      { pi with pi_cfgdata := add_cap_cfgdata pi capdata, pi_prevcap := next_capoff pi,
                pi_capend := next_capoff pi + (capdata.length + 3) / 4 * 4 - 1 } PCIR_STATUS =
      pci_get_cfgdata16 { pi with pi_cfgdata := add_cap_cfgdata pi capdata } PCIR_STATUS := rfl
  refine ⟨hal, rfl, ?_, ?_, ?_, ?_, ?_, ?_, ?_, ?_⟩
  · show next_capoff pi + (capdata.length + 3) / 4 * 4 - 1 + 1 = _
    omega
  · show (next_capoff pi + (capdata.length + 3) / 4 * 4 - 1 + 1) % 4 = 0
    omega
  · exact next_capoff_of_set _ (by rw [hsts']; exact hsts)
  · intro j hj h1
    show add_cap_cfgdata pi capdata (next_capoff pi + j) % 256 = _
    rw [add_cap_cfgdata_payload pi capdata j hj h1, Nat.mod_mod]
  · show add_cap_cfgdata pi capdata (next_capoff pi + 1) % 256 = 0
    rw [add_cap_cfgdata_next]
  · show add_cap_cfgdata pi capdata _ % 256 = _
    rw [add_cap_cfgdata_link pi capdata hwf (by omega)]
    omega
  · rw [hsts']
    exact hsts
  · intro _
    show CAP_START_OFFSET ≤ next_capoff pi ∧
      next_capoff pi + 3 ≤ next_capoff pi + (capdata.length + 3) / 4 * 4 - 1 ∧
      (next_capoff pi + (capdata.length + 3) / 4 * 4 - 1 + 1) % 4 = 0 ∧
      next_capoff pi + (capdata.length + 3) / 4 * 4 - 1 ≤ PCI_REGMAX
    rw [h40, hreg]
    omega

/-- C13: for a payload of `n > 0` bytes (`n` in the range of a C `int` that the
rounding does not overflow) `pci_emul_add_capability` fails, returning -1,
exactly when `capoff + roundup(n, 4) > 256`, where `capoff` is
`CAP_START_OFFSET` (0x40) while the capabilities-present bit is clear and
`pi_capend + 1` otherwise; and on failure the device instance (configuration
space, `pi_prevcap`, `pi_capend`) is returned unchanged.  Otherwise it returns
0. -/
theorem add_capability_fails_iff (pi : pci_devinst) (capdata : List Nat)
    (hn : 0 < capdata.length) (hlen : capdata.length + 3 < 2 ^ 31) :
    ((pci_emul_add_capability pi capdata).map Prod.fst = some (-1) ↔
      next_capoff pi + (capdata.length + 3) / 4 * 4 > 256) ∧
    (next_capoff pi + (capdata.length + 3) / 4 * 4 > 256 →
      pci_emul_add_capability pi capdata = some (-1, pi)) ∧
    (¬ next_capoff pi + (capdata.length + 3) / 4 * 4 > 256 →
      (pci_emul_add_capability pi capdata).map Prod.fst = some 0) ∧
    next_capoff pi =
      (if pci_get_cfgdata16 pi PCIR_STATUS &&& PCIM_STATUS_CAPPRESENT = 0 then 0x40
       else pi.pi_capend + 1) := by
  rw [add_capability_eq pi capdata hn hlen]
  refine ⟨?_, ?_, ?_, rfl⟩
  · by_cases hfit : next_capoff pi + (capdata.length + 3) / 4 * 4 > 256
    · simp [hfit]
    · simp [hfit]
  · intro hfit
    simp only [hfit, ↓reduceIte]
  · intro hfit
    simp only [hfit, ↓reduceIte, Option.map_some']

set_option maxRecDepth 100000 in
/-- Witness for C13, at failing and at succeeding inputs.  On `caps_full_dev`, whose list
ends at offset 0xfb, placement is at `pi_capend + 1` = 252: an 8-byte payload
does not fit (252 + 8 > 256), the call returns -1 and the instance is returned
unchanged, while a 4-byte payload ends exactly at offset 256 and is accepted.
On a fresh instance placement is at 0x40: a 193-byte payload is rounded to 196
bytes and fails (64 + 196 > 256), a 192-byte payload is accepted. -/
theorem add_capability_fails_iff_witness :
    (0 < (List.replicate 8 5).length ∧ (List.replicate 8 5).length + 3 < 2 ^ 31 ∧
      pci_get_cfgdata16 caps_full_dev PCIR_STATUS &&& PCIM_STATUS_CAPPRESENT ≠ 0 ∧
      caps_full_dev.pi_capend = 0xfb ∧ next_capoff caps_full_dev = 252 ∧
      next_capoff caps_full_dev + ((List.replicate 8 5).length + 3) / 4 * 4 > 256 ∧
      (pci_emul_add_capability caps_full_dev (List.replicate 8 5)).map Prod.fst = some (-1) ∧
      pci_emul_add_capability caps_full_dev (List.replicate 8 5) = some (-1, caps_full_dev)) ∧
    (¬ next_capoff caps_full_dev + ((List.replicate 4 5).length + 3) / 4 * 4 > 256 ∧
      (pci_emul_add_capability caps_full_dev (List.replicate 4 5)).map Prod.fst = some 0) ∧
    (pci_get_cfgdata16 (fresh_devinst none) PCIR_STATUS &&& PCIM_STATUS_CAPPRESENT = 0 ∧
      next_capoff (fresh_devinst none) = 0x40 ∧
      next_capoff (fresh_devinst none) + ((List.replicate 193 5).length + 3) / 4 * 4 > 256 ∧
      pci_emul_add_capability (fresh_devinst none) (List.replicate 193 5) =
        some (-1, fresh_devinst none)) ∧
    (¬ next_capoff (fresh_devinst none) + ((List.replicate 192 5).length + 3) / 4 * 4 > 256 ∧
      (pci_emul_add_capability (fresh_devinst none) (List.replicate 192 5)).map Prod.fst =
        some 0) :=
  ⟨⟨by decide, by decide, by decide, by decide, by decide, by decide,
      (add_capability_fails_iff caps_full_dev (List.replicate 8 5) (by decide)
        (by decide)).1.2 (by decide),
      (add_capability_fails_iff caps_full_dev (List.replicate 8 5) (by decide)
        (by decide)).2.1 (by decide)⟩,
    ⟨by decide,
      (add_capability_fails_iff caps_full_dev (List.replicate 4 5) (by decide)
        (by decide)).2.2.1 (by decide)⟩,
    ⟨by decide, by decide, by decide,
      (add_capability_fails_iff (fresh_devinst none) (List.replicate 193 5) (by decide)
        (by decide)).2.1 (by decide)⟩,
    ⟨by decide,
      (add_capability_fails_iff (fresh_devinst none) (List.replicate 192 5) (by decide)
        (by decide)).2.2.1 (by decide)⟩⟩

/-- C15: a successful `pci_emul_add_capability` on an instance with consistent
bookkeeping (`cap_wf`: no capabilities yet, or the state left by earlier
calls) places the capability at the 4-byte-aligned offset `next_capoff`, ends
the list at a 4-byte boundary (so the next free offset is aligned again),
stores the payload bytes verbatim except for a zero next pointer at offset + 1,
points the previous capability's next pointer (the capabilities pointer 0x34
for the first capability) at the new offset, sets the capabilities-present
bit, and keeps the bookkeeping consistent. -/
theorem add_capability_places (pi : pci_devinst) (capdata : List Nat)
    (hn : 0 < capdata.length) (hlen : capdata.length + 3 < 2 ^ 31) (hwf : cap_wf pi)
    (h : (pci_emul_add_capability pi capdata).map Prod.fst = some 0) :
    ∃ pi', pci_emul_add_capability pi capdata = some (0, pi') ∧
      next_capoff pi % 4 = 0 ∧
      pi'.pi_prevcap = next_capoff pi ∧
      pi'.pi_capend + 1 = next_capoff pi + (capdata.length + 3) / 4 * 4 ∧
      (pi'.pi_capend + 1) % 4 = 0 ∧
      next_capoff pi' = pi'.pi_capend + 1 ∧
      (∀ j, j < capdata.length → j ≠ 1 →
        pci_get_cfgdata8 pi' (next_capoff pi + j) = capdata.getD j 0 % 256) ∧
      pci_get_cfgdata8 pi' (next_capoff pi + 1) = 0 ∧
      pci_get_cfgdata8 pi'
        (if pci_get_cfgdata16 pi PCIR_STATUS &&& PCIM_STATUS_CAPPRESENT = 0 then PCIR_CAP_PTR
         else pi.pi_prevcap + 1) = next_capoff pi ∧
      pci_get_cfgdata16 pi' PCIR_STATUS &&& PCIM_STATUS_CAPPRESENT ≠ 0 ∧
      cap_wf pi' := by
  cases hr : pci_emul_add_capability pi capdata with
  | none => rw [hr] at h; cases h
  | some r =>
    obtain ⟨rc, pi'⟩ := r
    rw [hr] at h
    simp only [Option.map_some', Option.some.injEq] at h
    subst h
    exact ⟨pi', rfl, add_capability_effect pi pi' capdata hn hlen hwf hr⟩

/-- Witness for C15: a 14-byte payload on an instance without capabilities. -/
theorem add_capability_places_witness :
    ∃ pi', pci_emul_add_capability (fresh_devinst none) (List.replicate 14 5) = some (0, pi') ∧
      next_capoff (fresh_devinst none) % 4 = 0 ∧
      pi'.pi_prevcap = next_capoff (fresh_devinst none) ∧
      pi'.pi_capend + 1 =
        next_capoff (fresh_devinst none) + ((List.replicate 14 5).length + 3) / 4 * 4 ∧
      (pi'.pi_capend + 1) % 4 = 0 ∧
      next_capoff pi' = pi'.pi_capend + 1 ∧
      (∀ j, j < (List.replicate 14 5).length → j ≠ 1 →
        pci_get_cfgdata8 pi' (next_capoff (fresh_devinst none) + j) =
          (List.replicate 14 5).getD j 0 % 256) ∧
      pci_get_cfgdata8 pi' (next_capoff (fresh_devinst none) + 1) = 0 ∧
      pci_get_cfgdata8 pi'
        (if pci_get_cfgdata16 (fresh_devinst none) PCIR_STATUS &&& PCIM_STATUS_CAPPRESENT = 0
         then PCIR_CAP_PTR else (fresh_devinst none).pi_prevcap + 1) =
        next_capoff (fresh_devinst none) ∧
      pci_get_cfgdata16 pi' PCIR_STATUS &&& PCIM_STATUS_CAPPRESENT ≠ 0 ∧
      cap_wf pi' :=
  add_capability_places (fresh_devinst none) (List.replicate 14 5) (by decide) (by decide)
    (fun h => absurd
      (show pci_get_cfgdata16 (fresh_devinst none) PCIR_STATUS &&& PCIM_STATUS_CAPPRESENT = 0
        by decide) h)
    (by decide)

/-! ## The capability chain -/

/-- A chain climbs by at least 4 bytes per capability. -/
theorem chain_le_last (pi : pci_devinst) : ∀ (rest : List Nat) (c : Nat),
    chain_links pi c rest → c + 4 * rest.length ≤ chain_last c rest := by
  intro rest
  induction rest with
  | nil => intro c _; simp [chain_last]
  | cons d rest ih =>
    intro c h
    obtain ⟨_, h2, _, h4⟩ := h
    have := ih d h4
    simp only [chain_last, List.length_cons]
    omega

/-- Every later capability of a chain lies at least 4 bytes above the first and is
4-byte aligned. -/
theorem chain_links_mem (pi : pci_devinst) : ∀ (rest : List Nat) (c : Nat),
    chain_links pi c rest → ∀ x ∈ rest, c + 4 ≤ x ∧ x % 4 = 0 ∧ x ≤ chain_last c rest := by
  intro rest
  induction rest with
  | nil => intro c _ x hx; cases hx
  | cons d rest ih =>
    intro c h x hx
    obtain ⟨_, h2, h3, h4⟩ := h
    rcases List.mem_cons.mp hx with rfl | hx
    · have := chain_le_last pi rest x h4
      simp only [chain_last]
      exact ⟨h2, h3, by omega⟩
    · have := ih d h4 x hx
      simp only [chain_last]
      omega

/-- The offsets of a chain are strictly increasing. -/
theorem chain_links_pairwise (pi : pci_devinst) : ∀ (rest : List Nat) (c : Nat),
    chain_links pi c rest → (c :: rest).Pairwise (fun a b => a < b) := by
  intro rest
  induction rest with
  | nil => intro c _; simp
  | cons d rest ih =>
    intro c h
    rw [List.pairwise_cons]
    refine ⟨?_, ih d h.2.2.2⟩
    intro x hx
    have := chain_links_mem pi (d :: rest) c h x hx
    omega

/-- The last offset of an extended chain. -/
theorem chain_last_append (x : Nat) : ∀ (rest : List Nat) (c : Nat),
    chain_last c (rest ++ [x]) = x := by
  intro rest
  induction rest with
  | nil => intro c; rfl
  | cons d rest ih => intro c; simpa [chain_last] using ih d

/-- Appending a capability at `capoff` extends the chain: the bytes below `capoff` are
kept except for the next pointer of the last capability, which now holds
`capoff`. -/
theorem chain_links_extend (pi pi' : pci_devinst) (capoff : Nat) :
    ∀ (rest : List Nat) (c : Nat), chain_links pi c rest →
    (∀ o, o < capoff → o ≠ chain_last c rest + 1 →
      pci_get_cfgdata8 pi' o = pci_get_cfgdata8 pi o) →
    pci_get_cfgdata8 pi' (chain_last c rest + 1) = capoff →
    pci_get_cfgdata8 pi' (capoff + 1) = 0 →
    chain_last c rest + 4 ≤ capoff → capoff % 4 = 0 →
    chain_links pi' c (rest ++ [capoff]) := by
  intro rest
  induction rest with
  | nil =>
    intro c _ _ hl hz hle hal
    exact ⟨hl, hle, hal, hz⟩
  | cons d rest ih =>
    intro c h hfr hl hz hle hal
    obtain ⟨h1, h2, h3, h4⟩ := h
    have hd := chain_le_last pi rest d h4
    simp only [chain_last] at hfr hl hle
    refine ⟨?_, h2, h3, ih d h4 hfr hl hz hle hal⟩
    rw [hfr (c + 1) (by omega) (by omega)]
    exact h1

/-- A guest that walks a linked chain visits exactly its offsets. -/
theorem cap_walk_chain (pi : pci_devinst) : ∀ (rest : List Nat) (c fuel : Nat),
    chain_links pi c rest → 0 < c → rest.length + 1 < fuel →
    cap_walk pi fuel c = some (c :: rest) := by
  intro rest
  induction rest with
  | nil =>
    intro c fuel h hc hf
    obtain ⟨f, rfl⟩ : ∃ f, fuel = f + 1 := ⟨fuel - 1, by omega⟩
    obtain ⟨g, rfl⟩ : ∃ g, f = g + 1 := ⟨f - 1, by simp at hf; omega⟩
    have hc' : ¬ c = 0 := by omega
    have h' : pci_get_cfgdata8 pi (c + 1) = 0 := h
    simp only [cap_walk, hc', ↓reduceIte, h', Option.map_some']
  | cons d rest ih =>
    intro c fuel h hc hf
    obtain ⟨f, rfl⟩ : ∃ f, fuel = f + 1 := ⟨fuel - 1, by omega⟩
    obtain ⟨h1, h2, _, h4⟩ := h
    have hc' : ¬ c = 0 := by omega
    have := ih d f h4 (by omega) (by simp only [List.length_cons] at hf; omega)
    simp only [cap_walk, hc', ↓reduceIte, h1, this, Option.map_some']

/-- A linked capability list has consistent bookkeeping. -/
theorem cap_chain_wf (pi : pci_devinst) (caps : List Nat) (h : cap_chain pi caps) :
    cap_wf pi := by
  cases caps with
  | nil => intro hb; exact absurd h hb
  | cons c rest =>
    obtain ⟨_, _, hc, hl, hp, h3, h4, h5⟩ := h
    intro _
    have := chain_le_last pi rest c hl
    refine ⟨?_, h3, h4, h5⟩
    rw [hp, ← hc]
    omega

/-- Frame of a successful `pci_emul_add_capability` on a linked list: below the new
capability only the next pointer of the last capability changes. -/
theorem add_capability_frame (pi pi' : pci_devinst) (capdata : List Nat)
    (hn : 0 < capdata.length) (hlen : capdata.length + 3 < 2 ^ 31)
    (hb : pci_get_cfgdata16 pi PCIR_STATUS &&& PCIM_STATUS_CAPPRESENT ≠ 0)
    (h : pci_emul_add_capability pi capdata = some (0, pi')) (o : Nat)
    (ho : o < next_capoff pi) (hne : o ≠ pi.pi_prevcap + 1) :
    pci_get_cfgdata8 pi' o = pci_get_cfgdata8 pi o := by
  obtain ⟨_, rfl⟩ := add_capability_success pi pi' capdata hn hlen h
  show add_cap_cfgdata pi capdata o % 256 = pi.pi_cfgdata o % 256
  rw [add_cap_cfgdata_below pi capdata o ho (fun h0 => absurd h0 hb) (fun _ => hne)]

/-- A successful `pci_emul_add_capability` appends its offset to the linked list. -/
theorem cap_chain_add (pi pi' : pci_devinst) (capdata : List Nat) (caps : List Nat)
    (hn : 0 < capdata.length) (hlen : capdata.length + 3 < 2 ^ 31)
    (hch : cap_chain pi caps)
    (h : pci_emul_add_capability pi capdata = some (0, pi')) :
    cap_chain pi' (caps ++ [next_capoff pi]) := by
  have hwf := cap_chain_wf pi caps hch
  obtain ⟨hal, hprev, hend, hend4, hnext, hpay, hz, hlink, hsts, hwf'⟩ :=
    add_capability_effect pi pi' capdata hn hlen hwf h
  obtain ⟨_, hc40, hp⟩ := next_capoff_facts pi hwf
  obtain ⟨w1, w2, w3, w4⟩ := hwf' hsts
  cases caps with
  | nil =>
    have hb : pci_get_cfgdata16 pi PCIR_STATUS &&& PCIM_STATUS_CAPPRESENT = 0 := hch
    simp only [hb, ↓reduceIte] at hlink
    exact ⟨hsts, hlink, next_capoff_of_clear pi hb, hz, hprev, w2, w3, w4⟩
  | cons c rest =>
    obtain ⟨hb, hptr, hc, hl, hlast, _, _, _⟩ := hch
    obtain ⟨hp4, hp40⟩ := hp hb
    simp only [hb, ↓reduceIte] at hlink
    have h40 : CAP_START_OFFSET = 64 := rfl
    have h34 : PCIR_CAP_PTR = 52 := rfl
    rw [h40] at hp40 hc40
    refine ⟨hsts, ?_, hc, ?_, ?_, w2, w3, w4⟩
    · rw [add_capability_frame pi pi' capdata hn hlen hb h PCIR_CAP_PTR (by omega) (by omega)]
      exact hptr
    · apply chain_links_extend pi pi' (next_capoff pi) rest c hl
      · intro o ho hne
        rw [← hlast] at hne
        exact add_capability_frame pi pi' capdata hn hlen hb h o ho hne
      · rw [← hlast]; exact hlink
      · exact hz
      · rw [← hlast]; exact hp4
      · exact hal
    · show pi'.pi_prevcap = chain_last c (rest ++ [next_capoff pi])
      rw [chain_last_append, hprev]

/-- A successful `pci_emul_add_capability` keeps the stored payloads and stores the new
one. -/
theorem cap_stored_add (pi pi' : pci_devinst) (capdata : List Nat) (caps : List Nat)
    (done : List (List Nat))
    (hn : 0 < capdata.length) (hlen : capdata.length + 3 < 2 ^ 31)
    (hch : cap_chain pi caps) (hst : List.Forall₂ (cap_stored pi) caps done)
    (h : pci_emul_add_capability pi capdata = some (0, pi')) :
    List.Forall₂ (cap_stored pi') (caps ++ [next_capoff pi]) (done ++ [capdata]) := by
  have hwf := cap_chain_wf pi caps hch
  obtain ⟨hal, hprev, hend, hend4, hnext, hpay, hz, hlink, hsts, hwf'⟩ :=
    add_capability_effect pi pi' capdata hn hlen hwf h
  apply List.rel_append
  · cases caps with
    | nil => cases hst; exact List.Forall₂.nil
    | cons c rest =>
      have hb : pci_get_cfgdata16 pi PCIR_STATUS &&& PCIM_STATUS_CAPPRESENT ≠ 0 := hch.1
      have hnc := next_capoff_of_set pi hb
      refine List.Forall₂.imp ?_ hst
      intro o d hs
      obtain ⟨s1, s2, s3⟩ := hs
      refine ⟨Or.inr (by omega), by omega, ?_⟩
      intro j hj h1
      rw [add_capability_frame pi pi' capdata hn hlen hb h (o + j) (by omega) (by omega)]
      exact s3 j hj h1
  · refine List.Forall₂.cons ⟨Or.inl hprev.symm, ?_, hpay⟩ List.Forall₂.nil
    omega

/-- The invariant of a run of `pci_emul_add_capability` calls: the offsets visited so
far are linked and hold their payloads. -/
theorem add_caps_chain : ∀ (ds : List (List Nat)) (pi pi' : pci_devinst) (caps : List Nat)
    (done : List (List Nat)),
    (∀ d ∈ ds, d.length + 3 < 2 ^ 31) →
    cap_chain pi caps → List.Forall₂ (cap_stored pi) caps done →
    add_caps pi ds = some pi' →
    cap_chain pi' (caps ++ cap_offsets (next_capoff pi) ds) ∧
    List.Forall₂ (cap_stored pi') (caps ++ cap_offsets (next_capoff pi) ds) (done ++ ds) := by
  intro ds
  induction ds with
  | nil =>
    intro pi pi' caps done _ hch hst h
    simp only [add_caps, Option.some.injEq] at h
    subst h
    simpa [cap_offsets] using ⟨hch, hst⟩
  | cons d ds ih =>
    intro pi pi' caps done hlen hch hst h
    have hld := hlen d (List.mem_cons_self _ _)
    have hn : 0 < d.length := by
      by_contra h0
      have : pci_emul_add_capability pi d = none := by
        unfold pci_emul_add_capability
        simp only [gt_iff_lt, h0, not_false_eq_true, ↓reduceIte]
      simp [add_caps, this] at h
    cases hr : pci_emul_add_capability pi d with
    | none => simp [add_caps, hr] at h
    | some r =>
      obtain ⟨rc, pi1⟩ := r
      simp only [add_caps, hr, Option.some_bind] at h
      by_cases hrc : rc = 0
      · subst hrc
        simp only [↓reduceIte] at h
        have hwf := cap_chain_wf pi caps hch
        obtain ⟨_, _, hend, _, hnext, _⟩ := add_capability_effect pi pi1 d hn hld hwf hr
        have := ih pi1 pi' (caps ++ [next_capoff pi]) (done ++ [d])
          (fun x hx => hlen x (List.mem_cons_of_mem _ hx))
          (cap_chain_add pi pi1 d caps hn hld hch hr)
          (cap_stored_add pi pi1 d caps done hn hld hch hst hr) h
        rw [hnext, hend] at this
        simpa [cap_offsets, List.append_assoc] using this
      · simp only [hrc, ↓reduceIte] at h
        cases h

/-- C14: on an instance that starts without capabilities, after any non-empty run of
successful `pci_emul_add_capability` calls with payloads `ds`, the walk from the
capabilities pointer (offset 0x34) along the next-pointer bytes ends at a zero
next pointer and visits exactly the offsets `cap_offsets 0x40 ds`: one per
payload, in the order of the calls, strictly increasing (so none twice), and
payload `i` is what is stored at the `i`-th offset visited. -/
theorem cap_chain_walk (pi0 : pci_devinst) (ds : List (List Nat))
    (h0 : pci_get_cfgdata16 pi0 PCIR_STATUS &&& PCIM_STATUS_CAPPRESENT = 0)
    (hlen : ∀ d ∈ ds, d.length + 3 < 2 ^ 31) (hne : ds ≠ [])
    (hadd : (add_caps pi0 ds).isSome = true) :
    ∃ pi, add_caps pi0 ds = some pi ∧
      cap_walk pi 256 (pci_get_cfgdata8 pi PCIR_CAP_PTR) =
        some (cap_offsets CAP_START_OFFSET ds) ∧
      (cap_offsets CAP_START_OFFSET ds).length = ds.length ∧
      (cap_offsets CAP_START_OFFSET ds).Pairwise (fun a b => a < b) ∧
      List.Forall₂
        (fun o d => ∀ j, j < d.length → j ≠ 1 →
          pci_get_cfgdata8 pi (o + j) = d.getD j 0 % 256)
        (cap_offsets CAP_START_OFFSET ds) ds := by
  obtain ⟨pi, hpi⟩ := Option.isSome_iff_exists.mp hadd
  have hinv := add_caps_chain ds pi0 pi [] [] hlen h0 List.Forall₂.nil hpi
  rw [next_capoff_of_clear pi0 h0] at hinv
  simp only [List.nil_append] at hinv
  obtain ⟨hch, hst⟩ := hinv
  refine ⟨pi, hpi, ?_, hst.length_eq, ?_, ?_⟩
  · cases hoff : cap_offsets CAP_START_OFFSET ds with
    | nil =>
      cases ds with
      | nil => exact absurd rfl hne
      | cons d ds => simp [cap_offsets] at hoff
    | cons c rest =>
      rw [hoff] at hch
      obtain ⟨_, hptr, hc, hl, hlast, h3, h4, h5⟩ := hch
      have := chain_le_last pi rest c hl
      have h40 : CAP_START_OFFSET = 64 := rfl
      have hreg : PCI_REGMAX = 255 := rfl
      rw [hptr]
      exact cap_walk_chain pi rest c 256 hl (by omega) (by omega)
  · cases hoff : cap_offsets CAP_START_OFFSET ds with
    | nil => exact List.Pairwise.nil
    | cons c rest =>
      rw [hoff] at hch
      exact chain_links_pairwise pi rest c hch.2.2.2.1
  · exact List.Forall₂.imp (fun o d hs => hs.2.2) hst

/-- Witness for C14, the scenario of the specification: the MSI payload for one
message and then the MSI-X payload for eight messages, on a fresh instance.
The list has exactly two entries, MSI (ID 0x05) first at 0x40 and MSI-X
(ID 0x11) at 0x50, and the next pointer of MSI (offset 0x41) holds 0x50; the
same is read after `pci_emul_add_msicap` and `pci_emul_add_msixcap`. -/
theorem cap_chain_walk_witness :
    (cap_offsets CAP_START_OFFSET [msi1_bytes, msix8_bytes] = [0x40, 0x50] ∧
     (msi_then_msix.bind fun pi => cap_walk pi 256 (pci_get_cfgdata8 pi PCIR_CAP_PTR)) =
       some [0x40, 0x50] ∧
     msi_then_msix.map (fun pi => (pci_get_cfgdata8 pi 0x40, pci_get_cfgdata8 pi 0x41,
       pci_get_cfgdata8 pi 0x50, pci_get_cfgdata8 pi 0x51)) =
       some (PCIY_MSI, 0x50, PCIY_MSIX, 0)) ∧
    ∃ pi, add_caps (fresh_devinst none) [msi1_bytes, msix8_bytes] = some pi ∧
      cap_walk pi 256 (pci_get_cfgdata8 pi PCIR_CAP_PTR) =
        some (cap_offsets CAP_START_OFFSET [msi1_bytes, msix8_bytes]) ∧
      (cap_offsets CAP_START_OFFSET [msi1_bytes, msix8_bytes]).length =
        [msi1_bytes, msix8_bytes].length ∧
      (cap_offsets CAP_START_OFFSET [msi1_bytes, msix8_bytes]).Pairwise (fun a b => a < b) ∧
      List.Forall₂
        (fun o d => ∀ j, j < d.length → j ≠ 1 →
          pci_get_cfgdata8 pi (o + j) = d.getD j 0 % 256)
        (cap_offsets CAP_START_OFFSET [msi1_bytes, msix8_bytes]) [msi1_bytes, msix8_bytes] :=
  ⟨⟨by decide, by decide, by decide⟩,
   cap_chain_walk (fresh_devinst none) [msi1_bytes, msix8_bytes] (by decide) (by decide)
     (by decide) (by decide)⟩

/-! ## MSI-X capability construction -/

/-- The macro `roundup2(x, 4096)` on a `uint32_t` that does not overflow. -/
theorem roundup2_4096 (x : Nat) (hx : x + 4095 < 2 ^ 32) :
    roundup2 x 4096 = (x + 4095) / 4096 * 4096 := by
  unfold roundup2 not32 U32
  rw [Nat.mod_eq_of_lt (by omega : x + (4096 - 1) < 2 ^ 32)]
  exact and_not_pow2 32 (x + 4095) 12 hx (by decide)

/-- The size of the pending-bit array is below `2 ^ 29`. -/
theorem PBA_SIZE_lt (n : Nat) : PBA_SIZE n < 2 ^ 29 := by
  unfold PBA_SIZE roundup2
  have h1 : (n + (64 - 1)) % U32 &&& not32 (64 - 1) ≤ (n + (64 - 1)) % U32 := Nat.and_le_left
  have h2 : (n + (64 - 1)) % U32 < 2 ^ 32 := Nat.mod_lt _ (by decide)
  omega

/-- A BAR index below 8 passes the mask `PCIM_MSIX_BIR_MASK` unchanged. -/
theorem and_bir_mask (b : Nat) (hb : b ≤ 5) : b &&& PCIM_MSIX_BIR_MASK = b := by
  have h : PCIM_MSIX_BIR_MASK = 2 ^ 3 - 1 := rfl
  rw [h, Nat.and_pow_two_sub_one_eq_mod]
  omega

/-- Effect of `pci_emul_add_msixcap` for a legal message count and BAR index. -/
theorem add_msixcap_eq (bars : List pcibarlist) (pdi : Nat) (pi : pci_devinst) (n b : Nat)
    (hn1 : 1 ≤ n) (hn2 : n ≤ MAX_MSIX_TABLE_ENTRIES) (hb : b ≤ 5) :
    pci_populate_msixcap n b ((16 * n + 4095) / 4096 * 4096) =
      some { capid := PCIY_MSIX, nextptr := 0, msgctrl := n - 1, table_info := b,
             pba_info := (16 * n + 4095) / 4096 * 4096 ||| b } ∧
    pci_emul_add_msixcap bars pdi pi n b =
      (pci_emul_add_capability
        { pi with pi_msix := { pi.pi_msix with
            table_bar := b, pba_bar := b, table_offset := 0, table_count := n,
            pba_offset := (16 * n + 4095) / 4096 * 4096, pba_size := PBA_SIZE n,
            table := List.replicate n
              { addr := 0, msg_data := 0, vector_control := PCIM_MSIX_VCTRL_MASK } } }
        (msixcap.bytes
          { capid := PCIY_MSIX, nextptr := 0, msgctrl := n - 1, table_info := b,
            pba_info := (16 * n + 4095) / 4096 * 4096 ||| b })).map
        fun r => (r.1, r.2,
          insert_bar
            { pdi := pdi, idx := (b : Int), type := PCIBAR_MEM32,
              size := alloc_bar_size PCIBAR_MEM32
                ((16 * n + 4095) / 4096 * 4096 + PBA_SIZE n) } bars) := by
  have hmax : MAX_MSIX_TABLE_ENTRIES = 2048 := rfl
  rw [hmax] at hn2
  have htab : (16 * n + 4095) / 4096 * 4096 < 2 ^ 16 := by omega
  have hal : (16 * n + 4095) / 4096 * 4096 % 4096 = 0 := Nat.mul_mod_left _ _
  have hpba := PBA_SIZE_lt n
  have hbir := and_bir_mask b hb
  have hor : (16 * n + 4095) / 4096 * 4096 ||| b < 2 ^ 32 :=
    Nat.or_lt_two_pow (by omega) (by omega)
  have hpop : pci_populate_msixcap n b ((16 * n + 4095) / 4096 * 4096) =
      some { capid := PCIY_MSIX, nextptr := 0, msgctrl := n - 1, table_info := b,
             pba_info := (16 * n + 4095) / 4096 * 4096 ||| b } := by
    unfold pci_populate_msixcap to16 to32 U32
    simp only [hal, not_true_eq_false, ↓reduceIte, hbir]
    rw [Nat.mod_eq_of_lt (by omega : n - 1 < 2 ^ 16), Nat.mod_eq_of_lt (by omega : b < 2 ^ 32),
      Nat.mod_eq_of_lt hor]
  refine ⟨hpop, ?_⟩
  have e1 : to32 (n * MSIX_TABLE_ENTRY_SIZE) = 16 * n := by
    unfold to32 U32 MSIX_TABLE_ENTRY_SIZE
    rw [Nat.mod_eq_of_lt (by omega)]
    omega
  have e2 : roundup2 (16 * n) 4096 = (16 * n + 4095) / 4096 * 4096 :=
    roundup2_4096 _ (by omega)
  have e3 : to32 ((16 * n + 4095) / 4096 * 4096 + PBA_SIZE n) =
      (16 * n + 4095) / 4096 * 4096 + PBA_SIZE n := by
    unfold to32 U32
    exact Nat.mod_eq_of_lt (by omega)
  have hb5 : b ≤ PCIR_MAX_BAR_0 := hb
  have hidx : ¬ ((b : Int) < 0 ∨ (b : Int) > (PCI_BARMAX : Int)) := by
    have : PCI_BARMAX = 5 := rfl
    rw [this]; omega
  unfold pci_emul_add_msixcap
  simp only [e1, e2, hmax, ge_iff_le, hn1, hn2, and_self, not_true_eq_false, ↓reduceIte, hb5,
    pci_msix_table_init, gt_iff_lt, Option.some_bind, hpop, e3, pci_emul_alloc_bar, hidx,
    and_false, reduceCtorEq, false_and, ne_eq, not_false_eq_true, (by omega : 0 < n)]

/-- The bytes of a `struct msixcap` read back from a configuration space that holds them
at `c` (all but the next-pointer byte): ID, control field, table word, PBA
word. -/
theorem msixcap_bytes_read (pi' : pci_devinst) (c : Nat) (m : msixcap)
    (h1 : m.msgctrl < 2 ^ 16) (h2 : m.table_info < 2 ^ 32) (h3 : m.pba_info < 2 ^ 32)
    (hbyte : ∀ j, j < 12 → j ≠ 1 →
      pci_get_cfgdata8 pi' (c + j) = (msixcap.bytes m).getD j 0 % 256) :
    pci_get_cfgdata8 pi' c = m.capid % 256 ∧
    pci_get_cfgdata16 pi' (c + 2) = m.msgctrl ∧
    pci_get_cfgdata32 pi' (c + 4) = m.table_info ∧
    pci_get_cfgdata32 pi' (c + 8) = m.pba_info := by
  have b0 := hbyte 0 (by decide) (by decide)
  have b2 := hbyte 2 (by decide) (by decide)
  have b3 := hbyte 3 (by decide) (by decide)
  have b4 := hbyte 4 (by decide) (by decide)
  have b5 := hbyte 5 (by decide) (by decide)
  have b6 := hbyte 6 (by decide) (by decide)
  have b7 := hbyte 7 (by decide) (by decide)
  have b8 := hbyte 8 (by decide) (by decide)
  have b9 := hbyte 9 (by decide) (by decide)
  have b10 := hbyte 10 (by decide) (by decide)
  have b11 := hbyte 11 (by decide) (by decide)
  simp only [msixcap.bytes, le16, le32, List.cons_append, List.nil_append, List.getD_cons_zero,
    List.getD_cons_succ, Nat.add_zero, Nat.mod_mod] at b0 b2 b3 b4 b5 b6 b7 b8 b9 b10 b11
  have e3 : c + 2 + 1 = c + 3 := by omega
  have e5 : c + 4 + 1 = c + 5 := by omega
  have e6 : c + 4 + 2 = c + 6 := by omega
  have e7 : c + 4 + 2 + 1 = c + 7 := by omega
  have e9 : c + 8 + 1 = c + 9 := by omega
  have e10 : c + 8 + 2 = c + 10 := by omega
  have e11 : c + 8 + 2 + 1 = c + 11 := by omega
  refine ⟨b0, ?_, ?_, ?_⟩
  · unfold pci_get_cfgdata16
    rw [e3, b2, b3]
    omega
  · unfold pci_get_cfgdata32 pci_get_cfgdata16
    rw [e5, e6, e7, b4, b5, b6, b7]
    omega
  · unfold pci_get_cfgdata32 pci_get_cfgdata16
    rw [e9, e10, e11, b8, b9, b10, b11]
    omega

/-- C18: for every message count `n` in `[1, MAX_MSIX_TABLE_ENTRIES]` and BAR index `b`
in `[0, 5]`, `pci_emul_add_msixcap` returns.  The capability it builds, the
structure `pci_populate_msixcap` fills and `pci_emul_add_capability` is handed,
has ID `PCIY_MSIX`, control field `n - 1`, table word `b` and PBA word `(16 n
rounded up to 4 KiB) OR b`.  The return code is 0 exactly when the 12 bytes
fit below offset 256 at the placement offset `next_capoff`, and then the
configuration space holds the capability there: the ID byte 0x11, a zero next
pointer, the control field `n - 1` at offset 2, the table word `b` at offset 4
and the PBA word at offset 8, and the list bookkeeping names it as the last
capability; otherwise the return code is -1 and configuration space and list
bookkeeping are as before.  In both cases the recorded PBA offset is the
rounded table size, a multiple of 4096 that is at least `16 n`, so that the
table `[0, 16 n)` lies below the PBA, and the 32-bit memory BAR queued for
index `b` is a power of two that holds table and PBA. -/
theorem add_msixcap_spec (bars : List pcibarlist) (pdi : Nat) (pi : pci_devinst) (n b : Nat)
    (hn1 : 1 ≤ n) (hn2 : n ≤ MAX_MSIX_TABLE_ENTRIES) (hb : b ≤ 5) :
    ∃ pi' m,
      pci_emul_add_msixcap bars pdi pi n b =
        some ((if next_capoff pi + 12 > 256 then -1 else 0), pi', insert_bar
          { pdi := pdi, idx := (b : Int), type := PCIBAR_MEM32,
            size := alloc_bar_size PCIBAR_MEM32
              (pi'.pi_msix.pba_offset + pi'.pi_msix.pba_size) }
          bars) ∧
      pci_populate_msixcap n b pi'.pi_msix.pba_offset = some m ∧
      pci_emul_add_msixcap bars pdi pi n b =
        (pci_emul_add_capability { pi with pi_msix := pi'.pi_msix } (msixcap.bytes m)).map
          (fun r => (r.1, r.2, insert_bar
            { pdi := pdi, idx := (b : Int), type := PCIBAR_MEM32,
              size := alloc_bar_size PCIBAR_MEM32
                (pi'.pi_msix.pba_offset + pi'.pi_msix.pba_size) }
            bars)) ∧
      m.capid = PCIY_MSIX ∧ m.nextptr = 0 ∧ m.msgctrl = n - 1 ∧ m.table_info = b ∧
      m.pba_info = (16 * n + 4095) / 4096 * 4096 ||| b ∧
      (¬ next_capoff pi + 12 > 256 →
        pci_get_cfgdata8 pi' (next_capoff pi) = PCIY_MSIX ∧
        pci_get_cfgdata8 pi' (next_capoff pi + 1) = 0 ∧
        pci_get_cfgdata16 pi' (next_capoff pi + 2) = n - 1 ∧
        pci_get_cfgdata32 pi' (next_capoff pi + 4) = b ∧
        pci_get_cfgdata32 pi' (next_capoff pi + 8) = (16 * n + 4095) / 4096 * 4096 ||| b ∧
        pi'.pi_prevcap = next_capoff pi ∧ pi'.pi_capend = next_capoff pi + 11) ∧
      (next_capoff pi + 12 > 256 →
        pi'.pi_cfgdata = pi.pi_cfgdata ∧ pi'.pi_prevcap = pi.pi_prevcap ∧
        pi'.pi_capend = pi.pi_capend) ∧
      pi'.pi_msix.table_offset = 0 ∧ pi'.pi_msix.table_count = n ∧
      pi'.pi_msix.table_bar = b ∧ pi'.pi_msix.pba_bar = b ∧
      pi'.pi_msix.pba_offset = (16 * n + 4095) / 4096 * 4096 ∧
      pi'.pi_msix.pba_offset % 4096 = 0 ∧ 16 * n ≤ pi'.pi_msix.pba_offset ∧
      pi'.pi_msix.pba_size = PBA_SIZE n ∧
      pi'.pi_msix.pba_offset + pi'.pi_msix.pba_size ≤
        alloc_bar_size PCIBAR_MEM32 (pi'.pi_msix.pba_offset + pi'.pi_msix.pba_size) ∧
      ∃ k, alloc_bar_size PCIBAR_MEM32 (pi'.pi_msix.pba_offset + pi'.pi_msix.pba_size) = 2 ^ k := by
  obtain ⟨hpop, heq⟩ := add_msixcap_eq bars pdi pi n b hn1 hn2 hb
  have hmax : MAX_MSIX_TABLE_ENTRIES = 2048 := rfl
  rw [hmax] at hn2
  have hpba := PBA_SIZE_lt n
  have hsz := alloc_bar_size_spec PCIBAR_MEM32 ((16 * n + 4095) / 4096 * 4096 + PBA_SIZE n)
    (by omega) (fun h => by cases h)
  have hor : (16 * n + 4095) / 4096 * 4096 ||| b < 2 ^ 32 :=
    Nat.or_lt_two_pow (by omega) (by omega)
  have hlen : (msixcap.bytes
      { capid := PCIY_MSIX, nextptr := 0, msgctrl := n - 1, table_info := b,
        pba_info := (16 * n + 4095) / 4096 * 4096 ||| b }).length = 12 := rfl
  have heq0 := heq
  rw [add_capability_eq _ _ (by rw [hlen]; decide) (by rw [hlen]; decide), hlen] at heq
  have h12 : (12 + 3) / 4 * 4 = 12 := rfl
  have hnc : ∀ (x : msix_info), next_capoff { pi with pi_msix := x } = next_capoff pi :=
    fun _ => rfl
  rw [h12, hnc] at heq
  by_cases hfit : next_capoff pi + 12 > 256
  · rw [if_pos hfit] at heq ⊢
    refine ⟨_, _, heq, hpop, heq0, rfl, rfl, rfl, rfl, rfl,
      fun h => absurd hfit h, fun _ => ⟨rfl, rfl, rfl⟩, rfl, rfl, rfl, rfl, rfl,
      Nat.mul_mod_left _ _, by show 16 * n ≤ (16 * n + 4095) / 4096 * 4096; omega, rfl,
      Nat.le_trans (Nat.le_max_left _ _) hsz.2.1, hsz.1⟩
  · rw [if_neg hfit] at heq ⊢
    refine ⟨_, _, heq, hpop, heq0, rfl, rfl, rfl, rfl, rfl,
      fun _ => ?_, fun h => absurd h hfit, rfl, rfl, rfl, rfl, rfl,
      Nat.mul_mod_left _ _, by show 16 * n ≤ (16 * n + 4095) / 4096 * 4096; omega, rfl,
      Nat.le_trans (Nat.le_max_left _ _) hsz.2.1, hsz.1⟩
    have hbyte : ∀ j, j < 12 → j ≠ 1 →
        pci_get_cfgdata8
          { pi with
            pi_msix := { pi.pi_msix with
              table_bar := b, pba_bar := b, table_offset := 0, table_count := n,
              pba_offset := (16 * n + 4095) / 4096 * 4096, pba_size := PBA_SIZE n,
              table := List.replicate n
                { addr := 0, msg_data := 0, vector_control := PCIM_MSIX_VCTRL_MASK } },
            pi_cfgdata := add_cap_cfgdata
              { pi with pi_msix := { pi.pi_msix with
                  table_bar := b, pba_bar := b, table_offset := 0, table_count := n,
                  pba_offset := (16 * n + 4095) / 4096 * 4096, pba_size := PBA_SIZE n,
                  table := List.replicate n
                    { addr := 0, msg_data := 0, vector_control := PCIM_MSIX_VCTRL_MASK } } }
              (msixcap.bytes
                { capid := PCIY_MSIX, nextptr := 0, msgctrl := n - 1, table_info := b,
                  pba_info := (16 * n + 4095) / 4096 * 4096 ||| b }),
            pi_prevcap := next_capoff pi,
            pi_capend := next_capoff pi + 12 - 1 }
          (next_capoff pi + j) =
        (msixcap.bytes
          { capid := PCIY_MSIX, nextptr := 0, msgctrl := n - 1, table_info := b,
            pba_info := (16 * n + 4095) / 4096 * 4096 ||| b }).getD j 0 % 256 := by
      intro j hj hj1
      have := add_cap_cfgdata_payload
        { pi with pi_msix := { pi.pi_msix with
            table_bar := b, pba_bar := b, table_offset := 0, table_count := n,
            pba_offset := (16 * n + 4095) / 4096 * 4096, pba_size := PBA_SIZE n,
            table := List.replicate n
              { addr := 0, msg_data := 0, vector_control := PCIM_MSIX_VCTRL_MASK } } }
        (msixcap.bytes
          { capid := PCIY_MSIX, nextptr := 0, msgctrl := n - 1, table_info := b,
            pba_info := (16 * n + 4095) / 4096 * 4096 ||| b }) j (by rw [hlen]; exact hj) hj1
      rw [hnc] at this
      show add_cap_cfgdata _ _ (next_capoff pi + j) % 256 = _
      rw [this, Nat.mod_mod]
    obtain ⟨r0, r2, r4, r8⟩ := msixcap_bytes_read _ (next_capoff pi)
      { capid := PCIY_MSIX, nextptr := 0, msgctrl := n - 1, table_info := b,
        pba_info := (16 * n + 4095) / 4096 * 4096 ||| b }
      (by show n - 1 < 2 ^ 16; omega) (by show b < 2 ^ 32; omega) hor hbyte
    have hnext := add_cap_cfgdata_next
      { pi with pi_msix := { pi.pi_msix with
          table_bar := b, pba_bar := b, table_offset := 0, table_count := n,
          pba_offset := (16 * n + 4095) / 4096 * 4096, pba_size := PBA_SIZE n,
          table := List.replicate n
            { addr := 0, msg_data := 0, vector_control := PCIM_MSIX_VCTRL_MASK } } }
      (msixcap.bytes
        { capid := PCIY_MSIX, nextptr := 0, msgctrl := n - 1, table_info := b,
          pba_info := (16 * n + 4095) / 4096 * 4096 ||| b })
    rw [hnc] at hnext
    refine ⟨r0, ?_, r2, r4, r8, rfl, ?_⟩
    · show add_cap_cfgdata _ _ (next_capoff pi + 1) % 256 = 0
      rw [hnext]
    · show next_capoff pi + 12 - 1 = next_capoff pi + 11
      omega

set_option maxRecDepth 100000 in
/-- Witness for C18: eight messages in BAR 0, once on a fresh instance, where the twelve
bytes are placed at offset 0x40 and the call returns 0, and once on
`caps_full_dev`, where only four bytes are free, the call returns -1 and
configuration space is left as it was (the last payload bytes of the earlier
capability, then the four free bytes). -/
theorem add_msixcap_spec_witness :
    ¬ next_capoff (fresh_devinst none) + 12 > 256 ∧
    (pci_emul_add_msixcap [] 0 (fresh_devinst none) 8 0).map
        (fun r => (r.1, (List.range 12).map fun j => pci_get_cfgdata8 r.2.1 (0x40 + j))) =
      some (0, [0x11, 0, 7, 0, 0, 0, 0, 0, 0, 0x10, 0, 0]) ∧
    next_capoff caps_full_dev + 12 > 256 ∧
    (pci_emul_add_msixcap [] 0 caps_full_dev 8 0).map
        (fun r => (r.1, (List.range 8).map fun j => pci_get_cfgdata8 r.2.1 (0xf8 + j))) =
      some (-1, [5, 5, 5, 5, 0, 0, 0, 0]) ∧
    (∃ pi' m,
        pci_emul_add_msixcap [] 0 (fresh_devinst none) 8 0 =
          some ((if next_capoff (fresh_devinst none) + 12 > 256 then -1 else 0), pi', insert_bar
            { pdi := 0, idx := ((0 : Nat) : Int), type := PCIBAR_MEM32,
              size := alloc_bar_size PCIBAR_MEM32
                (pi'.pi_msix.pba_offset + pi'.pi_msix.pba_size) }
            []) ∧
        pci_populate_msixcap 8 0 pi'.pi_msix.pba_offset = some m ∧
        pci_emul_add_msixcap [] 0 (fresh_devinst none) 8 0 =
          (pci_emul_add_capability { (fresh_devinst none) with pi_msix := pi'.pi_msix }
            (msixcap.bytes m)).map
            (fun r => (r.1, r.2, insert_bar
              { pdi := 0, idx := ((0 : Nat) : Int), type := PCIBAR_MEM32,
                size := alloc_bar_size PCIBAR_MEM32
                  (pi'.pi_msix.pba_offset + pi'.pi_msix.pba_size) }
              [])) ∧
        m.capid = PCIY_MSIX ∧ m.nextptr = 0 ∧ m.msgctrl = 8 - 1 ∧ m.table_info = 0 ∧
        m.pba_info = (16 * 8 + 4095) / 4096 * 4096 ||| 0 ∧
        (¬ next_capoff (fresh_devinst none) + 12 > 256 →
          pci_get_cfgdata8 pi' (next_capoff (fresh_devinst none)) = PCIY_MSIX ∧
          pci_get_cfgdata8 pi' (next_capoff (fresh_devinst none) + 1) = 0 ∧
          pci_get_cfgdata16 pi' (next_capoff (fresh_devinst none) + 2) = 8 - 1 ∧
          pci_get_cfgdata32 pi' (next_capoff (fresh_devinst none) + 4) = 0 ∧
          pci_get_cfgdata32 pi' (next_capoff (fresh_devinst none) + 8) =
            (16 * 8 + 4095) / 4096 * 4096 ||| 0 ∧
          pi'.pi_prevcap = next_capoff (fresh_devinst none) ∧
          pi'.pi_capend = next_capoff (fresh_devinst none) + 11) ∧
        (next_capoff (fresh_devinst none) + 12 > 256 →
          pi'.pi_cfgdata = (fresh_devinst none).pi_cfgdata ∧
          pi'.pi_prevcap = (fresh_devinst none).pi_prevcap ∧
          pi'.pi_capend = (fresh_devinst none).pi_capend) ∧
        pi'.pi_msix.table_offset = 0 ∧ pi'.pi_msix.table_count = 8 ∧
        pi'.pi_msix.table_bar = 0 ∧ pi'.pi_msix.pba_bar = 0 ∧
        pi'.pi_msix.pba_offset = (16 * 8 + 4095) / 4096 * 4096 ∧
        pi'.pi_msix.pba_offset % 4096 = 0 ∧ 16 * 8 ≤ pi'.pi_msix.pba_offset ∧
        pi'.pi_msix.pba_size = PBA_SIZE 8 ∧
        pi'.pi_msix.pba_offset + pi'.pi_msix.pba_size ≤
          alloc_bar_size PCIBAR_MEM32 (pi'.pi_msix.pba_offset + pi'.pi_msix.pba_size) ∧
        ∃ k, alloc_bar_size PCIBAR_MEM32 (pi'.pi_msix.pba_offset + pi'.pi_msix.pba_size) =
          2 ^ k) ∧
    (∃ pi' m,
        pci_emul_add_msixcap [] 0 caps_full_dev 8 0 =
          some ((if next_capoff caps_full_dev + 12 > 256 then -1 else 0), pi', insert_bar
            { pdi := 0, idx := ((0 : Nat) : Int), type := PCIBAR_MEM32,
              size := alloc_bar_size PCIBAR_MEM32
                (pi'.pi_msix.pba_offset + pi'.pi_msix.pba_size) }
            []) ∧
        pci_populate_msixcap 8 0 pi'.pi_msix.pba_offset = some m ∧
        pci_emul_add_msixcap [] 0 caps_full_dev 8 0 =
          (pci_emul_add_capability { caps_full_dev with pi_msix := pi'.pi_msix }
            (msixcap.bytes m)).map
            (fun r => (r.1, r.2, insert_bar
              { pdi := 0, idx := ((0 : Nat) : Int), type := PCIBAR_MEM32,
                size := alloc_bar_size PCIBAR_MEM32
                  (pi'.pi_msix.pba_offset + pi'.pi_msix.pba_size) }
              [])) ∧
        m.capid = PCIY_MSIX ∧ m.nextptr = 0 ∧ m.msgctrl = 8 - 1 ∧ m.table_info = 0 ∧
        m.pba_info = (16 * 8 + 4095) / 4096 * 4096 ||| 0 ∧
        (¬ next_capoff caps_full_dev + 12 > 256 →
          pci_get_cfgdata8 pi' (next_capoff caps_full_dev) = PCIY_MSIX ∧
          pci_get_cfgdata8 pi' (next_capoff caps_full_dev + 1) = 0 ∧
          pci_get_cfgdata16 pi' (next_capoff caps_full_dev + 2) = 8 - 1 ∧
          pci_get_cfgdata32 pi' (next_capoff caps_full_dev + 4) = 0 ∧
          pci_get_cfgdata32 pi' (next_capoff caps_full_dev + 8) =
            (16 * 8 + 4095) / 4096 * 4096 ||| 0 ∧
          pi'.pi_prevcap = next_capoff caps_full_dev ∧
          pi'.pi_capend = next_capoff caps_full_dev + 11) ∧
        (next_capoff caps_full_dev + 12 > 256 →
          pi'.pi_cfgdata = caps_full_dev.pi_cfgdata ∧
          pi'.pi_prevcap = caps_full_dev.pi_prevcap ∧
          pi'.pi_capend = caps_full_dev.pi_capend) ∧
        pi'.pi_msix.table_offset = 0 ∧ pi'.pi_msix.table_count = 8 ∧
        pi'.pi_msix.table_bar = 0 ∧ pi'.pi_msix.pba_bar = 0 ∧
        pi'.pi_msix.pba_offset = (16 * 8 + 4095) / 4096 * 4096 ∧
        pi'.pi_msix.pba_offset % 4096 = 0 ∧ 16 * 8 ≤ pi'.pi_msix.pba_offset ∧
        pi'.pi_msix.pba_size = PBA_SIZE 8 ∧
        pi'.pi_msix.pba_offset + pi'.pi_msix.pba_size ≤
          alloc_bar_size PCIBAR_MEM32 (pi'.pi_msix.pba_offset + pi'.pi_msix.pba_size) ∧
        ∃ k, alloc_bar_size PCIBAR_MEM32 (pi'.pi_msix.pba_offset + pi'.pi_msix.pba_size) =
          2 ^ k) :=
  ⟨by decide, by decide, by decide, by decide,
    add_msixcap_spec [] 0 (fresh_devinst none) 8 0 (by decide) (by decide) (by decide),
    add_msixcap_spec [] 0 caps_full_dev 8 0 (by decide) (by decide) (by decide)⟩

/-! ## Reads and writes of an existing function through `pci_cfgrw` -/

/-- A well-formed read of an existing function below offset 256 is the raw read with
the header-type fixup applied; the table is not changed. -/
theorem pci_cfgrw_read (t : Nat → Option businfo) (bus slot func coff bytes eax : Nat)
    (fi : funcinfo) (pi : pci_devinst)
    (hfi : find_func t bus slot func = some fi) (hpi : fi.fi_devi = some pi)
    (hb : bytes = 1 ∨ bytes = 2 ∨ bytes = 4) (hal : coff % bytes = 0) (hc : coff < 256) :
    pci_cfgrw t true bus slot func coff bytes eax =
      (cfg_read_raw fi pi coff bytes eax).map fun v =>
        (t, pci_emul_hdrtype_fixup t bus slot coff bytes v) := by
  have hb' : ¬ (bytes ≠ 1 ∧ bytes ≠ 2 ∧ bytes ≠ 4) := by omega
  have ha := and_width_pred coff bytes hb
  have hc' : ¬ coff ≥ PCI_REGMAX + 1 := by
    have : PCI_REGMAX = 255 := rfl
    omega
  unfold pci_cfgrw
  simp only [hfi, hpi, Option.some_bind, hb', ha, hal, ne_eq, not_true_eq_false, or_self,
    ↓reduceIte, hc']

/-- A well-formed write to an existing function below offset 256 whose device model has
no `pe_cfgwrite` takes the default path, and the instance it leaves is stored
back. -/
theorem pci_cfgrw_write (t : Nat → Option businfo) (bus slot func coff bytes eax : Nat)
    (fi : funcinfo) (pi : pci_devinst)
    (hfi : find_func t bus slot func = some fi) (hpi : fi.fi_devi = some pi)
    (hw : fi.fi_pde.pe_cfgwrite = none)
    (hb : bytes = 1 ∨ bytes = 2 ∨ bytes = 4) (hal : coff % bytes = 0) (hc : coff < 256) :
    pci_cfgrw t false bus slot func coff bytes eax =
      (cfg_write_default pi coff bytes (to32 eax)).map fun pi' =>
        (store_devi t bus slot func pi', eax) := by
  have hb' : ¬ (bytes ≠ 1 ∧ bytes ≠ 2 ∧ bytes ≠ 4) := by omega
  have ha := and_width_pred coff bytes hb
  have hc' : ¬ coff ≥ PCI_REGMAX + 1 := by
    have : PCI_REGMAX = 255 := rfl
    omega
  unfold pci_cfgrw
  simp only [hfi, hpi, Option.some_bind, hb', ha, hal, ne_eq, not_true_eq_false, or_self,
    ↓reduceIte, hc', hw, Bool.false_eq_true]

/-- After a write the function record holds the new instance and the same device
model. -/
theorem find_func_store_devi (t : Nat → Option businfo) (bus slot func : Nat) (fi : funcinfo)
    (pi' : pci_devinst) (hfi : find_func t bus slot func = some fi) :
    find_func (store_devi t bus slot func pi') bus slot func =
      some { fi with fi_devi := some pi' } := by
  unfold find_func at hfi ⊢
  unfold store_devi
  cases hb : t bus with
  | none => rw [hb] at hfi; cases hfi
  | some bi =>
    rw [hb] at hfi
    simp only [Option.map_some', Option.some.injEq] at hfi
    subst hfi
    simp only [↓reduceIte, Option.map_some']

/-! ## The multi-function bit -/

/-- Clearing bit `k` of a 32-bit value and setting it again when `m` holds changes
bit `k` to `m` and no other bit. -/
theorem set_bit_bits (rv k : Nat) (m : Bool) (hrv : rv < 2 ^ 32) (hk : k < 32) :
    (if m = true then (rv &&& (2 ^ 32 - (2 ^ k + 1))) ||| 2 ^ k
      else rv &&& (2 ^ 32 - (2 ^ k + 1))).testBit k = m ∧
    ∀ i, i ≠ k →
      (if m = true then (rv &&& (2 ^ 32 - (2 ^ k + 1))) ||| 2 ^ k
        else rv &&& (2 ^ 32 - (2 ^ k + 1))).testBit i = rv.testBit i := by
  have hlt : 2 ^ k < 2 ^ 32 := Nat.pow_lt_pow_right (by decide) hk
  have hM : ∀ i, (2 ^ 32 - (2 ^ k + 1)).testBit i = (decide (i < 32) && !decide (k = i)) := by
    intro i
    rw [Nat.testBit_two_pow_sub_succ hlt, Nat.testBit_two_pow]
  have hhi : ∀ i, ¬ i < 32 → rv.testBit i = false := by
    intro i hi
    apply Nat.testBit_lt_two_pow
    exact Nat.lt_of_lt_of_le hrv (Nat.pow_le_pow_right (by decide) (by omega))
  generalize 2 ^ 32 - (2 ^ k + 1) = M at hM ⊢
  constructor
  · cases m with
    | true => simp [Nat.testBit_or, Nat.testBit_two_pow_self]
    | false => simp [Nat.testBit_and, hM]
  · intro i hi
    have hki : ¬ k = i := fun h => hi h.symm
    by_cases h32 : i < 32
    · cases m with
      | true => simp [Nat.testBit_or, Nat.testBit_and, hM, Nat.testBit_two_pow, hki, h32]
      | false => simp [Nat.testBit_and, hM, hki, h32]
    · cases m with
      | true =>
        simp [Nat.testBit_or, Nat.testBit_and, hM, Nat.testBit_two_pow, hki, h32, hhi i h32]
      | false => simp [Nat.testBit_and, hM, hki, h32, hhi i h32]

/-- A raw configuration read has at most 32 bits. -/
theorem CFGREAD_lt (pi : pci_devinst) (coff bytes : Nat) : CFGREAD pi coff bytes < 2 ^ 32 := by
  unfold CFGREAD pci_get_cfgdata32 pci_get_cfgdata16 pci_get_cfgdata8
  split
  · omega
  · split <;> omega

/-- The fixup that `pci_emul_hdrtype_fixup` makes for an access that covers the
header-type byte: bit 7 of a 1- or 2-byte value, bit 23 of a 4-byte value. -/
theorem hdrtype_fixup_eq (t : Nat → Option businfo) (bus slot coff bytes rv : Nat)
    (hw : (bytes = 1 ∧ coff = 0x0e) ∨ (bytes = 2 ∧ coff = 0x0e) ∨ (bytes = 4 ∧ coff = 0x0c)) :
    pci_emul_hdrtype_fixup t bus slot coff bytes rv =
      if pci_emul_is_mfdev t bus slot = true then
        (rv &&& (2 ^ 32 - (2 ^ (if bytes = 4 then 23 else 7) + 1))) |||
          2 ^ (if bytes = 4 then 23 else 7)
      else rv &&& (2 ^ 32 - (2 ^ (if bytes = 4 then 23 else 7) + 1)) := by
  have h1 : not32 PCIM_MFDEV = 2 ^ 32 - (2 ^ 7 + 1) := by decide
  have h2 : not32 (PCIM_MFDEV <<< 16) = 2 ^ 32 - (2 ^ 23 + 1) := by decide
  have h3 : PCIM_MFDEV = 2 ^ 7 := by decide
  have h4 : PCIM_MFDEV <<< 16 = 2 ^ 23 := by decide
  have h5 : PCIR_HDRTYPE = 0x0e := rfl
  unfold pci_emul_hdrtype_fixup
  rw [h1, h2, h4, h3, h5]
  rcases hw with ⟨rfl, rfl⟩ | ⟨rfl, rfl⟩ | ⟨rfl, rfl⟩ <;> simp

/-- The multi-function test counts the populated functions of the slot. -/
theorem is_mfdev_iff (t : Nat → Option businfo) (bus slot : Nat) :
    pci_emul_is_mfdev t bus slot = true ↔ 2 ≤ populated t bus slot := by
  unfold pci_emul_is_mfdev populated
  cases t bus with
  | none => simp
  | some bi => simp only [gt_iff_lt, decide_eq_true_eq]; omega

/-- Reads that cover the header-type byte: the value returned, its multi-function bit
and its other bits. -/
theorem hdrtype_read (t : Nat → Option businfo) (bus slot func coff bytes eax : Nat)
    (fi : funcinfo) (pi : pci_devinst)
    (hfi : find_func t bus slot func = some fi) (hpi : fi.fi_devi = some pi)
    (hw : (bytes = 1 ∧ coff = 0x0e) ∨ (bytes = 2 ∧ coff = 0x0e) ∨ (bytes = 4 ∧ coff = 0x0c)) :
    ∃ raw v, cfg_read_raw fi pi coff bytes eax = some raw ∧
      pci_cfgrw t true bus slot func coff bytes eax = some (t, v) ∧
      v.testBit (if bytes = 4 then 23 else 7) = pci_emul_is_mfdev t bus slot ∧
      ∀ i, i ≠ (if bytes = 4 then 23 else 7) → v.testBit i = raw.testBit i := by
  have hb : bytes = 1 ∨ bytes = 2 ∨ bytes = 4 := by omega
  have hal : coff % bytes = 0 := by
    rcases hw with ⟨rfl, rfl⟩ | ⟨rfl, rfl⟩ | ⟨rfl, rfl⟩ <;> rfl
  have hnb : is_bar_offset coff = false := by
    rcases hw with ⟨_, rfl⟩ | ⟨_, rfl⟩ | ⟨_, rfl⟩ <;> decide
  have hraw : ∃ raw, cfg_read_raw fi pi coff bytes eax = some raw ∧ raw < 2 ^ 32 := by
    unfold cfg_read_raw
    simp only [hnb, Bool.false_eq_true, ↓reduceIte]
    split
    · exact ⟨_, rfl, CFGREAD_lt pi coff bytes⟩
    · exact ⟨_, rfl, Nat.mod_lt _ (by decide)⟩
  obtain ⟨raw, hr, hlt⟩ := hraw
  have hk : (if bytes = 4 then 23 else 7) < 32 := by split <;> decide
  have hc : coff < 256 := by omega
  refine ⟨raw, pci_emul_hdrtype_fixup t bus slot coff bytes raw, hr, ?_, ?_⟩
  · rw [pci_cfgrw_read t bus slot func coff bytes eax fi pi hfi hpi hb hal hc, hr]
    rfl
  · rw [hdrtype_fixup_eq t bus slot coff bytes raw hw]
    exact set_bit_bits raw _ (pci_emul_is_mfdev t bus slot) hlt hk

/-- C20: every read of an existing function that covers the header-type byte (width 1
or 2 at offset 0x0E, width 4 at offset 0x0C) returns a value whose
multi-function bit (bit 7, or bit 23 of a 4-byte value) is set if and only if
at least two functions of the slot are populated, whatever the stored bytes and
the read override of the device model yield; every other bit is that of the
unmodified read `cfg_read_raw`. -/
theorem hdrtype_read_mfdev (t : Nat → Option businfo) (bus slot func coff bytes eax : Nat)
    (fi : funcinfo) (pi : pci_devinst)
    (hfi : find_func t bus slot func = some fi) (hpi : fi.fi_devi = some pi)
    (hw : (bytes = 1 ∧ coff = 0x0e) ∨ (bytes = 2 ∧ coff = 0x0e) ∨ (bytes = 4 ∧ coff = 0x0c)) :
    ∃ raw v, cfg_read_raw fi pi coff bytes eax = some raw ∧
      pci_cfgrw t true bus slot func coff bytes eax = some (t, v) ∧
      (v.testBit (if bytes = 4 then 23 else 7) = true ↔ 2 ≤ populated t bus slot) ∧
      ∀ i, i ≠ (if bytes = 4 then 23 else 7) → v.testBit i = raw.testBit i := by
  obtain ⟨raw, v, h1, h2, h3, h4⟩ := hdrtype_read t bus slot func coff bytes eax fi pi hfi hpi hw
  exact ⟨raw, v, h1, h2, by rw [h3]; exact is_mfdev_iff t bus slot, h4⟩

/-- Witness for C20: a 1-byte read of the header type of the only function of a slot,
whose stored header-type byte has the multi-function bit set; it and the reads
of the other widths return the bit as 0, and with a second function in the
slot the same reads return it as 1 although the stored byte has it clear. -/
theorem hdrtype_read_mfdev_witness :
    ((pci_cfgrw (single_func (pci_set_cfgdata8 (fresh_devinst none) 0x0e 0x80)) true
        0 0 0 0x0e 1 0).map Prod.snd = some 0 ∧
     (pci_cfgrw (single_func (pci_set_cfgdata8 (fresh_devinst none) 0x0e 0x80)) true
        0 0 0 0x0e 2 0).map Prod.snd = some 0 ∧
     (pci_cfgrw (single_func (pci_set_cfgdata8 (fresh_devinst none) 0x0e 0x80)) true
        0 0 0 0x0c 4 0).map Prod.snd = some 0 ∧
     (pci_cfgrw (two_funcs (fresh_devinst none) (fresh_devinst none)) true
        0 0 0 0x0e 1 0).map Prod.snd = some 0x80 ∧
     (pci_cfgrw (two_funcs (fresh_devinst none) (fresh_devinst none)) true
        0 0 0 0x0e 2 0).map Prod.snd = some 0x80 ∧
     (pci_cfgrw (two_funcs (fresh_devinst none) (fresh_devinst none)) true
        0 0 0 0x0c 4 0).map Prod.snd = some 0x800000) ∧
    ∃ raw v,
      cfg_read_raw { fi_devi := some (pci_set_cfgdata8 (fresh_devinst none) 0x0e 0x80) }
        (pci_set_cfgdata8 (fresh_devinst none) 0x0e 0x80) 0x0e 1 0 = some raw ∧
      pci_cfgrw (single_func (pci_set_cfgdata8 (fresh_devinst none) 0x0e 0x80)) true
        0 0 0 0x0e 1 0 =
        some (single_func (pci_set_cfgdata8 (fresh_devinst none) 0x0e 0x80), v) ∧
      (v.testBit (if 1 = 4 then 23 else 7) = true ↔
        2 ≤ populated (single_func (pci_set_cfgdata8 (fresh_devinst none) 0x0e 0x80)) 0 0) ∧
      ∀ i, i ≠ (if 1 = 4 then 23 else 7) → v.testBit i = raw.testBit i :=
  ⟨by decide,
   hdrtype_read_mfdev (single_func (pci_set_cfgdata8 (fresh_devinst none) 0x0e 0x80))
     0 0 0 0x0e 1 0 { fi_devi := some (pci_set_cfgdata8 (fresh_devinst none) 0x0e 0x80) }
     (pci_set_cfgdata8 (fresh_devinst none) 0x0e 0x80) rfl rfl (Or.inl ⟨rfl, rfl⟩)⟩

/-- Witness for C19: on a table whose only function is 0/0/0, a read of function 1
returns all-ones, a 4-byte read at offset 256 returns 0, one at offset 260
returns all-ones, and a misaligned write changes nothing. -/
theorem pci_cfgrw_inert_witness :
    pci_cfgrw (single_func (fresh_devinst none)) true 0 0 1 0 4 0 =
      some (single_func (fresh_devinst none), if true = true then 0xffffffff else 0) ∧
    pci_cfgrw (single_func (fresh_devinst none)) false 0 0 0 0x11 2 7 =
      some (single_func (fresh_devinst none), if false = true then 0xffffffff else 7) ∧
    pci_cfgrw (single_func (fresh_devinst none)) true 0 0 0 256 4 7 =
      some (single_func (fresh_devinst none),
        if true = true then (if 256 ≤ 259 then 0 else 0xffffffff) else 7) ∧
    pci_cfgrw (single_func (fresh_devinst none)) true 0 0 0 260 4 7 =
      some (single_func (fresh_devinst none),
        if true = true then (if 260 ≤ 259 then 0 else 0xffffffff) else 7) :=
  ⟨(pci_cfgrw_inert (single_func (fresh_devinst none)) true 0 0 1 0 4 0).1 (Or.inl rfl),
   (pci_cfgrw_inert (single_func (fresh_devinst none)) false 0 0 0 0x11 2 7).1
     (Or.inr (Or.inr (by decide))),
   (pci_cfgrw_inert (single_func (fresh_devinst none)) true 0 0 0 256 4 7).2
     (by intro h; cases h) (by decide) (by decide) (by decide),
   (pci_cfgrw_inert (single_func (fresh_devinst none)) true 0 0 0 260 4 7).2
     (by intro h; cases h) (by decide) (by decide) (by decide)⟩

/-! ## Guest writes to a BAR register -/

/-- The value written for an address depends on the descriptors only. -/
theorem bar_write_value_congr (a pi : pci_devinst) (idx u val : Nat) (h : a.pi_bar = pi.pi_bar) :
    bar_write_value a idx u val = bar_write_value pi idx u val := by
  unfold bar_write_value
  rw [h]

/-- Storing an address keeps type, size and low bits of every descriptor, and every
descriptor but the one updated. -/
theorem set_addr_frame (pi : pci_devinst) (u addr : Nat) :
    (∀ i, ((set_addr pi u addr).pi_bar i).type = (pi.pi_bar i).type ∧
      ((set_addr pi u addr).pi_bar i).size = (pi.pi_bar i).size ∧
      ((set_addr pi u addr).pi_bar i).lobits = (pi.pi_bar i).lobits) ∧
    (∀ i, i ≠ u → (set_addr pi u addr).pi_bar i = pi.pi_bar i) ∧
    ((set_addr pi u addr).pi_bar u).addr = addr := by
  refine ⟨?_, ?_, ?_⟩
  · intro i
    unfold set_addr set_bar
    by_cases h : i = u
    · subst h; simp only [↓reduceIte, and_self]
    · simp only [h, ↓reduceIte, and_self]
  · intro i h
    unfold set_addr set_bar
    simp only [h, ↓reduceIte]
  · unfold set_addr set_bar
    simp only [↓reduceIte]

/-- The effect of the I/O and memory case of `update_bar_address`: it returns, the
register holds all-ones after a size probe and the masked value with the fixed
low bits otherwise, no descriptor changes its type, size or low bits, only the
descriptor updated changes at all, and a size probe leaves its address at 0. -/
theorem update_bar_address_bar_effect (pi : pci_devinst) (idx u val : Nat) (d : Bool)
    (ht : (pi.pi_bar u).type = PCIBAR_IO ∨ (pi.pi_bar u).type = PCIBAR_MEM32 ∨
      (pi.pi_bar u).type = PCIBAR_MEM64) :
    ∃ pi', update_bar_address_bar pi idx u val d = some pi' ∧
      pi'.pi_cfgdata =
        (pci_set_cfgdata32 pi (PCIR_BAR idx)
          (if val = U32 - 1 then U32 - 1 else bar_write_value pi idx u val)).pi_cfgdata ∧
      (∀ i, (pi'.pi_bar i).type = (pi.pi_bar i).type ∧
        (pi'.pi_bar i).size = (pi.pi_bar i).size ∧
        (pi'.pi_bar i).lobits = (pi.pi_bar i).lobits) ∧
      (∀ i, i ≠ u → pi'.pi_bar i = pi.pi_bar i) ∧
      (val = U32 - 1 → (pi'.pi_bar u).addr = 0) := by
  unfold update_bar_address_bar
  have h1 : ∃ a, (if d = true ∧ (pi.pi_bar u).addr ≠ 0 then unregister_bar pi u
      else some pi) = some a ∧ a.pi_bar = pi.pi_bar ∧ a.pi_cfgdata = pi.pi_cfgdata := by
    split
    · obtain ⟨a, ha⟩ := modify_bar_registration_some pi u false ht
      have f := modify_bar_registration_frame _ _ _ _ ha
      exact ⟨a, ha, f.1, f.2.1⟩
    · exact ⟨pi, rfl, rfl, rfl⟩
  obtain ⟨a, ha, fa, fc⟩ := h1
  rw [ha, Option.some_bind]
  have key : ∀ (w x : Nat) (q : pci_devinst),
      q = set_addr (pci_set_cfgdata32 a (PCIR_BAR idx) w) u x →
      q.pi_cfgdata = (pci_set_cfgdata32 pi (PCIR_BAR idx) w).pi_cfgdata ∧
      (∀ i, (q.pi_bar i).type = (pi.pi_bar i).type ∧
        (q.pi_bar i).size = (pi.pi_bar i).size ∧
        (q.pi_bar i).lobits = (pi.pi_bar i).lobits) ∧
      (∀ i, i ≠ u → q.pi_bar i = pi.pi_bar i) ∧ (q.pi_bar u).addr = x := by
    intro w x q hq
    obtain ⟨s1, s2, s3⟩ := set_addr_frame (pci_set_cfgdata32 a (PCIR_BAR idx) w) u x
    rw [pci_set_cfgdata32_bar, fa] at s1 s2
    subst hq
    refine ⟨?_, s1, s2, s3⟩
    rw [set_addr_cfgdata]
    unfold pci_set_cfgdata32
    simp only [fc]
  simp only [bar_write_value_congr a pi idx u val fa]
  by_cases hv : val = U32 - 1
  · simp only [hv, ↓reduceIte]
    obtain ⟨k1, k2, k3, k4⟩ := key (U32 - 1) 0 _ rfl
    exact ⟨_, rfl, k1, k2, k3, fun _ => k4⟩
  · simp only [hv, ↓reduceIte]
    split
    · obtain ⟨k1, k2, k3, _⟩ := key (bar_write_value pi idx u val) 0 _ rfl
      exact ⟨_, rfl, k1, k2, k3, fun h => h.elim⟩
    · obtain ⟨k1, k2, k3, _⟩ := key (bar_write_value pi idx u val)
        (bar_reg_addr (pci_set_cfgdata32 a (PCIR_BAR idx) (bar_write_value pi idx u val)) u)
        _ rfl
      split
      · obtain ⟨p, hp⟩ := modify_bar_registration_some
          (set_addr (pci_set_cfgdata32 a (PCIR_BAR idx) (bar_write_value pi idx u val)) u
            (bar_reg_addr (pci_set_cfgdata32 a (PCIR_BAR idx)
              (bar_write_value pi idx u val)) u)) u true (by rw [(k2 u).1]; exact ht)
        have f := modify_bar_registration_frame _ _ _ _ hp
        refine ⟨p, hp, ?_, ?_, ?_, fun h => h.elim⟩
        · rw [f.2.1]; exact k1
        · rw [f.1]; exact k2
        · rw [f.1]; exact k3
      · exact ⟨_, rfl, k1, k2, k3, fun h => h.elim⟩

/-- The effect of `update_bar_address` on an I/O or memory BAR register, `u` being the
descriptor it updates (the one before for the high half of a 64-bit BAR). -/
theorem update_bar_address_effect (pi : pci_devinst) (idx val : Nat)
    (ht : (pi.pi_bar idx).type = PCIBAR_IO ∨ (pi.pi_bar idx).type = PCIBAR_MEM32 ∨
      (pi.pi_bar idx).type = PCIBAR_MEM64 ∨
      ((pi.pi_bar idx).type = PCIBAR_MEMHI64 ∧ (pi.pi_bar (idx - 1)).type = PCIBAR_MEM64)) :
    ∃ pi', update_bar_address pi idx val = some pi' ∧
      pi'.pi_cfgdata =
        (pci_set_cfgdata32 pi (PCIR_BAR idx)
          (if to32 val = U32 - 1 then U32 - 1
           else bar_write_value pi idx
            (if (pi.pi_bar idx).type = PCIBAR_MEMHI64 then idx - 1 else idx)
            (to32 val))).pi_cfgdata ∧
      (∀ i, (pi'.pi_bar i).type = (pi.pi_bar i).type ∧
        (pi'.pi_bar i).size = (pi.pi_bar i).size ∧
        (pi'.pi_bar i).lobits = (pi.pi_bar i).lobits) ∧
      (∀ i, i ≠ (if (pi.pi_bar idx).type = PCIBAR_MEMHI64 then idx - 1 else idx) →
        pi'.pi_bar i = pi.pi_bar i) ∧
      (to32 val = U32 - 1 →
        (pi'.pi_bar (if (pi.pi_bar idx).type = PCIBAR_MEMHI64 then idx - 1 else idx)).addr
          = 0) := by
  unfold update_bar_address
  rcases ht with h | h | h | ⟨h, h'⟩
  · simp only [h, reduceCtorEq, ↓reduceIte]
    exact update_bar_address_bar_effect pi idx idx (to32 val) _ (Or.inl h)
  · simp only [h, reduceCtorEq, ↓reduceIte]
    exact update_bar_address_bar_effect pi idx idx (to32 val) _ (Or.inr (Or.inl h))
  · simp only [h, reduceCtorEq, ↓reduceIte]
    exact update_bar_address_bar_effect pi idx idx (to32 val) _ (Or.inr (Or.inr h))
  · simp only [h, reduceCtorEq, ↓reduceIte]
    exact update_bar_address_bar_effect pi idx (idx - 1) (to32 val) _ (Or.inr (Or.inr h'))

/-- Facts about the offset of a BAR register. -/
theorem PCIR_BAR_facts (idx : Nat) (hidx : idx ≤ 5) :
    is_bar_offset (PCIR_BAR idx) = true ∧ PCIR_BAR idx &&& 0x3 = 0 ∧
    PCIR_BAR idx ≠ PCIR_BIOS ∧ (PCIR_BAR idx - PCIR_BAR 0) / 4 = idx ∧
    (PCIR_BAR idx ≥ PCIR_BAR 0 ∧ PCIR_BAR idx < PCIR_BAR (PCI_BARMAX + 1)) ∧
    PCIR_BAR idx % 4 = 0 ∧ PCIR_BAR idx < 256 ∧ PCIR_HDRTYPE < PCIR_BAR idx := by
  interval_cases idx <;> decide

/-- The default handling of a 4-byte write to a BAR register is `update_bar_address`. -/
theorem cfg_write_default_bar (pi : pci_devinst) (idx val : Nat) (hidx : idx ≤ 5) :
    cfg_write_default pi (PCIR_BAR idx) 4 val = update_bar_address pi idx val := by
  obtain ⟨h1, h2, h3, h4, _⟩ := PCIR_BAR_facts idx hidx
  unfold cfg_write_default
  simp only [h1, ↓reduceIte, ne_eq, not_true_eq_false, h2, or_self, h3, h4]

/-- A 4-byte read of an I/O or memory BAR register: the register, or the size mask
with the fixed low bits when the register holds all-ones. -/
theorem read_bar_value_reg (pi : pci_devinst) (idx : Nat) (hidx : idx ≤ 5)
    (ht : (pi.pi_bar idx).type = PCIBAR_IO ∨ (pi.pi_bar idx).type = PCIBAR_MEM32 ∨
      (pi.pi_bar idx).type = PCIBAR_MEM64 ∨ (pi.pi_bar idx).type = PCIBAR_MEMHI64) :
    read_bar_value pi (PCIR_BAR idx) 4 =
      some (to32
        (if pci_get_cfgdata32 pi (PCIR_BAR idx) = U32 - 1 then
          if (pi.pi_bar idx).type = PCIBAR_MEMHI64 then
            (not64 (sub64 (pi.pi_bar (idx - 1)).size 1) |||
              (pi.pi_bar (idx - 1)).lobits % U64) >>> 32
          else not64 (sub64 (pi.pi_bar idx).size 1) ||| (pi.pi_bar idx).lobits % U64
         else pci_get_cfgdata32 pi (PCIR_BAR idx))) := by
  obtain ⟨_, h2, _, h4, h5, _⟩ := PCIR_BAR_facts idx hidx
  unfold read_bar_value
  simp only [h5, and_self, ↓reduceIte, h4, h2]
  rcases ht with h | h | h | h <;>
    simp only [h, reduceCtorEq, ↓reduceIte, ne_eq, not_true_eq_false, OfNat.ofNat_ne_one,
      Nat.reduceEqDiff]

/-! ## Size probe and address round trip -/

/-- A 32-bit load depends on the configuration bytes only. -/
theorem pci_get_cfgdata32_congr (a b : pci_devinst) (o : Nat)
    (h : a.pi_cfgdata = b.pi_cfgdata) : pci_get_cfgdata32 a o = pci_get_cfgdata32 b o := by
  unfold pci_get_cfgdata32 pci_get_cfgdata16 pci_get_cfgdata8
  rw [h]

/-- The complement of `size - 1` on 64 bits is the two's complement of `size`. -/
theorem not64_pred (size : Nat) (h0 : 0 < size) (h1 : size < 2 ^ 64) :
    not64 (sub64 size 1) = 2 ^ 64 - size := by
  rw [sub64_of_le size 1 h0 h1]
  unfold not64 U64
  rw [Nat.mod_eq_of_lt (by omega)]
  omega

/-- A 4-byte read of a BAR register of an existing function without a read override,
below the header-type fixup. -/
theorem pci_cfgrw_read_bar (t : Nat → Option businfo) (bus slot func idx eax : Nat)
    (fi : funcinfo) (pi : pci_devinst)
    (hfi : find_func t bus slot func = some fi) (hpi : fi.fi_devi = some pi)
    (hr : fi.fi_pde.pe_cfgread = none) (hidx : idx ≤ 5) :
    pci_cfgrw t true bus slot func (PCIR_BAR idx) 4 eax =
      (read_bar_value pi (PCIR_BAR idx) 4).map fun v => (t, v) := by
  obtain ⟨h1, _, _, _, _, h6, h7, h8⟩ := PCIR_BAR_facts idx hidx
  rw [pci_cfgrw_read t bus slot func (PCIR_BAR idx) 4 eax fi pi hfi hpi (by decide) h6 h7]
  have hfix : ∀ v, pci_emul_hdrtype_fixup t bus slot (PCIR_BAR idx) 4 v = v := by
    intro v
    unfold pci_emul_hdrtype_fixup
    have : ¬ (PCIR_BAR idx ≤ PCIR_HDRTYPE ∧ PCIR_BAR idx + 4 > PCIR_HDRTYPE) := by omega
    simp only [this, ↓reduceIte]
  unfold cfg_read_raw
  simp only [hr, ne_eq, one_ne_zero, not_false_eq_true, ↓reduceIte, h1, hfix]

/-- A 4-byte write of `v` to a BAR register followed by a 4-byte read of it, for an
existing function whose device model has no overrides: the write returns and
stores an instance whose register holds all-ones (for `v` all-ones) or the
masked value, the descriptors keep type, size and low bits, and the read
returns what `read_bar_value` makes of that instance. -/
theorem bar_write_read (t : Nat → Option businfo) (bus slot func idx v eax : Nat)
    (fi : funcinfo) (pi : pci_devinst)
    (hfi : find_func t bus slot func = some fi) (hpi : fi.fi_devi = some pi)
    (hw : fi.fi_pde.pe_cfgwrite = none) (hr : fi.fi_pde.pe_cfgread = none)
    (hidx : idx ≤ 5)
    (ht : (pi.pi_bar idx).type = PCIBAR_IO ∨ (pi.pi_bar idx).type = PCIBAR_MEM32 ∨
      (pi.pi_bar idx).type = PCIBAR_MEM64 ∨
      ((pi.pi_bar idx).type = PCIBAR_MEMHI64 ∧ (pi.pi_bar (idx - 1)).type = PCIBAR_MEM64)) :
    ∃ pi',
      pci_cfgrw t false bus slot func (PCIR_BAR idx) 4 v =
        some (store_devi t bus slot func pi', v) ∧
      (∀ i, (pi'.pi_bar i).type = (pi.pi_bar i).type ∧
        (pi'.pi_bar i).size = (pi.pi_bar i).size ∧
        (pi'.pi_bar i).lobits = (pi.pi_bar i).lobits) ∧
      (∀ i, i ≠ update_idx_of pi idx → pi'.pi_bar i = pi.pi_bar i) ∧
      (to32 v = U32 - 1 → (pi'.pi_bar (update_idx_of pi idx)).addr = 0) ∧
      pci_get_cfgdata32 pi' (PCIR_BAR idx) =
        (if to32 v = U32 - 1 then U32 - 1
         else bar_write_value pi idx (update_idx_of pi idx) (to32 v)) ∧
      pci_cfgrw (store_devi t bus slot func pi') true bus slot func (PCIR_BAR idx) 4 eax =
        (read_bar_value pi' (PCIR_BAR idx) 4).map fun x =>
          (store_devi t bus slot func pi', x) := by
  obtain ⟨_, _, _, _, _, h6, h7, _⟩ := PCIR_BAR_facts idx hidx
  obtain ⟨pi', hu, hcfg, hfr, hoth, haddr⟩ := update_bar_address_effect pi idx (to32 v) ht
  have htt : to32 (to32 v) = to32 v := by unfold to32; exact Nat.mod_mod _ _
  rw [htt] at hcfg haddr
  refine ⟨pi', ?_, hfr, hoth, haddr, ?_, ?_⟩
  · rw [pci_cfgrw_write t bus slot func (PCIR_BAR idx) 4 v fi pi hfi hpi hw (by decide) h6 h7,
      cfg_write_default_bar pi idx (to32 v) hidx, hu]
    rfl
  · rw [pci_get_cfgdata32_congr pi' _ (PCIR_BAR idx) hcfg, get_set_cfgdata32]
    unfold update_idx_of
    split
    · rfl
    · exact Nat.mod_eq_of_lt (bar_write_value_lt _ _ _ _)
  · exact pci_cfgrw_read_bar (store_devi t bus slot func pi') bus slot func idx eax
      { fi with fi_devi := some pi' } pi' (find_func_store_devi t bus slot func fi pi' hfi)
      rfl hr hidx

/-- Size probe of a BAR register, shared form: the read after a write of all-ones. -/
theorem bar_probe_value (t : Nat → Option businfo) (bus slot func idx eax : Nat)
    (fi : funcinfo) (pi : pci_devinst)
    (hfi : find_func t bus slot func = some fi) (hpi : fi.fi_devi = some pi)
    (hw : fi.fi_pde.pe_cfgwrite = none) (hr : fi.fi_pde.pe_cfgread = none)
    (hidx : idx ≤ 5)
    (ht : (pi.pi_bar idx).type = PCIBAR_IO ∨ (pi.pi_bar idx).type = PCIBAR_MEM32 ∨
      (pi.pi_bar idx).type = PCIBAR_MEM64 ∨
      ((pi.pi_bar idx).type = PCIBAR_MEMHI64 ∧ (pi.pi_bar (idx - 1)).type = PCIBAR_MEM64))
    (hs0 : 0 < (pi.pi_bar (update_idx_of pi idx)).size)
    (hs1 : (pi.pi_bar (update_idx_of pi idx)).size < 2 ^ 64)
    (hl : (pi.pi_bar (update_idx_of pi idx)).lobits < 2 ^ 64) :
    ∃ pi',
      pci_cfgrw t false bus slot func (PCIR_BAR idx) 4 0xffffffff =
        some (store_devi t bus slot func pi', 0xffffffff) ∧
      (pi'.pi_bar (update_idx_of pi idx)).addr = 0 ∧
      pci_cfgrw (store_devi t bus slot func pi') true bus slot func (PCIR_BAR idx) 4 eax =
        some (store_devi t bus slot func pi',
          if (pi.pi_bar idx).type = PCIBAR_MEMHI64 then
            ((2 ^ 64 - (pi.pi_bar (update_idx_of pi idx)).size |||
              (pi.pi_bar (update_idx_of pi idx)).lobits) >>> 32) % 2 ^ 32
          else
            (2 ^ 64 - (pi.pi_bar (update_idx_of pi idx)).size |||
              (pi.pi_bar (update_idx_of pi idx)).lobits) % 2 ^ 32) := by
  obtain ⟨pi', h1, hfr, _, haddr, hreg, hread⟩ :=
    bar_write_read t bus slot func idx 0xffffffff eax fi pi hfi hpi hw hr hidx ht
  have hv : to32 0xffffffff = U32 - 1 := by decide
  simp only [hv, ↓reduceIte, true_implies] at haddr hreg
  refine ⟨pi', h1, haddr, ?_⟩
  have ht' : (pi'.pi_bar idx).type = PCIBAR_IO ∨ (pi'.pi_bar idx).type = PCIBAR_MEM32 ∨
      (pi'.pi_bar idx).type = PCIBAR_MEM64 ∨ (pi'.pi_bar idx).type = PCIBAR_MEMHI64 := by
    rw [(hfr idx).1]
    rcases ht with h | h | h | ⟨h, _⟩
    · exact Or.inl h
    · exact Or.inr (Or.inl h)
    · exact Or.inr (Or.inr (Or.inl h))
    · exact Or.inr (Or.inr (Or.inr h))
  rw [hread, read_bar_value_reg pi' idx hidx ht', hreg]
  simp only [↓reduceIte, Option.map_some', (hfr idx).1, (hfr idx).2.1, (hfr idx).2.2,
    (hfr (idx - 1)).2.1, (hfr (idx - 1)).2.2]
  unfold update_idx_of at hs0 hs1 hl ⊢
  by_cases hh : (pi.pi_bar idx).type = PCIBAR_MEMHI64
  · simp only [hh, ↓reduceIte] at hs0 hs1 hl ⊢
    rw [not64_pred _ hs0 hs1]
    unfold U64 to32 U32
    rw [Nat.mod_eq_of_lt hl]
  · simp only [hh, ↓reduceIte] at hs0 hs1 hl ⊢
    rw [not64_pred _ hs0 hs1]
    unfold U64 to32 U32
    rw [Nat.mod_eq_of_lt hl]

/-- C11 (the claim fails as stated): an I/O BAR of size 4, assigned on a fresh
machine, is probed with a 4-byte write of all-ones and a 4-byte read of its
register at offset 0x10.  The read returns 0xFFFFFFFD, not the two's complement
0xFFFFFFFC of the size: the fixed low bit of the I/O BAR is part of it. -/
theorem bar_probe_not_twos_complement :
    (io4_assigned.pi_bar 0).type = PCIBAR_IO ∧ (io4_assigned.pi_bar 0).size = 4 ∧
    (io4_assigned.pi_bar 0).lobits = 1 ∧
    ((pci_cfgrw (single_func io4_assigned) false 0 0 0 (PCIR_BAR 0) 4 0xffffffff).bind fun r =>
      pci_cfgrw r.1 true 0 0 0 (PCIR_BAR 0) 4 0).map Prod.snd = some 0xFFFFFFFD ∧
    (2 ^ 64 - (io4_assigned.pi_bar 0).size) % 2 ^ 32 = 0xFFFFFFFC ∧
    ¬ ((pci_cfgrw (single_func io4_assigned) false 0 0 0 (PCIR_BAR 0) 4 0xffffffff).bind fun r =>
      pci_cfgrw r.1 true 0 0 0 (PCIR_BAR 0) 4 0).map Prod.snd =
        some ((2 ^ 64 - (io4_assigned.pi_bar 0).size) % 2 ^ 32) := by
  refine ⟨by decide, by decide, by decide, by decide, by decide, by decide⟩

/-- C11 (amended): for an existing function whose device model has no configuration
overrides and a register `idx ≤ 5` of an I/O, 32-bit or 64-bit memory BAR or of
the high half of a 64-bit memory BAR, whose descriptor has a size in
`(0, 2 ^ 64)`, a 4-byte write of all-ones to the BAR register returns and leaves
the descriptor's address at 0, and the 4-byte read that follows returns the
two's complement of the size OR-ed with the descriptor's fixed low bits,
truncated to 32 bits (its upper 32 bits for the high half). -/
theorem bar_size_probe (t : Nat → Option businfo) (bus slot func idx eax : Nat)
    (fi : funcinfo) (pi : pci_devinst)
    (hfi : find_func t bus slot func = some fi) (hpi : fi.fi_devi = some pi)
    (hw : fi.fi_pde.pe_cfgwrite = none) (hr : fi.fi_pde.pe_cfgread = none)
    (hidx : idx ≤ 5)
    (ht : (pi.pi_bar idx).type = PCIBAR_IO ∨ (pi.pi_bar idx).type = PCIBAR_MEM32 ∨
      (pi.pi_bar idx).type = PCIBAR_MEM64 ∨
      ((pi.pi_bar idx).type = PCIBAR_MEMHI64 ∧ (pi.pi_bar (idx - 1)).type = PCIBAR_MEM64))
    (hs0 : 0 < (pi.pi_bar (update_idx_of pi idx)).size)
    (hs1 : (pi.pi_bar (update_idx_of pi idx)).size < 2 ^ 64)
    (hl : (pi.pi_bar (update_idx_of pi idx)).lobits < 2 ^ 64) :
    ∃ pi',
      pci_cfgrw t false bus slot func (PCIR_BAR idx) 4 0xffffffff =
        some (store_devi t bus slot func pi', 0xffffffff) ∧
      (pi'.pi_bar (update_idx_of pi idx)).addr = 0 ∧
      pci_cfgrw (store_devi t bus slot func pi') true bus slot func (PCIR_BAR idx) 4 eax =
        some (store_devi t bus slot func pi',
          if (pi.pi_bar idx).type = PCIBAR_MEMHI64 then
            ((2 ^ 64 - (pi.pi_bar (update_idx_of pi idx)).size |||
              (pi.pi_bar (update_idx_of pi idx)).lobits) >>> 32) % 2 ^ 32
          else
            (2 ^ 64 - (pi.pi_bar (update_idx_of pi idx)).size |||
              (pi.pi_bar (update_idx_of pi idx)).lobits) % 2 ^ 32) :=
  bar_probe_value t bus slot func idx eax fi pi hfi hpi hw hr hidx ht hs0 hs1 hl

/-- Witness for C11 (amended): the high half, at index 1, of a 64-bit memory BAR of
512 MiB assigned on a fresh machine. -/
theorem bar_size_probe_witness :
    ∃ pi',
      pci_cfgrw (single_func mem64_assigned) false 0 0 0 (PCIR_BAR 1) 4 0xffffffff =
        some (store_devi (single_func mem64_assigned) 0 0 0 pi', 0xffffffff) ∧
      (pi'.pi_bar (update_idx_of mem64_assigned 1)).addr = 0 ∧
      pci_cfgrw (store_devi (single_func mem64_assigned) 0 0 0 pi') true 0 0 0 (PCIR_BAR 1) 4 0 =
        some (store_devi (single_func mem64_assigned) 0 0 0 pi',
          if (mem64_assigned.pi_bar 1).type = PCIBAR_MEMHI64 then
            ((2 ^ 64 - (mem64_assigned.pi_bar (update_idx_of mem64_assigned 1)).size |||
              (mem64_assigned.pi_bar (update_idx_of mem64_assigned 1)).lobits) >>> 32) % 2 ^ 32
          else
            (2 ^ 64 - (mem64_assigned.pi_bar (update_idx_of mem64_assigned 1)).size |||
              (mem64_assigned.pi_bar (update_idx_of mem64_assigned 1)).lobits) % 2 ^ 32) :=
  bar_size_probe (single_func mem64_assigned) 0 0 0 1 0 { fi_devi := some mem64_assigned }
    mem64_assigned rfl rfl rfl rfl (by decide)
    (Or.inr (Or.inr (Or.inr ⟨by decide, by decide⟩))) (by decide) (by decide) (by decide)

/-- Bits of the mask `2 ^ 64 - 2 ^ k`. -/
theorem testBit_mask64 (k i : Nat) (hk : k < 64) :
    (2 ^ 64 - 2 ^ k).testBit i = (decide (i < 64) && !decide (i < k)) := by
  have hpos : 0 < 2 ^ k := Nat.two_pow_pos k
  have hlt : 2 ^ k - 1 < 2 ^ 64 :=
    Nat.lt_of_le_of_lt (Nat.sub_le _ _) (Nat.pow_lt_pow_right (by decide) hk)
  have e : 2 ^ 64 - 2 ^ k = 2 ^ 64 - ((2 ^ k - 1) + 1) := by
    rw [Nat.sub_add_cancel hpos]
  rw [e, Nat.testBit_two_pow_sub_succ hlt, Nat.testBit_two_pow_sub_one]

/-- The value `update_bar_address` stores for a written address `v`, for a BAR of size
`2 ^ k` whose fixed low bits have bit 1 clear: the masked value with the low
bits, which is never all-ones. -/
theorem bar_write_value_pow2 (pi : pci_devinst) (idx k v : Nat)
    (ht : (pi.pi_bar idx).type ≠ PCIBAR_MEMHI64)
    (hS : (pi.pi_bar idx).size = 2 ^ k) (hk2 : 2 ≤ k) (hk64 : k < 64)
    (hl1 : (pi.pi_bar idx).lobits.testBit 1 = false) (hl : (pi.pi_bar idx).lobits < 2 ^ 32)
    (hv : v < 2 ^ 32) :
    bar_write_value pi idx idx v = (v &&& (2 ^ 64 - 2 ^ k)) ||| (pi.pi_bar idx).lobits ∧
    bar_write_value pi idx idx v ≠ U32 - 1 := by
  have hpos : 0 < 2 ^ k := Nat.two_pow_pos k
  have hlt : 2 ^ k < 2 ^ 64 := Nat.pow_lt_pow_right (by decide) hk64
  have hm : not64 (sub64 (pi.pi_bar idx).size 1) = 2 ^ 64 - 2 ^ k := by
    rw [hS]; exact not64_pred _ hpos hlt
  have hand : v &&& (2 ^ 64 - 2 ^ k) < 2 ^ 32 := Nat.lt_of_le_of_lt Nat.and_le_left hv
  have hor : (v &&& (2 ^ 64 - 2 ^ k)) ||| (pi.pi_bar idx).lobits < 2 ^ 32 :=
    Nat.or_lt_two_pow hand hl
  have hval : bar_write_value pi idx idx v =
      (v &&& (2 ^ 64 - 2 ^ k)) ||| (pi.pi_bar idx).lobits := by
    unfold bar_write_value
    simp only [ht, ↓reduceIte, hm]
    unfold to32 U32
    rw [Nat.mod_eq_of_lt hand, Nat.mod_eq_of_lt hor]
  refine ⟨hval, ?_⟩
  rw [hval]
  intro h
  have hb := congrArg (fun y => y.testBit 1) h
  have h1k : (1 : Nat) < k := by omega
  have hones : (U32 - 1).testBit 1 = true := by decide
  simp only [Nat.testBit_or, Nat.testBit_and, testBit_mask64 k 1 hk64, hl1, h1k, decide_True,
    Bool.not_true, Bool.and_false, Bool.or_false, hones] at hb
  cases hb

/-- Address round trip through a BAR register, shared form. -/
theorem bar_addr_value (t : Nat → Option businfo) (bus slot func idx k v eax : Nat)
    (fi : funcinfo) (pi : pci_devinst)
    (hfi : find_func t bus slot func = some fi) (hpi : fi.fi_devi = some pi)
    (hw : fi.fi_pde.pe_cfgwrite = none) (hr : fi.fi_pde.pe_cfgread = none)
    (hidx : idx ≤ 5)
    (ht : (pi.pi_bar idx).type = PCIBAR_IO ∨ (pi.pi_bar idx).type = PCIBAR_MEM32 ∨
      (pi.pi_bar idx).type = PCIBAR_MEM64)
    (hS : (pi.pi_bar idx).size = 2 ^ k) (hk2 : 2 ≤ k) (hk64 : k < 64)
    (hl1 : (pi.pi_bar idx).lobits.testBit 1 = false) (hl : (pi.pi_bar idx).lobits < 2 ^ 32)
    (hv : v < 2 ^ 32) (hne : v ≠ 0xffffffff) :
    ∃ pi',
      pci_cfgrw t false bus slot func (PCIR_BAR idx) 4 v =
        some (store_devi t bus slot func pi', v) ∧
      pci_cfgrw (store_devi t bus slot func pi') true bus slot func (PCIR_BAR idx) 4 eax =
        some (store_devi t bus slot func pi',
          (v &&& (2 ^ 64 - 1 - ((pi.pi_bar idx).size - 1))) ||| (pi.pi_bar idx).lobits) ∧
      (pi'.pi_bar idx).lobits = (pi.pi_bar idx).lobits ∧
      ((v &&& (2 ^ 64 - 1 - ((pi.pi_bar idx).size - 1))) ||| (pi.pi_bar idx).lobits) &&&
          ((pi.pi_bar idx).size - 1) =
        (pi.pi_bar idx).lobits &&& ((pi.pi_bar idx).size - 1) ∧
      (v % (pi.pi_bar idx).size = 0 →
        (v &&& (2 ^ 64 - 1 - ((pi.pi_bar idx).size - 1))) ||| (pi.pi_bar idx).lobits =
          v ||| (pi.pi_bar idx).lobits) := by
  have hpos : 0 < 2 ^ k := Nat.two_pow_pos k
  have hlt : 2 ^ k < 2 ^ 64 := Nat.pow_lt_pow_right (by decide) hk64
  have hnh : (pi.pi_bar idx).type ≠ PCIBAR_MEMHI64 := by
    rcases ht with h | h | h <;> rw [h] <;> decide
  have ht4 : (pi.pi_bar idx).type = PCIBAR_IO ∨ (pi.pi_bar idx).type = PCIBAR_MEM32 ∨
      (pi.pi_bar idx).type = PCIBAR_MEM64 ∨
      ((pi.pi_bar idx).type = PCIBAR_MEMHI64 ∧ (pi.pi_bar (idx - 1)).type = PCIBAR_MEM64) := by
    rcases ht with h | h | h
    · exact Or.inl h
    · exact Or.inr (Or.inl h)
    · exact Or.inr (Or.inr (Or.inl h))
  have hu : update_idx_of pi idx = idx := by
    unfold update_idx_of; simp only [hnh, ↓reduceIte]
  have hmask : 2 ^ 64 - 1 - ((pi.pi_bar idx).size - 1) = 2 ^ 64 - 2 ^ k := by
    rw [hS]
    generalize 2 ^ k = m at hpos hlt
    omega
  obtain ⟨hbw, hbne⟩ := bar_write_value_pow2 pi idx k v hnh hS hk2 hk64 hl1 hl hv
  obtain ⟨pi', h1, hfr, _, _, hreg, hread⟩ :=
    bar_write_read t bus slot func idx v eax fi pi hfi hpi hw hr hidx ht4
  have hv32 : to32 v = v := by unfold to32 U32; exact Nat.mod_eq_of_lt hv
  have hvne : ¬ v = U32 - 1 := hne
  rw [hv32, hu] at hreg
  simp only [hvne, ↓reduceIte] at hreg
  have ht' : (pi'.pi_bar idx).type = PCIBAR_IO ∨ (pi'.pi_bar idx).type = PCIBAR_MEM32 ∨
      (pi'.pi_bar idx).type = PCIBAR_MEM64 ∨ (pi'.pi_bar idx).type = PCIBAR_MEMHI64 := by
    rw [(hfr idx).1]
    rcases ht with h | h | h
    · exact Or.inl h
    · exact Or.inr (Or.inl h)
    · exact Or.inr (Or.inr (Or.inl h))
  rw [hmask]
  refine ⟨pi', h1, ?_, (hfr idx).2.2, ?_, ?_⟩
  · rw [hread, read_bar_value_reg pi' idx hidx ht', hreg]
    simp only [hbne, ↓reduceIte, Option.map_some']
    rw [← hbw]
    unfold to32
    rw [Nat.mod_eq_of_lt (bar_write_value_lt _ _ _ _)]
  · rw [hS]
    apply Nat.eq_of_testBit_eq
    intro i
    simp only [Nat.testBit_and, Nat.testBit_or, testBit_mask64 k i hk64,
      Nat.testBit_two_pow_sub_one]
    by_cases hik : i < k
    · simp [hik]
    · simp [hik]
  · intro hal
    rw [hS] at hal
    have h64 : v < 2 ^ 64 := Nat.lt_of_lt_of_le hv (Nat.pow_le_pow_right (by decide) (by decide))
    have e : 2 ^ 64 - 2 ^ k = 2 ^ 64 - 1 - (2 ^ k - 1) := by
      generalize 2 ^ k = m at hpos hlt
      omega
    rw [e, and_not64_pow2 v k h64 (by omega), Nat.div_mul_cancel (Nat.dvd_of_mod_eq_zero hal)]

/-- C12: for an existing function whose device model has no configuration overrides
and an I/O, 32-bit or 64-bit memory BAR at `idx ≤ 5` (for a 64-bit BAR its low
register) of size `S = 2 ^ k ≥ 4` whose fixed low bits have bit 1 clear, as
every assigned BAR has, and every 32-bit value `v` other than all-ones, a 4-byte
write of `v` to the BAR register returns and the 4-byte read that follows
returns `(v AND NOT (S - 1)) OR lobits`.  The descriptor keeps its low bits, the
bits below `S` of the value read are those of the low bits whatever `v` is, and
an `S`-aligned `v` reads back as `v OR lobits`. -/
theorem bar_addr_round_trip (t : Nat → Option businfo) (bus slot func idx k v eax : Nat)
    (fi : funcinfo) (pi : pci_devinst)
    (hfi : find_func t bus slot func = some fi) (hpi : fi.fi_devi = some pi)
    (hw : fi.fi_pde.pe_cfgwrite = none) (hr : fi.fi_pde.pe_cfgread = none)
    (hidx : idx ≤ 5)
    (ht : (pi.pi_bar idx).type = PCIBAR_IO ∨ (pi.pi_bar idx).type = PCIBAR_MEM32 ∨
      (pi.pi_bar idx).type = PCIBAR_MEM64)
    (hS : (pi.pi_bar idx).size = 2 ^ k) (hk2 : 2 ≤ k) (hk64 : k < 64)
    (hl1 : (pi.pi_bar idx).lobits.testBit 1 = false) (hl : (pi.pi_bar idx).lobits < 2 ^ 32)
    (hv : v < 2 ^ 32) (hne : v ≠ 0xffffffff) :
    ∃ pi',
      pci_cfgrw t false bus slot func (PCIR_BAR idx) 4 v =
        some (store_devi t bus slot func pi', v) ∧
      pci_cfgrw (store_devi t bus slot func pi') true bus slot func (PCIR_BAR idx) 4 eax =
        some (store_devi t bus slot func pi',
          (v &&& (2 ^ 64 - 1 - ((pi.pi_bar idx).size - 1))) ||| (pi.pi_bar idx).lobits) ∧
      (pi'.pi_bar idx).lobits = (pi.pi_bar idx).lobits ∧
      ((v &&& (2 ^ 64 - 1 - ((pi.pi_bar idx).size - 1))) ||| (pi.pi_bar idx).lobits) &&&
          ((pi.pi_bar idx).size - 1) =
        (pi.pi_bar idx).lobits &&& ((pi.pi_bar idx).size - 1) ∧
      (v % (pi.pi_bar idx).size = 0 →
        (v &&& (2 ^ 64 - 1 - ((pi.pi_bar idx).size - 1))) ||| (pi.pi_bar idx).lobits =
          v ||| (pi.pi_bar idx).lobits) :=
  bar_addr_value t bus slot func idx k v eax fi pi hfi hpi hw hr hidx ht hS hk2 hk64 hl1 hl
    hv hne

/-- Witness for C12: the value 0x4003 written to the I/O BAR of size 4 that was
assigned on a fresh machine. -/
theorem bar_addr_round_trip_witness :
    ∃ pi',
      pci_cfgrw (single_func io4_assigned) false 0 0 0 (PCIR_BAR 0) 4 0x4003 =
        some (store_devi (single_func io4_assigned) 0 0 0 pi', 0x4003) ∧
      pci_cfgrw (store_devi (single_func io4_assigned) 0 0 0 pi') true 0 0 0 (PCIR_BAR 0) 4 0 =
        some (store_devi (single_func io4_assigned) 0 0 0 pi',
          (0x4003 &&& (2 ^ 64 - 1 - ((io4_assigned.pi_bar 0).size - 1))) |||
            (io4_assigned.pi_bar 0).lobits) ∧
      (pi'.pi_bar 0).lobits = (io4_assigned.pi_bar 0).lobits ∧
      ((0x4003 &&& (2 ^ 64 - 1 - ((io4_assigned.pi_bar 0).size - 1))) |||
          (io4_assigned.pi_bar 0).lobits) &&& ((io4_assigned.pi_bar 0).size - 1) =
        (io4_assigned.pi_bar 0).lobits &&& ((io4_assigned.pi_bar 0).size - 1) ∧
      (0x4003 % (io4_assigned.pi_bar 0).size = 0 →
        (0x4003 &&& (2 ^ 64 - 1 - ((io4_assigned.pi_bar 0).size - 1))) |||
            (io4_assigned.pi_bar 0).lobits =
          0x4003 ||| (io4_assigned.pi_bar 0).lobits) :=
  bar_addr_round_trip (single_func io4_assigned) 0 0 0 0 2 0x4003 0
    { fi_devi := some io4_assigned } io4_assigned rfl rfl rfl rfl (by decide)
    (Or.inl (by decide)) (by decide) (by decide) (by decide) (by decide) (by decide)
    (by decide) (by decide)

/-! ## Writes to the capability region -/

/-- A store of width 1, 2 or 4 changes the bytes it covers and nothing else of the
instance. -/
theorem CFGWRITE_frame (pi : pci_devinst) (coff val bytes : Nat) :
    (CFGWRITE pi coff val bytes).pi_prevcap = pi.pi_prevcap ∧
    (CFGWRITE pi coff val bytes).pi_capend = pi.pi_capend ∧
    ((bytes = 1 ∨ bytes = 2 ∨ bytes = 4) →
      ∀ o, o < coff ∨ coff + bytes ≤ o →
        (CFGWRITE pi coff val bytes).pi_cfgdata o = pi.pi_cfgdata o) := by
  unfold CFGWRITE
  refine ⟨?_, ?_, ?_⟩
  · split
    · rfl
    · split <;> rfl
  · split
    · rfl
    · split <;> rfl
  · intro hb o ho
    rcases hb with rfl | rfl | rfl
    · have h1 : ¬ o = coff := by omega
      simp only [↓reduceIte, pci_set_cfgdata8, h1]
    · have h1 : ¬ o = coff := by omega
      have h2 : ¬ o = coff + 1 := by omega
      simp only [OfNat.ofNat_ne_one, ↓reduceIte, pci_set_cfgdata16, h1, h2]
    · have h1 : ¬ o = coff := by omega
      have h2 : ¬ o = coff + 1 := by omega
      have h3 : ¬ o = coff + 2 := by omega
      have h4 : ¬ o = coff + 3 := by omega
      simp only [OfNat.ofNat_ne_one, ↓reduceIte, Nat.reduceEqDiff, pci_set_cfgdata32, h1, h2,
        h3, h4]

/-- The interrupt update touches neither the configuration space nor the capability
bookkeeping. -/
theorem pci_lintr_update_frame (pi : pci_devinst) :
    (pci_lintr_update pi).pi_cfgdata = pi.pi_cfgdata ∧
    (pci_lintr_update pi).pi_prevcap = pi.pi_prevcap ∧
    (pci_lintr_update pi).pi_capend = pi.pi_capend := by
  unfold pci_lintr_update
  split
  · exact ⟨rfl, rfl, rfl⟩
  · split <;> exact ⟨rfl, rfl, rfl⟩

/-- Reading the MSI state back touches neither the configuration space nor the
capability bookkeeping. -/
theorem msicap_update_frame (pi : pci_devinst) (capoff : Nat) :
    (msicap_update pi capoff).pi_cfgdata = pi.pi_cfgdata ∧
    (msicap_update pi capoff).pi_prevcap = pi.pi_prevcap ∧
    (msicap_update pi capoff).pi_capend = pi.pi_capend := by
  unfold msicap_update
  simp only []
  split
  · exact pci_lintr_update_frame _
  · exact pci_lintr_update_frame _

/-- What a capability handler leaves of the configuration space: the bytes outside the
range written, and the capability bookkeeping. -/
theorem cap_dispatch_frame (pi : pci_devinst) (capid capoff offset bytes val : Nat)
    (hb : bytes = 1 ∨ bytes = 2 ∨ bytes = 4) :
    (cap_dispatch pi capid capoff offset bytes val).pi_prevcap = pi.pi_prevcap ∧
    (cap_dispatch pi capid capoff offset bytes val).pi_capend = pi.pi_capend ∧
    ∀ o, o < offset ∨ offset + bytes ≤ o →
      (cap_dispatch pi capid capoff offset bytes val).pi_cfgdata o = pi.pi_cfgdata o := by
  have hcw : ∀ (p : pci_devinst) (w : Nat),
      (CFGWRITE p offset w bytes).pi_prevcap = p.pi_prevcap ∧
      (CFGWRITE p offset w bytes).pi_capend = p.pi_capend ∧
      ∀ o, o < offset ∨ offset + bytes ≤ o →
        (CFGWRITE p offset w bytes).pi_cfgdata o = p.pi_cfgdata o := by
    intro p w
    obtain ⟨c1, c2, c3⟩ := CFGWRITE_frame p offset w bytes
    exact ⟨c1, c2, c3 hb⟩
  unfold cap_dispatch
  split
  · unfold msicap_cfgwrite
    obtain ⟨m1, m2, m3⟩ := msicap_update_frame
      (CFGWRITE pi offset (msicap_write_value pi capoff offset bytes val) bytes) capoff
    obtain ⟨c1, c2, c3⟩ := hcw pi (msicap_write_value pi capoff offset bytes val)
    exact ⟨m2.trans c1, m3.trans c2, fun o ho => by rw [m1]; exact c3 o ho⟩
  · split
    · unfold msixcap_cfgwrite
      split
      · simp only []
        obtain ⟨c1, c2, c3⟩ := hcw
          (pci_lintr_update { pi with pi_msix := { pi.pi_msix with
            enabled := msixcap_write_value pi offset val &&& PCIM_MSIXCTRL_MSIX_ENABLE,
            function_mask :=
              msixcap_write_value pi offset val &&& PCIM_MSIXCTRL_FUNCTION_MASK } })
          (msixcap_write_value pi offset val)
        obtain ⟨l1, l2, l3⟩ := pci_lintr_update_frame
          { pi with pi_msix := { pi.pi_msix with
            enabled := msixcap_write_value pi offset val &&& PCIM_MSIXCTRL_MSIX_ENABLE,
            function_mask :=
              msixcap_write_value pi offset val &&& PCIM_MSIXCTRL_FUNCTION_MASK } }
        exact ⟨c1.trans l2, c2.trans l3, fun o ho => by rw [c3 o ho, l1]⟩
      · exact hcw pi val
    · split
      · exact hcw pi val
      · exact ⟨rfl, rfl, fun _ _ => rfl⟩

/-- The search loop of `pci_emul_capwrite` on a linked chain ends, at the last
capability that does not start after `offset`. -/
theorem cap_search_chain (pi : pci_devinst) (offset : Nat) :
    ∀ (rest : List Nat) (c fuel : Nat), chain_links pi c rest → c ≤ offset →
    rest.length < fuel →
    ∃ cs, cap_search pi offset fuel c = some cs ∧ cs ∈ c :: rest ∧ cs ≤ offset ∧
      ∀ d ∈ c :: rest, d ≤ offset → d ≤ cs := by
  intro rest
  induction rest with
  | nil =>
    intro c fuel h hc hf
    obtain ⟨f, rfl⟩ : ∃ f, fuel = f + 1 := ⟨fuel - 1, by omega⟩
    have h' : pci_get_cfgdata8 pi (c + 1) = 0 := h
    refine ⟨c, ?_, List.mem_singleton.mpr rfl, hc, ?_⟩
    · simp only [cap_search, h', ↓reduceIte]
    · intro d hd _
      rw [List.mem_singleton] at hd
      omega
  | cons d rest ih =>
    intro c fuel h hc hf
    obtain ⟨f, rfl⟩ : ∃ f, fuel = f + 1 := ⟨fuel - 1, by omega⟩
    have hmem := chain_links_mem pi (d :: rest) c h
    obtain ⟨h1, h2, h3, h4⟩ := h
    have hd0 : ¬ d = 0 := by omega
    by_cases hin : offset < d
    · refine ⟨c, ?_, List.mem_cons_self _ _, hc, ?_⟩
      · simp only [cap_search, h1, hd0, ↓reduceIte, ge_iff_le, hc, hin, and_self]
      · intro x hx hxo
        rcases List.mem_cons.mp hx with rfl | hx
        · exact Nat.le_refl _
        · have hxd : d ≤ x := by
            rcases List.mem_cons.mp hx with rfl | hx'
            · exact Nat.le_refl _
            · have := chain_links_mem pi rest d h4 x hx'
              omega
          omega
    · have hdo : d ≤ offset := by omega
      obtain ⟨cs, e1, e2, e3, e4⟩ := ih d f h4 hdo (by simp only [List.length_cons] at hf; omega)
      have hdcs : d ≤ cs := e4 d (List.mem_cons_self _ _) hdo
      refine ⟨cs, ?_, List.mem_cons_of_mem _ e2, e3, ?_⟩
      · have hno : ¬ (offset ≥ c ∧ offset < d) := by omega
        simp only [cap_search, h1, hd0, ↓reduceIte, hno, e1]
      · intro x hx hxo
        rcases List.mem_cons.mp hx with rfl | hx
        · omega
        · exact e4 x hx hxo

/-- The alignment test of `pci_emul_capwrite` passes for an aligned offset. -/
theorem capwrite_aligned (offset bytes : Nat) (hb : bytes = 1 ∨ bytes = 2 ∨ bytes = 4)
    (hal : offset % bytes = 0) : ¬ offset &&& (bytes - 1) ≠ 0 := by
  rw [and_width_pred offset bytes hb, hal]
  simp

/-- A write through `pci_emul_capwrite` to a linked capability list returns; it keeps
the bookkeeping, every byte below `CAP_START_OFFSET`, and the ID and next-pointer
bytes of every capability. -/
theorem capwrite_frame (pi : pci_devinst) (c : Nat) (rest : List Nat)
    (offset bytes val : Nat)
    (hl : chain_links pi c rest) (hc : c = CAP_START_OFFSET) (hlast : chain_last c rest ≤ 255)
    (hoff : c ≤ offset) (hb : bytes = 1 ∨ bytes = 2 ∨ bytes = 4) (hal : offset % bytes = 0) :
    ∃ pi', pci_emul_capwrite pi offset bytes val 0 0 = some pi' ∧
      pi'.pi_prevcap = pi.pi_prevcap ∧ pi'.pi_capend = pi.pi_capend ∧
      (∀ o, o < CAP_START_OFFSET → pi'.pi_cfgdata o = pi.pi_cfgdata o) ∧
      ∀ x ∈ c :: rest, pi'.pi_cfgdata x = pi.pi_cfgdata x ∧
        pi'.pi_cfgdata (x + 1) = pi.pi_cfgdata (x + 1) := by
  have h40 : CAP_START_OFFSET = 64 := rfl
  have hlen := chain_le_last pi rest c hl
  have hmem := chain_links_mem pi rest c hl
  have hc4 : ∀ x ∈ c :: rest, x % 4 = 0 ∧ 64 ≤ x := by
    intro x hx
    rcases List.mem_cons.mp hx with rfl | hx
    · rw [hc, h40]; exact ⟨rfl, Nat.le_refl _⟩
    · have := hmem x hx
      rw [hc, h40] at this
      omega
  obtain ⟨cs, e1, e2, e3, e4⟩ :=
    cap_search_chain pi offset rest c 256 hl hoff (by
      have hc64 : c = 64 := hc.trans h40
      omega)
  have hcs := hc4 cs e2
  rw [← hc]
  have key : ∀ (o' b' v' : Nat), (b' = 1 ∨ b' = 2 ∨ b' = 4) → cs + 2 ≤ o' →
      (∀ x ∈ c :: rest, x + 1 < o' ∨ o' + b' ≤ x) →
      (cap_dispatch pi (pci_get_cfgdata8 pi cs) cs o' b' v').pi_prevcap = pi.pi_prevcap ∧
      (cap_dispatch pi (pci_get_cfgdata8 pi cs) cs o' b' v').pi_capend = pi.pi_capend ∧
      (∀ o, o < c →
        (cap_dispatch pi (pci_get_cfgdata8 pi cs) cs o' b' v').pi_cfgdata o =
          pi.pi_cfgdata o) ∧
      ∀ x ∈ c :: rest,
        (cap_dispatch pi (pci_get_cfgdata8 pi cs) cs o' b' v').pi_cfgdata x =
          pi.pi_cfgdata x ∧
        (cap_dispatch pi (pci_get_cfgdata8 pi cs) cs o' b' v').pi_cfgdata (x + 1) =
          pi.pi_cfgdata (x + 1) := by
    intro o' b' v' hb' ho' hx
    obtain ⟨f1, f2, f3⟩ := cap_dispatch_frame pi (pci_get_cfgdata8 pi cs) cs o' b' v' hb'
    refine ⟨f1, f2, ?_, ?_⟩
    · intro o ho
      apply f3
      rw [hc, h40] at ho
      omega
    · intro x hxm
      have := hx x hxm
      exact ⟨f3 x (by omega), f3 (x + 1) (by omega)⟩
  unfold pci_emul_capwrite
  have hge : offset ≥ cs := e3
  simp only [capwrite_aligned offset bytes hb hal, ↓reduceIte, ← hc, e1, Option.some_bind, hge,
    not_true_eq_false]
  by_cases hhead : offset = cs ∨ offset = cs + 1
  · simp only [hhead, ↓reduceIte]
    by_cases h4 : offset = cs ∧ bytes = 4
    · simp only [h4, and_self, ↓reduceIte]
      refine ⟨_, rfl, key (cs + 2) 2 (val >>> 16) (Or.inr (Or.inl rfl)) (Nat.le_refl _) ?_⟩
      intro x hxm
      have hx4 := hc4 x hxm
      by_cases hxc : x ≤ cs
      · exact Or.inl (by omega)
      · exact Or.inr (by omega)
    · simp only [h4, ↓reduceIte]
      exact ⟨pi, rfl, rfl, rfl, fun _ _ => rfl, fun _ _ => ⟨rfl, rfl⟩⟩
  · simp only [hhead, ↓reduceIte]
    refine ⟨_, rfl, key offset bytes val hb (by omega) ?_⟩
    intro x hxm
    have hx4 := hc4 x hxm
    by_cases hxo : x ≤ offset
    · have := e4 x hxm hxo
      exact Or.inl (by omega)
    · right
      rcases hb with rfl | rfl | rfl <;> omega

/-- A chain stays linked when the next pointers of its capabilities are kept. -/
theorem chain_links_congr (pi pi' : pci_devinst) : ∀ (rest : List Nat) (c : Nat),
    chain_links pi c rest →
    (∀ x ∈ c :: rest, pci_get_cfgdata8 pi' (x + 1) = pci_get_cfgdata8 pi (x + 1)) →
    chain_links pi' c rest := by
  intro rest
  induction rest with
  | nil =>
    intro c h hx
    show pci_get_cfgdata8 pi' (c + 1) = 0
    rw [hx c (List.mem_singleton.mpr rfl)]
    exact h
  | cons d rest ih =>
    intro c h hx
    obtain ⟨h1, h2, h3, h4⟩ := h
    refine ⟨?_, h2, h3, ih d h4 (fun x hxm => hx x (List.mem_cons_of_mem _ hxm))⟩
    rw [hx c (List.mem_cons_self _ _)]
    exact h1

/-- A 4-byte write at the first byte of a capability is the 2-byte write of the upper
half of the value at offset 2 of the capability. -/
theorem capwrite_trim (pi : pci_devinst) (c : Nat) (rest : List Nat) (x val : Nat)
    (hl : chain_links pi c rest) (hc : c = CAP_START_OFFSET) (hlast : chain_last c rest ≤ 255)
    (hx : x ∈ c :: rest) :
    pci_emul_capwrite pi x 4 val 0 0 = pci_emul_capwrite pi (x + 2) 2 (val >>> 16) 0 0 := by
  have h40 : CAP_START_OFFSET = 64 := rfl
  have hc64 : c = 64 := hc.trans h40
  have hlen := chain_le_last pi rest c hl
  have hmem := chain_links_mem pi rest c hl
  have hc4 : ∀ y ∈ c :: rest, y % 4 = 0 ∧ c ≤ y := by
    intro y hy
    rcases List.mem_cons.mp hy with rfl | hy
    · rw [hc64]; exact ⟨rfl, Nat.le_refl _⟩
    · have := hmem y hy
      omega
  have hx4 := hc4 x hx
  obtain ⟨cs, e1, e2, e3, e4⟩ :=
    cap_search_chain pi x rest c 256 hl hx4.2 (by omega)
  obtain ⟨cs', e1', e2', e3', e4'⟩ :=
    cap_search_chain pi (x + 2) rest c 256 hl (by omega) (by omega)
  have hcs : cs = x := by
    have := e4 x hx (Nat.le_refl _)
    omega
  have hcs' : cs' = x := by
    have := e4' x hx (by omega)
    have := hc4 cs' e2'
    omega
  rw [hcs] at e1
  rw [hcs'] at e1'
  have a1 : ¬ x &&& (4 - 1) ≠ 0 := capwrite_aligned x 4 (by decide) hx4.1
  have a2 : ¬ (x + 2) &&& (2 - 1) ≠ 0 := capwrite_aligned (x + 2) 2 (by decide) (by omega)
  have n1 : ¬ (x + 2 = x ∨ x + 2 = x + 1) := by omega
  have g1 : x + 2 ≥ x := by omega
  unfold pci_emul_capwrite
  simp only [a1, a2, ↓reduceIte, ← hc, e1, e1', Option.some_bind, ge_iff_le, Nat.le_refl,
    not_true_eq_false, true_or, and_self, n1, g1]

/-- Offsets from `CAP_START_OFFSET` on are not routed to the BAR logic. -/
theorem is_bar_offset_cap (coff : Nat) (h : CAP_START_OFFSET ≤ coff) :
    is_bar_offset coff = false := by
  have h40 : CAP_START_OFFSET = 64 := rfl
  have h1 : PCIR_BAR 0 = 16 := rfl
  have h2 : PCIR_BAR PCI_BARMAX = 36 := rfl
  have h3 : PCIR_BIOS = 48 := rfl
  unfold is_bar_offset
  rw [h1, h2, h3]
  simp only [decide_eq_false_iff_not]
  omega

/-- The default handling of a write into the capability region of a linked
capability list: it returns, the list stays linked, and the ID and next-pointer
bytes of every capability are kept. -/
theorem cfg_write_cap (pi : pci_devinst) (caps : List Nat) (coff bytes val : Nat)
    (hch : cap_chain pi caps) (hb : bytes = 1 ∨ bytes = 2 ∨ bytes = 4)
    (hal : coff % bytes = 0) (hreg : pci_emul_iscap pi coff = true) :
    ∃ pi', cfg_write_default pi coff bytes val = some pi' ∧ cap_chain pi' caps ∧
      ∀ c ∈ caps, pci_get_cfgdata8 pi' c = pci_get_cfgdata8 pi c ∧
        pci_get_cfgdata8 pi' (c + 1) = pci_get_cfgdata8 pi (c + 1) := by
  have h40 : CAP_START_OFFSET = 64 := rfl
  have hreg' := hreg
  unfold pci_emul_iscap at hreg'
  simp only [] at hreg'
  split at hreg'
  · rename_i hbit
    simp only [decide_eq_true_eq] at hreg'
    cases caps with
    | nil => exact absurd hch hbit
    | cons c rest =>
      obtain ⟨_, hptr, hc, hl, hlast, h3, h4, h5⟩ := hch
      have hreg5 : PCI_REGMAX = 255 := rfl
      obtain ⟨pi', w1, w2, w3, w4, w5⟩ := capwrite_frame pi c rest coff bytes val hl hc
        (by omega) (by omega) hb hal
      have hlo : ∀ o, o < 64 → pci_get_cfgdata8 pi' o = pci_get_cfgdata8 pi o := by
        intro o ho
        unfold pci_get_cfgdata8
        rw [w4 o (by omega)]
      have hsts : pci_get_cfgdata16 pi' PCIR_STATUS = pci_get_cfgdata16 pi PCIR_STATUS := by
        unfold pci_get_cfgdata16
        rw [hlo PCIR_STATUS (by decide), hlo (PCIR_STATUS + 1) (by decide)]
      have hhdr : ∀ x ∈ c :: rest, pci_get_cfgdata8 pi' x = pci_get_cfgdata8 pi x ∧
          pci_get_cfgdata8 pi' (x + 1) = pci_get_cfgdata8 pi (x + 1) := by
        intro x hx
        unfold pci_get_cfgdata8
        rw [(w5 x hx).1, (w5 x hx).2]
        exact ⟨rfl, rfl⟩
      refine ⟨pi', ?_, ?_, hhdr⟩
      · unfold cfg_write_default
        simp only [is_bar_offset_cap coff hreg'.1, Bool.false_eq_true, ↓reduceIte, hreg, w1]
      · refine ⟨by rw [hsts]; exact hbit, ?_, hc, ?_, ?_, ?_, ?_, ?_⟩
        · rw [hlo PCIR_CAP_PTR (by decide)]; exact hptr
        · exact chain_links_congr pi pi' rest c hl (fun x hx => (hhdr x hx).2)
        · rw [w2]; exact hlast
        · rw [w2, w3]; exact h3
        · rw [w3]; exact h4
        · rw [w3]; exact h5
  · cases hreg'

/-- The test `pci_emul_iscap` spelled out. -/
theorem iscap_iff (pi : pci_devinst) (coff : Nat) :
    pci_emul_iscap pi coff = true ↔
      (pci_get_cfgdata16 pi PCIR_STATUS &&& PCIM_STATUS_CAPPRESENT ≠ 0 ∧
        CAP_START_OFFSET ≤ coff ∧ coff ≤ pi.pi_capend) := by
  unfold pci_emul_iscap
  by_cases hbit : pci_get_cfgdata16 pi PCIR_STATUS &&& PCIM_STATUS_CAPPRESENT = 0
  · simp [hbit]
  · simp [hbit]

/-- The first byte and offset 2 of every capability of a linked list lie in the
capability region, below offset 256. -/
theorem cap_chain_iscap (pi : pci_devinst) (caps : List Nat) (hch : cap_chain pi caps)
    (c : Nat) (hc : c ∈ caps) :
    pci_emul_iscap pi c = true ∧ pci_emul_iscap pi (c + 2) = true ∧ c % 4 = 0 ∧
    c + 3 < 256 ∧ CAP_START_OFFSET ≤ c := by
  have h40 : CAP_START_OFFSET = 64 := rfl
  have hreg : PCI_REGMAX = 255 := rfl
  cases caps with
  | nil => cases hc
  | cons c0 rest =>
    obtain ⟨hbit, _, hc0, hl, hlast, h3, _, h5⟩ := hch
    have hc64 : c0 = 64 := hc0.trans h40
    have hmem := chain_links_mem pi rest c0 hl
    have hle := chain_le_last pi rest c0 hl
    have hcc : c0 ≤ c ∧ c ≤ chain_last c0 rest ∧ c % 4 = 0 := by
      rcases List.mem_cons.mp hc with rfl | hc
      · exact ⟨Nat.le_refl _, by omega, by omega⟩
      · have := hmem c hc
        omega
    rw [iscap_iff, iscap_iff, h40]
    refine ⟨⟨hbit, by omega, by omega⟩, ⟨hbit, by omega, by omega⟩, hcc.2.2, by omega, by omega⟩

/-- Writes to the capability region of a function whose device model has no
`pe_cfgwrite`, shared form. -/
theorem capregion_write (t : Nat → Option businfo) (bus slot func : Nat)
    (fi : funcinfo) (pi : pci_devinst) (caps : List Nat)
    (hfi : find_func t bus slot func = some fi) (hpi : fi.fi_devi = some pi)
    (hw : fi.fi_pde.pe_cfgwrite = none) (hch : cap_chain pi caps) :
    (∀ coff bytes eax, (bytes = 1 ∨ bytes = 2 ∨ bytes = 4) → coff % bytes = 0 →
      pci_emul_iscap pi coff = true →
      ∃ pi', pci_cfgrw t false bus slot func coff bytes eax =
          some (store_devi t bus slot func pi', eax) ∧
        cap_chain pi' caps ∧
        ∀ c ∈ caps, pci_get_cfgdata8 pi' c = pci_get_cfgdata8 pi c ∧
          pci_get_cfgdata8 pi' (c + 1) = pci_get_cfgdata8 pi (c + 1)) ∧
    (∀ c ∈ caps, ∀ eax, eax < 2 ^ 32 →
      pci_emul_iscap pi c = true ∧ pci_emul_iscap pi (c + 2) = true ∧
      (pci_cfgrw t false bus slot func c 4 eax).map Prod.fst =
        (pci_cfgrw t false bus slot func (c + 2) 2 (eax >>> 16)).map Prod.fst) := by
  have h40 : CAP_START_OFFSET = 64 := rfl
  have hreg : PCI_REGMAX = 255 := rfl
  constructor
  · intro coff bytes eax hb hal hin
    have hlt : coff < 256 := by
      obtain ⟨hbit, _, hle⟩ := (iscap_iff pi coff).mp hin
      cases caps with
      | nil => exact absurd hch hbit
      | cons c0 rest =>
        have := hch.2.2.2.2.2.2.2
        omega
    obtain ⟨pi', w1, w2, w3⟩ := cfg_write_cap pi caps coff bytes (to32 eax) hch hb hal hin
    refine ⟨pi', ?_, w2, w3⟩
    rw [pci_cfgrw_write t bus slot func coff bytes eax fi pi hfi hpi hw hb hal hlt, w1]
    rfl
  · intro c hc eax heax
    obtain ⟨i1, i2, c4, clt, hge⟩ := cap_chain_iscap pi caps hch c hc
    refine ⟨i1, i2, ?_⟩
    have hsh : eax >>> 16 < 2 ^ 32 :=
      Nat.lt_of_le_of_lt (by rw [Nat.shiftRight_eq_div_pow]; exact Nat.div_le_self _ _) heax
    have e1 : to32 eax = eax := by unfold to32 U32; exact Nat.mod_eq_of_lt heax
    have e2 : to32 (eax >>> 16) = eax >>> 16 := by unfold to32 U32; exact Nat.mod_eq_of_lt hsh
    rw [pci_cfgrw_write t bus slot func c 4 eax fi pi hfi hpi hw (by decide) c4 (by omega),
      pci_cfgrw_write t bus slot func (c + 2) 2 (eax >>> 16) fi pi hfi hpi hw (by decide)
        (by omega) (by omega), e1, e2]
    have hcw : cfg_write_default pi c 4 eax = cfg_write_default pi (c + 2) 2 (eax >>> 16) := by
      cases caps with
      | nil => cases hc
      | cons c0 rest =>
        obtain ⟨_, _, hc0, hl, hlast, h3, _, h5⟩ := hch
        unfold cfg_write_default
        simp only [is_bar_offset_cap c hge, is_bar_offset_cap (c + 2) (by omega),
          Bool.false_eq_true, ↓reduceIte, i1, i2]
        exact capwrite_trim pi c0 rest c eax hl hc0 (by omega) hc
    rw [hcw, Option.map_map, Option.map_map]
    rfl

/-- C16: for an existing function whose device model has no `pe_cfgwrite` and whose
capability list is linked (`cap_chain`: the state `pci_emul_add_capability`
builds, and which these writes keep), every configuration write of width 1, 2
or 4 at an aligned offset inside the capability region returns, keeps the list
linked and leaves the ID byte and the next-pointer byte of every capability
unchanged; and a 4-byte write of a 32-bit value at the first byte of a
capability leaves the same table as the 2-byte write of its upper 16 bits at
offset 2 of the capability. -/
theorem capwrite_headers_read_only (t : Nat → Option businfo) (bus slot func : Nat)
    (fi : funcinfo) (pi : pci_devinst) (caps : List Nat)
    (hfi : find_func t bus slot func = some fi) (hpi : fi.fi_devi = some pi)
    (hw : fi.fi_pde.pe_cfgwrite = none) (hch : cap_chain pi caps) :
    (∀ coff bytes eax, (bytes = 1 ∨ bytes = 2 ∨ bytes = 4) → coff % bytes = 0 →
      pci_emul_iscap pi coff = true →
      ∃ pi', pci_cfgrw t false bus slot func coff bytes eax =
          some (store_devi t bus slot func pi', eax) ∧
        cap_chain pi' caps ∧
        ∀ c ∈ caps, pci_get_cfgdata8 pi' c = pci_get_cfgdata8 pi c ∧
          pci_get_cfgdata8 pi' (c + 1) = pci_get_cfgdata8 pi (c + 1)) ∧
    (∀ c ∈ caps, ∀ eax, eax < 2 ^ 32 →
      pci_emul_iscap pi c = true ∧ pci_emul_iscap pi (c + 2) = true ∧
      (pci_cfgrw t false bus slot func c 4 eax).map Prod.fst =
        (pci_cfgrw t false bus slot func (c + 2) 2 (eax >>> 16)).map Prod.fst) :=
  capregion_write t bus slot func fi pi caps hfi hpi hw hch

/-- Witness for C16: the function with MSI at 0x40 and MSI-X at 0x50 that
`pci_emul_add_msicap` and `pci_emul_add_msixcap` build on a fresh instance.  A
4-byte write of all-ones at 0x40 and at 0x50 leaves the ID and next-pointer
bytes as they were. -/
theorem capwrite_headers_read_only_witness :
    (((pci_cfgrw (single_func msi_msix_dev) false 0 0 0 0x40 4 0xffffffff).bind fun r =>
        pci_cfgrw r.1 true 0 0 0 0x40 2 0).map Prod.snd = some 0x5005 ∧
     ((pci_cfgrw (single_func msi_msix_dev) false 0 0 0 0x50 4 0xffffffff).bind fun r =>
        pci_cfgrw r.1 true 0 0 0 0x50 2 0).map Prod.snd = some 0x0011) ∧
    (∀ coff bytes eax, (bytes = 1 ∨ bytes = 2 ∨ bytes = 4) → coff % bytes = 0 →
      pci_emul_iscap msi_msix_dev coff = true →
      ∃ pi', pci_cfgrw (single_func msi_msix_dev) false 0 0 0 coff bytes eax =
          some (store_devi (single_func msi_msix_dev) 0 0 0 pi', eax) ∧
        cap_chain pi' [0x40, 0x50] ∧
        ∀ c ∈ [0x40, 0x50], pci_get_cfgdata8 pi' c = pci_get_cfgdata8 msi_msix_dev c ∧
          pci_get_cfgdata8 pi' (c + 1) = pci_get_cfgdata8 msi_msix_dev (c + 1)) ∧
    (∀ c ∈ [0x40, 0x50], ∀ eax, eax < 2 ^ 32 →
      pci_emul_iscap msi_msix_dev c = true ∧ pci_emul_iscap msi_msix_dev (c + 2) = true ∧
      (pci_cfgrw (single_func msi_msix_dev) false 0 0 0 c 4 eax).map Prod.fst =
        (pci_cfgrw (single_func msi_msix_dev) false 0 0 0 (c + 2) 2 (eax >>> 16)).map
          Prod.fst) :=
  ⟨⟨by decide, by decide⟩,
   capwrite_headers_read_only (single_func msi_msix_dev) 0 0 0
     { fi_devi := some msi_msix_dev } msi_msix_dev [0x40, 0x50] rfl rfl rfl
     ⟨by decide, by decide, by decide,
      ⟨by decide, by decide, by decide,
       show pci_get_cfgdata8 msi_msix_dev (0x50 + 1) = 0 by decide⟩,
      by decide, by decide, by decide, by decide⟩⟩

/-! ## The legacy interrupt state machine -/

/-- Interrupts are permitted exactly when MSI and MSI-X are not enabled and the
INTx-disable bit of the command register is clear. -/
theorem pci_lintr_permitted_iff (pi : pci_devinst) :
    pci_lintr_permitted pi = true ↔
      (pi.pi_msi.enabled = 0 ∧ pi.pi_msix.enabled = 0 ∧
        pci_get_cfgdata16 pi PCIR_COMMAND &&& PCIM_CMD_INTxDIS = 0) := by
  unfold pci_lintr_permitted
  simp only [Bool.not_eq_true', Bool.or_eq_false_iff, bne_eq_false_iff_eq, and_assoc]

/-- The transitions of `pci_lintr_assert`, shared form. -/
theorem lintr_assert_cases (pi : pci_devinst) (hpin : 0 < pi.pi_lintr.pin) :
    (pi.pi_lintr.state = lintr_stat.IDLE → pci_lintr_permitted pi = true →
      pci_lintr_assert pi =
        some { pi with pi_lintr := { pi.pi_lintr with state := lintr_stat.ASSERTED },
                       pi_irq_calls := pi.pi_irq_calls ++ [true] }) ∧
    (pi.pi_lintr.state = lintr_stat.IDLE → pci_lintr_permitted pi = false →
      pci_lintr_assert pi =
        some { pi with pi_lintr := { pi.pi_lintr with state := lintr_stat.PENDING } }) ∧
    (pi.pi_lintr.state ≠ lintr_stat.IDLE → pci_lintr_assert pi = some pi) := by
  unfold pci_lintr_assert
  refine ⟨?_, ?_, ?_⟩
  · intro hs hp
    simp only [gt_iff_lt, hpin, not_true_eq_false, ↓reduceIte, hs, hp]
  · intro hs hp
    simp only [gt_iff_lt, hpin, not_true_eq_false, ↓reduceIte, hs, hp, Bool.false_eq_true]
  · intro hs
    simp only [gt_iff_lt, hpin, not_true_eq_false, ↓reduceIte, hs]

/-- C23: `pci_lintr_assert` on a function that has a pin.  Interrupts are permitted
exactly when MSI is not enabled, MSI-X is not enabled and the INTx-disable
command bit is clear.  From IDLE, when permitted, the result is the instance
with state ASSERTED and one host assert call appended to the record of host
calls; from IDLE, when not permitted, it is the instance with state PENDING and
the record untouched; from ASSERTED or PENDING it is the instance itself. -/
theorem lintr_assert_spec (pi : pci_devinst) (hpin : 0 < pi.pi_lintr.pin) :
    (pci_lintr_permitted pi = true ↔
      (pi.pi_msi.enabled = 0 ∧ pi.pi_msix.enabled = 0 ∧
        pci_get_cfgdata16 pi PCIR_COMMAND &&& PCIM_CMD_INTxDIS = 0)) ∧
    (pi.pi_lintr.state = lintr_stat.IDLE → pci_lintr_permitted pi = true →
      pci_lintr_assert pi =
        some { pi with pi_lintr := { pi.pi_lintr with state := lintr_stat.ASSERTED },
                       pi_irq_calls := pi.pi_irq_calls ++ [true] }) ∧
    (pi.pi_lintr.state = lintr_stat.IDLE → pci_lintr_permitted pi = false →
      pci_lintr_assert pi =
        some { pi with pi_lintr := { pi.pi_lintr with state := lintr_stat.PENDING } }) ∧
    (pi.pi_lintr.state ≠ lintr_stat.IDLE → pci_lintr_assert pi = some pi) :=
  ⟨pci_lintr_permitted_iff pi, lintr_assert_cases pi hpin⟩

/-- Witness for C23: an idle function with pin 1 whose interrupts are permitted; the
call leaves it ASSERTED with the single host call `true`. -/
theorem lintr_assert_spec_witness :
    (pci_lintr_assert (lintr_dev lintr_stat.IDLE 0 0)).map
        (fun p => (p.pi_lintr.state, p.pi_irq_calls)) =
      some (lintr_stat.ASSERTED, [true]) ∧
    (pci_lintr_assert (lintr_dev lintr_stat.IDLE 0 PCIM_CMD_INTxDIS)).map
        (fun p => (p.pi_lintr.state, p.pi_irq_calls)) =
      some (lintr_stat.PENDING, []) ∧
    (pci_lintr_assert (lintr_dev lintr_stat.IDLE 1 0)).map
        (fun p => (p.pi_lintr.state, p.pi_irq_calls)) =
      some (lintr_stat.PENDING, []) ∧
    pci_lintr_permitted (lintr_dev lintr_stat.IDLE 0 0) = true ∧
    pci_lintr_assert (lintr_dev lintr_stat.IDLE 0 0) =
      some { lintr_dev lintr_stat.IDLE 0 0 with
        pi_lintr := { (lintr_dev lintr_stat.IDLE 0 0).pi_lintr with
          state := lintr_stat.ASSERTED },
        pi_irq_calls := (lintr_dev lintr_stat.IDLE 0 0).pi_irq_calls ++ [true] } :=
  ⟨by decide, by decide, by decide, by decide,
   (lintr_assert_spec (lintr_dev lintr_stat.IDLE 0 0) (by decide)).2.1 rfl (by decide)⟩

/-- The transitions of `pci_lintr_deassert`, shared form. -/
theorem lintr_deassert_cases (pi : pci_devinst) (hpin : 0 < pi.pi_lintr.pin) :
    (pi.pi_lintr.state = lintr_stat.ASSERTED →
      pci_lintr_deassert pi =
        some { pi with pi_lintr := { pi.pi_lintr with state := lintr_stat.IDLE },
                       pi_irq_calls := pi.pi_irq_calls ++ [false] }) ∧
    (pi.pi_lintr.state = lintr_stat.PENDING →
      pci_lintr_deassert pi =
        some { pi with pi_lintr := { pi.pi_lintr with state := lintr_stat.IDLE } }) ∧
    (pi.pi_lintr.state = lintr_stat.IDLE → pci_lintr_deassert pi = some pi) := by
  unfold pci_lintr_deassert
  refine ⟨?_, ?_, ?_⟩
  · intro hs
    simp only [gt_iff_lt, hpin, not_true_eq_false, ↓reduceIte, hs]
  · intro hs
    simp only [gt_iff_lt, hpin, not_true_eq_false, ↓reduceIte, hs, reduceCtorEq]
  · intro hs
    simp only [gt_iff_lt, hpin, not_true_eq_false, ↓reduceIte, hs, reduceCtorEq]

/-- C24: `pci_lintr_deassert` on a function that has a pin.  From ASSERTED the result
is the instance with state IDLE and one host deassert call appended to the
record of host calls; from PENDING it is the instance with state IDLE and the
record untouched; from IDLE it is the instance itself. -/
theorem lintr_deassert_spec (pi : pci_devinst) (hpin : 0 < pi.pi_lintr.pin) :
    (pi.pi_lintr.state = lintr_stat.ASSERTED →
      pci_lintr_deassert pi =
        some { pi with pi_lintr := { pi.pi_lintr with state := lintr_stat.IDLE },
                       pi_irq_calls := pi.pi_irq_calls ++ [false] }) ∧
    (pi.pi_lintr.state = lintr_stat.PENDING →
      pci_lintr_deassert pi =
        some { pi with pi_lintr := { pi.pi_lintr with state := lintr_stat.IDLE } }) ∧
    (pi.pi_lintr.state = lintr_stat.IDLE → pci_lintr_deassert pi = some pi) :=
  lintr_deassert_cases pi hpin

/-- Witness for C24: the three states of a function with pin 1. -/
theorem lintr_deassert_spec_witness :
    (pci_lintr_deassert (lintr_dev lintr_stat.ASSERTED 0 0)).map
        (fun p => (p.pi_lintr.state, p.pi_irq_calls)) =
      some (lintr_stat.IDLE, [false]) ∧
    (pci_lintr_deassert (lintr_dev lintr_stat.PENDING 0 0)).map
        (fun p => (p.pi_lintr.state, p.pi_irq_calls)) =
      some (lintr_stat.IDLE, []) ∧
    (pci_lintr_deassert (lintr_dev lintr_stat.IDLE 0 0)).map
        (fun p => (p.pi_lintr.state, p.pi_irq_calls)) =
      some (lintr_stat.IDLE, []) ∧
    pci_lintr_deassert (lintr_dev lintr_stat.PENDING 0 0) =
      some { lintr_dev lintr_stat.PENDING 0 0 with
        pi_lintr := { (lintr_dev lintr_stat.PENDING 0 0).pi_lintr with
          state := lintr_stat.IDLE } } :=
  ⟨by decide, by decide, by decide,
   (lintr_deassert_spec (lintr_dev lintr_stat.PENDING 0 0) (by decide)).2.1 rfl⟩

/-- The transitions of `pci_lintr_update`, shared form. -/
theorem lintr_update_cases (pi : pci_devinst) :
    (pi.pi_lintr.state = lintr_stat.ASSERTED → pci_lintr_permitted pi = false →
      pci_lintr_update pi =
        { pi with pi_irq_calls := pi.pi_irq_calls ++ [false],
                  pi_lintr := { pi.pi_lintr with state := lintr_stat.PENDING } }) ∧
    (pi.pi_lintr.state = lintr_stat.PENDING → pci_lintr_permitted pi = true →
      pci_lintr_update pi =
        { pi with pi_lintr := { pi.pi_lintr with state := lintr_stat.ASSERTED },
                  pi_irq_calls := pi.pi_irq_calls ++ [true] }) ∧
    (¬ (pi.pi_lintr.state = lintr_stat.ASSERTED ∧ pci_lintr_permitted pi = false) →
      ¬ (pi.pi_lintr.state = lintr_stat.PENDING ∧ pci_lintr_permitted pi = true) →
      pci_lintr_update pi = pi) := by
  unfold pci_lintr_update
  refine ⟨?_, ?_, ?_⟩
  · intro hs hp
    simp only [hs, hp, Bool.false_eq_true, not_false_eq_true, and_self, ↓reduceIte]
  · intro hs hp
    simp only [hs, hp, reduceCtorEq, not_true_eq_false, and_false, and_self, ↓reduceIte]
  · intro h1 h2
    have h1' : ¬ (pi.pi_lintr.state = lintr_stat.ASSERTED ∧ ¬ pci_lintr_permitted pi = true) := by
      simpa using h1
    simp only [h1', h2, ↓reduceIte]

/-- C25: `pci_lintr_update`.  ASSERTED while interrupts are not permitted becomes
PENDING with one host deassert call appended to the record of host calls;
PENDING while they are permitted becomes ASSERTED with one host assert call
appended; in every other combination the instance is returned as it is. -/
theorem lintr_update_spec (pi : pci_devinst) :
    (pi.pi_lintr.state = lintr_stat.ASSERTED → pci_lintr_permitted pi = false →
      pci_lintr_update pi =
        { pi with pi_irq_calls := pi.pi_irq_calls ++ [false],
                  pi_lintr := { pi.pi_lintr with state := lintr_stat.PENDING } }) ∧
    (pi.pi_lintr.state = lintr_stat.PENDING → pci_lintr_permitted pi = true →
      pci_lintr_update pi =
        { pi with pi_lintr := { pi.pi_lintr with state := lintr_stat.ASSERTED },
                  pi_irq_calls := pi.pi_irq_calls ++ [true] }) ∧
    (¬ (pi.pi_lintr.state = lintr_stat.ASSERTED ∧ pci_lintr_permitted pi = false) →
      ¬ (pi.pi_lintr.state = lintr_stat.PENDING ∧ pci_lintr_permitted pi = true) →
      pci_lintr_update pi = pi) :=
  lintr_update_cases pi

/-- Witness for C25: the six combinations of state and permission of a function with
pin 1, and the transition from PENDING when permitted. -/
theorem lintr_update_spec_witness :
    ((pci_lintr_update (lintr_dev lintr_stat.ASSERTED 1 0)).pi_lintr.state,
      (pci_lintr_update (lintr_dev lintr_stat.ASSERTED 1 0)).pi_irq_calls) =
      (lintr_stat.PENDING, [false]) ∧
    ((pci_lintr_update (lintr_dev lintr_stat.PENDING 0 0)).pi_lintr.state,
      (pci_lintr_update (lintr_dev lintr_stat.PENDING 0 0)).pi_irq_calls) =
      (lintr_stat.ASSERTED, [true]) ∧
    ((pci_lintr_update (lintr_dev lintr_stat.ASSERTED 0 0)).pi_lintr.state,
      (pci_lintr_update (lintr_dev lintr_stat.ASSERTED 0 0)).pi_irq_calls) =
      (lintr_stat.ASSERTED, []) ∧
    ((pci_lintr_update (lintr_dev lintr_stat.PENDING 1 0)).pi_lintr.state,
      (pci_lintr_update (lintr_dev lintr_stat.PENDING 1 0)).pi_irq_calls) =
      (lintr_stat.PENDING, []) ∧
    ((pci_lintr_update (lintr_dev lintr_stat.IDLE 0 0)).pi_lintr.state,
      (pci_lintr_update (lintr_dev lintr_stat.IDLE 0 0)).pi_irq_calls) =
      (lintr_stat.IDLE, []) ∧
    ((pci_lintr_update (lintr_dev lintr_stat.IDLE 1 0)).pi_lintr.state,
      (pci_lintr_update (lintr_dev lintr_stat.IDLE 1 0)).pi_irq_calls) =
      (lintr_stat.IDLE, []) ∧
    pci_lintr_update (lintr_dev lintr_stat.PENDING 0 0) =
      { lintr_dev lintr_stat.PENDING 0 0 with
        pi_lintr := { (lintr_dev lintr_stat.PENDING 0 0).pi_lintr with
          state := lintr_stat.ASSERTED },
        pi_irq_calls := (lintr_dev lintr_stat.PENDING 0 0).pi_irq_calls ++ [true] } :=
  ⟨by decide, by decide, by decide, by decide, by decide, by decide,
   (lintr_update_spec (lintr_dev lintr_stat.PENDING 0 0)).2.1 rfl (by decide)⟩

/-! ## Host line and interrupt state -/

/-- The level of the host line after one more call is that of the call. -/
theorem host_line_concat (l : List Bool) (b : Bool) : host_line (l ++ [b]) = b := by
  unfold host_line
  simp

/-- Appending a call to an alternating record keeps it alternating exactly when the
call is the one that is due. -/
theorem alternates_concat (b : Bool) : ∀ (l : List Bool) (e : Bool), alternates e l = true →
    alternates e (l ++ [b]) = (b == (if l.length % 2 = 0 then e else !e)) := by
  intro l
  induction l with
  | nil => intro e _; simp [alternates]
  | cons a l ih =>
    intro e h
    simp only [alternates, Bool.and_eq_true] at h
    obtain ⟨h1, h2⟩ := h
    have hih := ih (!e) h2
    simp only [List.cons_append, alternates, h1, Bool.true_and, List.length_cons]
    show alternates (!e) (l ++ [b]) = _
    rw [hih]
    rcases Nat.mod_two_eq_zero_or_one l.length with hp | hp
    · have : (l.length + 1) % 2 = 1 := by omega
      simp [hp, this]
    · have : (l.length + 1) % 2 = 0 := by omega
      simp [hp, this]

/-- What every event keeps: the function has a pin, the record of host calls
alternates starting with an assert, the host line is asserted exactly after an
odd number of calls, and exactly when the state is ASSERTED. -/
theorem lintr_step_inv (pi : pci_devinst) (ev : lintr_event)
    (hpin : 0 < pi.pi_lintr.pin) (halt : alternates true pi.pi_irq_calls = true)
    (hpar : host_line pi.pi_irq_calls = decide (pi.pi_irq_calls.length % 2 = 1))
    (hst : pi.pi_lintr.state = lintr_stat.ASSERTED ↔ host_line pi.pi_irq_calls = true) :
    ∃ pi', lintr_step pi ev = some pi' ∧ 0 < pi'.pi_lintr.pin ∧
      alternates true pi'.pi_irq_calls = true ∧
      host_line pi'.pi_irq_calls = decide (pi'.pi_irq_calls.length % 2 = 1) ∧
      (pi'.pi_lintr.state = lintr_stat.ASSERTED ↔ host_line pi'.pi_irq_calls = true) := by
  have up : host_line pi.pi_irq_calls = false →
      alternates true (pi.pi_irq_calls ++ [true]) = true ∧
      host_line (pi.pi_irq_calls ++ [true]) =
        decide ((pi.pi_irq_calls ++ [true]).length % 2 = 1) := by
    intro hl
    rw [hl] at hpar
    have hev : pi.pi_irq_calls.length % 2 = 0 := by
      have := hpar.symm
      simp only [decide_eq_false_iff_not] at this
      omega
    refine ⟨?_, ?_⟩
    · rw [alternates_concat true _ true halt]; simp [hev]
    · rw [host_line_concat]
      simp only [List.length_append, List.length_singleton]
      have : (pi.pi_irq_calls.length + 1) % 2 = 1 := by omega
      simp [this]
  have down : host_line pi.pi_irq_calls = true →
      alternates true (pi.pi_irq_calls ++ [false]) = true ∧
      host_line (pi.pi_irq_calls ++ [false]) =
        decide ((pi.pi_irq_calls ++ [false]).length % 2 = 1) := by
    intro hl
    rw [hl] at hpar
    have hod : pi.pi_irq_calls.length % 2 = 1 := by
      have := hpar.symm
      simpa using this
    refine ⟨?_, ?_⟩
    · rw [alternates_concat false _ true halt]; simp [hod]
    · rw [host_line_concat]
      simp only [List.length_append, List.length_singleton]
      have : ¬ (pi.pi_irq_calls.length + 1) % 2 = 1 := by omega
      simp [this]
  have hlow : pi.pi_lintr.state ≠ lintr_stat.ASSERTED → host_line pi.pi_irq_calls = false := by
    intro hne
    cases h : host_line pi.pi_irq_calls with
    | false => rfl
    | true => exact absurd (hst.mpr h) hne
  cases ev with
  | call_assert =>
    obtain ⟨c1, c2, c3⟩ := lintr_assert_cases pi hpin
    by_cases hs : pi.pi_lintr.state = lintr_stat.IDLE
    · have hl := hlow (by rw [hs]; decide)
      by_cases hp : pci_lintr_permitted pi = true
      · obtain ⟨u1, u2⟩ := up hl
        refine ⟨_, c1 hs hp, hpin, u1, u2, ?_⟩
        show lintr_stat.ASSERTED = lintr_stat.ASSERTED ↔ host_line (pi.pi_irq_calls ++ [true]) = true
        rw [host_line_concat]; simp
      · have hp' : pci_lintr_permitted pi = false := by simpa using hp
        refine ⟨_, c2 hs hp', hpin, halt, hpar, ?_⟩
        show lintr_stat.PENDING = lintr_stat.ASSERTED ↔ host_line pi.pi_irq_calls = true
        rw [hl]; simp
    · exact ⟨pi, c3 hs, hpin, halt, hpar, hst⟩
  | call_deassert =>
    obtain ⟨c1, c2, c3⟩ := lintr_deassert_cases pi hpin
    cases hs : pi.pi_lintr.state with
    | ASSERTED =>
      obtain ⟨d1, d2⟩ := down (hst.mp hs)
      refine ⟨_, c1 hs, hpin, d1, d2, ?_⟩
      show lintr_stat.IDLE = lintr_stat.ASSERTED ↔ host_line (pi.pi_irq_calls ++ [false]) = true
      rw [host_line_concat]; simp
    | PENDING =>
      have hl := hlow (by rw [hs]; decide)
      refine ⟨_, c2 hs, hpin, halt, hpar, ?_⟩
      show lintr_stat.IDLE = lintr_stat.ASSERTED ↔ host_line pi.pi_irq_calls = true
      rw [hl]; simp
    | IDLE =>
      rw [hs] at hst
      exact ⟨pi, c3 hs, hpin, halt, hpar, by rw [hs]; exact hst⟩
  | call_update =>
    obtain ⟨c1, c2, c3⟩ := lintr_update_cases pi
    refine ⟨pci_lintr_update pi, rfl, ?_⟩
    by_cases h1 : pi.pi_lintr.state = lintr_stat.ASSERTED ∧ pci_lintr_permitted pi = false
    · rw [c1 h1.1 h1.2]
      obtain ⟨d1, d2⟩ := down (hst.mp h1.1)
      refine ⟨hpin, d1, d2, ?_⟩
      show lintr_stat.PENDING = lintr_stat.ASSERTED ↔ host_line (pi.pi_irq_calls ++ [false]) = true
      rw [host_line_concat]; simp
    · by_cases h2 : pi.pi_lintr.state = lintr_stat.PENDING ∧ pci_lintr_permitted pi = true
      · rw [c2 h2.1 h2.2]
        obtain ⟨u1, u2⟩ := up (hlow (by rw [h2.1]; decide))
        refine ⟨hpin, u1, u2, ?_⟩
        show lintr_stat.ASSERTED = lintr_stat.ASSERTED ↔
          host_line (pi.pi_irq_calls ++ [true]) = true
        rw [host_line_concat]; simp
      · rw [c3 h1 h2]
        exact ⟨hpin, halt, hpar, hst⟩
  | set_inputs msi msix cmd =>
    exact ⟨_, rfl, hpin, halt, hpar, hst⟩

/-- The invariant of `lintr_step_inv` along a sequence of events. -/
theorem lintr_run_inv : ∀ (evs : List lintr_event) (pi : pci_devinst),
    0 < pi.pi_lintr.pin → alternates true pi.pi_irq_calls = true →
    host_line pi.pi_irq_calls = decide (pi.pi_irq_calls.length % 2 = 1) →
    (pi.pi_lintr.state = lintr_stat.ASSERTED ↔ host_line pi.pi_irq_calls = true) →
    ∃ pi', lintr_run pi evs = some pi' ∧
      alternates true pi'.pi_irq_calls = true ∧
      (pi'.pi_lintr.state = lintr_stat.ASSERTED ↔ host_line pi'.pi_irq_calls = true) := by
  intro evs
  induction evs with
  | nil => intro pi _ h2 _ h4; exact ⟨pi, rfl, h2, h4⟩
  | cons e es ih =>
    intro pi h1 h2 h3 h4
    obtain ⟨p, hp, q1, q2, q3, q4⟩ := lintr_step_inv pi e h1 h2 h3 h4
    obtain ⟨p', hp', r⟩ := ih p q1 q2 q3 q4
    exact ⟨p', by simp only [lintr_run, hp, Option.some_bind, hp'], r⟩

/-- C27: for a function that has a pin, starts IDLE and has no host call on record
(the host line is deasserted), every finite sequence of `pci_lintr_assert`,
`pci_lintr_deassert` and `pci_lintr_update` calls, interleaved with arbitrary
changes of the MSI and MSI-X enable flags and of the command register, runs
through; afterwards the host line is asserted if and only if the state is
ASSERTED, and the host calls on record alternate, beginning with an assert. -/
theorem lintr_host_line (pi : pci_devinst) (evs : List lintr_event)
    (hpin : 0 < pi.pi_lintr.pin) (hidle : pi.pi_lintr.state = lintr_stat.IDLE)
    (hcalls : pi.pi_irq_calls = []) :
    ∃ pi', lintr_run pi evs = some pi' ∧
      (host_line pi'.pi_irq_calls = true ↔ pi'.pi_lintr.state = lintr_stat.ASSERTED) ∧
      alternates true pi'.pi_irq_calls = true := by
  obtain ⟨p, h1, h2, h3⟩ := lintr_run_inv evs pi hpin (by rw [hcalls]; rfl)
    (by rw [hcalls]; rfl) (by rw [hcalls, hidle]; decide)
  exact ⟨p, h1, h3.symm, h2⟩

/-- Witness for C27: assert while INTx is disabled, enable INTx, update, deassert,
assert again, then MSI is enabled and the interrupt updated.  The host sees
assert, deassert, assert, deassert, and the function ends PENDING. -/
theorem lintr_host_line_witness :
    (lintr_run (lintr_dev lintr_stat.IDLE 0 PCIM_CMD_INTxDIS)
        [.call_assert, .set_inputs 0 0 0, .call_update, .call_deassert, .call_assert,
         .set_inputs 1 0 0, .call_update]).map
      (fun p => (p.pi_lintr.state, p.pi_irq_calls)) =
      some (lintr_stat.PENDING, [true, false, true, false]) ∧
    ∃ pi', lintr_run (lintr_dev lintr_stat.IDLE 0 PCIM_CMD_INTxDIS)
        [.call_assert, .set_inputs 0 0 0, .call_update, .call_deassert, .call_assert,
         .set_inputs 1 0 0, .call_update] = some pi' ∧
      (host_line pi'.pi_irq_calls = true ↔ pi'.pi_lintr.state = lintr_stat.ASSERTED) ∧
      alternates true pi'.pi_irq_calls = true :=
  ⟨by decide,
   lintr_host_line (lintr_dev lintr_stat.IDLE 0 PCIM_CMD_INTxDIS)
     [.call_assert, .set_inputs 0 0 0, .call_update, .call_deassert, .call_assert,
      .set_inputs 1 0 0, .call_update] (by decide) rfl rfl⟩

/-! ## Pin assignment -/

/-- The pin the search loop of `pci_lintr_request` settles on is one of the four, its
counter is minimal, and every pin before it has a larger counter. -/
theorem bestpin_spec (si : slotinfo) :
    bestpin si < 4 ∧
    (∀ p, p < 4 → (si.si_intpins (bestpin si)).ii_count ≤ (si.si_intpins p).ii_count) ∧
    (∀ p, p < bestpin si →
      (si.si_intpins (bestpin si)).ii_count < (si.si_intpins p).ii_count) := by
  have hb : bestpin si =
      (if (si.si_intpins 3).ii_count <
          (if (si.si_intpins 2).ii_count <
              (if (si.si_intpins 1).ii_count < (si.si_intpins 0).ii_count then
                (1, (si.si_intpins 1).ii_count) else (0, (si.si_intpins 0).ii_count)).2 then
            (2, (si.si_intpins 2).ii_count)
           else (if (si.si_intpins 1).ii_count < (si.si_intpins 0).ii_count then
                (1, (si.si_intpins 1).ii_count) else (0, (si.si_intpins 0).ii_count))).2 then
        (3, (si.si_intpins 3).ii_count)
       else
        (if (si.si_intpins 2).ii_count <
              (if (si.si_intpins 1).ii_count < (si.si_intpins 0).ii_count then
                (1, (si.si_intpins 1).ii_count) else (0, (si.si_intpins 0).ii_count)).2 then
            (2, (si.si_intpins 2).ii_count)
           else (if (si.si_intpins 1).ii_count < (si.si_intpins 0).ii_count then
                (1, (si.si_intpins 1).ii_count) else (0, (si.si_intpins 0).ii_count)))).1 := rfl
  by_cases h1 : (si.si_intpins 1).ii_count < (si.si_intpins 0).ii_count
  · by_cases h2 : (si.si_intpins 2).ii_count < (si.si_intpins 1).ii_count
    · by_cases h3 : (si.si_intpins 3).ii_count < (si.si_intpins 2).ii_count
      · have e : bestpin si = 3 := by rw [hb]; simp only [h1, h2, h3, ↓reduceIte]
        rw [e]
        refine ⟨by decide, fun p hp => ?_, fun p hp => ?_⟩ <;> interval_cases p <;> omega
      · have e : bestpin si = 2 := by rw [hb]; simp only [h1, h2, h3, ↓reduceIte]
        rw [e]
        refine ⟨by decide, fun p hp => ?_, fun p hp => ?_⟩ <;> interval_cases p <;> omega
    · by_cases h3 : (si.si_intpins 3).ii_count < (si.si_intpins 1).ii_count
      · have e : bestpin si = 3 := by rw [hb]; simp only [h1, h2, h3, ↓reduceIte]
        rw [e]
        refine ⟨by decide, fun p hp => ?_, fun p hp => ?_⟩ <;> interval_cases p <;> omega
      · have e : bestpin si = 1 := by rw [hb]; simp only [h1, h2, h3, ↓reduceIte]
        rw [e]
        refine ⟨by decide, fun p hp => ?_, fun p hp => ?_⟩ <;> interval_cases p <;> omega
  · by_cases h2 : (si.si_intpins 2).ii_count < (si.si_intpins 0).ii_count
    · by_cases h3 : (si.si_intpins 3).ii_count < (si.si_intpins 2).ii_count
      · have e : bestpin si = 3 := by rw [hb]; simp only [h1, h2, h3, ↓reduceIte]
        rw [e]
        refine ⟨by decide, fun p hp => ?_, fun p hp => ?_⟩ <;> interval_cases p <;> omega
      · have e : bestpin si = 2 := by rw [hb]; simp only [h1, h2, h3, ↓reduceIte]
        rw [e]
        refine ⟨by decide, fun p hp => ?_, fun p hp => ?_⟩ <;> interval_cases p <;> omega
    · by_cases h3 : (si.si_intpins 3).ii_count < (si.si_intpins 0).ii_count
      · have e : bestpin si = 3 := by rw [hb]; simp only [h1, h2, h3, ↓reduceIte]
        rw [e]
        refine ⟨by decide, fun p hp => ?_, fun p hp => ?_⟩ <;> interval_cases p <;> omega
      · have e : bestpin si = 0 := by rw [hb]; simp only [h1, h2, h3, ↓reduceIte]
        rw [e]
        refine ⟨by decide, fun p hp => ?_, fun p hp => ?_⟩ <;> interval_cases p <;> omega

/-- The effect of `pci_lintr_request`, shared form. -/
theorem lintr_request_effect (t : Nat → Option businfo) (pi_bus pi_slot : Nat)
    (pi : pci_devinst) (bi : businfo) (hbi : t pi_bus = some bi) :
    ∃ best t' pi' bi',
      pci_lintr_request t pi_bus pi_slot pi = some (t', pi') ∧ best < 4 ∧
      (∀ p, p < 4 → ((bi.slotinfo pi_slot).si_intpins best).ii_count ≤
        ((bi.slotinfo pi_slot).si_intpins p).ii_count) ∧
      (∀ p, p < best → ((bi.slotinfo pi_slot).si_intpins best).ii_count <
        ((bi.slotinfo pi_slot).si_intpins p).ii_count) ∧
      t' pi_bus = some bi' ∧
      ((bi'.slotinfo pi_slot).si_intpins best).ii_count =
        ((bi.slotinfo pi_slot).si_intpins best).ii_count + 1 ∧
      (∀ p, p ≠ best →
        (bi'.slotinfo pi_slot).si_intpins p = (bi.slotinfo pi_slot).si_intpins p) ∧
      (∀ s, s ≠ pi_slot → (bi'.slotinfo s).si_intpins = (bi.slotinfo s).si_intpins) ∧
      (∀ b, b ≠ pi_bus → t' b = t b) ∧
      pi'.pi_lintr.pin = best + 1 ∧ pci_get_cfgdata8 pi' PCIR_INTPIN = best + 1 ∧
      pi'.pi_lintr.state = pi.pi_lintr.state ∧
      (∀ o, o ≠ PCIR_INTPIN → pi'.pi_cfgdata o = pi.pi_cfgdata o) := by
  obtain ⟨b1, b2, b3⟩ := bestpin_spec (bi.slotinfo pi_slot)
  unfold pci_lintr_request
  simp only [hbi]
  refine ⟨bestpin (bi.slotinfo pi_slot), _, _, _, rfl, b1, b2, b3, if_pos rfl, ?_, ?_, ?_, ?_,
    ?_, ?_, ?_, ?_⟩
  · simp only [↓reduceIte]
  · intro p hp
    simp only [↓reduceIte, hp]
  · intro s hs
    simp only [hs, ↓reduceIte]
  · intro b hb
    simp only [hb, ↓reduceIte]
  · rfl
  · unfold pci_get_cfgdata8 pci_set_cfgdata8
    simp only [↓reduceIte]
    omega
  · rfl
  · intro o ho
    unfold pci_set_cfgdata8
    simp only [ho, ↓reduceIte]

/-- C28: on an existing bus `pci_lintr_request` returns; the pin `best` it chooses is
one of the slot's four, its load counter is minimal among the four and every
pin with a lower index has a strictly larger counter (lowest index among
ties); exactly that counter is incremented by one, every other counter of the
table is unchanged, and the function records pin `best + 1` (the pins are
numbered from 1) in `pi_lintr.pin` and in the interrupt-pin byte of the
configuration space. -/
theorem lintr_request_spec (t : Nat → Option businfo) (pi_bus pi_slot : Nat)
    (pi : pci_devinst) (hbus : (t pi_bus).isSome = true) :
    ∃ best t' pi',
      pci_lintr_request t pi_bus pi_slot pi = some (t', pi') ∧ best < 4 ∧
      (∀ p, p < 4 → intpin_count t pi_bus pi_slot best ≤ intpin_count t pi_bus pi_slot p) ∧
      (∀ p, p < best → intpin_count t pi_bus pi_slot best < intpin_count t pi_bus pi_slot p) ∧
      intpin_count t' pi_bus pi_slot best = intpin_count t pi_bus pi_slot best + 1 ∧
      (∀ b s p, (b ≠ pi_bus ∨ s ≠ pi_slot ∨ p ≠ best) →
        intpin_count t' b s p = intpin_count t b s p) ∧
      pi'.pi_lintr.pin = best + 1 ∧ pci_get_cfgdata8 pi' PCIR_INTPIN = best + 1 := by
  obtain ⟨bi, hbi⟩ := Option.isSome_iff_exists.mp hbus
  obtain ⟨best, t', pi', bi', h1, h2, h3, h4, h5, h6, h7, h8, h9, h10, h11, _, _⟩ :=
    lintr_request_effect t pi_bus pi_slot pi bi hbi
  refine ⟨best, t', pi', h1, h2, ?_, ?_, ?_, ?_, h10, h11⟩
  · intro p hp
    unfold intpin_count
    simp only [hbi]
    exact h3 p hp
  · intro p hp
    unfold intpin_count
    simp only [hbi]
    exact h4 p hp
  · unfold intpin_count
    simp only [hbi, h5]
    exact h6
  · intro b s p hne
    unfold intpin_count
    by_cases hb : b = pi_bus
    · subst hb
      simp only [hbi, h5]
      by_cases hs : s = pi_slot
      · subst hs
        have hp : p ≠ best := by
          rcases hne with h | h | h
          · exact absurd rfl h
          · exact absurd rfl h
          · exact h
        rw [h7 p hp]
      · rw [h8 s hs]
    · rw [h9 b hb]

/-- Witness for C28: a slot whose pins carry the loads 2, 1, 1, 3.  Pin index 1 is
chosen (the lower of the two least loaded), the loads become 2, 2, 1, 3, and
the function records pin 2. -/
theorem lintr_request_spec_witness :
    ((pci_lintr_request loaded_slot 0 0 (fresh_devinst none)).map fun r =>
      ([0, 1, 2, 3].map (intpin_count r.1 0 0), r.2.pi_lintr.pin,
        pci_get_cfgdata8 r.2 PCIR_INTPIN)) = some ([2, 2, 1, 3], 2, 2) ∧
    ∃ best t' pi',
      pci_lintr_request loaded_slot 0 0 (fresh_devinst none) = some (t', pi') ∧ best < 4 ∧
      (∀ p, p < 4 → intpin_count loaded_slot 0 0 best ≤ intpin_count loaded_slot 0 0 p) ∧
      (∀ p, p < best → intpin_count loaded_slot 0 0 best < intpin_count loaded_slot 0 0 p) ∧
      intpin_count t' 0 0 best = intpin_count loaded_slot 0 0 best + 1 ∧
      (∀ b s p, (b ≠ 0 ∨ s ≠ 0 ∨ p ≠ best) →
        intpin_count t' b s p = intpin_count loaded_slot b s p) ∧
      pi'.pi_lintr.pin = best + 1 ∧ pci_get_cfgdata8 pi' PCIR_INTPIN = best + 1 :=
  ⟨by decide, lintr_request_spec loaded_slot 0 0 (fresh_devinst none) rfl⟩

/-! ## The extended-configuration front end -/

/-- The fields `pci_emul_ecfg_handler` takes from an address, as quotients and
remainders: offset = bits 0..11, function = bits 12..14, slot = bits 15..19,
bus = bits 20..27. -/
theorem ecfg_decode_eq (addr : Nat) :
    ecfg_decode addr =
      (addr / 2 ^ 20 % 2 ^ 8, addr / 2 ^ 15 % 2 ^ 5, addr / 2 ^ 12 % 2 ^ 3, addr % 2 ^ 12) := by
  unfold ecfg_decode
  have h1 : (0xff : Nat) = 2 ^ 8 - 1 := rfl
  have h2 : (0x1f : Nat) = 2 ^ 5 - 1 := rfl
  have h3 : (0x7 : Nat) = 2 ^ 3 - 1 := rfl
  have h4 : (0xfff : Nat) = 2 ^ 12 - 1 := rfl
  rw [h1, h2, h3, h4]
  simp only [Nat.and_pow_two_sub_one_eq_mod, Nat.shiftRight_eq_div_pow]

/-- The packed tuple is the sum of its shifted fields. -/
theorem ecfg_pack_eq (bus slot func off : Nat) (hs : slot < 32) (hf : func < 8)
    (ho : off < 4096) :
    (bus <<< 20) ||| (slot <<< 15) ||| (func <<< 12) ||| off =
      bus * 2 ^ 20 + slot * 2 ^ 15 + func * 2 ^ 12 + off := by
  simp only [Nat.shiftLeft_eq]
  have e1 : bus * 2 ^ 20 ||| slot * 2 ^ 15 = bus * 2 ^ 20 + slot * 2 ^ 15 := by
    have := Nat.mul_add_lt_is_or (i := 20) (b := slot * 2 ^ 15) (by omega) bus
    rw [Nat.mul_comm bus (2 ^ 20)]
    exact this.symm
  have e2 : (bus * 2 ^ 20 + slot * 2 ^ 15) ||| func * 2 ^ 12 =
      bus * 2 ^ 20 + slot * 2 ^ 15 + func * 2 ^ 12 := by
    have := Nat.mul_add_lt_is_or (i := 15) (b := func * 2 ^ 12) (by omega) (bus * 2 ^ 5 + slot)
    have e : bus * 2 ^ 20 + slot * 2 ^ 15 = 2 ^ 15 * (bus * 2 ^ 5 + slot) := by omega
    rw [e]
    exact this.symm
  have e3 : (bus * 2 ^ 20 + slot * 2 ^ 15 + func * 2 ^ 12) ||| off =
      bus * 2 ^ 20 + slot * 2 ^ 15 + func * 2 ^ 12 + off := by
    have := Nat.mul_add_lt_is_or (i := 12) (b := off) (by omega)
      (bus * 2 ^ 8 + slot * 2 ^ 3 + func)
    have e : bus * 2 ^ 20 + slot * 2 ^ 15 + func * 2 ^ 12 =
        2 ^ 12 * (bus * 2 ^ 8 + slot * 2 ^ 3 + func) := by omega
    rw [e]
    exact this.symm
  rw [e1, e2, e3]

/-- Decoding the address of a tuple gives the tuple back, and the address lies in the
window, shared form. -/
theorem ecfg_decode_pack (bus slot func off : Nat) (hb : bus < 256) (hs : slot < 32)
    (hf : func < 8) (ho : off < 4096) :
    ecfg_decode (PCI_EMUL_ECFG_BASE + ((bus <<< 20) ||| (slot <<< 15) ||| (func <<< 12) ||| off))
      = (bus, slot, func, off) ∧
    PCI_EMUL_ECFG_BASE ≤
      PCI_EMUL_ECFG_BASE + ((bus <<< 20) ||| (slot <<< 15) ||| (func <<< 12) ||| off) ∧
    PCI_EMUL_ECFG_BASE + ((bus <<< 20) ||| (slot <<< 15) ||| (func <<< 12) ||| off) <
      PCI_EMUL_ECFG_BASE + PCI_EMUL_ECFG_SIZE := by
  rw [ecfg_pack_eq bus slot func off hs hf ho, ecfg_decode_eq]
  have hbase : PCI_EMUL_ECFG_BASE = 3758096384 := rfl
  have hsize : PCI_EMUL_ECFG_SIZE = 268435456 := rfl
  rw [hbase, hsize]
  refine ⟨?_, by omega, by omega⟩
  simp only [Prod.mk.injEq]
  refine ⟨?_, ?_, ?_, ?_⟩ <;> omega

/-- C29: `pci_emul_ecfg_handler` takes the offset from bits 0..11 of the address, the
function from bits 12..14, the slot from bits 15..19 and the bus from bits
20..27.  For every bus < 256, slot < 32, func < 8 and offset < 4096 the address
`PCI_EMUL_ECFG_BASE + (bus << 20 | slot << 15 | func << 12 | offset)` lies in
the window, decodes to exactly `(bus, slot, func, offset)`, is the address of no
other tuple, and the handler hands that tuple to `pci_cfgrw`. -/
theorem ecfg_layout (bus slot func off : Nat) (hb : bus < 256) (hs : slot < 32)
    (hf : func < 8) (ho : off < 4096) :
    (∀ addr, ecfg_decode addr =
      (addr / 2 ^ 20 % 2 ^ 8, addr / 2 ^ 15 % 2 ^ 5, addr / 2 ^ 12 % 2 ^ 3, addr % 2 ^ 12)) ∧
    ecfg_decode (PCI_EMUL_ECFG_BASE + ((bus <<< 20) ||| (slot <<< 15) ||| (func <<< 12) ||| off))
      = (bus, slot, func, off) ∧
    PCI_EMUL_ECFG_BASE ≤
      PCI_EMUL_ECFG_BASE + ((bus <<< 20) ||| (slot <<< 15) ||| (func <<< 12) ||| off) ∧
    PCI_EMUL_ECFG_BASE + ((bus <<< 20) ||| (slot <<< 15) ||| (func <<< 12) ||| off) <
      PCI_EMUL_ECFG_BASE + PCI_EMUL_ECFG_SIZE ∧
    (∀ bus' slot' func' off', bus' < 256 → slot' < 32 → func' < 8 → off' < 4096 →
      PCI_EMUL_ECFG_BASE + ((bus' <<< 20) ||| (slot' <<< 15) ||| (func' <<< 12) ||| off') =
        PCI_EMUL_ECFG_BASE + ((bus <<< 20) ||| (slot <<< 15) ||| (func <<< 12) ||| off) →
      (bus', slot', func', off') = (bus, slot, func, off)) ∧
    (∀ (t : Nat → Option businfo) (read : Bool) (bytes val : Nat),
      pci_emul_ecfg_handler t read
          (PCI_EMUL_ECFG_BASE + ((bus <<< 20) ||| (slot <<< 15) ||| (func <<< 12) ||| off))
          bytes val =
        (pci_cfgrw t read bus slot func off bytes
          (to32 (if read then U64 - 1 else val % U64))).map fun r =>
            (r.1, ((if read then U64 - 1 else val % U64) / U32) * U32 + to32 r.2)) := by
  obtain ⟨d1, d2, d3⟩ := ecfg_decode_pack bus slot func off hb hs hf ho
  refine ⟨ecfg_decode_eq, d1, d2, d3, ?_, ?_⟩
  · intro bus' slot' func' off' hb' hs' hf' ho' heq
    obtain ⟨d1', _, _⟩ := ecfg_decode_pack bus' slot' func' off' hb' hs' hf' ho'
    rw [← d1', heq, d1]
  · intro t read bytes val
    have hlt : PCI_EMUL_ECFG_BASE + ((bus <<< 20) ||| (slot <<< 15) ||| (func <<< 12) ||| off)
        < U64 := by
      have hbase : PCI_EMUL_ECFG_BASE = 3758096384 := rfl
      have hsize : PCI_EMUL_ECFG_SIZE = 268435456 := rfl
      have hu : U64 = 18446744073709551616 := rfl
      rw [hbase, hsize] at d3
      rw [hbase, hu]
      omega
    unfold pci_emul_ecfg_handler
    rw [Nat.mod_eq_of_lt hlt, d1]

/-- Witness for C29: bus 3, slot 17, function 5, offset 0x123. -/
theorem ecfg_layout_witness :
    ecfg_decode 0xE038D123 = (3, 17, 5, 0x123) ∧
    PCI_EMUL_ECFG_BASE + ((3 <<< 20) ||| (17 <<< 15) ||| (5 <<< 12) ||| 0x123) = 0xE038D123 ∧
    ((∀ addr, ecfg_decode addr =
      (addr / 2 ^ 20 % 2 ^ 8, addr / 2 ^ 15 % 2 ^ 5, addr / 2 ^ 12 % 2 ^ 3, addr % 2 ^ 12)) ∧
    ecfg_decode (PCI_EMUL_ECFG_BASE + ((3 <<< 20) ||| (17 <<< 15) ||| (5 <<< 12) ||| 0x123))
      = (3, 17, 5, 0x123) ∧
    PCI_EMUL_ECFG_BASE ≤
      PCI_EMUL_ECFG_BASE + ((3 <<< 20) ||| (17 <<< 15) ||| (5 <<< 12) ||| 0x123) ∧
    PCI_EMUL_ECFG_BASE + ((3 <<< 20) ||| (17 <<< 15) ||| (5 <<< 12) ||| 0x123) <
      PCI_EMUL_ECFG_BASE + PCI_EMUL_ECFG_SIZE ∧
    (∀ bus' slot' func' off', bus' < 256 → slot' < 32 → func' < 8 → off' < 4096 →
      PCI_EMUL_ECFG_BASE + ((bus' <<< 20) ||| (slot' <<< 15) ||| (func' <<< 12) ||| off') =
        PCI_EMUL_ECFG_BASE + ((3 <<< 20) ||| (17 <<< 15) ||| (5 <<< 12) ||| 0x123) →
      (bus', slot', func', off') = (3, 17, 5, 0x123)) ∧
    (∀ (t : Nat → Option businfo) (read : Bool) (bytes val : Nat),
      pci_emul_ecfg_handler t read
          (PCI_EMUL_ECFG_BASE + ((3 <<< 20) ||| (17 <<< 15) ||| (5 <<< 12) ||| 0x123))
          bytes val =
        (pci_cfgrw t read 3 17 5 0x123 bytes
          (to32 (if read then U64 - 1 else val % U64))).map fun r =>
            (r.1, ((if read then U64 - 1 else val % U64) / U32) * U32 + to32 r.2))) :=
  ⟨by decide, by decide,
   ecfg_layout 3 17 5 0x123 (by decide) (by decide) (by decide) (by decide)⟩

/-! ## The legacy front end -/

/-- C30: an address-port access of a width other than 4 leaves the latch
(`cfgenable`, `cfgbus`, `cfgslot`, `cfgfunc`, `cfgoff`) unchanged; a read yields
0xffff for width 2 and 0xff otherwise, all-ones of the width for the widths 1
and 2, and a write leaves `*eax` alone.  The enable flag of the latch is clear
exactly after a 4-byte write without the enable bit, and a data-port access of
width 1, 2 or 4 made while it is clear returns with the table unchanged, all-ones
on a read and `*eax` untouched on a write. -/
theorem legacy_inert (l : cfg_latch) (t : Nat → Option businfo) (inp : Bool)
    (port bytes eax : Nat) :
    (bytes ≠ 4 →
      pci_emul_cfgaddr l inp bytes eax =
        (l, if inp then (if bytes = 2 then 0xffff else 0xff) else eax)) ∧
    ((bytes = 1 ∨ bytes = 2) →
      pci_emul_cfgaddr l true bytes eax = (l, 2 ^ (8 * bytes) - 1)) ∧
    ((pci_emul_cfgaddr l false 4 eax).1.cfgenable = 0 ↔
      to32 eax &&& CONF1_ENABLE ≠ CONF1_ENABLE) ∧
    (l.cfgenable = 0 → (bytes = 1 ∨ bytes = 2 ∨ bytes = 4) →
      pci_emul_cfgdata l t inp port bytes eax =
        some (t, if inp then 0xffffffff else eax)) := by
  refine ⟨?_, ?_, ?_, ?_⟩
  · intro hb
    unfold pci_emul_cfgaddr
    simp only [ne_eq, hb, not_false_eq_true, ↓reduceIte]
  · intro hb
    unfold pci_emul_cfgaddr
    rcases hb with rfl | rfl
    · simp
    · simp
  · unfold pci_emul_cfgaddr
    simp only [ne_eq, not_true_eq_false, ↓reduceIte, Bool.false_eq_true]
    by_cases h : to32 eax &&& CONF1_ENABLE = CONF1_ENABLE
    · simp [h]
    · simp [h]
  · intro he hb
    unfold pci_emul_cfgdata
    simp only [hb, not_true_eq_false, ↓reduceIte, he, ne_eq]

/-- Witness for C30: a latch pointing at function 0/0/0 with the enable flag clear, on
a table that has this function.  2-byte and 1-byte reads of the address port
yield 0xffff and 0xff, a 2-byte write leaves the latch alone, and 4-byte
accesses of the data port yield all-ones and leave the table alone. -/
theorem legacy_inert_witness :
    pci_emul_cfgaddr { cfgoff := 0x10 } true 2 0 = ({ cfgoff := 0x10 }, 0xffff) ∧
    pci_emul_cfgaddr { cfgoff := 0x10 } true 1 0 = ({ cfgoff := 0x10 }, 0xff) ∧
    pci_emul_cfgaddr { cfgoff := 0x10 } false 2 0x8000 = ({ cfgoff := 0x10 }, 0x8000) ∧
    (pci_emul_cfgdata { cfgoff := 0x10 } (single_func io4_assigned) true CONF1_DATA_PORT 4 0).map
      Prod.snd = some 0xffffffff ∧
    pci_emul_cfgdata { cfgoff := 0x10 } (single_func io4_assigned) false CONF1_DATA_PORT 4
        0x1234 = some (single_func io4_assigned, if false = true then 0xffffffff else 0x1234) :=
  ⟨by decide, by decide, by decide, by decide,
   (legacy_inert { cfgoff := 0x10 } (single_func io4_assigned) false CONF1_DATA_PORT 4
     0x1234).2.2.2 rfl (by decide)⟩

/-! ## Bits of configuration loads and stores -/

/-- Bit `j` of byte `k` of a value. -/
theorem byte_testBit (v k j : Nat) (hj : j < 8) :
    (v / 2 ^ (8 * k) % 256).testBit j = v.testBit (8 * k + j) := by
  have h : (256 : Nat) = 2 ^ 8 := rfl
  rw [h, Nat.testBit_mod_two_pow, ← Nat.shiftRight_eq_div_pow, Nat.testBit_shiftRight]
  simp [hj]

/-- A byte is determined by its 8 bits. -/
theorem byte_ext (a b : Nat) (ha : a < 256) (hb : b < 256)
    (h : ∀ j, j < 8 → a.testBit j = b.testBit j) : a = b := by
  apply Nat.eq_of_testBit_eq
  intro i
  by_cases hi : i < 8
  · exact h i hi
  · have h8 : 2 ^ 8 ≤ 2 ^ i := Nat.pow_le_pow_right (by decide) (by omega)
    rw [Nat.testBit_lt_two_pow (by omega : a < 2 ^ i),
      Nat.testBit_lt_two_pow (by omega : b < 2 ^ i)]

/-- The bits of the bytes `CFGWRITE` stores are those of the value. -/
theorem CFGWRITE_bits (pi : pci_devinst) (coff v bytes k j : Nat)
    (hb : bytes = 1 ∨ bytes = 2 ∨ bytes = 4) (hk : k < bytes) (hj : j < 8) :
    ((CFGWRITE pi coff v bytes).pi_cfgdata (coff + k) % 256).testBit j =
      v.testBit (8 * k + j) := by
  have b0 := byte_testBit v 0 j hj
  have b1 := byte_testBit v 1 j hj
  have b2 := byte_testBit v 2 j hj
  have b3 := byte_testBit v 3 j hj
  simp only [Nat.mul_zero, Nat.pow_zero, Nat.div_one, Nat.zero_add, Nat.mul_one] at b0 b1
  have e2 : (2 : Nat) ^ (8 * 2) = 65536 := rfl
  have e3 : (2 : Nat) ^ (8 * 3) = 16777216 := rfl
  have e1 : (2 : Nat) ^ 8 = 256 := rfl
  rw [e2] at b2
  rw [e3] at b3
  rw [e1] at b1
  unfold CFGWRITE
  rcases hb with rfl | rfl | rfl
  · have hk0 : k = 0 := by omega
    subst hk0
    simp only [↓reduceIte, pci_set_cfgdata8, Nat.add_zero, Nat.mod_mod, b0, Nat.mul_zero,
      Nat.zero_add]
  · interval_cases k
    · simp only [OfNat.ofNat_ne_one, ↓reduceIte, pci_set_cfgdata16, Nat.add_zero, Nat.mod_mod,
        b0, Nat.mul_zero, Nat.zero_add]
    · have n1 : ¬ coff + 1 = coff := by omega
      simp only [OfNat.ofNat_ne_one, ↓reduceIte, pci_set_cfgdata16, n1, Nat.mod_mod, b1,
        Nat.mul_one]
  · interval_cases k
    · simp only [OfNat.ofNat_ne_one, ↓reduceIte, Nat.reduceEqDiff, pci_set_cfgdata32,
        Nat.add_zero, Nat.mod_mod, b0, Nat.mul_zero, Nat.zero_add]
    · have n1 : ¬ coff + 1 = coff := by omega
      simp only [OfNat.ofNat_ne_one, ↓reduceIte, Nat.reduceEqDiff, pci_set_cfgdata32, n1,
        Nat.mod_mod, b1, Nat.mul_one]
    · have n1 : ¬ coff + 2 = coff := by omega
      have n2 : ¬ coff + 2 = coff + 1 := by omega
      simp only [OfNat.ofNat_ne_one, ↓reduceIte, Nat.reduceEqDiff, pci_set_cfgdata32, n1, n2,
        Nat.mod_mod, b2]
    · have n1 : ¬ coff + 3 = coff := by omega
      have n2 : ¬ coff + 3 = coff + 1 := by omega
      have n3 : ¬ coff + 3 = coff + 2 := by omega
      simp only [OfNat.ofNat_ne_one, ↓reduceIte, Nat.reduceEqDiff, pci_set_cfgdata32, n1, n2,
        n3, Nat.mod_mod, b3]

/-- Bits of a 16-bit load. -/
theorem pci_get_cfgdata16_bits (pi : pci_devinst) (o i : Nat) :
    (pci_get_cfgdata16 pi o).testBit i =
      if i < 8 then (pi.pi_cfgdata o % 256).testBit i
      else (pi.pi_cfgdata (o + 1) % 256).testBit (i - 8) := by
  unfold pci_get_cfgdata16 pci_get_cfgdata8
  have h := Nat.testBit_mul_pow_two_add (pi.pi_cfgdata (o + 1) % 256) (i := 8)
    (b := pi.pi_cfgdata o % 256) (Nat.mod_lt _ (by decide)) i
  have e : pi.pi_cfgdata o % 256 + 256 * (pi.pi_cfgdata (o + 1) % 256) =
      2 ^ 8 * (pi.pi_cfgdata (o + 1) % 256) + pi.pi_cfgdata o % 256 := by omega
  rw [e, h]

/-- Bits of a 32-bit load. -/
theorem pci_get_cfgdata32_bits (pi : pci_devinst) (o i : Nat) :
    (pci_get_cfgdata32 pi o).testBit i =
      if i < 16 then (pci_get_cfgdata16 pi o).testBit i
      else (pci_get_cfgdata16 pi (o + 2)).testBit (i - 16) := by
  unfold pci_get_cfgdata32
  have h := Nat.testBit_mul_pow_two_add (pci_get_cfgdata16 pi (o + 2)) (i := 16)
    (b := pci_get_cfgdata16 pi o) (pci_get_cfgdata16_lt pi o) i
  have e : pci_get_cfgdata16 pi o + 65536 * pci_get_cfgdata16 pi (o + 2) =
      2 ^ 16 * pci_get_cfgdata16 pi (o + 2) + pci_get_cfgdata16 pi o := by omega
  rw [e, h]

/-- The bits of what `CFGREAD` loads are those of the bytes. -/
theorem CFGREAD_bits (pi : pci_devinst) (coff bytes k j : Nat)
    (hb : bytes = 1 ∨ bytes = 2 ∨ bytes = 4) (hk : k < bytes) (hj : j < 8) :
    (CFGREAD pi coff bytes).testBit (8 * k + j) = (pi.pi_cfgdata (coff + k) % 256).testBit j := by
  unfold CFGREAD
  rcases hb with rfl | rfl | rfl
  · have hk0 : k = 0 := by omega
    subst hk0
    simp only [↓reduceIte, pci_get_cfgdata8, Nat.mul_zero, Nat.zero_add, Nat.add_zero]
  · simp only [OfNat.ofNat_ne_one, ↓reduceIte, pci_get_cfgdata16_bits]
    interval_cases k
    · simp [hj]
    · have : ¬ 8 * 1 + j < 8 := by omega
      simp [this]
  · simp only [OfNat.ofNat_ne_one, ↓reduceIte, Nat.reduceEqDiff, pci_get_cfgdata32_bits,
      pci_get_cfgdata16_bits]
    interval_cases k
    · have h1 : 8 * 0 + j < 16 := by omega
      have h2 : 8 * 0 + j < 8 := by omega
      simp only [h1, h2, ↓reduceIte, Nat.add_zero]
      congr 1
      omega
    · have h1 : 8 * 1 + j < 16 := by omega
      have h2 : ¬ 8 * 1 + j < 8 := by omega
      simp only [h1, h2, ↓reduceIte]
      congr 1
      omega
    · have h1 : ¬ 8 * 2 + j < 16 := by omega
      have h2 : 8 * 2 + j - 16 < 8 := by omega
      simp only [h1, h2, ↓reduceIte]
      congr 1
      omega
    · have h1 : ¬ 8 * 3 + j < 16 := by omega
      have h2 : ¬ 8 * 3 + j - 16 < 8 := by omega
      simp only [h1, h2, ↓reduceIte]
      have e1 : coff + 2 + 1 = coff + 3 := by omega
      have e2 : 8 * 3 + j - 16 - 8 = j := by omega
      rw [e1, e2]

/-- Merging a written value with the read-only bits of the old one, bit by bit. -/
theorem merge_readonly_bits (new old ro i : Nat) (hi : i < 32) :
    ((new &&& not32 ro) ||| (old &&& ro)).testBit i =
      if ro.testBit i = true then old.testBit i else new.testBit i := by
  have hlt : ro % 2 ^ 32 < 2 ^ 32 := Nat.mod_lt _ (by decide)
  have hn : (not32 ro).testBit i = !ro.testBit i := by
    unfold not32 U32
    have e : 2 ^ 32 - 1 - ro % 2 ^ 32 = 2 ^ 32 - (ro % 2 ^ 32 + 1) := by omega
    rw [e, Nat.testBit_two_pow_sub_succ hlt, Nat.testBit_mod_two_pow]
    simp [hi]
  rw [Nat.testBit_or, Nat.testBit_and, Nat.testBit_and, hn]
  cases ro.testBit i <;> simp

/-! ## Writes to the command and status registers -/

/-- A registration call changes at most the record of registration calls. -/
theorem modify_bar_registration_events (pi pi' : pci_devinst) (idx : Nat) (r : Bool)
    (h : modify_bar_registration pi idx r = some pi') :
    ∃ ev, pi' = { pi with pi_events := ev } := by
  unfold modify_bar_registration at h
  simp only [] at h
  split at h
  · cases h; exact ⟨_, rfl⟩
  · split at h <;> first
      | (cases h; exact ⟨_, rfl⟩)
      | (split at h <;> first | (cases h; exact ⟨_, rfl⟩) | cases h)
      | cases h

/-- A registration call for a ROM descriptor without an address returns. -/
theorem modify_bar_registration_rom (pi : pci_devinst) (idx : Nat) (r : Bool)
    (ht : (pi.pi_bar idx).type = PCIBAR_ROM) (ha : (pi.pi_bar idx).addr = 0) :
    ∃ pi', modify_bar_registration pi idx r = some pi' := by
  unfold modify_bar_registration
  simp only []
  split
  · exact ⟨_, rfl⟩
  · simp only [ht, ha, ne_eq, not_true_eq_false, ↓reduceIte]
    exact ⟨_, rfl⟩

/-- One step of the loop of `pci_emul_cmd_changed` changes at most the record of
registration calls, and returns when no ROM descriptor is enabled and placed. -/
theorem cmd_changed_bar_effect (pi : pci_devinst) (changed new i : Nat) :
    (∀ pi', cmd_changed_bar pi changed new i = some pi' →
      ∃ ev, pi' = { pi with pi_events := ev }) ∧
    (rom_quiet pi → ∃ pi', cmd_changed_bar pi changed new i = some pi') := by
  have hreg : ∀ (r : Bool) (pi' : pci_devinst), modify_bar_registration pi i r = some pi' →
      ∃ ev, pi' = { pi with pi_events := ev } :=
    fun r pi' h => modify_bar_registration_events pi pi' i r h
  unfold cmd_changed_bar
  simp only [register_bar, unregister_bar]
  cases ht : (pi.pi_bar i).type with
  | PCIBAR_NONE => exact ⟨fun pi' h => by cases h; exact ⟨_, rfl⟩, fun _ => ⟨_, rfl⟩⟩
  | PCIBAR_MEMHI64 => exact ⟨fun pi' h => by cases h; exact ⟨_, rfl⟩, fun _ => ⟨_, rfl⟩⟩
  | PCIBAR_IO =>
    simp only []
    have hs := fun r => modify_bar_registration_some pi i r (Or.inl ht)
    refine ⟨fun pi' h => ?_, fun _ => ?_⟩
    · split at h
      · split at h
        · exact hreg _ _ h
        · exact hreg _ _ h
      · cases h; exact ⟨_, rfl⟩
    · split
      · split
        · exact hs true
        · exact hs false
      · exact ⟨_, rfl⟩
  | PCIBAR_MEM32 =>
    simp only []
    have hs := fun r => modify_bar_registration_some pi i r (Or.inr (Or.inl ht))
    refine ⟨fun pi' h => ?_, fun _ => ?_⟩
    · split at h
      · split at h
        · exact hreg _ _ h
        · exact hreg _ _ h
      · cases h; exact ⟨_, rfl⟩
    · split
      · split
        · exact hs true
        · exact hs false
      · exact ⟨_, rfl⟩
  | PCIBAR_MEM64 =>
    simp only []
    have hs := fun r => modify_bar_registration_some pi i r (Or.inr (Or.inr ht))
    refine ⟨fun pi' h => ?_, fun _ => ?_⟩
    · split at h
      · split at h
        · exact hreg _ _ h
        · exact hreg _ _ h
      · cases h; exact ⟨_, rfl⟩
    · split
      · split
        · exact hs true
        · exact hs false
      · exact ⟨_, rfl⟩
  | PCIBAR_ROM =>
    simp only []
    refine ⟨fun pi' h => ?_, fun hq => ?_⟩
    · split at h
      · cases h; exact ⟨_, rfl⟩
      · split at h
        · split at h
          · exact hreg _ _ h
          · exact hreg _ _ h
        · cases h; exact ⟨_, rfl⟩
    · split
      · exact ⟨_, rfl⟩
      · rename_i hl
        have ha : (pi.pi_bar i).addr = 0 := by
          rcases hq i ht with h | h
          · exact absurd h hl
          · exact h
        have hs := fun r => modify_bar_registration_rom pi i r ht ha
        split
        · split
          · exact hs true
          · exact hs false
        · exact ⟨_, rfl⟩

/-- The loop of `pci_emul_cmd_changed` changes at most the record of registration
calls, and returns when no ROM descriptor is enabled and placed. -/
theorem cmd_changed_bars_effect (changed new : Nat) : ∀ (n i : Nat) (pi : pci_devinst),
    (∀ pi', cmd_changed_bars changed new n i pi = some pi' →
      ∃ ev, pi' = { pi with pi_events := ev }) ∧
    (rom_quiet pi → ∃ pi', cmd_changed_bars changed new n i pi = some pi') := by
  intro n
  induction n with
  | zero =>
    intro i pi
    exact ⟨fun pi' h => by cases h; exact ⟨_, rfl⟩, fun _ => ⟨_, rfl⟩⟩
  | succ n ih =>
    intro i pi
    obtain ⟨s1, s2⟩ := cmd_changed_bar_effect pi changed new i
    refine ⟨fun pi' h => ?_, fun hq => ?_⟩
    · simp only [cmd_changed_bars] at h
      cases hp : cmd_changed_bar pi changed new i with
      | none => rw [hp] at h; cases h
      | some p =>
        rw [hp, Option.some_bind] at h
        obtain ⟨ev1, rfl⟩ := s1 p hp
        obtain ⟨ev2, rfl⟩ := (ih (i + 1) _).1 pi' h
        exact ⟨ev2, rfl⟩
    · obtain ⟨p, hp⟩ := s2 hq
      obtain ⟨ev1, rfl⟩ := s1 p hp
      obtain ⟨p', hp'⟩ := (ih (i + 1) { pi with pi_events := ev1 }).2 hq
      exact ⟨p', by simp only [cmd_changed_bars, hp, Option.some_bind, hp']⟩

/-- The function `pci_emul_cmd_changed` changes at most the record of registration calls
and then updates the interrupt; it returns when no ROM descriptor is enabled and
placed. -/
theorem cmd_changed_effect (pi : pci_devinst) (old : Nat) :
    (∀ pi', pci_emul_cmd_changed pi old = some pi' →
      ∃ ev, pi' = pci_lintr_update { pi with pi_events := ev }) ∧
    (rom_quiet pi → ∃ pi', pci_emul_cmd_changed pi old = some pi') := by
  obtain ⟨s1, s2⟩ := cmd_changed_bars_effect
    (to16 old ^^^ pci_get_cfgdata16 pi PCIR_COMMAND) (pci_get_cfgdata16 pi PCIR_COMMAND)
    (PCI_BARMAX_WITH_ROM + 1) 0 pi
  unfold pci_emul_cmd_changed
  simp only []
  refine ⟨fun pi' h => ?_, fun hq => ?_⟩
  · cases hp : cmd_changed_bars (to16 old ^^^ pci_get_cfgdata16 pi PCIR_COMMAND)
        (pci_get_cfgdata16 pi PCIR_COMMAND) (PCI_BARMAX_WITH_ROM + 1) 0 pi with
    | none => rw [hp] at h; cases h
    | some p =>
      rw [hp] at h
      simp only [Option.map_some', Option.some.injEq] at h
      obtain ⟨ev, rfl⟩ := s1 p hp
      exact ⟨ev, h.symm⟩
  · obtain ⟨p, hp⟩ := s2 hq
    exact ⟨_, by rw [hp]; rfl⟩

/-- The function `pci_emul_cmdsts_write` stores `cmdsts_value` and then calls
`pci_emul_cmd_changed` with the old command register. -/
theorem cmdsts_write_eq (pi : pci_devinst) (coff new bytes : Nat) :
    pci_emul_cmdsts_write pi coff new bytes =
      pci_emul_cmd_changed (CFGWRITE pi coff (cmdsts_value pi coff new bytes) bytes)
        (pci_get_cfgdata16 pi PCIR_COMMAND) := rfl

/-- The bits of the read-only mask of the command and status registers: bits 0..6 and
8..10 are writable, every other bit is read-only. -/
theorem cmdsts_mask_bits (i : Nat) (hi : i < 32) :
    (0xFFFFF880 : Nat).testBit i = !(0x077F : Nat).testBit i ∧
    (i < 16 → (0xFFFFF880 : Nat).testBit i = (0xF880 : Nat).testBit i) ∧
    (16 ≤ i → (0xFFFFF880 : Nat).testBit i = true) := by
  interval_cases i <;> decide

/-- The bytes 4..7 after the store of `pci_emul_cmdsts_write`, bit by bit: a bit that
the access covers and that is not read-only takes the bit written, every other
bit stays. -/
theorem cmdsts_byte_bits (pi : pci_devinst) (coff new bytes o j : Nat)
    (hb : bytes = 1 ∨ bytes = 2 ∨ bytes = 4) (hc4 : 4 ≤ coff) (hc8 : coff + bytes ≤ 8)
    (ho4 : 4 ≤ o) (ho8 : o < 8) (hj : j < 8) :
    ((CFGWRITE pi coff (cmdsts_value pi coff new bytes) bytes).pi_cfgdata o % 256).testBit j =
      if coff ≤ o ∧ o < coff + bytes ∧ (0xFFFFF880 : Nat).testBit (8 * (o - 4) + j) = false then
        new.testBit (8 * (o - coff) + j)
      else (pi.pi_cfgdata o % 256).testBit j := by
  by_cases hcov : coff ≤ o ∧ o < coff + bytes
  · obtain ⟨k, rfl⟩ : ∃ k, o = coff + k := ⟨o - coff, by omega⟩
    have hk : k < bytes := by omega
    have h32 : 8 * k + j < 32 := by omega
    have hsh : (coff &&& 0x3) * 8 = 8 * (coff - 4) := by
      have h3 : (0x3 : Nat) = 2 ^ 2 - 1 := rfl
      rw [h3, Nat.and_pow_two_sub_one_eq_mod]
      omega
    have hidx : 8 * (coff - 4) + (8 * k + j) = 8 * (coff + k - 4) + j := by omega
    have hk' : coff + k - coff = k := by omega
    rw [CFGWRITE_bits pi coff _ bytes k j hb hk hj]
    unfold cmdsts_value
    rw [merge_readonly_bits _ _ _ _ h32, Nat.testBit_shiftRight, hsh, hidx,
      CFGREAD_bits pi coff bytes k j hb hk hj, hk']
    cases hm : (0xFFFFF880 : Nat).testBit (8 * (coff + k - 4) + j) with
    | true => simp [hm]
    | false => simp [hm, hcov]
  · have hfr := (CFGWRITE_frame pi coff (cmdsts_value pi coff new bytes) bytes).2.2 hb o
      (by omega)
    rw [hfr]
    have : ¬ (coff ≤ o ∧ o < coff + bytes ∧
        (0xFFFFF880 : Nat).testBit (8 * (o - 4) + j) = false) := fun h => hcov ⟨h.1, h.2.1⟩
    simp only [this, ↓reduceIte]

/-- The status bytes are kept by the store of `pci_emul_cmdsts_write`, and so is every
byte outside the command and status registers. -/
theorem cmdsts_status_kept (pi : pci_devinst) (coff new bytes : Nat)
    (hb : bytes = 1 ∨ bytes = 2 ∨ bytes = 4) (hc4 : 4 ≤ coff) (hc8 : coff + bytes ≤ 8) :
    pci_get_cfgdata16 (CFGWRITE pi coff (cmdsts_value pi coff new bytes) bytes) PCIR_STATUS =
      pci_get_cfgdata16 pi PCIR_STATUS ∧
    ∀ o, (o < 4 ∨ 8 ≤ o) →
      (CFGWRITE pi coff (cmdsts_value pi coff new bytes) bytes).pi_cfgdata o =
        pi.pi_cfgdata o := by
  have hbyte : ∀ o, 6 ≤ o → o < 8 →
      (CFGWRITE pi coff (cmdsts_value pi coff new bytes) bytes).pi_cfgdata o % 256 =
        pi.pi_cfgdata o % 256 := by
    intro o h6 h8
    apply byte_ext _ _ (Nat.mod_lt _ (by decide)) (Nat.mod_lt _ (by decide))
    intro j hj
    rw [cmdsts_byte_bits pi coff new bytes o j hb hc4 hc8 (by omega) h8 hj]
    have hm := (cmdsts_mask_bits (8 * (o - 4) + j) (by omega)).2.2 (by omega)
    simp only [hm, Bool.true_eq_false, and_false, ↓reduceIte]
  refine ⟨?_, fun o ho => (CFGWRITE_frame pi coff _ bytes).2.2 hb o (by omega)⟩
  unfold pci_get_cfgdata16 pci_get_cfgdata8
  have h6 : PCIR_STATUS = 6 := rfl
  rw [h6, hbyte 6 (by omega) (by omega), hbyte 7 (by omega) (by omega)]

/-- The command register after the store of `pci_emul_cmdsts_write`, bit by bit: a bit
of the writable mask 0x077F that the access covers takes the bit written, every
other bit stays. -/
theorem cmdsts_command_bits (pi : pci_devinst) (coff new bytes i : Nat)
    (hb : bytes = 1 ∨ bytes = 2 ∨ bytes = 4) (hc4 : 4 ≤ coff) (hc8 : coff + bytes ≤ 8)
    (hi : i < 16) :
    (pci_get_cfgdata16 (CFGWRITE pi coff (cmdsts_value pi coff new bytes) bytes)
        PCIR_COMMAND).testBit i =
      if (0x077F : Nat).testBit i = true ∧ 8 * (coff - 4) ≤ i ∧ i < 8 * (coff - 4 + bytes) then
        new.testBit (i - 8 * (coff - 4))
      else (pci_get_cfgdata16 pi PCIR_COMMAND).testBit i := by
  have h4 : PCIR_COMMAND = 4 := rfl
  have hm := (cmdsts_mask_bits i (by omega)).1
  rw [h4, pci_get_cfgdata16_bits, pci_get_cfgdata16_bits]
  by_cases h8 : i < 8
  · simp only [h8, ↓reduceIte]
    rw [cmdsts_byte_bits pi coff new bytes 4 i hb hc4 hc8 (by omega) (by omega) h8]
    have hidx : 8 * (4 - 4) + i = i := by omega
    rw [hidx, hm]
    by_cases hc : coff = 4
    · subst hc
      have e1 : (4 ≤ 4 ∧ 4 < 4 + bytes) := by omega
      have e2 : (8 * (4 - 4) ≤ i ∧ i < 8 * (4 - 4 + bytes)) := by omega
      have e3 : 8 * (4 - 4) + i = i - 8 * (4 - 4) := by omega
      have e5 : i < 8 * bytes := by omega
      have e6 : 0 < bytes := by omega
      cases hw : (0x077F : Nat).testBit i <;> simp [hw, e1, e2, e3, e5, e6]
    · have e1 : ¬ coff ≤ 4 := by omega
      have e2 : ¬ 8 * (coff - 4) ≤ i := by omega
      simp [e1, e2]
  · simp only [h8, ↓reduceIte]
    rw [cmdsts_byte_bits pi coff new bytes 5 (i - 8) hb hc4 hc8 (by omega) (by omega)
      (by omega)]
    have hidx : 8 * (5 - 4) + (i - 8) = i := by omega
    rw [hidx, hm]
    by_cases hcov : coff ≤ 5 ∧ 5 < coff + bytes
    · have e2 : (8 * (coff - 4) ≤ i ∧ i < 8 * (coff - 4 + bytes)) := by omega
      have e3 : 8 * (5 - coff) + (i - 8) = i - 8 * (coff - 4) := by omega
      cases hw : (0x077F : Nat).testBit i <;> simp [hw, hcov, e2, e3]
    · have e2 : ¬ (8 * (coff - 4) ≤ i ∧ i < 8 * (coff - 4 + bytes)) := by omega
      have e1 : ¬ (coff ≤ 5 ∧ 5 < coff + bytes ∧ (!(0x077F : Nat).testBit i) = false) :=
        fun h => hcov ⟨h.1, h.2.1⟩
      have e4 : ¬ ((0x077F : Nat).testBit i = true ∧ 8 * (coff - 4) ≤ i ∧
          i < 8 * (coff - 4 + bytes)) := fun h => e2 h.2
      simp only [e1, e4, ↓reduceIte]

/-- The default handling of a write to the command or status register is
`pci_emul_cmdsts_write`. -/
theorem cfg_write_default_cmd (pi : pci_devinst) (coff bytes eax : Nat)
    (hc4 : 4 ≤ coff) (hc8 : coff < 8) :
    cfg_write_default pi coff bytes eax = pci_emul_cmdsts_write pi coff eax bytes := by
  have hnb : is_bar_offset coff = false := by
    have h1 : PCIR_BAR 0 = 16 := rfl
    have h3 : PCIR_BIOS = 48 := rfl
    unfold is_bar_offset
    rw [h1, h3]
    simp only [decide_eq_false_iff_not]
    omega
  have hnc : pci_emul_iscap pi coff = false := by
    cases h : pci_emul_iscap pi coff with
    | false => rfl
    | true =>
      have := ((iscap_iff pi coff).mp h).2.1
      have h40 : CAP_START_OFFSET = 64 := rfl
      omega
  have h4 : PCIR_COMMAND = 4 := rfl
  have h8 : PCIR_REVID = 8 := rfl
  unfold cfg_write_default
  simp only [hnb, hnc, Bool.false_eq_true, ↓reduceIte, h4, h8, ge_iff_le, hc4, hc8, and_self]

/-- What a write to the command and status registers leaves behind, shared form. -/
theorem cmdsts_write_effect (pi : pci_devinst) (coff new bytes : Nat)
    (hb : bytes = 1 ∨ bytes = 2 ∨ bytes = 4) (hc4 : 4 ≤ coff) (hc8 : coff + bytes ≤ 8) :
    (rom_quiet pi → ∃ pi', pci_emul_cmdsts_write pi coff new bytes = some pi') ∧
    (∀ pi', pci_emul_cmdsts_write pi coff new bytes = some pi' →
      (∃ ev, pi' = pci_lintr_update
        { CFGWRITE pi coff (cmdsts_value pi coff new bytes) bytes with pi_events := ev }) ∧
      pci_get_cfgdata16 pi' PCIR_STATUS = pci_get_cfgdata16 pi PCIR_STATUS ∧
      pci_get_cfgdata16 pi' PCIR_COMMAND &&& 0xF880 =
        pci_get_cfgdata16 pi PCIR_COMMAND &&& 0xF880 ∧
      (∀ i, i < 16 →
        (pci_get_cfgdata16 pi' PCIR_COMMAND).testBit i =
          if (0x077F : Nat).testBit i = true ∧ 8 * (coff - 4) ≤ i ∧
              i < 8 * (coff - 4 + bytes) then
            new.testBit (i - 8 * (coff - 4))
          else (pci_get_cfgdata16 pi PCIR_COMMAND).testBit i) ∧
      (∀ o, (o < 4 ∨ 8 ≤ o) → pi'.pi_cfgdata o = pi.pi_cfgdata o)) := by
  rw [cmdsts_write_eq]
  obtain ⟨s1, s2⟩ := cmd_changed_effect
    (CFGWRITE pi coff (cmdsts_value pi coff new bytes) bytes) (pci_get_cfgdata16 pi PCIR_COMMAND)
  have hbar : (CFGWRITE pi coff (cmdsts_value pi coff new bytes) bytes).pi_bar = pi.pi_bar := by
    unfold CFGWRITE
    split
    · rfl
    · split <;> rfl
  refine ⟨fun hq => s2 (fun i h => by rw [hbar] at h ⊢; exact hq i h), fun pi' h => ?_⟩
  obtain ⟨ev, rfl⟩ := s1 pi' h
  obtain ⟨k1, k2⟩ := cmdsts_status_kept pi coff new bytes hb hc4 hc8
  have hcfg : (pci_lintr_update
      { CFGWRITE pi coff (cmdsts_value pi coff new bytes) bytes with pi_events := ev }).pi_cfgdata
      = (CFGWRITE pi coff (cmdsts_value pi coff new bytes) bytes).pi_cfgdata :=
    (pci_lintr_update_frame _).1
  have h16 : ∀ o, pci_get_cfgdata16 (pci_lintr_update
      { CFGWRITE pi coff (cmdsts_value pi coff new bytes) bytes with pi_events := ev }) o =
      pci_get_cfgdata16 (CFGWRITE pi coff (cmdsts_value pi coff new bytes) bytes) o := by
    intro o
    unfold pci_get_cfgdata16 pci_get_cfgdata8
    rw [hcfg]
  have hbits : ∀ i, i < 16 →
      (pci_get_cfgdata16 (pci_lintr_update
        { CFGWRITE pi coff (cmdsts_value pi coff new bytes) bytes with pi_events := ev })
        PCIR_COMMAND).testBit i =
        if (0x077F : Nat).testBit i = true ∧ 8 * (coff - 4) ≤ i ∧
            i < 8 * (coff - 4 + bytes) then
          new.testBit (i - 8 * (coff - 4))
        else (pci_get_cfgdata16 pi PCIR_COMMAND).testBit i := by
    intro i hi
    rw [h16]
    exact cmdsts_command_bits pi coff new bytes i hb hc4 hc8 hi
  refine ⟨⟨ev, rfl⟩, by rw [h16]; exact k1, ?_, hbits, fun o ho => by rw [hcfg]; exact k2 o ho⟩
  apply Nat.eq_of_testBit_eq
  intro i
  rw [Nat.testBit_and, Nat.testBit_and]
  by_cases hi : i < 16
  · obtain ⟨m1, m2, _⟩ := cmdsts_mask_bits i (by omega)
    rw [hbits i hi]
    cases hw : (0x077F : Nat).testBit i with
    | false => simp
    | true =>
      have : (0xF880 : Nat).testBit i = false := by
        rw [← m2 hi, m1, hw]; rfl
      simp [this]
  · have : (0xF880 : Nat).testBit i = false := by
      apply Nat.testBit_lt_two_pow
      have : 2 ^ 16 ≤ 2 ^ i := Nat.pow_le_pow_right (by decide) (by omega)
      omega
    simp [this]

/-- Guest writes to the command and status registers through `pci_cfgrw`, shared
form. -/
theorem cmdsts_cfgrw (t : Nat → Option businfo) (bus slot func coff bytes eax : Nat)
    (fi : funcinfo) (pi : pci_devinst)
    (hfi : find_func t bus slot func = some fi) (hpi : fi.fi_devi = some pi)
    (hw : fi.fi_pde.pe_cfgwrite = none)
    (hb : bytes = 1 ∨ bytes = 2 ∨ bytes = 4) (hal : coff % bytes = 0)
    (hc4 : 4 ≤ coff) (hc8 : coff + bytes ≤ 8) :
    (rom_quiet pi → (pci_cfgrw t false bus slot func coff bytes eax).isSome = true) ∧
    (∀ r, pci_cfgrw t false bus slot func coff bytes eax = some r →
      ∃ pi', r = (store_devi t bus slot func pi', eax) ∧
        (∃ ev, pi' = pci_lintr_update
          { CFGWRITE pi coff (cmdsts_value pi coff (to32 eax) bytes) bytes with
            pi_events := ev }) ∧
        pci_get_cfgdata16 pi' PCIR_STATUS = pci_get_cfgdata16 pi PCIR_STATUS ∧
        pci_get_cfgdata16 pi' PCIR_COMMAND &&& 0xF880 =
          pci_get_cfgdata16 pi PCIR_COMMAND &&& 0xF880 ∧
        (∀ i, i < 16 →
          (pci_get_cfgdata16 pi' PCIR_COMMAND).testBit i =
            if (0x077F : Nat).testBit i = true ∧ 8 * (coff - 4) ≤ i ∧
                i < 8 * (coff - 4 + bytes) then
              eax.testBit (i - 8 * (coff - 4))
            else (pci_get_cfgdata16 pi PCIR_COMMAND).testBit i) ∧
        (∀ o, (o < 4 ∨ 8 ≤ o) → pi'.pi_cfgdata o = pi.pi_cfgdata o)) := by
  have hrw := pci_cfgrw_write t bus slot func coff bytes eax fi pi hfi hpi hw hb hal (by omega)
  rw [cfg_write_default_cmd pi coff bytes (to32 eax) hc4 (by omega)] at hrw
  obtain ⟨e1, e2⟩ := cmdsts_write_effect pi coff (to32 eax) bytes hb hc4 hc8
  rw [hrw]
  refine ⟨fun hq => ?_, fun r hr => ?_⟩
  · obtain ⟨pi', hp⟩ := e1 hq
    rw [hp]; rfl
  · cases hp : pci_emul_cmdsts_write pi coff (to32 eax) bytes with
    | none => rw [hp] at hr; cases hr
    | some pi' =>
      rw [hp] at hr
      simp only [Option.map_some', Option.some.injEq] at hr
      obtain ⟨a1, a2, a3, a4, a5⟩ := e2 pi' hp
      refine ⟨pi', hr.symm, a1, a2, a3, ?_, a5⟩
      intro i hi
      rw [a4 i hi]
      have : (to32 eax).testBit (i - 8 * (coff - 4)) = eax.testBit (i - 8 * (coff - 4)) := by
        unfold to32 U32
        rw [Nat.testBit_mod_two_pow]
        have : i - 8 * (coff - 4) < 32 := by omega
        simp [this]
      rw [this]

/-- A fresh function has no ROM BAR. -/
theorem rom_quiet_none : rom_quiet (fresh_devinst none) := by
  intro i h
  cases h

/-- C22: for an existing function whose device model has no `pe_cfgwrite`, every
write of width 1, 2 or 4 at an aligned offset in 0x04..0x07 that lies inside
the command and status registers returns when no ROM BAR is both enabled and
placed; and whenever it returns, the status register and every byte outside
0x04..0x07 are unchanged, the command bits in the read-only mask 0xF880 are
unchanged, and each command bit `i` of the writable mask 0x077F that the access
covers takes bit `i - 8 (coff - 4)` of the value written, every other command
bit staying as it was: the same 16-bit mask whatever the width. -/
theorem cmdsts_guest_write (t : Nat → Option businfo) (bus slot func coff bytes eax : Nat)
    (fi : funcinfo) (pi : pci_devinst)
    (hfi : find_func t bus slot func = some fi) (hpi : fi.fi_devi = some pi)
    (hw : fi.fi_pde.pe_cfgwrite = none)
    (hb : bytes = 1 ∨ bytes = 2 ∨ bytes = 4) (hal : coff % bytes = 0)
    (hc4 : 4 ≤ coff) (hc8 : coff + bytes ≤ 8) :
    (rom_quiet pi → (pci_cfgrw t false bus slot func coff bytes eax).isSome = true) ∧
    (∀ r, pci_cfgrw t false bus slot func coff bytes eax = some r →
      ∃ pi', r = (store_devi t bus slot func pi', eax) ∧
        pci_get_cfgdata16 pi' PCIR_STATUS = pci_get_cfgdata16 pi PCIR_STATUS ∧
        pci_get_cfgdata16 pi' PCIR_COMMAND &&& 0xF880 =
          pci_get_cfgdata16 pi PCIR_COMMAND &&& 0xF880 ∧
        (∀ i, i < 16 →
          (pci_get_cfgdata16 pi' PCIR_COMMAND).testBit i =
            if (0x077F : Nat).testBit i = true ∧ 8 * (coff - 4) ≤ i ∧
                i < 8 * (coff - 4 + bytes) then
              eax.testBit (i - 8 * (coff - 4))
            else (pci_get_cfgdata16 pi PCIR_COMMAND).testBit i) ∧
        (∀ o, (o < 4 ∨ 8 ≤ o) → pi'.pi_cfgdata o = pi.pi_cfgdata o)) := by
  obtain ⟨c1, c2⟩ := cmdsts_cfgrw t bus slot func coff bytes eax fi pi hfi hpi hw hb hal hc4 hc8
  refine ⟨c1, fun r hr => ?_⟩
  obtain ⟨pi', a0, _, a2, a3, a4, a5⟩ := c2 r hr
  exact ⟨pi', a0, a2, a3, a4, a5⟩

/-- Witness for C22: all-ones written to the command register of a fresh function
(command 0x0004) with widths 2 and 4 at offset 4 gives command 0x077F and leaves
the status register 0; with width 1 at offsets 4 and 5 it gives 0x007F and
0x0704; written to the status register it changes nothing. -/
theorem cmdsts_guest_write_witness :
    (((pci_cfgrw (single_func (fresh_devinst none)) false 0 0 0 4 2 0xffffffff).bind fun r =>
        pci_cfgrw r.1 true 0 0 0 4 4 0).map Prod.snd = some 0x0000077F ∧
     ((pci_cfgrw (single_func (fresh_devinst none)) false 0 0 0 4 4 0xffffffff).bind fun r =>
        pci_cfgrw r.1 true 0 0 0 4 4 0).map Prod.snd = some 0x0000077F ∧
     ((pci_cfgrw (single_func (fresh_devinst none)) false 0 0 0 4 1 0xffffffff).bind fun r =>
        pci_cfgrw r.1 true 0 0 0 4 4 0).map Prod.snd = some 0x0000007F ∧
     ((pci_cfgrw (single_func (fresh_devinst none)) false 0 0 0 5 1 0xffffffff).bind fun r =>
        pci_cfgrw r.1 true 0 0 0 4 4 0).map Prod.snd = some 0x00000704 ∧
     ((pci_cfgrw (single_func (fresh_devinst none)) false 0 0 0 6 2 0xffffffff).bind fun r =>
        pci_cfgrw r.1 true 0 0 0 4 4 0).map Prod.snd = some 0x00000004) ∧
    (pci_cfgrw (single_func (fresh_devinst none)) false 0 0 0 4 2 0xffffffff).isSome = true :=
  ⟨by decide,
   (cmdsts_guest_write (single_func (fresh_devinst none)) 0 0 0 4 2 0xffffffff
     { fi_devi := some (fresh_devinst none) } (fresh_devinst none) rfl rfl rfl
     (by decide) (by decide) (by decide) (by decide)).1 rom_quiet_none⟩

/-! ## Re-enabling INTx through the command register -/

/-- A store changes only the configuration bytes. -/
theorem CFGWRITE_only_cfgdata (pi : pci_devinst) (coff v bytes : Nat) :
    ∃ f, CFGWRITE pi coff v bytes = { pi with pi_cfgdata := f } := by
  unfold CFGWRITE
  split
  · exact ⟨_, rfl⟩
  · split <;> exact ⟨_, rfl⟩

/-- Testing one bit with a mask. -/
theorem and_two_pow_eq_zero (x k : Nat) : x &&& 2 ^ k = 0 ↔ x.testBit k = false := by
  constructor
  · intro h
    have := congrArg (fun y => y.testBit k) h
    simpa [Nat.testBit_and, Nat.testBit_two_pow_self] using this
  · intro h
    apply Nat.eq_of_testBit_eq
    intro i
    rw [Nat.testBit_and, Nat.testBit_two_pow, Nat.zero_testBit]
    by_cases hi : k = i
    · subst hi; simp [h]
    · simp [hi]

/-- The scenario of a pending interrupt released by a command-register write, shared
form. -/
theorem intx_reenable (t : Nat → Option businfo) (bus slot func coff bytes eax : Nat)
    (fi : funcinfo) (pi : pci_devinst)
    (hfi : find_func t bus slot func = some fi) (hw : fi.fi_pde.pe_cfgwrite = none)
    (hpin : 0 < pi.pi_lintr.pin) (hidle : pi.pi_lintr.state = lintr_stat.IDLE)
    (hmsi : pi.pi_msi.enabled = 0) (hmsix : pi.pi_msix.enabled = 0)
    (hdis : pci_get_cfgdata16 pi PCIR_COMMAND &&& PCIM_CMD_INTxDIS ≠ 0)
    (hq : rom_quiet pi)
    (hcov : (coff = 5 ∧ bytes = 1) ∨ (coff = 4 ∧ bytes = 2) ∨ (coff = 4 ∧ bytes = 4))
    (hclr : eax.testBit (10 - 8 * (coff - 4)) = false) :
    ∃ pi1, pci_lintr_assert pi = some pi1 ∧
      pi1.pi_lintr.state = lintr_stat.PENDING ∧ pi1.pi_irq_calls = pi.pi_irq_calls ∧
      (∃ pi2, pci_cfgrw (store_devi t bus slot func pi1) false bus slot func coff bytes eax =
          some (store_devi (store_devi t bus slot func pi1) bus slot func pi2, eax) ∧
        pi2.pi_lintr.state = lintr_stat.ASSERTED ∧
        pi2.pi_irq_calls = pi.pi_irq_calls ++ [true]) ∧
      (∃ pi3, pci_lintr_deassert pi1 = some pi3 ∧
        pi3.pi_lintr.state = lintr_stat.IDLE ∧ pi3.pi_irq_calls = pi.pi_irq_calls) := by
  have hnp : pci_lintr_permitted pi = false := by
    cases h : pci_lintr_permitted pi with
    | false => rfl
    | true => exact absurd ((pci_lintr_permitted_iff pi).mp h).2.2 hdis
  have h1 := (lintr_assert_cases pi hpin).2.1 hidle hnp
  obtain ⟨pi1, hpi1⟩ : ∃ p, p = ({ pi with pi_lintr :=
      { pi.pi_lintr with state := lintr_stat.PENDING } } : pci_devinst) := ⟨_, rfl⟩
  rw [← hpi1] at h1
  have e1 : pi1.pi_lintr.state = lintr_stat.PENDING := by rw [hpi1]
  have e2 : pi1.pi_irq_calls = pi.pi_irq_calls := by rw [hpi1]
  have e3 : pi1.pi_lintr.pin = pi.pi_lintr.pin := by rw [hpi1]
  have e4 : pi1.pi_msi = pi.pi_msi := by rw [hpi1]
  have e5 : pi1.pi_msix = pi.pi_msix := by rw [hpi1]
  have e6 : pi1.pi_bar = pi.pi_bar := by rw [hpi1]
  have hq1 : rom_quiet pi1 := by
    intro i hi
    rw [e6] at hi ⊢
    exact hq i hi
  clear hpi1
  refine ⟨pi1, h1, e1, e2, ?_, ?_⟩
  · have hb : bytes = 1 ∨ bytes = 2 ∨ bytes = 4 := by omega
    have hal : coff % bytes = 0 := by
      rcases hcov with ⟨rfl, rfl⟩ | ⟨rfl, rfl⟩ | ⟨rfl, rfl⟩ <;> rfl
    have hc4 : 4 ≤ coff := by omega
    have hc8 : coff + bytes ≤ 8 := by omega
    obtain ⟨fi1, hfi1⟩ : ∃ g, g = ({ fi with fi_devi := some pi1 } : funcinfo) := ⟨_, rfl⟩
    have hf1 : find_func (store_devi t bus slot func pi1) bus slot func = some fi1 := by
      rw [hfi1]; exact find_func_store_devi t bus slot func fi pi1 hfi
    have hd1 : fi1.fi_devi = some pi1 := by rw [hfi1]
    have hw1 : fi1.fi_pde.pe_cfgwrite = none := by rw [hfi1]; exact hw
    obtain ⟨c1, c2⟩ := cmdsts_cfgrw (store_devi t bus slot func pi1)
      bus slot func coff bytes eax fi1 pi1 hf1 hd1 hw1 hb hal hc4 hc8
    obtain ⟨r, hr⟩ := Option.isSome_iff_exists.mp (c1 hq1)
    obtain ⟨pi2, rfl, ⟨ev, hev⟩, _, _, hbits, _⟩ := c2 r hr
    refine ⟨pi2, hr, ?_⟩
    obtain ⟨f, hf⟩ := CFGWRITE_only_cfgdata pi1 coff
      (cmdsts_value pi1 coff (to32 eax) bytes) bytes
    rw [hf] at hev
    have hcmd : pci_get_cfgdata16 pi2 PCIR_COMMAND &&& PCIM_CMD_INTxDIS = 0 := by
      have h10 : PCIM_CMD_INTxDIS = 2 ^ 10 := rfl
      rw [h10, and_two_pow_eq_zero, hbits 10 (by decide)]
      have hwr : (0x077F : Nat).testBit 10 = true := by decide
      have hin : 8 * (coff - 4) ≤ 10 ∧ 10 < 8 * (coff - 4 + bytes) := by omega
      simp only [hwr, hin, and_self, ↓reduceIte]
      exact hclr
    obtain ⟨p, hp⟩ : ∃ p, p = ({ pi1 with pi_cfgdata := f, pi_events := ev } : pci_devinst) :=
      ⟨_, rfl⟩
    have hev2 : pi2 = pci_lintr_update p := by rw [hp]; exact hev
    have p1 : p.pi_lintr.state = lintr_stat.PENDING := by rw [hp]; exact e1
    have p2 : p.pi_irq_calls = pi.pi_irq_calls := by rw [hp]; exact e2
    have p3 : p.pi_msi = pi.pi_msi := by rw [hp]; exact e4
    have p4 : p.pi_msix = pi.pi_msix := by rw [hp]; exact e5
    have hcfg : pi2.pi_cfgdata = p.pi_cfgdata := by
      rw [hev2]; exact (pci_lintr_update_frame _).1
    have hperm : pci_lintr_permitted p = true := by
      rw [pci_lintr_permitted_iff, p3, p4]
      refine ⟨hmsi, hmsix, ?_⟩
      have : pci_get_cfgdata16 p PCIR_COMMAND = pci_get_cfgdata16 pi2 PCIR_COMMAND := by
        unfold pci_get_cfgdata16 pci_get_cfgdata8
        rw [hcfg]
      rw [this]
      exact hcmd
    have hup := (lintr_update_cases p).2.1 p1 hperm
    rw [hev2, hup]
    exact ⟨rfl, by show p.pi_irq_calls ++ [true] = _; rw [p2]⟩
  · have h3 := (lintr_deassert_cases pi1 (by rw [e3]; exact hpin)).2.1 e1
    exact ⟨_, h3, rfl, e2⟩

/-- C26: scenario through the configuration-space engine.  On a function with an
interrupt pin, in state IDLE, with MSI and MSI-X disabled and the INTx-disable bit
set in the command register, `pci_lintr_assert` returns the function in state
PENDING with no host call; a guest write of a width covering bit 10 of the
command register (one byte at offset 5, two or four bytes at offset 4) whose value
has that bit clear then returns, leaves the function ASSERTED and has appended
exactly one host assert call; and `pci_lintr_deassert` on the PENDING function
returns it in state IDLE with no host call. -/
theorem intx_pending_scenario (t : Nat → Option businfo)
    (bus slot func coff bytes eax : Nat) (fi : funcinfo) (pi : pci_devinst)
    (hfi : find_func t bus slot func = some fi) (hw : fi.fi_pde.pe_cfgwrite = none)
    (hpin : 0 < pi.pi_lintr.pin) (hidle : pi.pi_lintr.state = lintr_stat.IDLE)
    (hmsi : pi.pi_msi.enabled = 0) (hmsix : pi.pi_msix.enabled = 0)
    (hdis : pci_get_cfgdata16 pi PCIR_COMMAND &&& PCIM_CMD_INTxDIS ≠ 0)
    (hq : rom_quiet pi)
    (hcov : (coff = 5 ∧ bytes = 1) ∨ (coff = 4 ∧ bytes = 2) ∨ (coff = 4 ∧ bytes = 4))
    (hclr : eax.testBit (10 - 8 * (coff - 4)) = false) :
    ∃ pi1, pci_lintr_assert pi = some pi1 ∧
      pi1.pi_lintr.state = lintr_stat.PENDING ∧ pi1.pi_irq_calls = pi.pi_irq_calls ∧
      (∃ pi2, pci_cfgrw (store_devi t bus slot func pi1) false bus slot func coff bytes eax =
          some (store_devi (store_devi t bus slot func pi1) bus slot func pi2, eax) ∧
        pi2.pi_lintr.state = lintr_stat.ASSERTED ∧
        pi2.pi_irq_calls = pi.pi_irq_calls ++ [true]) ∧
      (∃ pi3, pci_lintr_deassert pi1 = some pi3 ∧
        pi3.pi_lintr.state = lintr_stat.IDLE ∧ pi3.pi_irq_calls = pi.pi_irq_calls) :=
  intx_reenable t bus slot func coff bytes eax fi pi hfi hw hpin hidle hmsi hmsix hdis hq
    hcov hclr

/-- The scenario on a fresh function with pin 1 and the command register 0x0400: the
assert leaves no host call, the one-byte write of 0 at offset 5, the two-byte and the
four-byte write of 0x0003 at offset 4 each end ASSERTED with the single host call
`true`, and the write of 0x0400 (bit still set) leaves the function PENDING. -/
theorem intx_pending_scenario_witness :
    (∃ pi1, pci_lintr_assert (lintr_dev lintr_stat.IDLE 0 PCIM_CMD_INTxDIS) = some pi1 ∧
      pi1.pi_lintr.state = lintr_stat.PENDING ∧
      pi1.pi_irq_calls = (lintr_dev lintr_stat.IDLE 0 PCIM_CMD_INTxDIS).pi_irq_calls ∧
      (∃ pi2, pci_cfgrw (store_devi (single_func (lintr_dev lintr_stat.IDLE 0 PCIM_CMD_INTxDIS))
            0 0 0 pi1) false 0 0 0 5 1 0 =
          some (store_devi (store_devi
            (single_func (lintr_dev lintr_stat.IDLE 0 PCIM_CMD_INTxDIS)) 0 0 0 pi1)
            0 0 0 pi2, 0) ∧
        pi2.pi_lintr.state = lintr_stat.ASSERTED ∧
        pi2.pi_irq_calls =
          (lintr_dev lintr_stat.IDLE 0 PCIM_CMD_INTxDIS).pi_irq_calls ++ [true]) ∧
      (∃ pi3, pci_lintr_deassert pi1 = some pi3 ∧
        pi3.pi_lintr.state = lintr_stat.IDLE ∧
        pi3.pi_irq_calls = (lintr_dev lintr_stat.IDLE 0 PCIM_CMD_INTxDIS).pi_irq_calls)) ∧
    (pci_lintr_assert (lintr_dev lintr_stat.IDLE 0 PCIM_CMD_INTxDIS)).map
      (fun p => (p.pi_lintr.state, p.pi_irq_calls)) = some (lintr_stat.PENDING, []) ∧
    ((pci_cfgrw (single_func (lintr_dev lintr_stat.PENDING 0 PCIM_CMD_INTxDIS))
        false 0 0 0 5 1 0).bind fun r => (find_func r.1 0 0 0).bind fun g =>
      g.fi_devi.map fun p => (p.pi_lintr.state, p.pi_irq_calls)) =
      some (lintr_stat.ASSERTED, [true]) ∧
    ((pci_cfgrw (single_func (lintr_dev lintr_stat.PENDING 0 PCIM_CMD_INTxDIS))
        false 0 0 0 4 2 0x0003).bind fun r => (find_func r.1 0 0 0).bind fun g =>
      g.fi_devi.map fun p => (p.pi_lintr.state, p.pi_irq_calls)) =
      some (lintr_stat.ASSERTED, [true]) ∧
    ((pci_cfgrw (single_func (lintr_dev lintr_stat.PENDING 0 PCIM_CMD_INTxDIS))
        false 0 0 0 4 4 0x0003).bind fun r => (find_func r.1 0 0 0).bind fun g =>
      g.fi_devi.map fun p => (p.pi_lintr.state, p.pi_irq_calls)) =
      some (lintr_stat.ASSERTED, [true]) ∧
    ((pci_cfgrw (single_func (lintr_dev lintr_stat.PENDING 0 PCIM_CMD_INTxDIS))
        false 0 0 0 4 2 0x0400).bind fun r => (find_func r.1 0 0 0).bind fun g =>
      g.fi_devi.map fun p => (p.pi_lintr.state, p.pi_irq_calls)) =
      some (lintr_stat.PENDING, []) ∧
    (pci_lintr_deassert (lintr_dev lintr_stat.PENDING 0 PCIM_CMD_INTxDIS)).map
      (fun p => (p.pi_lintr.state, p.pi_irq_calls)) = some (lintr_stat.IDLE, []) :=
  ⟨intx_pending_scenario (single_func (lintr_dev lintr_stat.IDLE 0 PCIM_CMD_INTxDIS))
      0 0 0 5 1 0 { fi_devi := some (lintr_dev lintr_stat.IDLE 0 PCIM_CMD_INTxDIS) }
      (lintr_dev lintr_stat.IDLE 0 PCIM_CMD_INTxDIS) rfl rfl (by decide) rfl rfl rfl
      (by decide) (fun i h => by cases h) (Or.inl ⟨rfl, rfl⟩) (by decide),
    by decide, by decide, by decide, by decide, by decide, by decide⟩

/-! ## Narrow writes to the BAR and ROM registers -/

/-- A write of width 1 or 2 at an offset `pci_cfgrw` routes to the BAR and ROM logic
(0x10..0x24 and 0x30..0x33) returns and leaves the instance as it was. -/
theorem narrow_bar_write_ignored (t : Nat → Option businfo)
    (bus slot func coff bytes eax : Nat) (fi : funcinfo) (pi : pci_devinst)
    (hfi : find_func t bus slot func = some fi) (hpi : fi.fi_devi = some pi)
    (hw : fi.fi_pde.pe_cfgwrite = none)
    (hb : bytes = 1 ∨ bytes = 2) (hal : coff % bytes = 0)
    (hc : (0x10 ≤ coff ∧ coff ≤ 0x24) ∨ (0x30 ≤ coff ∧ coff < 0x34)) :
    pci_cfgrw t false bus slot func coff bytes eax =
      some (store_devi t bus slot func pi, eax) := by
  rw [pci_cfgrw_write t bus slot func coff bytes eax fi pi hfi hpi hw (by omega) hal (by omega)]
  have hbar : is_bar_offset coff = true := by
    unfold is_bar_offset PCIR_BAR PCI_BARMAX PCIR_BIOS
    simp only [decide_eq_true_eq]
    omega
  have hb4 : bytes ≠ 4 := by omega
  unfold cfg_write_default
  simp only [hbar, ↓reduceIte, ne_eq, hb4, not_false_eq_true, true_or, Option.map_some']

/-- A write of width 1 or 2 at 0x25..0x27, inside the register of BAR 5, is not routed
to the BAR logic: it returns with the bytes stored by `CFGWRITE`. -/
theorem narrow_bar5_write_stored (t : Nat → Option businfo)
    (bus slot func coff bytes eax : Nat) (fi : funcinfo) (pi : pci_devinst)
    (hfi : find_func t bus slot func = some fi) (hpi : fi.fi_devi = some pi)
    (hw : fi.fi_pde.pe_cfgwrite = none)
    (hb : bytes = 1 ∨ bytes = 2) (hal : coff % bytes = 0)
    (hc : 0x25 ≤ coff ∧ coff < 0x28) :
    pci_cfgrw t false bus slot func coff bytes eax =
      some (store_devi t bus slot func (CFGWRITE pi coff (to32 eax) bytes), eax) := by
  rw [pci_cfgrw_write t bus slot func coff bytes eax fi pi hfi hpi hw (by omega) hal (by omega)]
  have hbar : is_bar_offset coff = false := by
    unfold is_bar_offset PCIR_BAR PCI_BARMAX PCIR_BIOS
    simp only [decide_eq_false_iff_not]
    omega
  have hcap : pci_emul_iscap pi coff = false := by
    cases h : pci_emul_iscap pi coff with
    | false => rfl
    | true =>
      have := ((iscap_iff pi coff).mp h).2.1
      have h40 : CAP_START_OFFSET = 0x40 := rfl
      omega
  have hcmd : ¬ (coff ≥ PCIR_COMMAND ∧ coff < PCIR_REVID) := by
    have h8 : PCIR_REVID = 8 := rfl
    omega
  unfold cfg_write_default
  simp only [hbar, hcap, hcmd, Bool.false_eq_true, ↓reduceIte, Option.map_some']

/-- C21 (divergence of the code): on a function whose BAR 5 is an assigned I/O BAR
(register 0x0000FFFD at 0x24), the one-byte write of 0xAB at 0x25, the two-byte write
of 0x1234 at 0x26 and the one-byte write of 0xCD at 0x27 are not ignored: the register
bytes become 0x0000ABFD, 0x1234FFFD and 0xCD00FFFD while the descriptor keeps the
address 0xFFFC, and the guest reads the stored bytes back.  The one- and two-byte
writes at 0x24 are ignored. -/
theorem bar5_narrow_write_not_ignored :
    observe_bar5 (some (single_func io5_assigned, 0)) =
      some (0x0000FFFD, ⟨ PCIBAR_IO, 4, 0xFFFC, 1⟩) ∧
    observe_bar5 (pci_cfgrw (single_func io5_assigned) false 0 0 0 0x25 1 0xAB) =
      some (0x0000ABFD, ⟨ PCIBAR_IO, 4, 0xFFFC, 1⟩) ∧
    observe_bar5 (pci_cfgrw (single_func io5_assigned) false 0 0 0 0x26 2 0x1234) =
      some (0x1234FFFD, ⟨ PCIBAR_IO, 4, 0xFFFC, 1⟩) ∧
    observe_bar5 (pci_cfgrw (single_func io5_assigned) false 0 0 0 0x27 1 0xCD) =
      some (0xCD00FFFD, ⟨ PCIBAR_IO, 4, 0xFFFC, 1⟩) ∧
    (pci_cfgrw (single_func io5_assigned) true 0 0 0 0x24 4 0).map Prod.snd =
      some 0x0000FFFD ∧
    ((pci_cfgrw (single_func io5_assigned) false 0 0 0 0x25 1 0xAB).bind fun r =>
      pci_cfgrw r.1 true 0 0 0 0x24 4 0).map Prod.snd = some 0x0000ABFD ∧
    observe_bar5 (pci_cfgrw (single_func io5_assigned) false 0 0 0 0x24 1 0xAB) =
      some (0x0000FFFD, ⟨ PCIBAR_IO, 4, 0xFFFC, 1⟩) ∧
    observe_bar5 (pci_cfgrw (single_func io5_assigned) false 0 0 0 0x24 2 0x1234) =
      some (0x0000FFFD, ⟨ PCIBAR_IO, 4, 0xFFFC, 1⟩) := by
  refine ⟨?_, ?_, ?_, ?_, ?_, ?_, ?_, ?_⟩ <;> decide

/-! ## The MSI state after a capability write -/

/-- A 16-bit load only looks at the configuration bytes. -/
theorem pci_get_cfgdata16_congr (a b : pci_devinst) (o : Nat)
    (h : a.pi_cfgdata = b.pi_cfgdata) : pci_get_cfgdata16 a o = pci_get_cfgdata16 b o := by
  unfold pci_get_cfgdata16 pci_get_cfgdata8
  rw [h]

/-- The interrupt update leaves the MSI and MSI-X state alone. -/
theorem pci_lintr_update_msi (pi : pci_devinst) :
    (pci_lintr_update pi).pi_msi = pi.pi_msi ∧ (pci_lintr_update pi).pi_msix = pi.pi_msix := by
  unfold pci_lintr_update
  split
  · exact ⟨rfl, rfl⟩
  · split <;> exact ⟨rfl, rfl⟩

/-- The MSI state `msicap_update` leaves behind, read off the configuration space. -/
theorem msicap_update_state (q : pci_devinst) (capoff : Nat) :
    (msicap_update q capoff).pi_msi.enabled =
      pci_get_cfgdata16 q (capoff + 2) &&& PCIM_MSICTRL_MSI_ENABLE ∧
    (pci_get_cfgdata16 q (capoff + 2) &&& PCIM_MSICTRL_MSI_ENABLE ≠ 0 →
      (msicap_update q capoff).pi_msi.addr = pci_get_cfgdata32 q (capoff + 4) ∧
      (msicap_update q capoff).pi_msi.msg_data =
        (if pci_get_cfgdata16 q (capoff + 2) &&& PCIM_MSICTRL_64BIT ≠ 0 then
          pci_get_cfgdata16 q (capoff + 12)
         else pci_get_cfgdata16 q (capoff + 8)) ∧
      (msicap_update q capoff).pi_msi.maxmsgnum =
        2 ^ ((pci_get_cfgdata16 q (capoff + 2) &&& PCIM_MSICTRL_MME_MASK) >>> 4)) ∧
    (pci_get_cfgdata16 q (capoff + 2) &&& PCIM_MSICTRL_MSI_ENABLE = 0 →
      (msicap_update q capoff).pi_msi.maxmsgnum = 0 ∧
      (msicap_update q capoff).pi_msi.addr = q.pi_msi.addr ∧
      (msicap_update q capoff).pi_msi.msg_data = q.pi_msi.msg_data) := by
  have h1 : PCIM_MSICTRL_MSI_ENABLE = 1 := rfl
  have hm : pci_get_cfgdata16 q (capoff + 2) &&& 1 = 0 ∨
      pci_get_cfgdata16 q (capoff + 2) &&& 1 = 1 := by
    rw [Nat.and_one_is_mod]; omega
  unfold msicap_update
  simp only [(pci_lintr_update_msi _).1, h1]
  rcases hm with h | h
  · simp only [h, ne_eq, not_true_eq_false, ↓reduceIte, false_implies, true_implies, and_self,
      true_and]
  · simp only [h, ne_eq, one_ne_zero, not_false_eq_true, ↓reduceIte, true_implies,
      false_implies, and_true, true_and, Nat.one_shiftLeft]

/-- What `msicap_cfgwrite` leaves behind, shared form. -/
theorem msicap_cfgwrite_state (pi : pci_devinst) (capoff offset bytes val : Nat) :
    (msicap_cfgwrite pi capoff offset bytes val).pi_msi.enabled =
      pci_get_cfgdata16 (msicap_cfgwrite pi capoff offset bytes val) (capoff + 2) &&&
        PCIM_MSICTRL_MSI_ENABLE ∧
    (pci_get_cfgdata16 (msicap_cfgwrite pi capoff offset bytes val) (capoff + 2) &&&
        PCIM_MSICTRL_MSI_ENABLE ≠ 0 →
      (msicap_cfgwrite pi capoff offset bytes val).pi_msi.addr =
        pci_get_cfgdata32 (msicap_cfgwrite pi capoff offset bytes val) (capoff + 4) ∧
      (msicap_cfgwrite pi capoff offset bytes val).pi_msi.msg_data =
        (if pci_get_cfgdata16 (msicap_cfgwrite pi capoff offset bytes val) (capoff + 2) &&&
            PCIM_MSICTRL_64BIT ≠ 0 then
          pci_get_cfgdata16 (msicap_cfgwrite pi capoff offset bytes val) (capoff + 12)
         else pci_get_cfgdata16 (msicap_cfgwrite pi capoff offset bytes val) (capoff + 8)) ∧
      (msicap_cfgwrite pi capoff offset bytes val).pi_msi.maxmsgnum =
        2 ^ ((pci_get_cfgdata16 (msicap_cfgwrite pi capoff offset bytes val) (capoff + 2) &&&
          PCIM_MSICTRL_MME_MASK) >>> 4)) ∧
    (pci_get_cfgdata16 (msicap_cfgwrite pi capoff offset bytes val) (capoff + 2) &&&
        PCIM_MSICTRL_MSI_ENABLE = 0 →
      (msicap_cfgwrite pi capoff offset bytes val).pi_msi.maxmsgnum = 0) := by
  have hcfg : (msicap_cfgwrite pi capoff offset bytes val).pi_cfgdata =
      (CFGWRITE pi offset (msicap_write_value pi capoff offset bytes val) bytes).pi_cfgdata :=
    (msicap_update_frame _ capoff).1
  have e16 := fun o => pci_get_cfgdata16_congr _ _ o hcfg
  have e32 := fun o => pci_get_cfgdata32_congr _ _ o hcfg
  obtain ⟨s1, s2, s3⟩ := msicap_update_state
    (CFGWRITE pi offset (msicap_write_value pi capoff offset bytes val) bytes) capoff
  rw [e16, e16, e16, e32]
  exact ⟨s1, s2, fun h => (s3 h).1⟩

/-- C31: after `msicap_cfgwrite`, whatever the offset, the width and the value written,
the MSI state of the function is the one read from the configuration space it
leaves behind: `enabled` is the enable bit of the stored control field; when it
is set, the address is the stored low address dword, the message data the
stored data word (at offset 12 of the capability when the stored control
field has the 64-bit flag, at offset 8 otherwise) and the maximum message
count 2 to the power of the stored multiple-message-enable field; when it is
clear, the maximum message count is 0. -/
theorem msi_state_recomputed (pi : pci_devinst) (capoff offset bytes val : Nat) :
    (msicap_cfgwrite pi capoff offset bytes val).pi_msi.enabled =
      pci_get_cfgdata16 (msicap_cfgwrite pi capoff offset bytes val) (capoff + 2) &&&
        PCIM_MSICTRL_MSI_ENABLE ∧
    (pci_get_cfgdata16 (msicap_cfgwrite pi capoff offset bytes val) (capoff + 2) &&&
        PCIM_MSICTRL_MSI_ENABLE ≠ 0 →
      (msicap_cfgwrite pi capoff offset bytes val).pi_msi.addr =
        pci_get_cfgdata32 (msicap_cfgwrite pi capoff offset bytes val) (capoff + 4) ∧
      (msicap_cfgwrite pi capoff offset bytes val).pi_msi.msg_data =
        (if pci_get_cfgdata16 (msicap_cfgwrite pi capoff offset bytes val) (capoff + 2) &&&
            PCIM_MSICTRL_64BIT ≠ 0 then
          pci_get_cfgdata16 (msicap_cfgwrite pi capoff offset bytes val) (capoff + 12)
         else pci_get_cfgdata16 (msicap_cfgwrite pi capoff offset bytes val) (capoff + 8)) ∧
      (msicap_cfgwrite pi capoff offset bytes val).pi_msi.maxmsgnum =
        2 ^ ((pci_get_cfgdata16 (msicap_cfgwrite pi capoff offset bytes val) (capoff + 2) &&&
          PCIM_MSICTRL_MME_MASK) >>> 4)) ∧
    (pci_get_cfgdata16 (msicap_cfgwrite pi capoff offset bytes val) (capoff + 2) &&&
        PCIM_MSICTRL_MSI_ENABLE = 0 →
      (msicap_cfgwrite pi capoff offset bytes val).pi_msi.maxmsgnum = 0) :=
  msicap_cfgwrite_state pi capoff offset bytes val

/-- The MSI capability of `msi_msix_dev` at 0x40 (control field 0x0080): the guest
writes the address 0xFEE00000, the data 0x4041 and the control value 0xFF21,
which leaves the MSI state enabled with that address, that data and 4 messages
and the control field 0x00A1; clearing the enable bit afterwards leaves the
count 0; a 4-byte write at 0x40 acts on the control field alone. -/
theorem msi_state_recomputed_witness :
    ((msicap_cfgwrite msi_msix_dev 0x40 0x42 2 0x21).pi_msi.addr =
        pci_get_cfgdata32 (msicap_cfgwrite msi_msix_dev 0x40 0x42 2 0x21) (0x40 + 4) ∧
      (msicap_cfgwrite msi_msix_dev 0x40 0x42 2 0x21).pi_msi.msg_data =
        (if pci_get_cfgdata16 (msicap_cfgwrite msi_msix_dev 0x40 0x42 2 0x21) (0x40 + 2) &&&
            PCIM_MSICTRL_64BIT ≠ 0 then
          pci_get_cfgdata16 (msicap_cfgwrite msi_msix_dev 0x40 0x42 2 0x21) (0x40 + 12)
         else pci_get_cfgdata16 (msicap_cfgwrite msi_msix_dev 0x40 0x42 2 0x21) (0x40 + 8)) ∧
      (msicap_cfgwrite msi_msix_dev 0x40 0x42 2 0x21).pi_msi.maxmsgnum =
        2 ^ ((pci_get_cfgdata16 (msicap_cfgwrite msi_msix_dev 0x40 0x42 2 0x21) (0x40 + 2) &&&
          PCIM_MSICTRL_MME_MASK) >>> 4)) ∧
    (msicap_cfgwrite msi_msix_dev 0x40 0x42 2 0x21).pi_msi =
      { enabled := 1, addr := 0, msg_data := 0, maxmsgnum := 4 } ∧
    observe_msi ((pci_cfgrw (single_func msi_msix_dev) false 0 0 0 0x44 4 0xfee00000).bind
      fun r => (pci_cfgrw r.1 false 0 0 0 0x4c 2 0x4041).bind
      fun r => pci_cfgrw r.1 false 0 0 0 0x42 2 0xff21) =
      some ({ enabled := 1, addr := 0xfee00000, msg_data := 0x4041, maxmsgnum := 4 }, 0x00a1) ∧
    observe_msi ((pci_cfgrw (single_func msi_msix_dev) false 0 0 0 0x44 4 0xfee00000).bind
      fun r => (pci_cfgrw r.1 false 0 0 0 0x4c 2 0x4041).bind
      fun r => (pci_cfgrw r.1 false 0 0 0 0x42 2 0xff21).bind
      fun r => pci_cfgrw r.1 false 0 0 0 0x42 2 0xff20) =
      some ({ enabled := 0, addr := 0xfee00000, msg_data := 0x4041, maxmsgnum := 0 }, 0x00a0) ∧
    observe_msi ((pci_cfgrw (single_func msi_msix_dev) false 0 0 0 0x42 2 0x0001).bind
      fun r => pci_cfgrw r.1 false 0 0 0 0x44 4 0xfee01000) =
      some ({ enabled := 1, addr := 0xfee01000, msg_data := 0, maxmsgnum := 1 }, 0x0081) ∧
    observe_msi (pci_cfgrw (single_func msi_msix_dev) false 0 0 0 0x40 4 0x00010000) =
      some ({ enabled := 1, addr := 0, msg_data := 0, maxmsgnum := 1 }, 0x0081) :=
  ⟨(msi_state_recomputed msi_msix_dev 0x40 0x42 2 0x21).2.1 (by decide),
    by decide, by decide, by decide, by decide, by decide⟩

/-! ## The MSI-X control register -/

/-- A 16-bit store followed by a 16-bit load at the same offset. -/
theorem get_set_cfgdata16 (pi : pci_devinst) (o v : Nat) :
    pci_get_cfgdata16 (pci_set_cfgdata16 pi o v) o = v % 65536 := by
  unfold pci_get_cfgdata16 pci_get_cfgdata8 pci_set_cfgdata16
  have h1 : o + 1 ≠ o := by omega
  simp only [↓reduceIte, h1, Nat.mod_mod]
  omega

/-- The control word `msixcap_cfgwrite` stores, bit by bit. -/
theorem msixcap_write_value_bits (pi : pci_devinst) (offset val i : Nat) :
    (msixcap_write_value pi offset val).testBit i =
      if i = 15 ∨ i = 14 then val.testBit i
      else (pci_get_cfgdata16 pi offset).testBit i := by
  have hm : to16 (not32 (PCIM_MSIXCTRL_MSIX_ENABLE ||| PCIM_MSIXCTRL_FUNCTION_MASK)) =
      2 ^ 14 - 1 := by decide
  have hr : PCIM_MSIXCTRL_MSIX_ENABLE ||| PCIM_MSIXCTRL_FUNCTION_MASK = 2 ^ 15 ||| 2 ^ 14 := by
    decide
  unfold msixcap_write_value
  simp only [hm]
  simp only [hr]
  unfold to16
  rw [Nat.testBit_mod_two_pow, Nat.testBit_or, Nat.testBit_and, Nat.testBit_and,
    Nat.testBit_or, Nat.testBit_two_pow, Nat.testBit_two_pow, Nat.testBit_two_pow_sub_one]
  by_cases h16 : i < 16
  · by_cases h15 : i = 15
    · subst h15; simp
    · by_cases h14 : i = 14
      · subst h14; simp
      · have : i < 14 := by omega
        have e1 : ¬ (15 = i) := by omega
        have e2 : ¬ (14 = i) := by omega
        simp [h16, h15, h14, this, e1, e2]
  · have e1 : ¬ (i = 15 ∨ i = 14) := by omega
    have hlt : (pci_get_cfgdata16 pi offset).testBit i = false := by
      apply Nat.testBit_lt_two_pow
      have := pci_get_cfgdata16_lt pi offset
      have h2 : 2 ^ 16 ≤ 2 ^ i := Nat.pow_le_pow_right (by decide) (by omega)
      omega
    simp [h16, e1, hlt]

/-- The control word `msixcap_cfgwrite` stores fits 16 bits. -/
theorem msixcap_write_value_lt (pi : pci_devinst) (offset val : Nat) :
    msixcap_write_value pi offset val < 65536 := by
  unfold msixcap_write_value to16
  exact Nat.mod_lt _ (by decide)

/-- The flags `msixcap_cfgwrite` derives from the control word are the two bits of the
value written. -/
theorem msixcap_write_value_flags (pi : pci_devinst) (offset val : Nat) :
    msixcap_write_value pi offset val &&& PCIM_MSIXCTRL_MSIX_ENABLE =
      val &&& PCIM_MSIXCTRL_MSIX_ENABLE ∧
    msixcap_write_value pi offset val &&& PCIM_MSIXCTRL_FUNCTION_MASK =
      val &&& PCIM_MSIXCTRL_FUNCTION_MASK := by
  have h15 : PCIM_MSIXCTRL_MSIX_ENABLE = 2 ^ 15 := rfl
  have h14 : PCIM_MSIXCTRL_FUNCTION_MASK = 2 ^ 14 := rfl
  rw [h15, h14]
  constructor
  · apply Nat.eq_of_testBit_eq
    intro i
    rw [Nat.testBit_and, Nat.testBit_and, Nat.testBit_two_pow, msixcap_write_value_bits]
    by_cases h : 15 = i
    · subst h; simp
    · simp [h]
  · apply Nat.eq_of_testBit_eq
    intro i
    rw [Nat.testBit_and, Nat.testBit_and, Nat.testBit_two_pow, msixcap_write_value_bits]
    by_cases h : 14 = i
    · subst h; simp
    · simp [h]

/-- The 2-byte branch of `msixcap_cfgwrite` written out. -/
theorem msixcap_cfgwrite_ctrl (pi : pci_devinst) (capoff val : Nat) :
    msixcap_cfgwrite pi capoff (capoff + 2) 2 val =
      pci_set_cfgdata16
        (pci_lintr_update { pi with pi_msix := { pi.pi_msix with
          enabled := val &&& PCIM_MSIXCTRL_MSIX_ENABLE,
          function_mask := val &&& PCIM_MSIXCTRL_FUNCTION_MASK } })
        (capoff + 2) (msixcap_write_value pi (capoff + 2) val) := by
  have h : capoff + 2 - capoff = 2 ∧ capoff ≤ capoff + 2 ∧ 2 = 2 := by omega
  unfold msixcap_cfgwrite CFGWRITE
  simp only [h, and_self, ↓reduceIte, OfNat.ofNat_ne_one,
    (msixcap_write_value_flags pi (capoff + 2) val).1,
    (msixcap_write_value_flags pi (capoff + 2) val).2]

/-- The effect of a 2-byte write to the MSI-X control register, shared form. -/
theorem msixcap_ctrl_effect (pi : pci_devinst) (capoff val : Nat) :
    (∀ i, i < 16 →
      (pci_get_cfgdata16 (msixcap_cfgwrite pi capoff (capoff + 2) 2 val) (capoff + 2)).testBit i =
        if i = 15 ∨ i = 14 then val.testBit i
        else (pci_get_cfgdata16 pi (capoff + 2)).testBit i) ∧
    pci_get_cfgdata16 (msixcap_cfgwrite pi capoff (capoff + 2) 2 val) (capoff + 2) &&& 0x07FF =
      pci_get_cfgdata16 pi (capoff + 2) &&& 0x07FF ∧
    (∀ o, o ≠ capoff + 2 → o ≠ capoff + 3 →
      (msixcap_cfgwrite pi capoff (capoff + 2) 2 val).pi_cfgdata o = pi.pi_cfgdata o) ∧
    (msixcap_cfgwrite pi capoff (capoff + 2) 2 val).pi_msix =
      { pi.pi_msix with enabled := val &&& PCIM_MSIXCTRL_MSIX_ENABLE,
                        function_mask := val &&& PCIM_MSIXCTRL_FUNCTION_MASK } ∧
    (msixcap_cfgwrite pi capoff (capoff + 2) 2 val).pi_lintr =
      (pci_lintr_update { pi with pi_msix := { pi.pi_msix with
        enabled := val &&& PCIM_MSIXCTRL_MSIX_ENABLE,
        function_mask := val &&& PCIM_MSIXCTRL_FUNCTION_MASK } }).pi_lintr ∧
    (msixcap_cfgwrite pi capoff (capoff + 2) 2 val).pi_irq_calls =
      (pci_lintr_update { pi with pi_msix := { pi.pi_msix with
        enabled := val &&& PCIM_MSIXCTRL_MSIX_ENABLE,
        function_mask := val &&& PCIM_MSIXCTRL_FUNCTION_MASK } }).pi_irq_calls := by
  rw [msixcap_cfgwrite_ctrl]
  have hget : pci_get_cfgdata16
      (pci_set_cfgdata16
        (pci_lintr_update { pi with pi_msix := { pi.pi_msix with
          enabled := val &&& PCIM_MSIXCTRL_MSIX_ENABLE,
          function_mask := val &&& PCIM_MSIXCTRL_FUNCTION_MASK } })
        (capoff + 2) (msixcap_write_value pi (capoff + 2) val)) (capoff + 2) =
      msixcap_write_value pi (capoff + 2) val := by
    rw [get_set_cfgdata16, Nat.mod_eq_of_lt (msixcap_write_value_lt _ _ _)]
  have hbits := msixcap_write_value_bits pi (capoff + 2) val
  refine ⟨?_, ?_, ?_, ?_, rfl, rfl⟩
  · intro i _
    rw [hget, hbits]
  · rw [hget]
    apply Nat.eq_of_testBit_eq
    intro i
    have e : (0x07FF : Nat) = 2 ^ 11 - 1 := by decide
    rw [e, Nat.testBit_and, Nat.testBit_and, Nat.testBit_two_pow_sub_one, hbits]
    by_cases h : i < 11
    · have : ¬ (i = 15 ∨ i = 14) := by omega
      simp [this]
    · simp [h]
  · intro o h2 h3
    have hu := (pci_lintr_update_frame { pi with pi_msix := { pi.pi_msix with
      enabled := val &&& PCIM_MSIXCTRL_MSIX_ENABLE,
      function_mask := val &&& PCIM_MSIXCTRL_FUNCTION_MASK } }).1
    have h3' : ¬ o = capoff + 2 + 1 := by omega
    show (if o = capoff + 2 then _ else if o = capoff + 2 + 1 then _ else _) = _
    rw [if_neg h2, if_neg h3', hu]
  · show (pci_lintr_update _).pi_msix = _
    rw [(pci_lintr_update_msi _).2]

/-- C32: a 2-byte write of `val` to the MSI-X message-control register (offset 2 of the
capability) through `msixcap_cfgwrite` changes, of the stored control field,
only bit 15 (MSI-X enable) and bit 14 (function mask), which take the bits of
`val`; the table-size field (bits 0..10) and every other byte of the
configuration space are as before.  The enabled flag and the function-mask flag
of the function become `val & 0x8000` and `val & 0x4000`, the rest of the MSI-X
state is kept, and the legacy interrupt state and the host calls are those
`pci_lintr_update` yields on the instance with the new flags. -/
theorem msix_control_write (pi : pci_devinst) (capoff val : Nat) :
    (∀ i, i < 16 →
      (pci_get_cfgdata16 (msixcap_cfgwrite pi capoff (capoff + 2) 2 val) (capoff + 2)).testBit i =
        if i = 15 ∨ i = 14 then val.testBit i
        else (pci_get_cfgdata16 pi (capoff + 2)).testBit i) ∧
    pci_get_cfgdata16 (msixcap_cfgwrite pi capoff (capoff + 2) 2 val) (capoff + 2) &&& 0x07FF =
      pci_get_cfgdata16 pi (capoff + 2) &&& 0x07FF ∧
    (∀ o, o ≠ capoff + 2 → o ≠ capoff + 3 →
      (msixcap_cfgwrite pi capoff (capoff + 2) 2 val).pi_cfgdata o = pi.pi_cfgdata o) ∧
    (msixcap_cfgwrite pi capoff (capoff + 2) 2 val).pi_msix =
      { pi.pi_msix with enabled := val &&& PCIM_MSIXCTRL_MSIX_ENABLE,
                        function_mask := val &&& PCIM_MSIXCTRL_FUNCTION_MASK } ∧
    (msixcap_cfgwrite pi capoff (capoff + 2) 2 val).pi_lintr =
      (pci_lintr_update { pi with pi_msix := { pi.pi_msix with
        enabled := val &&& PCIM_MSIXCTRL_MSIX_ENABLE,
        function_mask := val &&& PCIM_MSIXCTRL_FUNCTION_MASK } }).pi_lintr ∧
    (msixcap_cfgwrite pi capoff (capoff + 2) 2 val).pi_irq_calls =
      (pci_lintr_update { pi with pi_msix := { pi.pi_msix with
        enabled := val &&& PCIM_MSIXCTRL_MSIX_ENABLE,
        function_mask := val &&& PCIM_MSIXCTRL_FUNCTION_MASK } }).pi_irq_calls :=
  msixcap_ctrl_effect pi capoff val

/-- The MSI-X capability of `msi_msix_dev` at 0x50 (control field 0x0007, eight table
entries): writing 0xFFFF leaves 0xC007 and both flags set, writing 0x8000 or
0x4000 sets one flag, the 4-byte write at 0x50 acts like the 2-byte write of
its upper half, and writing 0 afterwards clears both flags again. -/
theorem msix_control_write_witness :
    (pci_get_cfgdata16 (msixcap_cfgwrite msi_msix_dev 0x50 (0x50 + 2) 2 0xffff) (0x50 + 2) &&&
        0x07FF = pci_get_cfgdata16 msi_msix_dev (0x50 + 2) &&& 0x07FF) ∧
    pci_get_cfgdata16 (msixcap_cfgwrite msi_msix_dev 0x50 (0x50 + 2) 2 0xffff) (0x50 + 2) =
      0xC007 ∧
    observe_msix (some (single_func msi_msix_dev, 0)) = some (0, 0, 0x0007) ∧
    observe_msix (pci_cfgrw (single_func msi_msix_dev) false 0 0 0 0x52 2 0xffff) =
      some (0x8000, 0x4000, 0xC007) ∧
    observe_msix (pci_cfgrw (single_func msi_msix_dev) false 0 0 0 0x52 2 0x8000) =
      some (0x8000, 0, 0x8007) ∧
    observe_msix (pci_cfgrw (single_func msi_msix_dev) false 0 0 0 0x52 2 0x4000) =
      some (0, 0x4000, 0x4007) ∧
    observe_msix (pci_cfgrw (single_func msi_msix_dev) false 0 0 0 0x50 4 0xc0000000) =
      some (0x8000, 0x4000, 0xC007) ∧
    observe_msix ((pci_cfgrw (single_func msi_msix_dev) false 0 0 0 0x52 2 0xc000).bind
      fun r => pci_cfgrw r.1 false 0 0 0 0x52 2 0) = some (0, 0, 0x0007) :=
  ⟨(msix_control_write msi_msix_dev 0x50 0xffff).2.1,
    by decide, by decide, by decide, by decide, by decide, by decide, by decide⟩

/-! ## Narrow writes to the MSI and MSI-X control registers -/

/-- The control word `msicap_cfgwrite` stores for a 2-byte write at offset 2 of the
capability, bit by bit: the bits of the mask 0x0071 (enable and
multiple-message enable) come from the value written, the others stay. -/
theorem msicap_write_value_bits (pi : pci_devinst) (capoff val i : Nat) (hi : i < 16) :
    (msicap_write_value pi capoff (capoff + 2) 2 val).testBit i =
      if (0x0071 : Nat).testBit i = true then val.testBit i
      else (pci_get_cfgdata16 pi (capoff + 2)).testBit i := by
  have h : capoff + 2 - capoff = 2 ∧ capoff ≤ capoff + 2 ∧ 2 = 2 := by omega
  have hm : to16 (not32 (PCIM_MSICTRL_MME_MASK ||| PCIM_MSICTRL_MSI_ENABLE)) = 0xFF8E := by
    decide
  have hr : PCIM_MSICTRL_MME_MASK ||| PCIM_MSICTRL_MSI_ENABLE = 0x0071 := by decide
  have key : (0xFF8E : Nat).testBit i = !(0x0071 : Nat).testBit i := by
    interval_cases i <;> decide
  unfold msicap_write_value
  simp only [h, and_self, ↓reduceIte, hm]
  simp only [hr]
  unfold to16
  rw [Nat.testBit_mod_two_pow, Nat.testBit_or, Nat.testBit_and, Nat.testBit_and, key]
  cases (0x0071 : Nat).testBit i <;> simp [hi]

/-- A 2-byte write at offset 2 of an MSI capability keeps the stored control bits
outside the mask 0x0071, among them the 64-bit flag and the
multiple-message-capable field. -/
theorem msicap_ctrl_word_kept (pi : pci_devinst) (capoff val : Nat) :
    pci_get_cfgdata16 (msicap_cfgwrite pi capoff (capoff + 2) 2 val) (capoff + 2) &&& 0xFF8E =
      pci_get_cfgdata16 pi (capoff + 2) &&& 0xFF8E := by
  have hcfg : (msicap_cfgwrite pi capoff (capoff + 2) 2 val).pi_cfgdata =
      (CFGWRITE pi (capoff + 2) (msicap_write_value pi capoff (capoff + 2) 2 val) 2).pi_cfgdata :=
    (msicap_update_frame _ capoff).1
  have hlt : msicap_write_value pi capoff (capoff + 2) 2 val < 65536 := by
    have h : capoff + 2 - capoff = 2 ∧ capoff ≤ capoff + 2 ∧ 2 = 2 := by omega
    unfold msicap_write_value to16
    simp only [h, and_self, ↓reduceIte]
    exact Nat.mod_lt _ (by decide)
  have hw : CFGWRITE pi (capoff + 2) (msicap_write_value pi capoff (capoff + 2) 2 val) 2 =
      pci_set_cfgdata16 pi (capoff + 2) (msicap_write_value pi capoff (capoff + 2) 2 val) := by
    unfold CFGWRITE
    simp only [OfNat.ofNat_ne_one, ↓reduceIte]
  rw [pci_get_cfgdata16_congr _ _ _ hcfg, hw, get_set_cfgdata16, Nat.mod_eq_of_lt hlt]
  apply Nat.eq_of_testBit_eq
  intro i
  rw [Nat.testBit_and, Nat.testBit_and]
  by_cases hi : i < 16
  · rw [msicap_write_value_bits pi capoff val i hi]
    have key : (0xFF8E : Nat).testBit i = !(0x0071 : Nat).testBit i := by
      interval_cases i <;> decide
    rw [key]
    cases (0x0071 : Nat).testBit i <;> simp
  · have h2 : (0xFF8E : Nat).testBit i = false := by
      apply Nat.testBit_lt_two_pow
      have h2 : 2 ^ 16 ≤ 2 ^ i := Nat.pow_le_pow_right (by decide) (by omega)
      omega
    simp [h2]

/-- C33 (divergence of the code): on a function whose MSI capability sits at 0x40 with
the control field 0x0080 (64-bit flag set), the 2-byte writes of 0 and of
0xFFFF at 0x42 keep the read-only bits (0x0080 and 0x00F1 are stored), but the
one-byte write of 0 at 0x42 clears the 64-bit flag (0x0000 is stored), the
one-byte write of 0x0F at 0x42 fills the multiple-message-capable field
(0x000F), and the one-byte write of 0xFF at 0x43 sets the reserved upper bits
(0xFF80). -/
theorem msi_ctrl_byte_write_not_masked :
    observe_msi (some (single_func msi_msix_dev, 0)) =
      some ({ enabled := 0, addr := 0, msg_data := 0, maxmsgnum := 0 }, 0x0080) ∧
    observe_msi (pci_cfgrw (single_func msi_msix_dev) false 0 0 0 0x42 2 0x0000) =
      some ({ enabled := 0, addr := 0, msg_data := 0, maxmsgnum := 0 }, 0x0080) ∧
    observe_msi (pci_cfgrw (single_func msi_msix_dev) false 0 0 0 0x42 2 0xffff) =
      some ({ enabled := 1, addr := 0, msg_data := 0, maxmsgnum := 128 }, 0x00F1) ∧
    observe_msi (pci_cfgrw (single_func msi_msix_dev) false 0 0 0 0x42 1 0x00) =
      some ({ enabled := 0, addr := 0, msg_data := 0, maxmsgnum := 0 }, 0x0000) ∧
    observe_msi (pci_cfgrw (single_func msi_msix_dev) false 0 0 0 0x42 1 0x0f) =
      some ({ enabled := 1, addr := 0, msg_data := 0, maxmsgnum := 1 }, 0x000F) ∧
    observe_msi (pci_cfgrw (single_func msi_msix_dev) false 0 0 0 0x43 1 0xff) =
      some ({ enabled := 0, addr := 0, msg_data := 0, maxmsgnum := 0 }, 0xFF80) := by
  refine ⟨?_, ?_, ?_, ?_, ?_, ?_⟩ <;> decide

/-- C37 (divergence of the code): on a function whose MSI-X capability sits at 0x50 with
the control field 0x0007, the one-byte write of 0x80 at 0x53 stores the enable
bit (0x8007) while the enabled flag of the function stays 0; after the 2-byte
write of 0xC000 has set both flags, the one-byte write of 0 at 0x53 clears
both stored bits (0x0007) while both flags stay set; the one-byte write of
0xFF at 0x52 changes the table-size field (0x00FF). -/
theorem msix_ctrl_byte_write_desync :
    observe_msix (some (single_func msi_msix_dev, 0)) = some (0, 0, 0x0007) ∧
    observe_msix (pci_cfgrw (single_func msi_msix_dev) false 0 0 0 0x53 1 0x80) =
      some (0, 0, 0x8007) ∧
    observe_msix (pci_cfgrw (single_func msi_msix_dev) false 0 0 0 0x52 2 0xc000) =
      some (0x8000, 0x4000, 0xC007) ∧
    observe_msix ((pci_cfgrw (single_func msi_msix_dev) false 0 0 0 0x52 2 0xc000).bind
      fun r => pci_cfgrw r.1 false 0 0 0 0x53 1 0) = some (0x8000, 0x4000, 0x0007) ∧
    observe_msix (pci_cfgrw (single_func msi_msix_dev) false 0 0 0 0x52 1 0xff) =
      some (0, 0, 0x00FF) := by
  refine ⟨?_, ?_, ?_, ?_, ?_⟩ <;> decide

/-! ## The capabilities pointer and the legacy data port -/

/-- C39 (the claim fails as stated): on a function whose capability list is MSI at 0x40 and
MSI-X at 0x50, guest writes at 0x34 reach the final `CFGWRITE` of `pci_cfgrw` and
change the capabilities pointer: the one-byte write of 0 leaves the pointer 0
and an empty list, the one-byte write of 0x50 leaves the list starting at the
MSI-X capability, the 2-byte write of 0x0080 leaves a list with one
capability of ID 0 at 0x80.  Writes at the capability headers (one byte at
0x41, four bytes at 0x40) leave the list as it was. -/
theorem cap_ptr_guest_writable :
    observe_caps (some (single_func msi_msix_dev, 0)) =
      some (0x40, some [(0x40, 0x05), (0x50, 0x11)]) ∧
    observe_caps (pci_cfgrw (single_func msi_msix_dev) false 0 0 0 0x34 1 0) =
      some (0, some []) ∧
    observe_caps (pci_cfgrw (single_func msi_msix_dev) false 0 0 0 0x34 1 0x50) =
      some (0x50, some [(0x50, 0x11)]) ∧
    observe_caps (pci_cfgrw (single_func msi_msix_dev) false 0 0 0 0x34 2 0x0080) =
      some (0x80, some [(0x80, 0)]) ∧
    observe_caps (pci_cfgrw (single_func msi_msix_dev) false 0 0 0 0x34 4 0xffffff00) =
      some (0, some []) ∧
    observe_caps (pci_cfgrw (single_func msi_msix_dev) false 0 0 0 0x41 1 0) =
      some (0x40, some [(0x40, 0x05), (0x50, 0x11)]) ∧
    observe_caps (pci_cfgrw (single_func msi_msix_dev) false 0 0 0 0x40 4 0xffffffff) =
      some (0x40, some [(0x40, 0x05), (0x50, 0x11)]) := by
  refine ⟨?_, ?_, ?_, ?_, ?_, ?_, ?_⟩ <;> decide

/-- A read of an existing function at an aligned offset in 256..259 returns the
all-zero sentinel of the extended capabilities, whatever the function holds. -/
theorem pci_cfgrw_ext_sentinel (t : Nat → Option businfo) (bus slot func coff bytes eax : Nat)
    (fi : funcinfo) (pi : pci_devinst)
    (hfi : find_func t bus slot func = some fi) (hpi : fi.fi_devi = some pi)
    (hb : bytes = 1 ∨ bytes = 2 ∨ bytes = 4) (hal : coff % bytes = 0)
    (hc : 256 ≤ coff ∧ coff ≤ 259) :
    pci_cfgrw t true bus slot func coff bytes eax = some (t, 0) := by
  have hb' : ¬ (bytes ≠ 1 ∧ bytes ≠ 2 ∧ bytes ≠ 4) := by omega
  have ha := and_width_pred coff bytes hb
  have hr : PCI_REGMAX = 255 := rfl
  have h1 : coff ≥ PCI_REGMAX + 1 := by omega
  have h2 : coff ≤ PCI_REGMAX + 4 := by omega
  unfold pci_cfgrw
  simp only [hfi, hpi, Option.some_bind, hb', ha, hal, ne_eq, not_true_eq_false, or_self,
    ↓reduceIte, h1, h2]

/-- With the enable bit set, the data port forwards the offset latched by a 4-byte write
to the address port, its low 8 bits as they are, plus the distance of the port
from `CONF1_DATA_PORT`. -/
theorem cfgdata_forwarded (l : cfg_latch) (t : Nat → Option businfo) (inp : Bool)
    (x port bytes eax : Nat) (hb : bytes = 1 ∨ bytes = 2 ∨ bytes = 4)
    (hx : to32 x &&& CONF1_ENABLE = CONF1_ENABLE) :
    pci_emul_cfgdata (pci_emul_cfgaddr l false 4 x).1 t inp port bytes eax =
      pci_cfgrw t inp ((to32 x >>> 16) &&& PCI_BUSMAX) ((to32 x >>> 11) &&& PCI_SLOTMAX)
        ((to32 x >>> 8) &&& PCI_FUNCMAX)
        ((to32 x &&& PCI_REGMAX) + (port - CONF1_DATA_PORT)) bytes eax := by
  unfold pci_emul_cfgdata pci_emul_cfgaddr
  simp only [ne_eq, not_true_eq_false, ↓reduceIte, Bool.false_eq_true, hx, hb,
    one_ne_zero, not_false_eq_true]

/-- C40 (divergence of the code): the address port latches the low 8 bits of the value
written without clearing bits 0 and 1, so after the 4-byte write of 0x800000FF
the latched offset is 255 and the one-byte read at data port 0xCFD is
forwarded to `pci_cfgrw` with offset 256, which returns the all-zero sentinel.
The latches 0x800000FE with a 2-byte read at 0xCFE and 0x800000FD with a
4-byte read at 0xCFF forward offset 256 as well.  For comparison, the latch
0x8000003C with a one-byte read at 0xCFC returns the interrupt-line byte 0xFF,
and the latch 0x800000FC with a one-byte read at 0xCFF the byte at offset
255. -/
theorem legacy_reaches_extended :
    (pci_emul_cfgaddr {} false 4 0x800000FF).1 =
      { cfgenable := 1, cfgbus := 0, cfgslot := 0, cfgfunc := 0, cfgoff := 255 } ∧
    (pci_emul_cfgaddr {} false 4 0x800000FF).1.cfgoff + (0xCFD - CONF1_DATA_PORT) = 256 ∧
    pci_emul_cfgdata (pci_emul_cfgaddr {} false 4 0x800000FF).1
        (single_func (fresh_devinst none)) true 0xCFD 1 0x12345678 =
      pci_cfgrw (single_func (fresh_devinst none)) true 0 0 0 256 1 0x12345678 ∧
    (pci_emul_cfgdata (pci_emul_cfgaddr {} false 4 0x800000FF).1
        (single_func (fresh_devinst none)) true 0xCFD 1 0x12345678).map Prod.snd = some 0 ∧
    (pci_emul_cfgdata (pci_emul_cfgaddr {} false 4 0x800000FE).1
        (single_func (fresh_devinst none)) true 0xCFE 2 0x12345678).map Prod.snd = some 0 ∧
    (pci_emul_cfgdata (pci_emul_cfgaddr {} false 4 0x800000FD).1
        (single_func (fresh_devinst none)) true 0xCFF 4 0x12345678).map Prod.snd = some 0 ∧
    (pci_emul_cfgdata (pci_emul_cfgaddr {} false 4 0x8000003C).1
        (single_func (fresh_devinst none)) true 0xCFC 1 0x12345678).map Prod.snd = some 0xFF ∧
    (pci_emul_cfgdata (pci_emul_cfgaddr {} false 4 0x800000FC).1
        (single_func (fresh_devinst none)) true 0xCFF 1 0x12345678).map Prod.snd = some 0 := by
  refine ⟨by decide, by decide, rfl, ?_, ?_, ?_, ?_, ?_⟩ <;> decide

/-! ## Narrow reads of the BAR registers -/

/-- C38 (divergence of the code): a 32-bit memory BAR of 4 KiB at index 5, armed for the
size probe by the 4-byte write of 0xFFFFFFFF at 0x24, reads 0xFFFFF000 as a
dword and 0xF000 as the word at 0x24, but the byte reads at 0x25 and 0x26 and
0x27 are not routed to `read_bar_value` and return the stored bytes: 0xFF at
0x25, where the dword has 0xF0.  The same BAR at index 4 reads 0xF0 at 0x21.
Before the probe the narrow reads agree with the dword 0xDFFFF000. -/
theorem bar5_narrow_read_differs :
    (mem5_assigned.pi_bar 5, pci_get_cfgdata32 mem5_assigned 0x24) =
      (⟨PCIBAR_MEM32, 4096, 0xDFFFF000, 0⟩, 0xDFFFF000) ∧
    [read_back (some (single_func mem5_assigned, 0)) 0x24 4,
     read_back (some (single_func mem5_assigned, 0)) 0x24 1,
     read_back (some (single_func mem5_assigned, 0)) 0x25 1,
     read_back (some (single_func mem5_assigned, 0)) 0x26 1,
     read_back (some (single_func mem5_assigned, 0)) 0x27 1,
     read_back (some (single_func mem5_assigned, 0)) 0x24 2,
     read_back (some (single_func mem5_assigned, 0)) 0x26 2] =
      [some 0xDFFFF000, some 0x00, some 0xF0, some 0xFF, some 0xDF, some 0xF000,
       some 0xDFFF] ∧
    [read_back (pci_cfgrw (single_func mem5_assigned) false 0 0 0 0x24 4 0xffffffff) 0x24 4,
     read_back (pci_cfgrw (single_func mem5_assigned) false 0 0 0 0x24 4 0xffffffff) 0x24 1,
     read_back (pci_cfgrw (single_func mem5_assigned) false 0 0 0 0x24 4 0xffffffff) 0x25 1,
     read_back (pci_cfgrw (single_func mem5_assigned) false 0 0 0 0x24 4 0xffffffff) 0x26 1,
     read_back (pci_cfgrw (single_func mem5_assigned) false 0 0 0 0x24 4 0xffffffff) 0x27 1,
     read_back (pci_cfgrw (single_func mem5_assigned) false 0 0 0 0x24 4 0xffffffff) 0x24 2,
     read_back (pci_cfgrw (single_func mem5_assigned) false 0 0 0 0x24 4 0xffffffff) 0x26 2] =
      [some 0xFFFFF000, some 0x00, some 0xFF, some 0xFF, some 0xFF, some 0xF000,
       some 0xFFFF] ∧
    [read_back (pci_cfgrw (single_func mem4_assigned) false 0 0 0 0x20 4 0xffffffff) 0x20 4,
     read_back (pci_cfgrw (single_func mem4_assigned) false 0 0 0 0x20 4 0xffffffff) 0x20 1,
     read_back (pci_cfgrw (single_func mem4_assigned) false 0 0 0 0x20 4 0xffffffff) 0x21 1,
     read_back (pci_cfgrw (single_func mem4_assigned) false 0 0 0 0x20 4 0xffffffff) 0x22 1,
     read_back (pci_cfgrw (single_func mem4_assigned) false 0 0 0 0x20 4 0xffffffff) 0x23 1,
     read_back (pci_cfgrw (single_func mem4_assigned) false 0 0 0 0x20 4 0xffffffff) 0x20 2,
     read_back (pci_cfgrw (single_func mem4_assigned) false 0 0 0 0x20 4 0xffffffff) 0x22 2] =
      [some 0xFFFFF000, some 0x00, some 0xF0, some 0xFF, some 0xFF, some 0xF000,
       some 0xFFFF] := by
  refine ⟨?_, ?_, ?_, ?_⟩ <;> decide

/-! ## Registration calls under guest writes -/

/-- C35 (divergence of the code): after the allocation pass has placed an I/O BAR of
size 4 at 0xFFFC in BAR 0 and registered it (command register 0x0005), the
guest writes 0xFFFFFFFF to the BAR with decoding on, which unregisters the
range and zeroes the descriptor address, and then clears the I/O-enable bit
of the command register: `pci_emul_cmd_changed` calls `unregister_bar` a second
time, for the range at address 0 that was never registered.  Setting the bit
again registers the range at address 0, and a following write of the address
0xC000 registers the BAR once more without an unregister in between.  The
record is accepted by a host that takes only well-formed calls up to the
probe, and no longer after the command write; the order disable, probe,
program, enable is accepted. -/
theorem unregister_twice_after_probe :
    observe_events (some (single_func io4_assigned, 0)) =
      some ([⟨true, 0, ⟨ PCIBAR_IO, 4, 0xFFFC, 1⟩, false⟩],
        ⟨ PCIBAR_IO, 4, 0xFFFC, 1⟩, 0x0005) ∧
    observe_events (pci_cfgrw (single_func io4_assigned) false 0 0 0 0x10 4 0xffffffff) =
      some ([⟨true, 0, ⟨ PCIBAR_IO, 4, 0xFFFC, 1⟩, false⟩,
             ⟨false, 0, ⟨ PCIBAR_IO, 4, 0xFFFC, 1⟩, false⟩],
        ⟨ PCIBAR_IO, 4, 0, 1⟩, 0x0005) ∧
    observe_events ((pci_cfgrw (single_func io4_assigned) false 0 0 0 0x10 4 0xffffffff).bind
      fun r => pci_cfgrw r.1 false 0 0 0 0x04 2 0x0004) =
      some ([⟨true, 0, ⟨ PCIBAR_IO, 4, 0xFFFC, 1⟩, false⟩,
             ⟨false, 0, ⟨ PCIBAR_IO, 4, 0xFFFC, 1⟩, false⟩,
             ⟨false, 0, ⟨ PCIBAR_IO, 4, 0, 1⟩, false⟩],
        ⟨ PCIBAR_IO, 4, 0, 1⟩, 0x0004) ∧
    (observe_events ((pci_cfgrw (single_func io4_assigned) false 0 0 0 0x10 4 0xffffffff).bind
      fun r => (pci_cfgrw r.1 false 0 0 0 0x04 2 0x0004).bind
      fun r => (pci_cfgrw r.1 false 0 0 0 0x04 2 0x0005).bind
      fun r => pci_cfgrw r.1 false 0 0 0 0x10 4 0xc000)).map Prod.fst =
      some [⟨true, 0, ⟨ PCIBAR_IO, 4, 0xFFFC, 1⟩, false⟩,
            ⟨false, 0, ⟨ PCIBAR_IO, 4, 0xFFFC, 1⟩, false⟩,
            ⟨false, 0, ⟨ PCIBAR_IO, 4, 0, 1⟩, false⟩,
            ⟨true, 0, ⟨ PCIBAR_IO, 4, 0, 1⟩, false⟩,
            ⟨true, 0, ⟨ PCIBAR_IO, 4, 0xC000, 1⟩, false⟩] ∧
    (observe_events (pci_cfgrw (single_func io4_assigned) false 0 0 0 0x10 4
      0xffffffff)).map (fun o => host_accepts o.1) = some true ∧
    (observe_events ((pci_cfgrw (single_func io4_assigned) false 0 0 0 0x10 4 0xffffffff).bind
      fun r => pci_cfgrw r.1 false 0 0 0 0x04 2 0x0004)).map (fun o => host_accepts o.1) =
      some false ∧
    (observe_events ((pci_cfgrw (single_func io4_assigned) false 0 0 0 0x04 2 0x0004).bind
      fun r => (pci_cfgrw r.1 false 0 0 0 0x10 4 0xffffffff).bind
      fun r => (pci_cfgrw r.1 false 0 0 0 0x10 4 0xc000).bind
      fun r => pci_cfgrw r.1 false 0 0 0 0x04 2 0x0005)).map (fun o => host_accepts o.1) =
      some true := by
  refine ⟨?_, ?_, ?_, ?_, ?_, ?_, ?_⟩ <;> decide

/-! ## The windows recorded for a bus -/

/-- C34 (divergence of the code): the bus loop of `init_pci` on a fresh machine without
high memory, one device asking for an I/O BAR of size 1 (index 0), a 32-bit
memory BAR of 4 KiB (index 2) and a 64-bit memory BAR of 512 MiB (index 3).
The bus records the windows [0x2000, 0x2020), [0xC0000000, 0xC0100000) and
[0x800000000, 0x800100000), which start at the base cursors, while the BARs
are carved downwards from the limit cursors, which end at 0xFFFC, 0xDFFFF000
and 0xFE0000000: the I/O BAR sits at 0xFFFC, the 32-bit BAR at 0xDFFFF000 and
the 64-bit BAR has the descriptor address 0xE0000000E0000000.  None of the
three addresses lies inside the recorded window of its class.  With no
request at all the same windows are recorded. -/
theorem bus_windows_miss_bars :
    observe_bus (init_pci_bus (fresh_state 0) [io_1, mem32_4K, mem64_512M_bar3] 0) =
      some ((0x2000, 0x2020), (0xC0000000, 0xC0100000), (0x800000000, 0x800100000),
        [( PCIBAR_IO, 0xFFFC), (PCIBAR_MEM32, 0xDFFFF000),
         (PCIBAR_MEM64, 0xE0000000E0000000)]) ∧
    (init_pci_bus (fresh_state 0) [io_1, mem32_4K, mem64_512M_bar3] 0).map
      (fun r => (r.1.win.pci_emul_iolim, r.1.win.pci_emul_memlim32,
        r.1.win.pci_emul_memlim64)) = some (0xFFFC, 0xDFFFF000, 0xFE0000000) ∧
    (init_pci_bus (fresh_state 0) [io_1, mem32_4K, mem64_512M_bar3] 0).map bars_in_windows =
      some [false, false, false] ∧
    in_window (0x800000000, 0x800100000) 0xFE0000000 = false ∧
    observe_bus (init_pci_bus (fresh_state 0) [] 0) =
      some ((0x2000, 0x2020), (0xC0000000, 0xC0100000), (0x800000000, 0x800100000),
        [(PCIBAR_NONE, 0), (PCIBAR_NONE, 0), (PCIBAR_NONE, 0)]) := by
  refine ⟨?_, ?_, ?_, ?_, ?_⟩ <;> decide

/-! ## The interrupt state never disagrees with the permission -/

/-- Whatever the instance, `pci_lintr_update` leaves it consistent. -/
theorem lintr_update_consistent (pi : pci_devinst) : lintr_consistent (pci_lintr_update pi) := by
  have hperm : ∀ (s : lintr_info) (c : List Bool),
      pci_lintr_permitted { pi with pi_lintr := s, pi_irq_calls := c } =
        pci_lintr_permitted pi := fun _ _ => rfl
  unfold pci_lintr_update lintr_consistent
  split
  · rename_i h
    refine ⟨fun h1 => (by cases h1), fun _ => ?_⟩
    have : pci_lintr_permitted pi = false := by
      cases hp : pci_lintr_permitted pi with
      | false => rfl
      | true => exact absurd hp h.2
    exact this
  · rename_i h1
    split
    · rename_i h2
      exact ⟨fun _ => h2.2, fun h => (by cases h)⟩
    · rename_i h2
      refine ⟨fun hs => ?_, fun hs => ?_⟩
      · cases hp : pci_lintr_permitted pi with
        | true => rfl
        | false => exact absurd ⟨hs, by rw [hp]; decide⟩ h1
      · cases hp : pci_lintr_permitted pi with
        | false => rfl
        | true => exact absurd ⟨hs, hp⟩ h2

/-- The frame relation is reflexive. -/
theorem lintr_frame_refl (a : pci_devinst) : lintr_frame a a :=
  ⟨rfl, rfl, rfl, rfl, rfl, rfl⟩

/-- The frame relation is transitive. -/
theorem lintr_frame_trans (a b c : pci_devinst) (h1 : lintr_frame a b) (h2 : lintr_frame b c) :
    lintr_frame a c :=
  ⟨h2.1.trans h1.1, h2.2.1.trans h1.2.1, h2.2.2.1.trans h1.2.2.1,
    h2.2.2.2.1.trans h1.2.2.2.1, h2.2.2.2.2.1.trans h1.2.2.2.2.1,
    h2.2.2.2.2.2.trans h1.2.2.2.2.2⟩

/-- Consistency only depends on what the frame relation keeps. -/
theorem lintr_frame_consistent (a b : pci_devinst) (h : lintr_frame a b)
    (hc : lintr_consistent a) : lintr_consistent b := by
  obtain ⟨h1, h2, h3, _, h5, h6⟩ := h
  have hp : pci_lintr_permitted b = pci_lintr_permitted a := by
    unfold pci_lintr_permitted pci_get_cfgdata16 pci_get_cfgdata8 PCIR_COMMAND
    rw [h2, h3, h5, h6]
  unfold lintr_consistent at hc ⊢
  rw [hp, h1]
  exact hc

/-- A store that stays clear of the command register is in the frame. -/
theorem lintr_frame_CFGWRITE (pi : pci_devinst) (coff v bytes : Nat)
    (hb : bytes = 1 ∨ bytes = 2 ∨ bytes = 4) (hc : coff + bytes ≤ 4 ∨ 6 ≤ coff) :
    lintr_frame pi (CFGWRITE pi coff v bytes) := by
  obtain ⟨f, hf⟩ := CFGWRITE_only_cfgdata pi coff v bytes
  have h4 := (CFGWRITE_frame pi coff v bytes).2.2 hb 4 (by omega)
  have h5 := (CFGWRITE_frame pi coff v bytes).2.2 hb 5 (by omega)
  refine ⟨?_, ?_, ?_, ?_, h4, h5⟩ <;> rw [hf]

/-- A 32-bit store at or above offset 6 is in the frame. -/
theorem lintr_frame_set32 (pi : pci_devinst) (o v : Nat) (ho : 6 ≤ o) :
    lintr_frame pi (pci_set_cfgdata32 pi o v) := by
  have h := lintr_frame_CFGWRITE pi o v 4 (Or.inr (Or.inr rfl)) (Or.inr ho)
  unfold CFGWRITE at h
  simpa using h

/-- A registration call is in the frame. -/
theorem lintr_frame_registration (pi pi' : pci_devinst) (idx : Nat) (r : Bool)
    (h : modify_bar_registration pi idx r = some pi') : lintr_frame pi pi' := by
  obtain ⟨ev, rfl⟩ := modify_bar_registration_events pi pi' idx r h
  exact ⟨rfl, rfl, rfl, rfl, rfl, rfl⟩

/-- The I/O and memory case of `update_bar_address` is in the frame. -/
theorem lintr_frame_update_bar (pi pi' : pci_devinst) (idx u val : Nat) (d : Bool)
    (h : update_bar_address_bar pi idx u val d = some pi') : lintr_frame pi pi' := by
  have hB : 6 ≤ PCIR_BAR idx := by unfold PCIR_BAR; omega
  unfold update_bar_address_bar at h
  obtain ⟨a, ha, h⟩ := Option.bind_eq_some.1 h
  have fa : lintr_frame pi a := by
    split at ha
    · exact lintr_frame_registration _ _ _ _ ha
    · cases ha; exact lintr_frame_refl _
  have key : ∀ (v ad : Nat), lintr_frame pi (set_addr (pci_set_cfgdata32 a (PCIR_BAR idx) v) u ad) :=
    fun v ad => lintr_frame_trans _ _ _ fa
      (lintr_frame_trans _ _ _ (lintr_frame_set32 a _ v hB) ⟨rfl, rfl, rfl, rfl, rfl, rfl⟩)
  simp only [] at h
  split at h
  · cases h; exact key _ _
  · split at h
    · cases h; exact key _ _
    · split at h
      · exact lintr_frame_trans _ _ _ (key _ _) (lintr_frame_registration _ _ _ _ h)
      · cases h; exact key _ _

/-- The ROM case of `update_bar_address` is in the frame. -/
theorem lintr_frame_update_rom (pi pi' : pci_devinst) (idx val : Nat) (d : Bool)
    (h : update_bar_address_rom pi idx val d = some pi') : lintr_frame pi pi' := by
  have hB : 6 ≤ PCIR_BIOS := by decide
  unfold update_bar_address_rom at h
  obtain ⟨a, ha, h⟩ := Option.bind_eq_some.1 h
  have fa : lintr_frame pi a := by
    split at ha
    · exact lintr_frame_registration _ _ _ _ ha
    · cases ha; exact lintr_frame_refl _
  have key : ∀ (b : pcibar), lintr_frame pi (set_bar (pci_set_cfgdata32 a PCIR_BIOS val) idx b) :=
    fun b => lintr_frame_trans _ _ _ fa
      (lintr_frame_trans _ _ _ (lintr_frame_set32 a _ val hB) ⟨rfl, rfl, rfl, rfl, rfl, rfl⟩)
  simp only [] at h
  split at h
  · exact lintr_frame_trans _ _ _ (key _) (lintr_frame_registration _ _ _ _ h)
  · cases h; exact key _

/-- The function `update_bar_address` is in the frame. -/
theorem lintr_frame_update_bar_address (pi pi' : pci_devinst) (idx val : Nat)
    (h : update_bar_address pi idx val = some pi') : lintr_frame pi pi' := by
  unfold update_bar_address at h
  simp only [] at h
  split at h
  · exact lintr_frame_update_bar _ _ _ _ _ _ h
  · exact lintr_frame_update_bar _ _ _ _ _ _ h
  · exact lintr_frame_update_bar _ _ _ _ _ _ h
  · exact lintr_frame_update_bar _ _ _ _ _ _ h
  · exact lintr_frame_update_rom _ _ _ _ _ h
  · cases h; exact lintr_frame_refl _

/-- The capability handlers keep the instance consistent when the store stays clear of
the command register. -/
theorem cap_dispatch_consistent (pi : pci_devinst) (capid capoff offset bytes val : Nat)
    (hb : bytes = 1 ∨ bytes = 2 ∨ bytes = 4) (ho : 6 ≤ offset) (hc : lintr_consistent pi) :
    lintr_consistent (cap_dispatch pi capid capoff offset bytes val) := by
  unfold cap_dispatch
  split
  · unfold msicap_cfgwrite msicap_update
    exact lintr_update_consistent _
  · split
    · unfold msixcap_cfgwrite
      split
      · exact lintr_frame_consistent _ _
          (lintr_frame_CFGWRITE _ offset _ bytes hb (Or.inr ho)) (lintr_update_consistent _)
      · exact lintr_frame_consistent _ _
          (lintr_frame_CFGWRITE _ offset _ bytes hb (Or.inr ho)) hc
    · split
      · unfold pciecap_cfgwrite
        exact lintr_frame_consistent _ _
          (lintr_frame_CFGWRITE _ offset _ bytes hb (Or.inr ho)) hc
      · exact hc

/-- The function `pci_emul_capwrite` keeps the instance consistent. -/
theorem capwrite_consistent (pi pi' : pci_devinst) (offset bytes val capoff capid : Nat)
    (hb : bytes = 1 ∨ bytes = 2 ∨ bytes = 4) (ho : 6 ≤ offset) (hc : lintr_consistent pi)
    (h : pci_emul_capwrite pi offset bytes val capoff capid = some pi') :
    lintr_consistent pi' := by
  unfold pci_emul_capwrite at h
  split at h
  · cases h; exact hc
  · obtain ⟨cc, _, h⟩ := Option.bind_eq_some.1 h
    simp only [] at h
    split at h
    · split at h
      · cases h
        exact cap_dispatch_consistent _ _ _ _ _ _ (Or.inr (Or.inl rfl)) (by omega) hc
      · cases h; exact hc
    · cases h
      exact cap_dispatch_consistent _ _ _ _ _ _ hb ho hc

/-- The default write handling of `pci_cfgrw` keeps the instance consistent. -/
theorem cfg_write_default_consistent (pi pi' : pci_devinst) (coff bytes eax : Nat)
    (hb : bytes = 1 ∨ bytes = 2 ∨ bytes = 4) (hal : coff % bytes = 0)
    (hc : lintr_consistent pi) (h : cfg_write_default pi coff bytes eax = some pi') :
    lintr_consistent pi' := by
  unfold cfg_write_default at h
  split at h
  · split at h
    · cases h; exact hc
    · exact lintr_frame_consistent _ _ (lintr_frame_update_bar_address _ _ _ _ h) hc
  · split at h
    · rename_i hcap
      have h40 := ((iscap_iff pi coff).mp hcap).2.1
      have e40 : CAP_START_OFFSET = 0x40 := rfl
      exact capwrite_consistent pi pi' coff bytes eax 0 0 hb (by omega) hc h
    · split at h
      · obtain ⟨ev, rfl⟩ := (cmd_changed_effect _ _).1 pi' h
        exact lintr_update_consistent _
      · rename_i hcmd
        cases h
        have e4 : PCIR_COMMAND = 4 := rfl
        have e8 : PCIR_REVID = 8 := rfl
        refine lintr_frame_consistent _ _ (lintr_frame_CFGWRITE _ coff _ bytes hb ?_) hc
        rcases hb with rfl | rfl | rfl <;> omega

/-- A configuration write through `pci_cfgrw` to an existing function without a
`pe_cfgwrite` hook either leaves the table as it is or stores the result of the
default write handling. -/
theorem pci_cfgrw_write_cases (t : Nat → Option businfo) (bus slot func coff bytes eax : Nat)
    (fi : funcinfo) (pi : pci_devinst) (r : (Nat → Option businfo) × Nat)
    (hfi : find_func t bus slot func = some fi) (hpi : fi.fi_devi = some pi)
    (hw : fi.fi_pde.pe_cfgwrite = none)
    (h : pci_cfgrw t false bus slot func coff bytes eax = some r) :
    r.1 = t ∨
    ((bytes = 1 ∨ bytes = 2 ∨ bytes = 4) ∧ coff % bytes = 0 ∧
      ∃ pi', cfg_write_default pi coff bytes (to32 eax) = some pi' ∧
        r.1 = store_devi t bus slot func pi') := by
  by_cases hb : bytes = 1 ∨ bytes = 2 ∨ bytes = 4
  · by_cases hal : coff % bytes = 0
    · by_cases hc : coff < 256
      · rw [pci_cfgrw_write t bus slot func coff bytes eax fi pi hfi hpi hw hb hal hc] at h
        obtain ⟨pi', h1, h2⟩ := Option.map_eq_some'.1 h
        exact Or.inr ⟨hb, hal, pi', h1, by rw [← h2]⟩
      · left
        have ha := and_width_pred coff bytes hb
        have hb' : ¬ (bytes ≠ 1 ∧ bytes ≠ 2 ∧ bytes ≠ 4) := by omega
        have hc' : coff ≥ PCI_REGMAX + 1 := by
          have : PCI_REGMAX = 255 := rfl
          omega
        unfold pci_cfgrw at h
        simp only [hfi, hpi, Option.some_bind, hb', ha, hal, ne_eq, not_true_eq_false, or_self,
          ↓reduceIte, hc', Bool.false_eq_true, Option.some.injEq] at h
        rw [← h]
    · left
      have ha := and_width_pred coff bytes hb
      unfold pci_cfgrw at h
      simp only [hfi, hpi, Option.some_bind, ha, hal, ne_eq, not_false_eq_true, or_true,
        ↓reduceIte, Bool.false_eq_true, Option.some.injEq] at h
      rw [← h]
  · left
    have hb' : bytes ≠ 1 ∧ bytes ≠ 2 ∧ bytes ≠ 4 := by omega
    unfold pci_cfgrw at h
    simp only [hfi, hpi, Option.some_bind, hb', ne_eq, not_false_eq_true, and_self, true_or,
      ↓reduceIte, Bool.false_eq_true, Option.some.injEq] at h
    rw [← h]

/-- The call `pci_lintr_assert` keeps the instance consistent. -/
theorem lintr_assert_consistent (pi pi' : pci_devinst) (hc : lintr_consistent pi)
    (h : pci_lintr_assert pi = some pi') : lintr_consistent pi' := by
  have hperm : ∀ (s : lintr_info) (c : List Bool),
      pci_lintr_permitted { pi with pi_lintr := s, pi_irq_calls := c } =
        pci_lintr_permitted pi := fun _ _ => rfl
  unfold pci_lintr_assert at h
  split at h
  · cases h
  · split at h
    · split at h
      · rename_i hp
        cases h
        exact ⟨fun _ => hp, fun h => (by cases h)⟩
      · rename_i hp
        cases h
        refine ⟨fun h => (by cases h), fun _ => ?_⟩
        cases hq : pci_lintr_permitted pi with
        | false => exact hq
        | true => exact absurd hq hp
    · cases h; exact hc

/-- The call `pci_lintr_deassert` keeps the instance consistent. -/
theorem lintr_deassert_consistent (pi pi' : pci_devinst) (hc : lintr_consistent pi)
    (h : pci_lintr_deassert pi = some pi') : lintr_consistent pi' := by
  unfold pci_lintr_deassert at h
  split at h
  · cases h
  · split at h
    · cases h
      exact ⟨fun h => (by cases h), fun h => (by cases h)⟩
    · split at h
      · cases h
        exact ⟨fun h => (by cases h), fun h => (by cases h)⟩
      · cases h; exact hc

/-- One operation keeps the function in place, without a `pe_cfgwrite` hook, and
consistent. -/
theorem guest_step_consistent (t t' : Nat → Option businfo) (bus slot func : Nat)
    (op : guest_op)
    (hP : ∃ fi pi, find_func t bus slot func = some fi ∧ fi.fi_devi = some pi ∧
      fi.fi_pde.pe_cfgwrite = none ∧ lintr_consistent pi)
    (h : guest_step t bus slot func op = some t') :
    ∃ fi pi, find_func t' bus slot func = some fi ∧ fi.fi_devi = some pi ∧
      fi.fi_pde.pe_cfgwrite = none ∧ lintr_consistent pi := by
  obtain ⟨fi, pi, hfi, hpi, hw, hc⟩ := hP
  cases op with
  | call_assert =>
    unfold guest_step at h
    simp only [hfi, hpi, Option.some_bind] at h
    obtain ⟨pi', h1, h2⟩ := Option.map_eq_some'.1 h
    subst h2
    exact ⟨_, pi', find_func_store_devi t bus slot func fi pi' hfi, rfl, hw,
      lintr_assert_consistent pi pi' hc h1⟩
  | call_deassert =>
    unfold guest_step at h
    simp only [hfi, hpi, Option.some_bind] at h
    obtain ⟨pi', h1, h2⟩ := Option.map_eq_some'.1 h
    subst h2
    exact ⟨_, pi', find_func_store_devi t bus slot func fi pi' hfi, rfl, hw,
      lintr_deassert_consistent pi pi' hc h1⟩
  | cfg_write coff bytes eax =>
    unfold guest_step at h
    obtain ⟨r, h1, h2⟩ := Option.map_eq_some'.1 h
    subst h2
    rcases pci_cfgrw_write_cases t bus slot func coff bytes eax fi pi r hfi hpi hw h1 with
      e | ⟨hb, hal, pi', h3, e⟩
    · rw [e]
      exact ⟨fi, pi, hfi, hpi, hw, hc⟩
    · rw [e]
      exact ⟨_, pi', find_func_store_devi t bus slot func fi pi' hfi, rfl, hw,
        cfg_write_default_consistent pi pi' coff bytes (to32 eax) hb hal hc h3⟩

/-- A sequence of operations keeps the function in place, without a `pe_cfgwrite` hook,
and consistent. -/
theorem guest_run_consistent (bus slot func : Nat) (ops : List guest_op) :
    ∀ (t t' : Nat → Option businfo),
    (∃ fi pi, find_func t bus slot func = some fi ∧ fi.fi_devi = some pi ∧
      fi.fi_pde.pe_cfgwrite = none ∧ lintr_consistent pi) →
    guest_run t bus slot func ops = some t' →
    ∃ fi pi, find_func t' bus slot func = some fi ∧ fi.fi_devi = some pi ∧
      fi.fi_pde.pe_cfgwrite = none ∧ lintr_consistent pi := by
  induction ops with
  | nil =>
    intro t t' hP h
    cases h
    exact hP
  | cons op ops ih =>
    intro t t' hP h
    unfold guest_run at h
    obtain ⟨t1, h1, h2⟩ := Option.bind_eq_some.1 h
    exact ih t1 t' (guest_step_consistent t t1 bus slot func op hP h1) h2

/-- C36: take a function of the table in state IDLE whose device model has no
`pe_cfgwrite` hook, and any finite sequence of calls of `pci_lintr_assert`, calls
of `pci_lintr_deassert` and guest configuration writes of any offset, width and
value through `pci_cfgrw`.  Whenever the sequence runs to its end (no `assert`
fails), the function is still there and its state ASSERTED implies that
interrupts are permitted, its state PENDING that they are not.  Every prefix
of such a sequence is such a sequence, so this holds after each operation. -/
theorem lintr_never_masked (t : Nat → Option businfo) (bus slot func : Nat) (fi : funcinfo)
    (pi : pci_devinst) (ops : List guest_op)
    (hfi : find_func t bus slot func = some fi) (hpi : fi.fi_devi = some pi)
    (hw : fi.fi_pde.pe_cfgwrite = none) (hidle : pi.pi_lintr.state = lintr_stat.IDLE)
    (hrun : (guest_run t bus slot func ops).isSome = true) :
    ∃ t' fi' pi', guest_run t bus slot func ops = some t' ∧
      find_func t' bus slot func = some fi' ∧ fi'.fi_devi = some pi' ∧
      (pi'.pi_lintr.state = lintr_stat.ASSERTED → pci_lintr_permitted pi' = true) ∧
      (pi'.pi_lintr.state = lintr_stat.PENDING → pci_lintr_permitted pi' = false) := by
  obtain ⟨t', ht'⟩ := Option.isSome_iff_exists.mp hrun
  have h0 : lintr_consistent pi := by
    unfold lintr_consistent
    rw [hidle]
    exact ⟨fun h => (by cases h), fun h => (by cases h)⟩
  obtain ⟨fi', pi', h1, h2, _, h3⟩ :=
    guest_run_consistent bus slot func ops t t' ⟨fi, pi, hfi, hpi, hw, h0⟩ ht'
  exact ⟨t', fi', pi', ht', h1, h2, h3⟩

/-- Runs on the function with pin 1, MSI at 0x40 and MSI-X at 0x50: an assert followed
by guest writes that mask INTx, enable MSI or enable MSI-X each end PENDING
and not permitted after one host deassert; unmasking again ends ASSERTED and
permitted; a longer run with writes to a BAR and to the header ends IDLE. -/
theorem lintr_never_masked_witness :
    (∃ t' fi' pi',
      guest_run (single_func msi_msix_pin_dev) 0 0 0
        [guest_op.call_assert, guest_op.cfg_write 4 2 0x0400, guest_op.cfg_write 0x42 2 1,
         guest_op.cfg_write 0x52 2 0x8000, guest_op.cfg_write 0x53 1 0,
         guest_op.cfg_write 5 1 0] = some t' ∧
      find_func t' 0 0 0 = some fi' ∧ fi'.fi_devi = some pi' ∧
      (pi'.pi_lintr.state = lintr_stat.ASSERTED → pci_lintr_permitted pi' = true) ∧
      (pi'.pi_lintr.state = lintr_stat.PENDING → pci_lintr_permitted pi' = false)) ∧
    [observe_lintr (guest_run (single_func msi_msix_pin_dev) 0 0 0 [guest_op.call_assert]),
     observe_lintr (guest_run (single_func msi_msix_pin_dev) 0 0 0
       [guest_op.call_assert, guest_op.cfg_write 4 2 0x0400]),
     observe_lintr (guest_run (single_func msi_msix_pin_dev) 0 0 0
       [guest_op.call_assert, guest_op.cfg_write 4 2 0x0400, guest_op.cfg_write 5 1 0]),
     observe_lintr (guest_run (single_func msi_msix_pin_dev) 0 0 0
       [guest_op.call_assert, guest_op.cfg_write 0x42 2 1]),
     observe_lintr (guest_run (single_func msi_msix_pin_dev) 0 0 0
       [guest_op.call_assert, guest_op.cfg_write 0x42 2 1, guest_op.cfg_write 0x42 1 0]),
     observe_lintr (guest_run (single_func msi_msix_pin_dev) 0 0 0
       [guest_op.call_assert, guest_op.cfg_write 0x52 2 0x8000]),
     observe_lintr (guest_run (single_func msi_msix_pin_dev) 0 0 0
       [guest_op.cfg_write 0x52 2 0x8000, guest_op.call_assert, guest_op.call_deassert,
        guest_op.call_assert, guest_op.cfg_write 0x50 4 0, guest_op.cfg_write 0x10 4 0xffffffff,
        guest_op.cfg_write 0 4 0xffffffff, guest_op.call_deassert])] =
      [some (lintr_stat.ASSERTED, true, [true]),
       some (lintr_stat.PENDING, false, [true, false]),
       some (lintr_stat.ASSERTED, true, [true, false, true]),
       some (lintr_stat.PENDING, false, [true, false]),
       some (lintr_stat.ASSERTED, true, [true, false, true]),
       some (lintr_stat.PENDING, false, [true, false]),
       some (lintr_stat.IDLE, true, [true, false])] :=
  ⟨lintr_never_masked (single_func msi_msix_pin_dev) 0 0 0 { fi_devi := some msi_msix_pin_dev }
      msi_msix_pin_dev _ rfl rfl rfl rfl (by decide),
    by decide⟩

/-! ## The capability list under guest writes -/

/-- The frame relation of the BAR registers is reflexive. -/
theorem bar_frame_refl (a : pci_devinst) : bar_frame a a := ⟨rfl, rfl, fun _ _ => rfl⟩

/-- The frame relation of the BAR registers is transitive. -/
theorem bar_frame_trans (a b c : pci_devinst) (h1 : bar_frame a b) (h2 : bar_frame b c) :
    bar_frame a c :=
  ⟨h2.1.trans h1.1, h2.2.1.trans h1.2.1, fun o ho => (h2.2.2 o ho).trans (h1.2.2 o ho)⟩

/-- A 32-bit store inside 0x10..0x33 is in the frame of the BAR registers. -/
theorem bar_frame_set32 (pi : pci_devinst) (o v : Nat) (h1 : 0x10 ≤ o) (h2 : o + 4 ≤ 0x34) :
    bar_frame pi (pci_set_cfgdata32 pi o v) := by
  refine ⟨rfl, rfl, fun x hx => ?_⟩
  have e0 : ¬ x = o := by omega
  have e1 : ¬ x = o + 1 := by omega
  have e2 : ¬ x = o + 2 := by omega
  have e3 : ¬ x = o + 3 := by omega
  show (if x = o then _ else if x = o + 1 then _ else if x = o + 2 then _
    else if x = o + 3 then _ else _) = _
  rw [if_neg e0, if_neg e1, if_neg e2, if_neg e3]

/-- A registration call is in the frame of the BAR registers. -/
theorem bar_frame_registration (pi pi' : pci_devinst) (idx : Nat) (r : Bool)
    (h : modify_bar_registration pi idx r = some pi') : bar_frame pi pi' := by
  obtain ⟨ev, rfl⟩ := modify_bar_registration_events pi pi' idx r h
  exact ⟨rfl, rfl, fun _ _ => rfl⟩

/-- The I/O and memory case of `update_bar_address` is in the frame of the BAR
registers. -/
theorem bar_frame_update_bar (pi pi' : pci_devinst) (idx u val : Nat) (d : Bool)
    (hidx : idx ≤ 6) (h : update_bar_address_bar pi idx u val d = some pi') :
    bar_frame pi pi' := by
  have hB1 : 0x10 ≤ PCIR_BAR idx := by unfold PCIR_BAR; omega
  have hB2 : PCIR_BAR idx + 4 ≤ 0x34 := by unfold PCIR_BAR; omega
  unfold update_bar_address_bar at h
  obtain ⟨a, ha, h⟩ := Option.bind_eq_some.1 h
  have fa : bar_frame pi a := by
    split at ha
    · exact bar_frame_registration _ _ _ _ ha
    · cases ha; exact bar_frame_refl _
  have key : ∀ (v ad : Nat), bar_frame pi (set_addr (pci_set_cfgdata32 a (PCIR_BAR idx) v) u ad) :=
    fun v ad => bar_frame_trans _ _ _ fa
      (bar_frame_trans _ _ _ (bar_frame_set32 a _ v hB1 hB2) ⟨rfl, rfl, fun _ _ => rfl⟩)
  simp only [] at h
  split at h
  · cases h; exact key _ _
  · split at h
    · cases h; exact key _ _
    · split at h
      · exact bar_frame_trans _ _ _ (key _ _) (bar_frame_registration _ _ _ _ h)
      · cases h; exact key _ _

/-- The ROM case of `update_bar_address` is in the frame of the BAR registers. -/
theorem bar_frame_update_rom (pi pi' : pci_devinst) (idx val : Nat) (d : Bool)
    (h : update_bar_address_rom pi idx val d = some pi') : bar_frame pi pi' := by
  have hB1 : 0x10 ≤ PCIR_BIOS := by decide
  have hB2 : PCIR_BIOS + 4 ≤ 0x34 := by decide
  unfold update_bar_address_rom at h
  obtain ⟨a, ha, h⟩ := Option.bind_eq_some.1 h
  have fa : bar_frame pi a := by
    split at ha
    · exact bar_frame_registration _ _ _ _ ha
    · cases ha; exact bar_frame_refl _
  have key : ∀ (b : pcibar), bar_frame pi (set_bar (pci_set_cfgdata32 a PCIR_BIOS val) idx b) :=
    fun b => bar_frame_trans _ _ _ fa
      (bar_frame_trans _ _ _ (bar_frame_set32 a _ val hB1 hB2) ⟨rfl, rfl, fun _ _ => rfl⟩)
  simp only [] at h
  split at h
  · exact bar_frame_trans _ _ _ (key _) (bar_frame_registration _ _ _ _ h)
  · cases h; exact key _

/-- The function `update_bar_address` on one of the seven descriptors is in the frame of
the BAR registers. -/
theorem bar_frame_update_bar_address (pi pi' : pci_devinst) (idx val : Nat) (hidx : idx ≤ 6)
    (h : update_bar_address pi idx val = some pi') : bar_frame pi pi' := by
  unfold update_bar_address at h
  simp only [] at h
  split at h
  · exact bar_frame_update_bar _ _ _ _ _ _ hidx h
  · exact bar_frame_update_bar _ _ _ _ _ _ hidx h
  · exact bar_frame_update_bar _ _ _ _ _ _ hidx h
  · exact bar_frame_update_bar _ _ _ _ _ _ hidx h
  · exact bar_frame_update_rom _ _ _ _ _ h
  · cases h; exact bar_frame_refl _

/-- What the frame relation of the capability list keeps: the list itself and the ID
byte of every capability. -/
theorem cap_frame_chain (a b : pci_devinst) (caps : List Nat) (hch : cap_chain a caps)
    (hf : cap_frame a b) :
    cap_chain b caps ∧ ∀ x ∈ caps, pci_get_cfgdata8 b x = pci_get_cfgdata8 a x := by
  obtain ⟨f1, f2, f3, f4, f5⟩ := hf
  cases caps with
  | nil =>
    refine ⟨?_, fun x hx => (by cases hx)⟩
    show pci_get_cfgdata16 b PCIR_STATUS &&& PCIM_STATUS_CAPPRESENT = 0
    rw [f3]; exact hch
  | cons c rest =>
    obtain ⟨hbit, hptr, hc, hl, hlast, h3, h4, h5⟩ := hch
    have e40 : CAP_START_OFFSET = 0x40 := rfl
    have hle := chain_le_last a rest c hl
    have hmem := chain_links_mem a rest c hl
    have hin : ∀ x ∈ c :: rest, CAP_START_OFFSET ≤ x ∧ x + 1 ≤ a.pi_capend := by
      intro x hx
      rcases List.mem_cons.1 hx with rfl | hx
      · omega
      · have := hmem x hx
        omega
    have hbytes : ∀ x ∈ c :: rest, pci_get_cfgdata8 b x = pci_get_cfgdata8 a x ∧
        pci_get_cfgdata8 b (x + 1) = pci_get_cfgdata8 a (x + 1) := by
      intro x hx
      have hx' := hin x hx
      unfold pci_get_cfgdata8
      rw [f5 hbit x hx'.1 (by omega), f5 hbit (x + 1) (by omega) hx'.2]
      exact ⟨rfl, rfl⟩
    refine ⟨⟨by rw [f3]; exact hbit, by rw [f4]; exact hptr, hc, ?_, by rw [f1]; exact hlast,
      by rw [f1, f2]; exact h3, by rw [f2]; exact h4, by rw [f2]; exact h5⟩,
      fun x hx => (hbytes x hx).1⟩
    exact chain_links_congr a b rest c hl (fun x hx => (hbytes x hx).2)

/-- The list a guest reads off a function whose capabilities are linked at `caps`. -/
theorem cap_list_of_chain (pi : pci_devinst) (caps : List Nat) (hch : cap_chain pi caps)
    (hnil : caps = [] → pci_get_cfgdata8 pi PCIR_CAP_PTR = 0) :
    cap_list pi = some (caps.map fun o => (o, pci_get_cfgdata8 pi o)) := by
  unfold cap_list
  cases caps with
  | nil =>
    rw [hnil rfl]
    show (cap_walk pi (255 + 1) 0).map _ = _
    unfold cap_walk
    simp
  | cons c rest =>
    obtain ⟨hbit, hptr, hc, hl, hlast, h3, h4, h5⟩ := hch
    have e40 : CAP_START_OFFSET = 0x40 := rfl
    have e255 : PCI_REGMAX = 255 := rfl
    have hle := chain_le_last pi rest c hl
    rw [hptr, cap_walk_chain pi rest c 256 hl (by omega) (by omega)]
    rfl

/-- The frame of the BAR registers lies inside the frame of the capability list. -/
theorem cap_frame_of_bar_frame (a b : pci_devinst) (h : bar_frame a b) : cap_frame a b := by
  obtain ⟨h1, h2, h3⟩ := h
  have e40 : CAP_START_OFFSET = 0x40 := rfl
  refine ⟨h1, h2, ?_, ?_, fun _ o ho _ => h3 o (by omega)⟩
  · unfold pci_get_cfgdata16 pci_get_cfgdata8 PCIR_STATUS
    rw [h3 0x06 (by omega), h3 (0x06 + 1) (by omega)]
  · unfold pci_get_cfgdata8 PCIR_CAP_PTR
    rw [h3 0x34 (by omega)]

/-- The default write handling of `pci_cfgrw` keeps the capability list, unless the
write covers the capabilities pointer at 0x34. -/
theorem cfg_write_default_caps (pi pi' : pci_devinst) (caps : List Nat) (coff bytes eax : Nat)
    (hb : bytes = 1 ∨ bytes = 2 ∨ bytes = 4) (hal : coff % bytes = 0)
    (hch : cap_chain pi caps) (h34 : ¬ (coff ≤ 0x34 ∧ 0x34 < coff + bytes))
    (h : cfg_write_default pi coff bytes eax = some pi') :
    cap_chain pi' caps ∧ (∀ x ∈ caps, pci_get_cfgdata8 pi' x = pci_get_cfgdata8 pi x) ∧
      pci_get_cfgdata8 pi' PCIR_CAP_PTR = pci_get_cfgdata8 pi PCIR_CAP_PTR := by
  have e40 : CAP_START_OFFSET = 0x40 := rfl
  have of_frame : cap_frame pi pi' →
      cap_chain pi' caps ∧ (∀ x ∈ caps, pci_get_cfgdata8 pi' x = pci_get_cfgdata8 pi x) ∧
        pci_get_cfgdata8 pi' PCIR_CAP_PTR = pci_get_cfgdata8 pi PCIR_CAP_PTR := fun hf =>
    ⟨(cap_frame_chain pi pi' caps hch hf).1, (cap_frame_chain pi pi' caps hch hf).2, hf.2.2.2.1⟩
  by_cases hcap : pci_emul_iscap pi coff = true
  · obtain ⟨p, hp, hc1, hc2⟩ := cfg_write_cap pi caps coff bytes eax hch hb hal hcap
    rw [hp] at h
    cases h
    refine ⟨hc1, fun x hx => (hc2 x hx).1, ?_⟩
    cases caps with
    | nil => exact absurd hch ((iscap_iff pi coff).mp hcap).1
    | cons c rest => rw [hc1.2.1, hch.2.1]
  · unfold cfg_write_default at h
    split at h
    · rename_i hbar
      split at h
      · cases h
        exact ⟨hch, fun _ _ => rfl, rfl⟩
      · rename_i h4
        have hb4 : bytes = 4 := by
          by_contra hne
          exact h4 (Or.inl hne)
        subst hb4
        have hrange : (0x10 ≤ coff ∧ coff ≤ 0x24) ∨ (0x30 ≤ coff ∧ coff < 0x34) := by
          unfold is_bar_offset PCIR_BAR PCI_BARMAX PCIR_BIOS at hbar
          simp only [decide_eq_true_eq] at hbar
          omega
        have hidx : (if coff = PCIR_BIOS then PCI_ROM_IDX else (coff - PCIR_BAR 0) / 4) ≤ 6 := by
          unfold PCIR_BIOS PCI_ROM_IDX PCI_BARMAX PCIR_BAR
          split <;> omega
        exact of_frame (cap_frame_of_bar_frame _ _ (bar_frame_update_bar_address _ _ _ _ hidx h))
    · split at h
      · rename_i hcmd
        have e4 : PCIR_COMMAND = 4 := rfl
        have e8 : PCIR_REVID = 8 := rfl
        have hc8 : coff + bytes ≤ 8 := by rcases hb with rfl | rfl | rfl <;> omega
        obtain ⟨⟨ev, hev⟩, hs, _, _, hrest⟩ :=
          (cmdsts_write_effect pi coff eax bytes hb (by omega) hc8).2 pi' h
        have hpc : pi'.pi_prevcap = pi.pi_prevcap ∧ pi'.pi_capend = pi.pi_capend := by
          rw [hev]
          exact ⟨(pci_lintr_update_frame _).2.1.trans (CFGWRITE_frame pi coff _ bytes).1,
            (pci_lintr_update_frame _).2.2.trans (CFGWRITE_frame pi coff _ bytes).2.1⟩
        refine of_frame ⟨hpc.1, hpc.2, hs, ?_, fun _ o ho _ => hrest o (by omega)⟩
        unfold pci_get_cfgdata8 PCIR_CAP_PTR
        rw [hrest 0x34 (by omega)]
      · rename_i hcmd
        cases h
        have e4 : PCIR_COMMAND = 4 := rfl
        have e8 : PCIR_REVID = 8 := rfl
        have hfr := (CFGWRITE_frame pi coff eax bytes).2.2 hb
        have h6 : coff + bytes ≤ 6 ∨ 8 ≤ coff := by rcases hb with rfl | rfl | rfl <;> omega
        refine of_frame ⟨(CFGWRITE_frame pi coff eax bytes).1,
          (CFGWRITE_frame pi coff eax bytes).2.1, ?_, ?_, ?_⟩
        · unfold pci_get_cfgdata16 pci_get_cfgdata8 PCIR_STATUS
          rw [hfr 0x06 (by omega), hfr (0x06 + 1) (by omega)]
        · unfold pci_get_cfgdata8 PCIR_CAP_PTR
          rw [hfr 0x34 (by omega)]
        · intro hbit o ho1 ho2
          have hno : ¬ (CAP_START_OFFSET ≤ coff ∧ coff ≤ pi.pi_capend) := fun hh =>
            hcap ((iscap_iff pi coff).mpr ⟨hbit, hh.1, hh.2⟩)
          apply hfr o
          rcases hb with rfl | rfl | rfl <;> omega

/-- A write through `pci_cfgrw` that does not cover offset 0x34 keeps the capability
list, shared form. -/
theorem cfgrw_keeps_cap_list (t : Nat → Option businfo) (bus slot func coff bytes eax : Nat)
    (fi : funcinfo) (pi : pci_devinst) (caps : List Nat)
    (hfi : find_func t bus slot func = some fi) (hpi : fi.fi_devi = some pi)
    (hw : fi.fi_pde.pe_cfgwrite = none) (hch : cap_chain pi caps)
    (hnil : caps = [] → pci_get_cfgdata8 pi PCIR_CAP_PTR = 0)
    (h34 : ¬ (coff ≤ 0x34 ∧ 0x34 < coff + bytes)) :
    cap_list pi = some (caps.map fun o => (o, pci_get_cfgdata8 pi o)) ∧
    ((bytes = 1 ∨ bytes = 2 ∨ bytes = 4) → coff % bytes = 0 → pci_emul_iscap pi coff = true →
      (pci_cfgrw t false bus slot func coff bytes eax).isSome = true) ∧
    ∀ r, pci_cfgrw t false bus slot func coff bytes eax = some r →
      ∃ fi' pi', find_func r.1 bus slot func = some fi' ∧ fi'.fi_devi = some pi' ∧
        cap_list pi' = cap_list pi ∧
        pci_get_cfgdata8 pi' PCIR_CAP_PTR = pci_get_cfgdata8 pi PCIR_CAP_PTR ∧
        cap_chain pi' caps := by
  have hl := cap_list_of_chain pi caps hch hnil
  refine ⟨hl, ?_, ?_⟩
  · intro hb hal hcap
    have e255 : PCI_REGMAX = 255 := rfl
    have hc : coff < 256 := by
      have h1 := ((iscap_iff pi coff).mp hcap).2.2
      have h2 := cap_chain_wf pi caps hch ((iscap_iff pi coff).mp hcap).1
      omega
    obtain ⟨p, hp, _, _⟩ := cfg_write_cap pi caps coff bytes (to32 eax) hch hb hal hcap
    rw [pci_cfgrw_write t bus slot func coff bytes eax fi pi hfi hpi hw hb hal hc, hp]
    rfl
  · intro r hr
    rcases pci_cfgrw_write_cases t bus slot func coff bytes eax fi pi r hfi hpi hw hr with
      e | ⟨hb, hal, pi', h3, e⟩
    · rw [e]
      exact ⟨fi, pi, hfi, hpi, rfl, rfl, hch⟩
    · rw [e]
      obtain ⟨c1, c2, c3⟩ :=
        cfg_write_default_caps pi pi' caps coff bytes (to32 eax) hb hal hch h34 h3
      refine ⟨_, pi', find_func_store_devi t bus slot func fi pi' hfi, rfl, ?_, c3, c1⟩
      rw [hl, cap_list_of_chain pi' caps c1 (fun h => by rw [c3]; exact hnil h)]
      congr 1
      apply List.map_congr_left
      intro x hx
      rw [c2 x hx]

/-- C39, amended: take a function whose capability list is linked at the offsets `caps`
(as `pci_emul_add_capability` builds it; with no capability the capabilities
pointer is 0) and whose device model has no `pe_cfgwrite` hook.  The list a
guest reads from the capabilities pointer is the list of these offsets with
their ID bytes.  A guest write through `pci_cfgrw` of any offset, width and
value that does not cover offset 0x34 returns when it falls into the
capability region, and whenever it returns the function is still there, the
list read from the capabilities pointer is the same as before and the
capabilities pointer is unchanged. -/
theorem cap_list_kept (t : Nat → Option businfo) (bus slot func coff bytes eax : Nat)
    (fi : funcinfo) (pi : pci_devinst) (caps : List Nat)
    (hfi : find_func t bus slot func = some fi) (hpi : fi.fi_devi = some pi)
    (hw : fi.fi_pde.pe_cfgwrite = none) (hch : cap_chain pi caps)
    (hnil : caps = [] → pci_get_cfgdata8 pi PCIR_CAP_PTR = 0)
    (h34 : ¬ (coff ≤ 0x34 ∧ 0x34 < coff + bytes)) :
    cap_list pi = some (caps.map fun o => (o, pci_get_cfgdata8 pi o)) ∧
    ((bytes = 1 ∨ bytes = 2 ∨ bytes = 4) → coff % bytes = 0 → pci_emul_iscap pi coff = true →
      (pci_cfgrw t false bus slot func coff bytes eax).isSome = true) ∧
    ∀ r, pci_cfgrw t false bus slot func coff bytes eax = some r →
      ∃ fi' pi', find_func r.1 bus slot func = some fi' ∧ fi'.fi_devi = some pi' ∧
        cap_list pi' = cap_list pi ∧
        pci_get_cfgdata8 pi' PCIR_CAP_PTR = pci_get_cfgdata8 pi PCIR_CAP_PTR ∧
        cap_chain pi' caps :=
  cfgrw_keeps_cap_list t bus slot func coff bytes eax fi pi caps hfi hpi hw hch hnil h34

/-- The function with MSI at 0x40 and MSI-X at 0x50: the 2-byte write of 0xFFFF to the MSI
control register returns and keeps the list, and so do a write to the command
register, a BAR size probe, a write to the interrupt line, a 4-byte write
over the MSI-X header and a write at 0x35, next to the capabilities pointer. -/
theorem cap_list_kept_witness :
    (cap_list msi_msix_dev =
        some ([0x40, 0x50].map fun o => (o, pci_get_cfgdata8 msi_msix_dev o)) ∧
      ((2 = 1 ∨ 2 = 2 ∨ 2 = 4) → 0x42 % 2 = 0 → pci_emul_iscap msi_msix_dev 0x42 = true →
        (pci_cfgrw (single_func msi_msix_dev) false 0 0 0 0x42 2 0xffff).isSome = true) ∧
      ∀ r, pci_cfgrw (single_func msi_msix_dev) false 0 0 0 0x42 2 0xffff = some r →
        ∃ fi' pi', find_func r.1 0 0 0 = some fi' ∧ fi'.fi_devi = some pi' ∧
          cap_list pi' = cap_list msi_msix_dev ∧
          pci_get_cfgdata8 pi' PCIR_CAP_PTR = pci_get_cfgdata8 msi_msix_dev PCIR_CAP_PTR ∧
          cap_chain pi' [0x40, 0x50]) ∧
    [observe_caps (pci_cfgrw (single_func msi_msix_dev) false 0 0 0 0x42 2 0xffff),
     observe_caps (pci_cfgrw (single_func msi_msix_dev) false 0 0 0 0x04 4 0xffffffff),
     observe_caps (pci_cfgrw (single_func msi_msix_dev) false 0 0 0 0x10 4 0xffffffff),
     observe_caps (pci_cfgrw (single_func msi_msix_dev) false 0 0 0 0x3c 4 0xffffffff),
     observe_caps (pci_cfgrw (single_func msi_msix_dev) false 0 0 0 0x50 4 0xffffffff),
     observe_caps (pci_cfgrw (single_func msi_msix_dev) false 0 0 0 0x35 1 0xff)] =
      List.replicate 6 (some (0x40, some [(0x40, 0x05), (0x50, 0x11)])) :=
  ⟨cap_list_kept (single_func msi_msix_dev) 0 0 0 0x42 2 0xffff
      { fi_devi := some msi_msix_dev } msi_msix_dev [0x40, 0x50] rfl rfl rfl
      ⟨by decide, by decide, by decide,
        ⟨by decide, by decide, by decide,
          show pci_get_cfgdata8 msi_msix_dev (0x50 + 1) = 0 by decide⟩,
        by decide, by decide, by decide, by decide⟩
      (fun h => by cases h) (by decide),
    by decide⟩

/-! ## Narrow reads inside `read_bar_value` -/

/-- A byte or word cut out of a 64-bit value at a byte position inside its low dword is
the same cut out of its low 32 bits. -/
theorem narrow_of_dword (V k w : Nat) (hk : 8 * k + w ≤ 32) :
    (V >>> (8 * k)) &&& (2 ^ w - 1) = (to32 V >>> (8 * k)) % 2 ^ w := by
  rw [Nat.and_pow_two_sub_one_eq_mod]
  apply Nat.eq_of_testBit_eq
  intro j
  rw [Nat.testBit_mod_two_pow, Nat.testBit_mod_two_pow, Nat.testBit_shiftRight,
    Nat.testBit_shiftRight]
  unfold to32 U32
  rw [Nat.testBit_mod_two_pow]
  by_cases hj : j < w
  · have : 8 * k + j < 32 := by omega
    simp [hj, this]
  · simp [hj]

/-- Inside `read_bar_value` the narrow reads agree with the dword read: at every offset
of a BAR register (0x10..0x27) and of the ROM register (0x30..0x33), the
one-byte read and, at an even offset, the 2-byte read return the
corresponding bytes of what the 4-byte read of the register returns. -/
theorem read_bar_value_narrow (pi : pci_devinst) (coff : Nat)
    (hr : (0x10 ≤ coff ∧ coff < 0x28) ∨ (0x30 ≤ coff ∧ coff < 0x34)) :
    ∃ d, read_bar_value pi (coff - coff % 4) 4 = some d ∧
      read_bar_value pi coff 1 = some ((d >>> (8 * (coff % 4))) % 2 ^ 8) ∧
      (coff % 2 = 0 → read_bar_value pi coff 2 = some ((d >>> (8 * (coff % 4))) % 2 ^ 16)) := by
  have e3 : ∀ x : Nat, x &&& 0x03 = x % 4 := fun x => Nat.and_pow_two_sub_one_eq_mod x 2
  have e1 : ∀ x : Nat, x &&& 0x01 = x % 2 := fun x => Nat.and_pow_two_sub_one_eq_mod x 1
  have e2 : coff % 2 = 0 → coff &&& 0x02 = coff % 4 := by
    intro h
    have h2 : (0x02 : Nat) = 2 ^ 1 := rfl
    apply Nat.eq_of_testBit_eq
    intro i
    have hm : (coff % 4).testBit i = (decide (i < 2) && coff.testBit i) :=
      Nat.testBit_mod_two_pow coff 2 i
    have h0 : coff.testBit 0 = false := by
      rw [Nat.testBit_zero]
      simp [h]
    rw [h2, Nat.testBit_and, Nat.testBit_two_pow, hm]
    by_cases hi : i = 1
    · subst hi; simp
    · by_cases hi0 : i = 0
      · subst hi0; simp [h0]
      · have : ¬ i < 2 := by omega
        have h1i : ¬ 1 = i := by omega
        simp [this, h1i]
  have c4 : (coff - coff % 4) % 4 = 0 := by omega
  have hk : coff % 4 < 4 := Nat.mod_lt _ (by decide)
  have hff : (0xFF : Nat) = 2 ^ 8 - 1 := rfl
  have hffff : (0xFFFF : Nat) = 2 ^ 16 - 1 := rfl
  -- the three calls share the index and the value read
  have key : ∀ (V : Nat),
      ∃ d, (if (4 : Nat) = 1 then some ((V >>> (8 * ((coff - coff % 4) &&& 0x03))) &&& 0xFF)
          else if (4 : Nat) = 2 then
            if (coff - coff % 4) &&& 0x01 ≠ 0 then none
            else some ((V >>> (8 * ((coff - coff % 4) &&& 0x02))) &&& 0xFFFF)
          else if (4 : Nat) = 4 then
            if (coff - coff % 4) &&& 0x03 ≠ 0 then none else some (to32 V)
          else none) = some d ∧
        (if (1 : Nat) = 1 then some ((V >>> (8 * (coff &&& 0x03))) &&& 0xFF)
          else if (1 : Nat) = 2 then
            if coff &&& 0x01 ≠ 0 then none
            else some ((V >>> (8 * (coff &&& 0x02))) &&& 0xFFFF)
          else if (1 : Nat) = 4 then
            if coff &&& 0x03 ≠ 0 then none else some (to32 V)
          else none) = some ((d >>> (8 * (coff % 4))) % 2 ^ 8) ∧
        (coff % 2 = 0 →
          (if (2 : Nat) = 1 then some ((V >>> (8 * (coff &&& 0x03))) &&& 0xFF)
            else if (2 : Nat) = 2 then
              if coff &&& 0x01 ≠ 0 then none
              else some ((V >>> (8 * (coff &&& 0x02))) &&& 0xFFFF)
            else if (2 : Nat) = 4 then
              if coff &&& 0x03 ≠ 0 then none else some (to32 V)
            else none) = some ((d >>> (8 * (coff % 4))) % 2 ^ 16)) := by
    intro V
    refine ⟨to32 V, ?_, ?_, ?_⟩
    · simp [e3, c4]
    · rw [if_pos rfl, e3, hff, narrow_of_dword V (coff % 4) 8 (by omega)]
    · intro hev
      have hk2 : coff % 4 = 0 ∨ coff % 4 = 2 := by omega
      rw [if_neg (by decide), if_pos rfl, e1, e2 hev, hffff,
        narrow_of_dword V (coff % 4) 16 (by omega)]
      simp [hev]
  have hidx : (if coff - coff % 4 ≥ PCIR_BAR 0 ∧ coff - coff % 4 < PCIR_BAR (PCI_BARMAX + 1) then
        some ((coff - coff % 4 - PCIR_BAR 0) / 4)
      else if coff - coff % 4 ≥ PCIR_BIOS ∧ coff - coff % 4 < PCIR_BIOS + 4 then
        some (PCI_BARMAX + 1)
      else none) =
      (if coff ≥ PCIR_BAR 0 ∧ coff < PCIR_BAR (PCI_BARMAX + 1) then
        some ((coff - PCIR_BAR 0) / 4)
      else if coff ≥ PCIR_BIOS ∧ coff < PCIR_BIOS + 4 then some (PCI_BARMAX + 1)
      else none) := by
    unfold PCIR_BAR PCI_BARMAX PCIR_BIOS
    rcases hr with h | h
    · have a1 : coff - coff % 4 ≥ 0x10 + 0 * 4 ∧ coff - coff % 4 < 0x10 + (5 + 1) * 4 := by omega
      have a2 : coff ≥ 0x10 + 0 * 4 ∧ coff < 0x10 + (5 + 1) * 4 := by omega
      rw [if_pos a1, if_pos a2]
      congr 1
      omega
    · have a1 : ¬ (coff - coff % 4 ≥ 0x10 + 0 * 4 ∧ coff - coff % 4 < 0x10 + (5 + 1) * 4) := by
        omega
      have a2 : ¬ (coff ≥ 0x10 + 0 * 4 ∧ coff < 0x10 + (5 + 1) * 4) := by omega
      have a3 : coff - coff % 4 ≥ 0x30 ∧ coff - coff % 4 < 0x30 + 4 := by omega
      have a4 : coff ≥ 0x30 ∧ coff < 0x30 + 4 := by omega
      rw [if_neg a1, if_neg a2, if_pos a3, if_pos a4]
  unfold read_bar_value
  simp only [hidx]
  generalize (if coff ≥ PCIR_BAR 0 ∧ coff < PCIR_BAR (PCI_BARMAX + 1) then
        some ((coff - PCIR_BAR 0) / 4)
      else if coff ≥ PCIR_BIOS ∧ coff < PCIR_BIOS + 4 then some (PCI_BARMAX + 1)
      else none) = I
  cases I with
  | none => exact ⟨0, rfl, by simp, fun _ => by simp⟩
  | some idx =>
    simp only []
    cases ht : (pi.pi_bar idx).type <;> simp only [] <;>
      first
        | exact ⟨0, rfl, by simp, fun _ => by simp⟩
        | exact key _

/-- A read of an existing function without a `pe_cfgread` hook at an offset `pci_cfgrw`
routes to the BAR and ROM logic returns what `read_bar_value` returns. -/
theorem pci_cfgrw_read_routed (t : Nat → Option businfo) (bus slot func coff bytes eax : Nat)
    (fi : funcinfo) (pi : pci_devinst)
    (hfi : find_func t bus slot func = some fi) (hpi : fi.fi_devi = some pi)
    (hr : fi.fi_pde.pe_cfgread = none)
    (hb : bytes = 1 ∨ bytes = 2 ∨ bytes = 4) (hal : coff % bytes = 0)
    (hroute : (0x10 ≤ coff ∧ coff ≤ 0x24) ∨ (0x30 ≤ coff ∧ coff < 0x34)) :
    pci_cfgrw t true bus slot func coff bytes eax =
      (read_bar_value pi coff bytes).map fun v => (t, v) := by
  rw [pci_cfgrw_read t bus slot func coff bytes eax fi pi hfi hpi hb hal (by omega)]
  have hbar : is_bar_offset coff = true := by
    unfold is_bar_offset PCIR_BAR PCI_BARMAX PCIR_BIOS
    simp only [decide_eq_true_eq]
    omega
  have hfix : ∀ v, pci_emul_hdrtype_fixup t bus slot coff bytes v = v := by
    intro v
    unfold pci_emul_hdrtype_fixup
    have e : PCIR_HDRTYPE = 0x0e := rfl
    have : ¬ (coff ≤ PCIR_HDRTYPE ∧ coff + bytes > PCIR_HDRTYPE) := by omega
    simp only [this, ↓reduceIte]
  unfold cfg_read_raw
  simp only [hr, ne_eq, one_ne_zero, not_false_eq_true, ↓reduceIte, hbar, hfix]

/-- Where `pci_cfgrw` routes a read to `read_bar_value` (offsets 0x10..0x24 and
0x30..0x33), the narrow reads of an existing function without a `pe_cfgread`
hook agree with the dword read of the register. -/
theorem routed_narrow_read (t : Nat → Option businfo) (bus slot func coff eax : Nat)
    (fi : funcinfo) (pi : pci_devinst)
    (hfi : find_func t bus slot func = some fi) (hpi : fi.fi_devi = some pi)
    (hr : fi.fi_pde.pe_cfgread = none)
    (hroute : (0x10 ≤ coff ∧ coff ≤ 0x24) ∨ (0x30 ≤ coff ∧ coff < 0x34)) :
    ∃ d, pci_cfgrw t true bus slot func (coff - coff % 4) 4 eax = some (t, d) ∧
      pci_cfgrw t true bus slot func coff 1 eax = some (t, (d >>> (8 * (coff % 4))) % 2 ^ 8) ∧
      (coff % 2 = 0 →
        pci_cfgrw t true bus slot func coff 2 eax =
          some (t, (d >>> (8 * (coff % 4))) % 2 ^ 16)) := by
  obtain ⟨d, h4, h1, h2⟩ := read_bar_value_narrow pi coff (by omega)
  refine ⟨d, ?_, ?_, ?_⟩
  · rw [pci_cfgrw_read_routed t bus slot func (coff - coff % 4) 4 eax fi pi hfi hpi hr
      (by decide) (by omega) (by omega), h4]
    rfl
  · rw [pci_cfgrw_read_routed t bus slot func coff 1 eax fi pi hfi hpi hr
      (by decide) (Nat.mod_one _) hroute, h1]
    rfl
  · intro hev
    rw [pci_cfgrw_read_routed t bus slot func coff 2 eax fi pi hfi hpi hr
      (by decide) hev hroute, h2 hev]
    rfl

end Bhyve
